import Mathlib

/-!
Branch predictors and two-level cache: a shallow embedding

Source files embedded here:

* `branch_prediction/advcomparch-ex1-helpcode/pintool/branch_predictor.h`
* `memory_hierarchy/advcomparch-ex2-helpcode/pintool/cache.h`

Conventions.  `ADDRINT` is a 64-bit unsigned machine word and is represented by
a `Nat`; `unsigned int` / `UINT32` values are `Nat`s reduced `% 2^32` where the
source can wrap.  Mutating member functions become functions that return the
new object state.  Heap arrays (`TABLE`, `std::vector`, `std::list`) are
`List`s.
-/

namespace BranchPred

/-! ## `BranchPredictor` base class -/

/-- The two accuracy counters of the `BranchPredictor` base class (`UINT64`). -/
structure BranchPredictor where
  correct_predictions : Nat
  incorrect_predictions : Nat
deriving DecidableEq, Repr

/-- `BranchPredictor::BranchPredictor()`. -/
def BranchPredictor.init : BranchPredictor :=
  { correct_predictions := 0, incorrect_predictions := 0 }

/-- `BranchPredictor::updateCounters`; the `++` on a `UINT64` wraps at `2^64`. -/
def BranchPredictor.updateCounters (c : BranchPredictor) (predicted actual : Bool) :
    BranchPredictor :=
  if predicted = actual then
    { c with correct_predictions := (c.correct_predictions + 1) % 2 ^ 64 }
  else
    { c with incorrect_predictions := (c.incorrect_predictions + 1) % 2 ^ 64 }

/-! ## `NbitPredictor` -/

/-- State of an `NbitPredictor`.  `TABLE` holds `unsigned long long` counters,
`type` is a C `int`. -/
structure NbitPredictor where
  base : BranchPredictor
  index_bits : Nat
  cntr_bits : Nat
  COUNTER_MAX : Nat
  TABLE : List Nat
  table_entries : Nat
  type : Int
deriving DecidableEq, Repr

/-- `NbitPredictor::NbitPredictor(index_bits_, cntr_bits_, type_ = 1)`.
`1 << n` is computed on a 32-bit `int` and stored in an `unsigned int`; the
value is taken `% 2^32` (for `n ≤ 31` this is `2^n`).  `(1 << cntr_bits) - 1`
is likewise taken in 32-bit two's complement. -/
def NbitPredictor.new (index_bits_ cntr_bits_ : Nat) (type_ : Int) : NbitPredictor :=
  let table_entries := (1 <<< index_bits_) % 2 ^ 32
  { base := BranchPredictor.init
    index_bits := index_bits_
    cntr_bits := cntr_bits_
    table_entries := table_entries
    TABLE := List.replicate table_entries 0
    type := if cntr_bits_ ≠ 2 then 1 else type_
    COUNTER_MAX := ((1 <<< cntr_bits_) % 2 ^ 32 + (2 ^ 32 - 1)) % 2 ^ 32 }

/-- `NbitPredictor::predict`.  The method has no assignment to a member, so the
returned state is the state it was called on.  The shift amount
`cntr_bits - 1` is an `unsigned int` subtraction. -/
def NbitPredictor.predict (p : NbitPredictor) (ip _target : Nat) : Bool × NbitPredictor :=
  let ip_table_index := (ip % p.table_entries) % 2 ^ 32
  let ip_table_value := p.TABLE.getD ip_table_index 0
  let prediction := ip_table_value >>> ((p.cntr_bits + (2 ^ 32 - 1)) % 2 ^ 32)
  (prediction != 0, p)

/-- The body of the `switch (type)` statement of `NbitPredictor::update`, as a
function from the old value `s` of `TABLE[ip_table_index]` to its new value.
A branch that performs no assignment returns `s`. -/
def NbitPredictor.fsm (type : Int) (COUNTER_MAX : Nat) (actual : Bool) (s : Nat) : Nat :=
  if type = 1 then
    if actual then
      if s < COUNTER_MAX then s + 1 else s
    else
      if s > 0 then s - 1 else s
  else if type = 2 then
    if actual then
      if s < COUNTER_MAX then s + 1 else s
    else
      if s = 2 then 0
      else if s > 0 then s - 1 else s
  else if type = 3 then
    if actual then
      if s = 1 then 3
      else if s < COUNTER_MAX then s + 1 else s
    else
      if s > 0 then s - 1 else s
  else if type = 4 then
    if actual then
      if s = 1 then 3
      else if s < COUNTER_MAX then s + 1 else s
    else
      if s = 2 then 0
      else if s > 0 then s - 1 else s
  else if type = 5 then
    if actual then
      if s = 1 then 3
      else if s = 3 then 2
      else if s < COUNTER_MAX then s + 1 else s
    else
      if s > 0 then s - 1 else s
  else
    s

/-- `NbitPredictor::update`. -/
def NbitPredictor.update (p : NbitPredictor) (predicted actual : Bool) (ip _target : Nat) :
    NbitPredictor :=
  let ip_table_index := (ip % p.table_entries) % 2 ^ 32
  let s := p.TABLE.getD ip_table_index 0
  { p with
    TABLE := p.TABLE.set ip_table_index (NbitPredictor.fsm p.type p.COUNTER_MAX actual s)
    base := p.base.updateCounters predicted actual }

/-- One `update` call of a trace: `(predicted, actual, ip, target)`. -/
abbrev UpdateCall := Bool × Bool × Nat × Nat

/-- A sequence of `update` calls applied in order. -/
def NbitPredictor.updates (p : NbitPredictor) (calls : List UpdateCall) : NbitPredictor :=
  calls.foldl (fun q c => q.update c.1 c.2.1 c.2.2.1 c.2.2.2) p

/-- The transition table of section 4.1 of the specification, written from the
specification's words, for a two-bit counter (`M = 3`). -/
def specFsmTable (v : Nat) (taken : Bool) (s : Nat) : Nat :=
  let inc := if s < 3 then s + 1 else s
  let dec := if s > 0 then s - 1 else s
  match v, taken with
  | 1, true => inc
  | 1, false => dec
  | 2, true => inc
  | 2, false => if s = 2 then 0 else dec
  | 3, true => if s = 1 then 3 else inc
  | 3, false => dec
  | 4, true => if s = 1 then 3 else inc
  | 4, false => if s = 2 then 0 else dec
  | 5, true => if s = 1 then 3 else if s = 3 then 2 else inc
  | 5, false => dec
  | _, _ => s

/-- Consistency of the derived fields of an `NbitPredictor` with its two
construction parameters, as established by the constructor for parameters that
fit a 32-bit shift. -/
structure NbitPredictor.WF (p : NbitPredictor) : Prop where
  index_le : p.index_bits ≤ 31
  cntr_le : p.cntr_bits ≤ 31
  entries_eq : p.table_entries = 2 ^ p.index_bits
  length_eq : p.TABLE.length = p.table_entries
  max_eq : p.COUNTER_MAX = 2 ^ p.cntr_bits - 1
  type_eq : p.cntr_bits ≠ 2 → p.type = 1

/-- The counter bound carried through updates: entries are at most `COUNTER_MAX`, and a variant
other than 1 only occurs with `COUNTER_MAX = 3`. -/
def NbitPredictor.Bounded (p : NbitPredictor) : Prop :=
  (∀ x ∈ p.TABLE, x ≤ p.COUNTER_MAX) ∧ (p.type ≠ 1 → p.COUNTER_MAX = 3)

/-- The plain saturating counter with maximum `M`, written from the first row of
the transition table of section 4.1 of the specification. -/
def specSaturating (M : Nat) (taken : Bool) (s : Nat) : Nat :=
  if taken then (if s < M then s + 1 else s) else (if s > 0 then s - 1 else s)

/-- The exceptions to the saturating counter that the five variants make on a
two-bit counter, listed the way the specification describes the variants. -/
def specFsmExceptions (v : Nat) (taken : Bool) (s : Nat) : Nat :=
  if (v = 2 ∨ v = 4) ∧ s = 2 ∧ taken = false then 0
  else if (v = 3 ∨ v = 4 ∨ v = 5) ∧ s = 1 ∧ taken = true then 3
  else if v = 5 ∧ s = 3 ∧ taken = true then 2
  else specSaturating 3 taken s

/-- Scenario 2 of section 8 of the specification: `SCT(i=0, w=2, v=2)` brought to
counter value 2 by two taken updates. -/
def sctVariantTwoAtTwo : NbitPredictor :=
  (NbitPredictor.new 0 2 2).updates [(false, true, 0, 0), (false, true, 0, 0)]

/-- A three-bit predictor with four entries after two taken updates at index 1 and
four at index 2. -/
def sctThreeBit : NbitPredictor :=
  (NbitPredictor.new 2 3 1).updates
    [(false, true, 1, 0), (false, true, 5, 0), (false, true, 2, 0), (false, true, 2, 0),
     (false, true, 6, 0), (false, true, 2, 0)]

end BranchPred

namespace BranchPred

/-! ## `BTBPredictor` -/

/-- `BTBPredictor::BufferEntry`. -/
structure BufferEntry where
  ip : Nat
  target : Nat
deriving DecidableEq, Repr

/-- State of a `BTBPredictor`: `sets` is the `std::vector` of `std::list`s, each
list written head first.  The `int` members hold non-negative values and are
`Nat`s here. -/
structure BTBPredictor where
  base : BranchPredictor
  table_lines : Nat
  table_assoc : Nat
  num_sets : Nat
  correct_target_predictions : Nat
  sets : List (List BufferEntry)
deriving DecidableEq, Repr

/-- `BTBPredictor::BTBPredictor(btb_lines, btb_assoc)`.  The integer division
`btb_lines / btb_assoc` has no result for `btb_assoc = 0`. -/
def BTBPredictor.new (btb_lines btb_assoc : Nat) : Option BTBPredictor :=
  if btb_assoc = 0 then none
  else some
    { base := BranchPredictor.init
      table_lines := btb_lines
      table_assoc := btb_assoc
      correct_target_predictions := 0
      num_sets := btb_lines / btb_assoc
      sets := List.replicate (btb_lines / btb_assoc) [] }

/-- `BTBPredictor::predict`.  The `for` loop stops at the first entry whose `ip`
matches (`find?`), erases it at its position (`eraseP`) and pushes it to the
front.  `ip % num_sets` has no result for `num_sets = 0`. -/
def BTBPredictor.predict (b : BTBPredictor) (ip target : Nat) : Option (Bool × BTBPredictor) :=
  if b.num_sets = 0 then none
  else
    let index := (ip % b.num_sets) % 2 ^ 32
    let s := b.sets.getD index []
    match s.find? (fun e => e.ip = ip) with
    | some be =>
      let s' := be :: s.eraseP (fun e => e.ip = ip)
      if be.target = target then
        some (true,
          { b with
            sets := b.sets.set index s'
            correct_target_predictions := (b.correct_target_predictions + 1) % 2 ^ 64 })
      else
        some (false, { b with sets := b.sets.set index s' })
    | none => some (false, b)

/-- `BTBPredictor::update`.  `pop_back` on an empty list has no result. -/
def BTBPredictor.update (b : BTBPredictor) (predicted actual : Bool) (ip target : Nat) :
    Option BTBPredictor :=
  if b.num_sets = 0 then none
  else
    let index := (ip % b.num_sets) % 2 ^ 32
    let s := b.sets.getD index []
    match s.find? (fun e => e.ip = ip) with
    | some be =>
      let s' := if actual then be :: s.eraseP (fun e => e.ip = ip)
                else s.eraseP (fun e => e.ip = ip)
      some { b with
             sets := b.sets.set index s'
             base := b.base.updateCounters predicted actual }
    | none =>
      if actual then
        if s.length ≥ b.table_assoc then
          if s = [] then none
          else some
            { b with
              sets := b.sets.set index ({ ip := ip, target := target } :: s.dropLast)
              base := b.base.updateCounters predicted actual }
        else some
          { b with
            sets := b.sets.set index ({ ip := ip, target := target } :: s)
            base := b.base.updateCounters predicted actual }
      else
        some { b with base := b.base.updateCounters predicted actual }

/-- One call on a BTB. -/
inductive BTBCall where
  | predict (ip target : Nat)
  | update (predicted actual : Bool) (ip target : Nat)
deriving DecidableEq, Repr

/-- The state after one call (the value returned by `predict` is dropped). -/
def BTBPredictor.call (b : BTBPredictor) : BTBCall → Option BTBPredictor
  | .predict ip target => (b.predict ip target).map (fun r => r.2)
  | .update predicted actual ip target => b.update predicted actual ip target

/-- The state after a sequence of calls, applied in order. -/
def BTBPredictor.run (b : BTBPredictor) : List BTBCall → Option BTBPredictor
  | [] => some b
  | c :: cs => (b.call c).bind (fun b' => b'.run cs)

/-- The set of the BTB that `ip` maps to. -/
def BTBPredictor.setOf (b : BTBPredictor) (ip : Nat) : List BufferEntry :=
  b.sets.getD (ip % b.num_sets) []

/-- Class invariant of the BTB: at least one set, one list per set, every entry
stored in the set its `ip` maps to, no set longer than the associativity, and no
two entries of a set with the same `ip`. -/
structure BTBPredictor.Inv (b : BTBPredictor) : Prop where
  sets_pos : 0 < b.num_sets
  sets_lt : b.num_sets < 2 ^ 32
  assoc_pos : 1 ≤ b.table_assoc
  length_eq : b.sets.length = b.num_sets
  home : ∀ j, ∀ e ∈ b.sets.getD j [], e.ip % b.num_sets = j
  size_le : ∀ s ∈ b.sets, s.length ≤ b.table_assoc
  nodup : ∀ s ∈ b.sets, (s.map (fun e => e.ip)).Nodup

/-- A BTB together with a clock (the number of the next call, starting at 1) and,
for every `ip`, the number of the last call that touched an entry for it
(0: never touched). -/
structure BTBTimed where
  btb : BTBPredictor
  clock : Nat
  lastTouch : Nat → Nat

/-- The `ip` whose entry a call touches in state `b`, if any: a `predict` that
finds an entry for `ip` (whatever value it returns), or a taken `update` (which
moves the entry found to the head, or inserts a new one). -/
def BTBPredictor.touched (b : BTBPredictor) : BTBCall → Option Nat
  | .predict ip _ =>
    if ((b.sets.getD ((ip % b.num_sets) % 2 ^ 32) []).find? (fun e => e.ip = ip)).isSome
    then some ip else none
  | .update _ actual ip _ => if actual then some ip else none

/-- One call on a timed BTB: the BTB takes the step of the code, the touch is
recorded at the current clock value, and the clock advances. -/
def BTBTimed.call (t : BTBTimed) (c : BTBCall) : Option BTBTimed :=
  (t.btb.call c).map fun b' =>
    { btb := b'
      clock := t.clock + 1
      lastTouch :=
        match t.btb.touched c with
        | some pc => Function.update t.lastTouch pc t.clock
        | none => t.lastTouch }

/-- A sequence of calls on a timed BTB. -/
def BTBTimed.run (t : BTBTimed) : List BTBCall → Option BTBTimed
  | [] => some t
  | c :: cs => (t.call c).bind (fun t' => t'.run cs)

/-- A fresh timed BTB: clock at 1, nothing touched. -/
def BTBTimed.start (b : BTBPredictor) : BTBTimed :=
  { btb := b, clock := 1, lastTouch := fun _ => 0 }

/-- What `predict` does to the list of the set it looks in: the first entry for
`ip`, when there is one, moves to the head. -/
def touchSet (ip : Nat) (s : List BufferEntry) : List BufferEntry :=
  match s.find? (fun e => e.ip = ip) with
  | some be => be :: s.eraseP (fun e => e.ip = ip)
  | none => s

/-- What `update` does to the list of the set it looks in. -/
def updateSet (assoc : Nat) (actual : Bool) (ip target : Nat) (s : List BufferEntry) :
    List BufferEntry :=
  match s.find? (fun e => e.ip = ip) with
  | some be =>
    if actual then be :: s.eraseP (fun e => e.ip = ip) else s.eraseP (fun e => e.ip = ip)
  | none =>
    if actual then
      if s.length ≥ assoc then { ip := ip, target := target } :: s.dropLast
      else { ip := ip, target := target } :: s
    else s

/-- The BTB of scenario 4 of the specification (`lines = 2`, `assoc = 2`, one
set) as built by the constructor. -/
def btbEmpty : BTBPredictor :=
  { base := { correct_predictions := 0, incorrect_predictions := 0 }
    table_lines := 2
    table_assoc := 2
    num_sets := 1
    correct_target_predictions := 0
    sets := [[]] }

/-- The BTB of scenario 4 of the specification (`lines = 2`, `assoc = 2`, one
set) after the single taken update `(0xA → 0xA1)`. -/
def btbOneEntry : BTBPredictor :=
  { base := { correct_predictions := 0, incorrect_predictions := 1 }
    table_lines := 2
    table_assoc := 2
    num_sets := 1
    correct_target_predictions := 0
    sets := [[{ ip := 10, target := 161 }]] }

/-- The BTB of scenario 4 after the taken updates `(0xA → 0xA1)`, `(0xB → 0xB1)`:
its one set is full, `0xB` at the head. -/
def btbFull : BTBPredictor :=
  { base := { correct_predictions := 0, incorrect_predictions := 2 }
    table_lines := 2
    table_assoc := 2
    num_sets := 1
    correct_target_predictions := 0
    sets := [[{ ip := 11, target := 177 }, { ip := 10, target := 161 }]] }

/-- Invariant of the timed BTB: the class invariant of the BTB, every stored
entry has been touched at a call before the current clock, and every set reads,
from the head, in strictly decreasing order of last touch. -/
structure BTBTimed.Inv (t : BTBTimed) : Prop where
  btb : t.btb.Inv
  clock_pos : 1 ≤ t.clock
  stamp_lt : ∀ j, ∀ e ∈ t.btb.sets.getD j [], 1 ≤ t.lastTouch e.ip ∧ t.lastTouch e.ip < t.clock
  ordered : ∀ j, (t.btb.sets.getD j []).Pairwise
    (fun e1 e2 => t.lastTouch e2.ip < t.lastTouch e1.ip)

end BranchPred

namespace MemHier

/-! ## `cache.h`: replacement sets -/

/-- The halving loop behind `FloorLog2`, bounded by `fuel`. -/
def floorLog2Loop : Nat → Nat → Nat
  | 0, _ => 0
  | fuel + 1, n => if 2 ≤ n then floorLog2Loop fuel (n / 2) + 1 else 0

/-- Modelled from the spec: `FloorLog2` of `globals.h` (not in the source tree);
section 4.6 uses it as `log2` of a power of two.  It is the number of times the
argument can be halved before it drops below 2. -/
def FloorLog2 (n : Nat) : Nat := floorLog2Loop n n

/-- Modelled from the spec: `IsPowerOf2` of `globals.h` (not in the source tree);
section 4.6 requires block sizes and set counts to be powers of two. -/
def IsPowerOf2 (n : Nat) : Bool := n == 2 ^ FloorLog2 n

/-- `INVALID_TAG(-1)`: the all-ones 64-bit `ADDRINT`. -/
def INVALID_TAG : Nat := 2 ^ 64 - 1

/-- The compile-time macros `L2_INCLUSIVE` and `STORE_ALLOCATION` of `cache.h`
(`STORE_ALLOCATE = 0`, `STORE_NO_ALLOCATE = 1`). -/
structure Macros where
  L2_INCLUSIVE : Nat
  STORE_ALLOCATION : Nat
deriving DecidableEq, Repr

/-- The values the `#ifndef` blocks give the two macros. -/
def Macros.default : Macros := { L2_INCLUSIVE := 1, STORE_ALLOCATION := 0 }

/-- The enumerator `STORE_ALLOCATE`. -/
def STORE_ALLOCATE : Nat := 0

/-- `CACHE_SET::LRU`: `_tags` from `begin()` to `end()`. -/
structure LRU where
  _tags : List Nat
  _associativity : Nat
deriving DecidableEq, Repr

/-- `LRU::LRU(associativity = 8)`. -/
def LRU.init : LRU := { _tags := [], _associativity := 8 }

/-- `LRU::SetAssociativity`. -/
def LRU.SetAssociativity (_s : LRU) (associativity : Nat) : LRU :=
  { _tags := [], _associativity := associativity }

/-- `LRU::Find`: the first element equal to `tag` is erased and `tag` is pushed
at the back. -/
def LRU.Find (s : LRU) (tag : Nat) : Bool × LRU :=
  if tag ∈ s._tags then (true, { s with _tags := s._tags.erase tag ++ [tag] })
  else (false, s)

/-- `LRU::Replace`.  In the evicting branch `_tags` is not empty, as
`_tags.size() >= _associativity > 0`. -/
def LRU.Replace (s : LRU) (tag : Nat) : Nat × LRU :=
  if s._associativity > 0 then
    if s._tags.length ≥ s._associativity then
      (s._tags.headD INVALID_TAG, { s with _tags := s._tags.tail ++ [tag] })
    else
      (INVALID_TAG, { s with _tags := s._tags ++ [tag] })
  else
    (tag, s)

/-- `LRU::DeleteIfPresent`: erases the first element equal to `tag`. -/
def LRU.DeleteIfPresent (s : LRU) (tag : Nat) : LRU :=
  { s with _tags := s._tags.erase tag }

/-- `CACHE_SET::LFU::LfuLine`; `frequency` is a `UINT32`. -/
structure LfuLine where
  tag : Nat
  frequency : Nat
deriving DecidableEq, Repr

/-- `CACHE_SET::LFU`. -/
structure LFU where
  _lines : List LfuLine
  _associativity : Nat
deriving DecidableEq, Repr

/-- `LFU::LFU(associativity = 8)`. -/
def LFU.init : LFU := { _lines := [], _associativity := 8 }

/-- `LFU::SetAssociativity`. -/
def LFU.SetAssociativity (_s : LFU) (associativity : Nat) : LFU :=
  { _lines := [], _associativity := associativity }

/-- The loop of `LFU::Find` over the lines: the first line with the tag gets
`frequency++` (a `UINT32`), and the loop returns true. -/
def LFU.findLoop (tag_to_find : Nat) : List LfuLine → Bool × List LfuLine
  | [] => (false, [])
  | line :: rest =>
    if line.tag = tag_to_find then
      (true, { line with frequency := (line.frequency + 1) % 2 ^ 32 } :: rest)
    else
      let r := LFU.findLoop tag_to_find rest
      (r.1, line :: r.2)

/-- `LFU::Find`. -/
def LFU.Find (s : LFU) (tag_to_find : Nat) : Bool × LFU :=
  let r := LFU.findLoop tag_to_find s._lines
  (r.1, { s with _lines := r.2 })

/-- The victim search loop of `LFU::Replace`, on the lines from position `pos` on:
`min_frequency` and `victim_it` (a position, `none` for `_lines.end()`) are
updated where `it->frequency < min_frequency`. -/
def LFU.victimLoop : List LfuLine → Nat → Nat → Option Nat → Nat × Option Nat
  | [], _, min_frequency, victim_it => (min_frequency, victim_it)
  | line :: rest, pos, min_frequency, victim_it =>
    if line.frequency < min_frequency then
      LFU.victimLoop rest (pos + 1) line.frequency (some pos)
    else
      LFU.victimLoop rest (pos + 1) min_frequency victim_it

/-- `LFU::Replace`. -/
def LFU.Replace (s : LFU) (new_tag : Nat) : Nat × LFU :=
  if s._associativity = 0 then (new_tag, s)
  else if s._lines.length < s._associativity then
    (INVALID_TAG, { s with _lines := s._lines ++ [{ tag := new_tag, frequency := 1 }] })
  else
    match (LFU.victimLoop s._lines 0 (2 ^ 32 - 1) none).2 with
    | some victim =>
      ((s._lines.getD victim { tag := INVALID_TAG, frequency := 0 }).tag,
        { s with _lines := s._lines.set victim { tag := new_tag, frequency := 1 } })
    | none =>
      match s._lines with
      | first :: rest =>
        (first.tag, { s with _lines := { tag := new_tag, frequency := 1 } :: rest })
      | [] =>
        (INVALID_TAG, { s with _lines := [{ tag := new_tag, frequency := 1 }] })

/-- `LFU::DeleteIfPresent`: erases the first line with the tag. -/
def LFU.DeleteIfPresent (s : LFU) (tag_to_delete : Nat) : LFU :=
  { s with _lines := s._lines.eraseP (fun l => l.tag = tag_to_delete) }

/-- The interface the template parameter `SET` of `TWO_LEVEL_CACHE` has to
offer, with `Tags` added to read off the tags a set holds. -/
class CacheSet (SET : Type) where
  init : SET
  SetAssociativity : SET → Nat → SET
  Find : SET → Nat → Bool × SET
  Replace : SET → Nat → Nat × SET
  DeleteIfPresent : SET → Nat → SET
  Tags : SET → List Nat

instance : CacheSet LRU where
  init := LRU.init
  SetAssociativity := LRU.SetAssociativity
  Find := LRU.Find
  Replace := LRU.Replace
  DeleteIfPresent := LRU.DeleteIfPresent
  Tags := fun s => s._tags

instance : CacheSet LFU where
  init := LFU.init
  SetAssociativity := LFU.SetAssociativity
  Find := LFU.Find
  Replace := LFU.Replace
  DeleteIfPresent := LFU.DeleteIfPresent
  Tags := fun s => s._lines.map (fun l => l.tag)

/-! ## `cache.h`: `TWO_LEVEL_CACHE` -/

/-- `TWO_LEVEL_CACHE::ACCESS_TYPE` (without the count `ACCESS_TYPE_NUM`). -/
inductive ACCESS_TYPE where
  | ACCESS_TYPE_LOAD
  | ACCESS_TYPE_STORE
deriving DecidableEq, Repr

/-- One row `_lN_access[accessType]` of `CACHE_STATS`: index `false` is the miss
counter, index `true` the hit counter. -/
structure HitMiss where
  miss : Nat
  hit : Nat
deriving DecidableEq, Repr

/-- The array `_lN_access[ACCESS_TYPE_NUM][HIT_MISS_NUM]`. -/
structure AccessStats where
  load : HitMiss
  store : HitMiss
deriving DecidableEq, Repr

/-- All four counters at zero, as the constructor leaves them. -/
def AccessStats.zero : AccessStats :=
  { load := { miss := 0, hit := 0 }, store := { miss := 0, hit := 0 } }

/-- Reads `_lN_access[accessType][hit]`. -/
def AccessStats.get (a : AccessStats) (accessType : ACCESS_TYPE) (hit : Bool) : Nat :=
  match accessType, hit with
  | .ACCESS_TYPE_LOAD, false => a.load.miss
  | .ACCESS_TYPE_LOAD, true => a.load.hit
  | .ACCESS_TYPE_STORE, false => a.store.miss
  | .ACCESS_TYPE_STORE, true => a.store.hit

/-- The statement `_lN_access[accessType][hit]++` on `UINT64` counters. -/
def AccessStats.incr (a : AccessStats) (accessType : ACCESS_TYPE) (hit : Bool) : AccessStats :=
  match accessType, hit with
  | .ACCESS_TYPE_LOAD, false => { a with load := { a.load with miss := (a.load.miss + 1) % 2 ^ 64 } }
  | .ACCESS_TYPE_LOAD, true => { a with load := { a.load with hit := (a.load.hit + 1) % 2 ^ 64 } }
  | .ACCESS_TYPE_STORE, false =>
    { a with store := { a.store with miss := (a.store.miss + 1) % 2 ^ 64 } }
  | .ACCESS_TYPE_STORE, true =>
    { a with store := { a.store with hit := (a.store.hit + 1) % 2 ^ 64 } }

/-- The array `_latencies[ACCESS_RESULT_NUM]`, one field per index. -/
structure Latencies where
  HIT_L1 : Nat
  HIT_L2 : Nat
  MISS_L2 : Nat
deriving DecidableEq, Repr

/-- State of a `TWO_LEVEL_CACHE<SET>` (the name string is left out).  The set
arrays are lists; the null pointer is the empty list. -/
structure TWO_LEVEL_CACHE (SET : Type) where
  _l1_access : AccessStats
  _l2_access : AccessStats
  _latencies : Latencies
  _l1_sets : List SET
  _l2_sets : List SET
  _l1_cacheSize : Nat
  _l2_cacheSize : Nat
  _l1_blockSize : Nat
  _l2_blockSize : Nat
  _l1_associativity : Nat
  _l2_associativity : Nat
  _l1_lineShift : Nat
  _l2_lineShift : Nat
  _l1_setIndexMask : Nat
  _l2_setIndexMask : Nat
  _l2_prefetch_lines : Nat
deriving DecidableEq, Repr

/-- `L1NumSets()`; the sum is a `UINT32`. -/
def TWO_LEVEL_CACHE.L1NumSets {SET : Type} (c : TWO_LEVEL_CACHE SET) : Nat :=
  if c._l1_associativity > 0 then (c._l1_setIndexMask + 1) % 2 ^ 32 else 0

/-- `L2NumSets()`; the sum is a `UINT32`. -/
def TWO_LEVEL_CACHE.L2NumSets {SET : Type} (c : TWO_LEVEL_CACHE SET) : Nat :=
  if c._l2_associativity > 0 then (c._l2_setIndexMask + 1) % 2 ^ 32 else 0

/-- `SplitAddress`, returning `(tag, setIndex)`. -/
def SplitAddress (addr lineShift setIndexMask : Nat) : Nat × Nat :=
  let tag := addr >>> lineShift
  let num_sets := (setIndexMask + 1) % 2 ^ 32
  if num_sets > 0 && IsPowerOf2 num_sets then
    (tag >>> FloorLog2 num_sets, tag &&& setIndexMask)
  else
    (tag, 0)

/-- The set-index mask the constructor computes for one level, `none` where the
`UINT32` product `associativity * blockSize` is zero and the division has no
result. -/
def setIndexMaskOf (cacheSize blockSize associativity : Nat) : Option Nat :=
  if associativity > 0 ∧ blockSize > 0 ∧ cacheSize ≥ (associativity * blockSize) % 2 ^ 32 then
    if (associativity * blockSize) % 2 ^ 32 = 0 then none
    else some (cacheSize / ((associativity * blockSize) % 2 ^ 32) - 1)
  else some 0

/-- `TWO_LEVEL_CACHE::TWO_LEVEL_CACHE`; `none` where an `assert` fails or the
division has no result. -/
def TWO_LEVEL_CACHE.new (SET : Type) [CacheSet SET]
    (l1CacheSize l1BlockSize l1Associativity l2CacheSize l2BlockSize l2Associativity
      l2PrefetchLines l1HitLatency l2HitLatency l2MissLatency : Nat) :
    Option (TWO_LEVEL_CACHE SET) :=
  match setIndexMaskOf l1CacheSize l1BlockSize l1Associativity,
      setIndexMaskOf l2CacheSize l2BlockSize l2Associativity with
  | some l1Mask, some l2Mask =>
    let l1_num_sets := if l1Associativity > 0 then (l1Mask + 1) % 2 ^ 32 else 0
    let l2_num_sets := if l2Associativity > 0 then (l2Mask + 1) % 2 ^ 32 else 0
    if (l1BlockSize = 0 ∨ IsPowerOf2 l1BlockSize = true) ∧
        (l2BlockSize = 0 ∨ IsPowerOf2 l2BlockSize = true) ∧
        (l1_num_sets > 0 → IsPowerOf2 l1_num_sets = true) ∧
        (l2_num_sets > 0 → IsPowerOf2 l2_num_sets = true) ∧
        (l1CacheSize ≤ l2CacheSize ∨ l2CacheSize = 0) ∧
        (l1BlockSize ≤ l2BlockSize ∨ l2BlockSize = 0) then
      some
        { _l1_access := AccessStats.zero
          _l2_access := AccessStats.zero
          _latencies := { HIT_L1 := l1HitLatency, HIT_L2 := l2HitLatency, MISS_L2 := l2MissLatency }
          _l1_sets :=
            List.replicate l1_num_sets (CacheSet.SetAssociativity (CacheSet.init : SET) l1Associativity)
          _l2_sets :=
            List.replicate l2_num_sets (CacheSet.SetAssociativity (CacheSet.init : SET) l2Associativity)
          _l1_cacheSize := l1CacheSize
          _l2_cacheSize := l2CacheSize
          _l1_blockSize := l1BlockSize
          _l2_blockSize := l2BlockSize
          _l1_associativity := l1Associativity
          _l2_associativity := l2Associativity
          _l1_lineShift := if l1BlockSize > 0 then FloorLog2 l1BlockSize else 0
          _l2_lineShift := if l2BlockSize > 0 then FloorLog2 l2BlockSize else 0
          _l1_setIndexMask := l1Mask
          _l2_setIndexMask := l2Mask
          _l2_prefetch_lines := l2PrefetchLines }
    else none
  | _, _ => none

/-- The `for` loop of `Access` that invalidates in L1 the blocks of an evicted L2
block, acting on the L1 set array; `offset_in_l2_block` is a `UINT32`.  The
loop is bounded by `fuel`, for which `Access` passes `L2BlockSize()`. -/
def TWO_LEVEL_CACHE.inclusionLoop {SET : Type} [CacheSet SET] (c : TWO_LEVEL_CACHE SET)
    (reconstructed_l2_block_addr : Nat) : Nat → Nat → List SET → List SET
  | 0, _, l1_sets => l1_sets
  | fuel + 1, offset_in_l2_block, l1_sets =>
    if offset_in_l2_block < c._l2_blockSize then
      let l1_block_addr_to_check := (reconstructed_l2_block_addr + offset_in_l2_block) % 2 ^ 64
      let split := SplitAddress l1_block_addr_to_check c._l1_lineShift c._l1_setIndexMask
      let l1_sets' :=
        if split.2 < c.L1NumSets then
          l1_sets.set split.2 (CacheSet.DeleteIfPresent (l1_sets.getD split.2 CacheSet.init) split.1)
        else l1_sets
      TWO_LEVEL_CACHE.inclusionLoop c reconstructed_l2_block_addr fuel
        ((offset_in_l2_block + c._l1_blockSize) % 2 ^ 32) l1_sets'
    else l1_sets

/-- `TWO_LEVEL_CACHE::Access`, returning the cycle count and the new state.
`cycles` is a `UINT32`; addresses are 64-bit. -/
def TWO_LEVEL_CACHE.Access {SET : Type} [CacheSet SET] (m : Macros) (c : TWO_LEVEL_CACHE SET)
    (addr : Nat) (accessType : ACCESS_TYPE) : Nat × TWO_LEVEL_CACHE SET :=
  let l1Enabled : Bool :=
    decide (c._l1_associativity > 0) && !c._l1_sets.isEmpty && decide (c.L1NumSets > 0)
  let l2Enabled : Bool :=
    decide (c._l2_associativity > 0) && !c._l2_sets.isEmpty && decide (c.L2NumSets > 0)
  -- L1 Access
  let l1Split := if l1Enabled then SplitAddress addr c._l1_lineShift c._l1_setIndexMask else (0, 0)
  let l1Tag := l1Split.1
  let l1SetIndex := l1Split.2
  let l1Find := CacheSet.Find (c._l1_sets.getD l1SetIndex CacheSet.init) l1Tag
  let l1Hit : Bool := if l1Enabled then l1Find.1 else false
  let c1 : TWO_LEVEL_CACHE SET :=
    if l1Enabled then
      { c with
        _l1_sets := c._l1_sets.set l1SetIndex l1Find.2
        _l1_access := c._l1_access.incr accessType l1Hit }
    else c
  let cycles := c._latencies.HIT_L1
  -- L1 Miss Handling
  if l1Hit then (cycles, c1)
  else
    let c2 : TWO_LEVEL_CACHE SET :=
      if l1Enabled ∧ (accessType = .ACCESS_TYPE_LOAD ∨ m.STORE_ALLOCATION = STORE_ALLOCATE) then
        { c1 with
          _l1_sets :=
            c1._l1_sets.set l1SetIndex
              (CacheSet.Replace (c1._l1_sets.getD l1SetIndex CacheSet.init) l1Tag).2 }
      else c1
    -- L2 Access
    if l2Enabled then
      let l2Split := SplitAddress addr c._l2_lineShift c._l2_setIndexMask
      let l2Tag := l2Split.1
      let l2SetIndex := l2Split.2
      let l2Find := CacheSet.Find (c2._l2_sets.getD l2SetIndex CacheSet.init) l2Tag
      let l2Hit := l2Find.1
      let c3 : TWO_LEVEL_CACHE SET :=
        { c2 with
          _l2_sets := c2._l2_sets.set l2SetIndex l2Find.2
          _l2_access := c2._l2_access.incr accessType l2Hit }
      let cycles2 := (cycles + c._latencies.HIT_L2) % 2 ^ 32
      if l2Hit then (cycles2, c3)
      else
        -- L2 Miss
        let l2Replace := CacheSet.Replace (c3._l2_sets.getD l2SetIndex CacheSet.init) l2Tag
        let l2_evicted_tag := l2Replace.1
        let c4 : TWO_LEVEL_CACHE SET :=
          { c3 with _l2_sets := c3._l2_sets.set l2SetIndex l2Replace.2 }
        let cycles3 := (cycles2 + c._latencies.MISS_L2) % 2 ^ 32
        if m.L2_INCLUSIVE = 1 ∧ ¬ (l2_evicted_tag = INVALID_TAG) ∧ l1Enabled = true ∧
            c._l1_blockSize > 0 then
          let num_l2_set_bits := if c.L2NumSets > 0 then FloorLog2 c.L2NumSets else 0
          let reconstructed_l2_block_addr :=
            (((l2_evicted_tag <<< num_l2_set_bits) % 2 ^ 64 ||| l2SetIndex)
              <<< c._l2_lineShift) % 2 ^ 64
          (cycles3,
            { c4 with
              _l1_sets :=
                c4.inclusionLoop reconstructed_l2_block_addr c._l2_blockSize 0 c4._l1_sets })
        else (cycles3, c4)
    else
      (((cycles + c._latencies.HIT_L2) % 2 ^ 32 + c._latencies.MISS_L2) % 2 ^ 32, c2)

/-- One `Access` call of a trace. -/
abbrev AccessCall := Nat × ACCESS_TYPE

/-- The state after a sequence of `Access` calls, applied in order. -/
def TWO_LEVEL_CACHE.run {SET : Type} [CacheSet SET] (m : Macros) (c : TWO_LEVEL_CACHE SET)
    (calls : List AccessCall) : TWO_LEVEL_CACHE SET :=
  calls.foldl (fun s a => (s.Access m a.1 a.2).2) c

/-- The base address of the block that the pair `(idx, tag)` of an L1 set index
and an L1 tag denotes: `((tag << log2(L1NumSets)) | idx) << L1LineShift`, the
L1 counterpart of the address `Access` rebuilds for an evicted L2 tag. -/
def TWO_LEVEL_CACHE.l1BlockAddr {SET : Type} (c : TWO_LEVEL_CACHE SET) (idx tag : Nat) : Nat :=
  (((tag <<< FloorLog2 c.L1NumSets) % 2 ^ 64 ||| idx) <<< c._l1_lineShift) % 2 ^ 64

/-- Whether the block denoted by the L1 pair `(idx, tag)` has its enclosing L2
block (the L2 set index and L2 tag of its base address) present in L2. -/
def TWO_LEVEL_CACHE.inL2 {SET : Type} [CacheSet SET] (c : TWO_LEVEL_CACHE SET)
    (idx tag : Nat) : Bool :=
  let split := SplitAddress (c.l1BlockAddr idx tag) c._l2_lineShift c._l2_setIndexMask
  decide (split.1 ∈ CacheSet.Tags (c._l2_sets.getD split.2 CacheSet.init))

/-- The inclusion invariant as a test on a state: every `(set index, tag)` pair
present in L1 has its enclosing L2 block present in L2. -/
def TWO_LEVEL_CACHE.inclusionHolds {SET : Type} [CacheSet SET] (c : TWO_LEVEL_CACHE SET) :
    Bool :=
  (List.range c._l1_sets.length).all fun idx =>
    (CacheSet.Tags (c._l1_sets.getD idx CacheSet.init)).all fun tag => c.inL2 idx tag

/-- The access sequence on which inclusion breaks: loads of the all-ones
address, of address 0 and of address 2. -/
def collidingLoads : List AccessCall :=
  [(2 ^ 64 - 1, .ACCESS_TYPE_LOAD), (0, .ACCESS_TYPE_LOAD), (2, .ACCESS_TYPE_LOAD)]

/-- What a state shows of its two levels: the tags of every L1 set, the tags of
every L2 set, and the inclusion test. -/
def TWO_LEVEL_CACHE.view {SET : Type} [CacheSet SET] (c : TWO_LEVEL_CACHE SET) :
    List (List Nat) × List (List Nat) × Bool :=
  (c._l1_sets.map CacheSet.Tags, c._l2_sets.map CacheSet.Tags, c.inclusionHolds)

end MemHier

namespace BranchPred

/-! ## `ShiftRegister` -/

/-- `ShiftRegister`: both members are `std::uint16_t`. -/
structure ShiftRegister where
  data : Nat
  size : Nat
deriving DecidableEq, Repr

/-- `ShiftRegister::ShiftRegister(size)`: the argument is converted to
`std::uint16_t`. -/
def ShiftRegister.new (size : Nat) : ShiftRegister :=
  { data := 0, size := size % 2 ^ 16 }

/-- `ShiftRegister::mask`: `(1 << size) - 1` returned as a `std::uint16_t`. -/
def ShiftRegister.mask (r : ShiftRegister) : Nat :=
  ((1 <<< r.size) - 1) % 2 ^ 16

/-- `ShiftRegister::shiftRight`; the result is stored in a `std::uint16_t`.  The
shift amount `size - 1` is taken for `size ≥ 1`. -/
def ShiftRegister.shiftRight (r : ShiftRegister) (in_bit : Bool) : ShiftRegister :=
  { r with
    data := (((r.data >>> 1) ||| (if in_bit then 1 <<< (r.size - 1) else 0)) &&& r.mask) % 2 ^ 16 }

/-- `ShiftRegister::getValue`. -/
def ShiftRegister.getValue (r : ShiftRegister) : Nat := r.data

/-- The operation `shiftIn` of section 4.2 of the specification, written from
its words: `data ← ((data >> 1) | (bit << (len − 1))) mod 2^len`. -/
def specShiftIn (len data : Nat) (bit : Bool) : Nat :=
  ((data >>> 1) ||| ((if bit then 1 else 0) <<< (len - 1))) % 2 ^ len

/-! ## `GlobalHistoryPredictor` -/

/-- State of a `GlobalHistoryPredictor`; the `int` members hold non-negative
values. -/
structure GlobalHistoryPredictor where
  base : BranchPredictor
  pht_entries : Nat
  nbit_length : Nat
  num_predictors : Nat
  bhr : ShiftRegister
  BHR_MAX : Nat
  predictors : List NbitPredictor
deriving DecidableEq, Repr

/-- `GlobalHistoryPredictor::GlobalHistoryPredictor(entries_bits, nbit_length)`.
The shifts `1 << n` are 32-bit; the values are those of the source for
`n ≤ 30`. -/
def GlobalHistoryPredictor.new (entries_bits nbit_length : Nat) : GlobalHistoryPredictor :=
  { base := BranchPredictor.init
    pht_entries := (1 <<< entries_bits) % 2 ^ 32
    nbit_length := nbit_length
    BHR_MAX := ((1 <<< nbit_length) % 2 ^ 32 + (2 ^ 32 - 1)) % 2 ^ 32
    bhr := ShiftRegister.new nbit_length
    num_predictors := (1 <<< nbit_length) % 2 ^ 32
    predictors :=
      List.replicate ((1 <<< nbit_length) % 2 ^ 32) (NbitPredictor.new entries_bits nbit_length 1) }

/-- The element `predictors[i]`; outside the vector (no defined value in the
source) it is an empty predictor. -/
def GlobalHistoryPredictor.predictorAt (g : GlobalHistoryPredictor) (i : Nat) : NbitPredictor :=
  g.predictors.getD i (NbitPredictor.new 0 0 1)

/-- `GlobalHistoryPredictor::predict`.  Neither this method nor the
`NbitPredictor::predict` it calls assigns to a member, so the returned state is
the state it was called on. -/
def GlobalHistoryPredictor.predict (g : GlobalHistoryPredictor) (ip target : Nat) :
    Bool × GlobalHistoryPredictor :=
  (((g.predictorAt g.bhr.getValue).predict ip target).1, g)

/-- `GlobalHistoryPredictor::update`. -/
def GlobalHistoryPredictor.update (g : GlobalHistoryPredictor) (predicted actual : Bool)
    (ip target : Nat) : GlobalHistoryPredictor :=
  { g with
    predictors :=
      g.predictors.set g.bhr.getValue
        ((g.predictorAt g.bhr.getValue).update predicted actual ip target)
    bhr := g.bhr.shiftRight actual
    base := g.base.updateCounters predicted actual }

/-- A sequence of `update` calls on a `GlobalHistoryPredictor`. -/
def GlobalHistoryPredictor.updates (g : GlobalHistoryPredictor) (calls : List UpdateCall) :
    GlobalHistoryPredictor :=
  calls.foldl (fun q c => q.update c.1 c.2.1 c.2.2.1 c.2.2.2) g

/-- Consistency of a `GlobalHistoryPredictor(h, w)` state: `2^w` well-formed
sub-predictors of index width `h` and counter width `w`, and a history register
of length `w` whose value is below `2^w`. -/
structure GlobalHistoryPredictor.WF (g : GlobalHistoryPredictor) (h w : Nat) : Prop where
  h_le : h ≤ 31
  w_pos : 1 ≤ w
  w_le : w ≤ 30
  length_eq : g.predictors.length = 2 ^ w
  size_eq : g.bhr.size = w % 2 ^ 16
  data_lt : g.bhr.data < 2 ^ w
  sub_wf : ∀ q ∈ g.predictors, q.WF ∧ q.index_bits = h ∧ q.cntr_bits = w ∧ q.type = 1

/-! ## `LocalHistoryPredictor` -/

/-- State of a `LocalHistoryPredictor`; the `int` members hold non-negative
values. -/
structure LocalHistoryPredictor where
  base : BranchPredictor
  bht_entry_bits : Nat
  bht_entries : Nat
  bht_length : Nat
  pht_entry_bits : Nat
  pht_length : Nat
  pht : NbitPredictor
  bht : List ShiftRegister
deriving DecidableEq, Repr

/-- `LocalHistoryPredictor::LocalHistoryPredictor(bht_entry_bits, bht_length,
pht_entry_bits = 13, pht_length = 2)`. -/
def LocalHistoryPredictor.new (bht_entry_bits bht_length pht_entry_bits pht_length : Nat) :
    LocalHistoryPredictor :=
  { base := BranchPredictor.init
    bht_entry_bits := bht_entry_bits
    bht_entries := (1 <<< bht_entry_bits) % 2 ^ 32
    bht_length := bht_length
    pht_entry_bits := pht_entry_bits
    pht_length := pht_length
    pht := NbitPredictor.new pht_entry_bits pht_length 1
    bht := List.replicate ((1 <<< bht_entry_bits) % 2 ^ 32) (ShiftRegister.new bht_length) }

/-- `LocalHistoryPredictor::bht_mask`, a `std::uint16_t`. -/
def LocalHistoryPredictor.bht_mask (l : LocalHistoryPredictor) : Nat :=
  ((1 <<< l.bht_entry_bits) - 1) % 2 ^ 16

/-- `LocalHistoryPredictor::pc_mask`, a `std::uint16_t`.  The shift amount
`pht_entry_bits - bht_length` is taken for `bht_length ≤ pht_entry_bits`. -/
def LocalHistoryPredictor.pc_mask (l : LocalHistoryPredictor) : Nat :=
  ((1 <<< (l.pht_entry_bits - l.bht_length)) - 1) % 2 ^ 16

/-- The local `bht_index` of `predict` and `update`, a `std::uint16_t`. -/
def LocalHistoryPredictor.bht_index (l : LocalHistoryPredictor) (ip : Nat) : Nat :=
  (ip &&& l.bht_mask) % 2 ^ 16

/-- The element `bht[i]`; outside the vector (no defined value in the source)
it is an empty register. -/
def LocalHistoryPredictor.bhtAt (l : LocalHistoryPredictor) (i : Nat) : ShiftRegister :=
  l.bht.getD i (ShiftRegister.new 0)

/-- The local `custom_ip` of `predict` and `update`, computed from the locals
`bht_index`, `bht_value` and `pc_part`; each is a `std::uint16_t`. -/
def LocalHistoryPredictor.custom_ip (l : LocalHistoryPredictor) (ip : Nat) : Nat :=
  let bht_value := (l.bhtAt (l.bht_index ip)).getValue
  let pc_part := (ip &&& l.pc_mask) % 2 ^ 16
  ((pc_part <<< l.bht_length) ||| bht_value) % 2 ^ 16

/-- `LocalHistoryPredictor::predict`.  No member is assigned, so the returned
state is the state it was called on. -/
def LocalHistoryPredictor.predict (l : LocalHistoryPredictor) (ip target : Nat) :
    Bool × LocalHistoryPredictor :=
  ((l.pht.predict (l.custom_ip ip) target).1, l)

/-- The statement `this->bht[bht_index]->shiftRight(actual)` of `update`. -/
def LocalHistoryPredictor.shiftBht (l : LocalHistoryPredictor) (bht_index : Nat)
    (actual : Bool) : LocalHistoryPredictor :=
  { l with bht := l.bht.set bht_index ((l.bhtAt bht_index).shiftRight actual) }

/-- The statement `this->pht->update(predicted, actual, custom_ip, target)` of
`update`. -/
def LocalHistoryPredictor.trainPht (l : LocalHistoryPredictor) (predicted actual : Bool)
    (custom_ip target : Nat) : LocalHistoryPredictor :=
  { l with pht := l.pht.update predicted actual custom_ip target }

/-- `LocalHistoryPredictor::update`: the locals are computed first, then the
history register is shifted, then the PHT is trained, then the accuracy counters
are updated. -/
def LocalHistoryPredictor.update (l : LocalHistoryPredictor) (predicted actual : Bool)
    (ip target : Nat) : LocalHistoryPredictor :=
  let bht_index := l.bht_index ip
  let custom_ip := l.custom_ip ip
  let l1 := l.shiftBht bht_index actual
  let l2 := l1.trainPht predicted actual custom_ip target
  { l2 with base := l2.base.updateCounters predicted actual }

/-- A sequence of `update` calls on a `LocalHistoryPredictor`. -/
def LocalHistoryPredictor.updates (l : LocalHistoryPredictor) (calls : List UpdateCall) :
    LocalHistoryPredictor :=
  calls.foldl (fun q c => q.update c.1 c.2.1 c.2.2.1 c.2.2.2) l

/-- The index `customIdx` of section 4.4 of the specification, written from
its words: `(pcPart << Z) | bhtVal` with `pcPart = pc mod 2^(p − Z)`. -/
def specCustomIdx (Z p pc bhtVal : Nat) : Nat :=
  ((pc % 2 ^ (p - Z)) <<< Z) ||| bhtVal

/-- Consistency of the history side of a `LocalHistoryPredictor(b, Z, p, phtW)`
state: the three widths, and `2^b` history registers of length `Z` with values
below `2^Z`. -/
structure LocalHistoryPredictor.WF (l : LocalHistoryPredictor) (b Z p : Nat) : Prop where
  b_eq : l.bht_entry_bits = b
  Z_eq : l.bht_length = Z
  p_eq : l.pht_entry_bits = p
  b_le : b ≤ 30
  length_eq : l.bht.length = 2 ^ b
  reg : ∀ r ∈ l.bht, r.size = Z % 2 ^ 16 ∧ r.data < 2 ^ Z

/-- Consistency of the PHT of a `LocalHistoryPredictor(b, Z, p, phtW)` state: a
well-formed table of index width `p` and counter width `phtW`, of variant 1. -/
structure LocalHistoryPredictor.PhtWF (l : LocalHistoryPredictor) (p phtW : Nat) : Prop where
  pht_wf : l.pht.WF
  pht_index : l.pht.index_bits = p
  pht_cntr : l.pht.cntr_bits = phtW
  pht_type : l.pht.type = 1

/-! ## `Alpha21264` -/

/-- State of an `Alpha21264`.  `pred0` and `pred1` are the two predictions
cached by `predict`. -/
structure Alpha21264 where
  base : BranchPredictor
  global_history : ShiftRegister
  ghp : GlobalHistoryPredictor
  lhp : LocalHistoryPredictor
  choice_predictor : NbitPredictor
  pred0 : Bool
  pred1 : Bool
deriving DecidableEq, Repr

/-- `Alpha21264::Alpha21264()`.  The constructor does not initialise `pred0`
and `pred1`; their indeterminate values are the two arguments. -/
def Alpha21264.new (pred0 pred1 : Bool) : Alpha21264 :=
  { base := BranchPredictor.init
    global_history := ShiftRegister.new 12
    choice_predictor := NbitPredictor.new 12 2 1
    lhp := LocalHistoryPredictor.new 10 10 10 3
    ghp := GlobalHistoryPredictor.new 12 2
    pred0 := pred0
    pred1 := pred1 }

/-- `Alpha21264::predict`: the three sub-predictions are read and `pred0`,
`pred1` are stored. -/
def Alpha21264.predict (a : Alpha21264) (ip target : Nat) : Bool × Alpha21264 :=
  let history := a.global_history.getValue
  let choice := (a.choice_predictor.predict history 0).1
  let pred0 := (a.lhp.predict ip target).1
  let pred1 := (a.ghp.predict history target).1
  (if choice then pred1 else pred0, { a with pred0 := pred0, pred1 := pred1 })

/-- `Alpha21264::update`.  In `this->ghp->update(history, actual, ip, target)`
the `std::uint16_t history` is the argument for the parameter `bool predicted`
(it converts to `history != 0`) and `ip` is the argument for `ip`. -/
def Alpha21264.update (a : Alpha21264) (predicted actual : Bool) (ip target : Nat) :
    Alpha21264 :=
  let cp1 :=
    if a.pred0 = actual ∧ a.pred1 ≠ actual then
      a.choice_predictor.update predicted false ip target
    else a.choice_predictor
  let cp2 :=
    if a.pred0 ≠ actual ∧ a.pred1 = actual then cp1.update predicted true ip target
    else cp1
  let history := a.global_history.getValue
  { a with
    choice_predictor := cp2
    lhp := a.lhp.update predicted actual ip target
    ghp := a.ghp.update (history != 0) actual ip target
    global_history := a.global_history.shiftRight actual
    base := a.base.updateCounters predicted actual }

/-- One event of the driver on a predictor: `predict(ip, target)` followed by
`update` with the value `predict` returned and the outcome. -/
def Alpha21264.event (a : Alpha21264) (ip target : Nat) (taken : Bool) : Alpha21264 :=
  let r := a.predict ip target
  r.2.update r.1 taken ip target

/-- A sequence of events `(ip, target, taken)`, applied in order. -/
def Alpha21264.events (a : Alpha21264) (evs : List (Nat × Nat × Bool)) : Alpha21264 :=
  evs.foldl (fun s e => s.event e.1 e.2.1 e.2.2) a

/-- Consistency of an `Alpha21264` state with its fixed composition: a 12-bit
global history, a `12 × 2`-bit choice table of variant 1, the local predictor
`(10, 10, 10, 3)` and the global predictor `(12, 2)`. -/
structure Alpha21264.WF (a : Alpha21264) : Prop where
  hist_size : a.global_history.size = 12
  hist_lt : a.global_history.data < 2 ^ 12
  choice_wf : a.choice_predictor.WF
  choice_index : a.choice_predictor.index_bits = 12
  choice_cntr : a.choice_predictor.cntr_bits = 2
  choice_type : a.choice_predictor.type = 1
  lhp_wf : a.lhp.WF 10 10 10
  lhp_pht : a.lhp.PhtWF 10 3
  ghp_wf : a.ghp.WF 12 2

/-- A two-bit predictor of variant 5 with one entry, as built by the constructor. -/
def sctVariantFive : NbitPredictor := NbitPredictor.new 0 2 5

/-- A two-bit predictor built with the variant number 7, which is none of the
five variants. -/
def sctVariantSeven : NbitPredictor := NbitPredictor.new 0 2 7

/-- A stream of `n` taken updates at `ip = 0`. -/
def takenStream (n : Nat) : List UpdateCall := List.replicate n (false, true, 0, 0)

/-- Eight taken updates at `ip = 5`, which maps to index 1 of a four-entry
table. -/
def takenAtFive : List UpdateCall := List.replicate 8 (false, true, 5, 0)

/-- Four taken branches at the addresses 0, 1, 2, 3 (targets 0), each run
through `predict` then `update`. -/
def fourTakenBranches : List (Nat × Nat × Bool) :=
  [(0, 0, true), (1, 0, true), (2, 0, true), (3, 0, true)]

/-- The `Alpha21264` reached from construction by `fourTakenBranches`. -/
def alphaAfterFour : Alpha21264 := (Alpha21264.new false false).events fourTakenBranches

end BranchPred

namespace BranchPred

/-! ## Static predictors, the predictor interface and `TournamentHybridPredictor` -/

/-- State of an `AlwaysTakenPredictor`: the base class counters. -/
structure AlwaysTakenPredictor where
  base : BranchPredictor
deriving DecidableEq, Repr

/-- `AlwaysTakenPredictor::AlwaysTakenPredictor()`. -/
def AlwaysTakenPredictor.new : AlwaysTakenPredictor := { base := BranchPredictor.init }

/-- `AlwaysTakenPredictor::predict`. -/
def AlwaysTakenPredictor.predict (p : AlwaysTakenPredictor) (_ip _target : Nat) :
    Bool × AlwaysTakenPredictor :=
  (true, p)

/-- `AlwaysTakenPredictor::update`. -/
def AlwaysTakenPredictor.update (p : AlwaysTakenPredictor) (predicted actual : Bool)
    (_ip _target : Nat) : AlwaysTakenPredictor :=
  { p with base := p.base.updateCounters predicted actual }

/-- State of a `BTFNTPredictor`: the base class counters. -/
structure BTFNTPredictor where
  base : BranchPredictor
deriving DecidableEq, Repr

/-- `BTFNTPredictor::BTFNTPredictor()`. -/
def BTFNTPredictor.new : BTFNTPredictor := { base := BranchPredictor.init }

/-- `BTFNTPredictor::predict`: `ip > target`. -/
def BTFNTPredictor.predict (p : BTFNTPredictor) (ip target : Nat) : Bool × BTFNTPredictor :=
  (decide (ip > target), p)

/-- `BTFNTPredictor::update`. -/
def BTFNTPredictor.update (p : BTFNTPredictor) (predicted actual : Bool) (_ip _target : Nat) :
    BTFNTPredictor :=
  { p with base := p.base.updateCounters predicted actual }

/-- The virtual interface of the abstract class `BranchPredictor`, as seen through a
`BranchPredictor*`: the two counters of the base class, `predict` and `update`.  A call has no
result (`none`) where the member function of the concrete class has none. -/
class Predictor (P : Type) where
  counters : P → BranchPredictor
  predict : P → Nat → Nat → Option (Bool × P)
  update : P → Bool → Bool → Nat → Nat → Option P

instance : Predictor AlwaysTakenPredictor where
  counters := fun p => p.base
  predict := fun p ip target => some (p.predict ip target)
  update := fun p predicted actual ip target => some (p.update predicted actual ip target)

instance : Predictor BTFNTPredictor where
  counters := fun p => p.base
  predict := fun p ip target => some (p.predict ip target)
  update := fun p predicted actual ip target => some (p.update predicted actual ip target)

instance : Predictor NbitPredictor where
  counters := fun p => p.base
  predict := fun p ip target => some (p.predict ip target)
  update := fun p predicted actual ip target => some (p.update predicted actual ip target)

instance : Predictor GlobalHistoryPredictor where
  counters := fun p => p.base
  predict := fun p ip target => some (p.predict ip target)
  update := fun p predicted actual ip target => some (p.update predicted actual ip target)

instance : Predictor LocalHistoryPredictor where
  counters := fun p => p.base
  predict := fun p ip target => some (p.predict ip target)
  update := fun p predicted actual ip target => some (p.update predicted actual ip target)

instance : Predictor Alpha21264 where
  counters := fun p => p.base
  predict := fun p ip target => some (p.predict ip target)
  update := fun p predicted actual ip target => some (p.update predicted actual ip target)

instance : Predictor BTBPredictor where
  counters := fun p => p.base
  predict := fun p ip target => p.predict ip target
  update := fun p predicted actual ip target => p.update predicted actual ip target

/-- State of a `TournamentHybridPredictor` over two predictors of the kinds `P0` and `P1` (the
objects `pred0` and `pred1` point to).  `p0` and `p1` are the two predictions cached by
`predict`. -/
structure TournamentHybridPredictor (P0 P1 : Type) where
  base : BranchPredictor
  meta : NbitPredictor
  pred0 : P0
  p0 : Bool
  pred1 : P1
  p1 : Bool

/-- `TournamentHybridPredictor::TournamentHybridPredictor(meta_entry_bits, pred0, pred1)`.  The
constructor does not initialise `p0` and `p1`; their indeterminate values are the last two
arguments. -/
def TournamentHybridPredictor.new {P0 P1 : Type} (meta_entry_bits : Nat) (pred0 : P0) (pred1 : P1)
    (p0 p1 : Bool) : TournamentHybridPredictor P0 P1 :=
  { base := BranchPredictor.init
    meta := NbitPredictor.new meta_entry_bits 2 1
    pred0 := pred0
    p0 := p0
    pred1 := pred1
    p1 := p1 }

/-- `TournamentHybridPredictor::predict`: the meta table is read, then `pred0` and `pred1` are
asked and their answers stored in `p0` and `p1`. -/
def TournamentHybridPredictor.predict {P0 P1 : Type} [Predictor P0] [Predictor P1]
    (t : TournamentHybridPredictor P0 P1) (ip target : Nat) :
    Option (Bool × TournamentHybridPredictor P0 P1) :=
  let choice := (t.meta.predict ip target).1
  match Predictor.predict t.pred0 ip target with
  | none => none
  | some r0 =>
    match Predictor.predict t.pred1 ip target with
    | none => none
    | some r1 =>
      some (if choice then r1.1 else r0.1,
        { t with pred0 := r0.2, p0 := r0.1, pred1 := r1.2, p1 := r1.1 })

/-- `TournamentHybridPredictor::update`. -/
def TournamentHybridPredictor.update {P0 P1 : Type} [Predictor P0] [Predictor P1]
    (t : TournamentHybridPredictor P0 P1) (predicted actual : Bool) (ip target : Nat) :
    Option (TournamentHybridPredictor P0 P1) :=
  let meta1 :=
    if t.p0 = actual ∧ t.p1 ≠ actual then t.meta.update predicted false ip target
    else t.meta
  let meta2 :=
    if t.p0 ≠ actual ∧ t.p1 = actual then meta1.update predicted true ip target
    else meta1
  match Predictor.update t.pred0 predicted actual ip target with
  | none => none
  | some q0 =>
    match Predictor.update t.pred1 predicted actual ip target with
    | none => none
    | some q1 =>
      some { t with
             meta := meta2
             pred0 := q0
             pred1 := q1
             base := t.base.updateCounters predicted actual }

instance {P0 P1 : Type} [Predictor P0] [Predictor P1] :
    Predictor (TournamentHybridPredictor P0 P1) where
  counters := fun p => p.base
  predict := fun p ip target => p.predict ip target
  update := fun p predicted actual ip target => p.update predicted actual ip target

/-- Consistency of a `TournamentHybridPredictor` state with its constructor: the meta table is a
well-formed `m × 2`-bit table of variant 1. -/
structure TournamentHybridPredictor.WF {P0 P1 : Type} (t : TournamentHybridPredictor P0 P1)
    (m : Nat) : Prop where
  meta_wf : t.meta.WF
  meta_index : t.meta.index_bits = m
  meta_cntr : t.meta.cntr_bits = 2
  meta_type : t.meta.type = 1

/-- The state after one call through the interface (the value `predict` returns is dropped). -/
def Predictor.call {P : Type} [Predictor P] (p : P) : BTBCall → Option P
  | .predict ip target => (Predictor.predict p ip target).map (fun r => r.2)
  | .update predicted actual ip target => Predictor.update p predicted actual ip target

/-- The state after a sequence of calls through the interface, applied in order. -/
def Predictor.run {P : Type} [Predictor P] (p : P) : List BTBCall → Option P
  | [] => some p
  | c :: cs => (Predictor.call p c).bind (fun q => Predictor.run q cs)

/-- The number of `update` calls in a sequence of calls. -/
def updateCalls : List BTBCall → Nat
  | [] => 0
  | .predict _ _ :: cs => updateCalls cs
  | .update _ _ _ _ :: cs => updateCalls cs + 1

/-- The accuracy-counter discipline of one predictor kind `P` on its states `ok`: `predict` and
`update` have a result there and stay within `ok`; `predict` leaves the two counters as they
are, and `update(predicted, actual, ..)` does to them what `updateCounters(predicted, actual)`
does. -/
structure Predictor.CountsUpdates (P : Type) [Predictor P] (ok : P → Prop) : Prop where
  predict_counters : ∀ (p : P) (ip t : Nat), ok p →
    ∃ r, Predictor.predict p ip t = some r ∧ ok r.2 ∧
      Predictor.counters r.2 = Predictor.counters p
  update_counters : ∀ (p : P) (pr a : Bool) (ip t : Nat), ok p →
    ∃ q, Predictor.update p pr a ip t = some q ∧ ok q ∧
      Predictor.counters q = (Predictor.counters p).updateCounters pr a

/-- A tournament of a global-history predictor `(1, 1)` and an always-taken predictor with a
two-entry meta table. -/
def tournamentSmall : TournamentHybridPredictor GlobalHistoryPredictor AlwaysTakenPredictor :=
  TournamentHybridPredictor.new 1 (GlobalHistoryPredictor.new 1 1) AlwaysTakenPredictor.new
    false false

end BranchPred

namespace MemHier

/-! ## Replacement sets: call sequences and recency -/

/-- One member-function call on a replacement set. -/
inductive SetCall where
  | Find (tag : Nat)
  | Replace (tag : Nat)
  | DeleteIfPresent (tag : Nat)
deriving DecidableEq, Repr

/-- The set after one call (the value returned is dropped). -/
def LRU.call (s : LRU) : SetCall → LRU
  | .Find tag => (s.Find tag).2
  | .Replace tag => (s.Replace tag).2
  | .DeleteIfPresent tag => s.DeleteIfPresent tag

/-- The set after a sequence of calls, applied in order. -/
def LRU.run (s : LRU) (calls : List SetCall) : LRU :=
  calls.foldl LRU.call s

/-- Whether a sequence of calls on the set `s` is one `TWO_LEVEL_CACHE::Access` can make:
`Access` calls `Replace(tag)` only after `Find(tag)` has missed, that is for a tag the set does
not hold. -/
def LRU.admits (s : LRU) : List SetCall → Bool
  | [] => true
  | .Replace tag :: cs => !decide (tag ∈ s._tags) && (s.call (.Replace tag)).admits cs
  | c :: cs => (s.call c).admits cs

/-- The tag a call finds or inserts in the set `s`, if any: a `Find` that hits, or a `Replace`
on a set with a positive associativity. -/
def LRU.used (s : LRU) : SetCall → Option Nat
  | .Find tag => if tag ∈ s._tags then some tag else none
  | .Replace tag => if s._associativity > 0 then some tag else none
  | .DeleteIfPresent _ => none

/-- An LRU set together with a clock (the number of the next call, starting at 1) and, for
every tag, the number of the last call that found or inserted it (0: never). -/
structure LRUTimed where
  set : LRU
  clock : Nat
  lastUse : Nat → Nat

/-- One call on a timed set: the set takes the step of the code, the use is recorded at the
current clock value, and the clock advances. -/
def LRUTimed.call (t : LRUTimed) (c : SetCall) : LRUTimed :=
  { set := t.set.call c
    clock := t.clock + 1
    lastUse :=
      match t.set.used c with
      | some tag => Function.update t.lastUse tag t.clock
      | none => t.lastUse }

/-- A sequence of calls on a timed set. -/
def LRUTimed.run (t : LRUTimed) (calls : List SetCall) : LRUTimed :=
  calls.foldl LRUTimed.call t

/-- A fresh timed set of the given associativity: no tags, clock at 1, nothing used. -/
def LRUTimed.start (associativity : Nat) : LRUTimed :=
  { set := LRU.init.SetAssociativity associativity, clock := 1, lastUse := fun _ => 0 }

/-- Invariant of the timed LRU set: no more tags than the associativity, no tag twice, every
tag held has been used at a call before the current clock, and the tags read, from the head, in
strictly increasing order of last use. -/
structure LRUTimed.Inv (t : LRUTimed) : Prop where
  size_le : t.set._tags.length ≤ t.set._associativity
  nodup : t.set._tags.Nodup
  stamp_lt : ∀ x ∈ t.set._tags, t.lastUse x < t.clock
  ordered : t.set._tags.Pairwise (fun x y => t.lastUse x < t.lastUse y)

/-- The sentence of C28 about one `Replace` call, word for word: with `before` and `after` the
tags of the set before and after the call and `ret` the value returned, `ret` is `INVALID`
exactly when no tag was evicted (every tag held before is still held), and a value other than
`INVALID` is a tag that was in the set before the call and is no longer in it. -/
def specReplaceReturn (before after : List Nat) (ret : Nat) : Prop :=
  (ret = INVALID_TAG ↔ ∀ t ∈ before, t ∈ after) ∧
    (ret ≠ INVALID_TAG → ret ∈ before ∧ ret ∉ after)

instance (before after : List Nat) (ret : Nat) : Decidable (specReplaceReturn before after ret) := by
  unfold specReplaceReturn
  infer_instance

/-- A two-way LRU set holding the tags 5 (head) and 9. -/
def lruFull : LRU := { _tags := [5, 9], _associativity := 2 }

/-- A three-way LFU set, full, whose lowest frequency 2 is held by the slots 1 and 2. -/
def lfuFull : LFU :=
  { _lines := [{ tag := 4, frequency := 3 }, { tag := 5, frequency := 2 },
      { tag := 6, frequency := 2 }]
    _associativity := 3 }

end MemHier

namespace MemHier

/-! ## `TWO_LEVEL_CACHE::Access`: what a call looks up -/

/-- The condition `L1Associativity() > 0 && _l1_sets && L1NumSets() > 0` of `Access`: L1 is
enabled. -/
def TWO_LEVEL_CACHE.l1Enabled {SET : Type} (c : TWO_LEVEL_CACHE SET) : Bool :=
  decide (c._l1_associativity > 0) && !c._l1_sets.isEmpty && decide (c.L1NumSets > 0)

/-- The condition `L2Associativity() > 0 && _l2_sets && L2NumSets() > 0` of `Access`: L2 is
enabled. -/
def TWO_LEVEL_CACHE.l2Enabled {SET : Type} (c : TWO_LEVEL_CACHE SET) : Bool :=
  decide (c._l2_associativity > 0) && !c._l2_sets.isEmpty && decide (c.L2NumSets > 0)

/-- The pair `(l1Tag, l1SetIndex)` that `Access` computes for `addr`. -/
def TWO_LEVEL_CACHE.l1Split {SET : Type} (c : TWO_LEVEL_CACHE SET) (addr : Nat) : Nat × Nat :=
  SplitAddress addr c._l1_lineShift c._l1_setIndexMask

/-- The pair `(l2Tag, l2SetIndex)` that `Access` computes for `addr`. -/
def TWO_LEVEL_CACHE.l2Split {SET : Type} (c : TWO_LEVEL_CACHE SET) (addr : Nat) : Nat × Nat :=
  SplitAddress addr c._l2_lineShift c._l2_setIndexMask

/-- The L1 set `Access` looks `addr` up in. -/
def TWO_LEVEL_CACHE.l1Set {SET : Type} [CacheSet SET] (c : TWO_LEVEL_CACHE SET) (addr : Nat) :
    SET :=
  c._l1_sets.getD (c.l1Split addr).2 CacheSet.init

/-- The L2 set `Access` looks `addr` up in. -/
def TWO_LEVEL_CACHE.l2Set {SET : Type} [CacheSet SET] (c : TWO_LEVEL_CACHE SET) (addr : Nat) :
    SET :=
  c._l2_sets.getD (c.l2Split addr).2 CacheSet.init

/-- The value of the local variable `l1Hit` of `Access(addr, ..)` in state `c`: the result of
`Find` on the L1 set of `addr` when L1 is enabled, false otherwise. -/
def TWO_LEVEL_CACHE.l1Hit {SET : Type} [CacheSet SET] (c : TWO_LEVEL_CACHE SET) (addr : Nat) :
    Bool :=
  if c.l1Enabled then (CacheSet.Find (c.l1Set addr) (c.l1Split addr).1).1 else false

/-- The value the local variable `l2Hit` of `Access(addr, ..)` takes in state `c` when the L2
lookup is made: the result of `Find` on the L2 set of `addr` when L2 is enabled, false
otherwise. -/
def TWO_LEVEL_CACHE.l2Hit {SET : Type} [CacheSet SET] (c : TWO_LEVEL_CACHE SET) (addr : Nat) :
    Bool :=
  if c.l2Enabled then (CacheSet.Find (c.l2Set addr) (c.l2Split addr).1).1 else false

/-- The L1 set array once the L1 half of an `Access` that misses L1 is done: `Find` has run on
the L1 set of `addr` and, for a load or under store-allocate, `Replace(l1Tag)` after it. -/
def TWO_LEVEL_CACHE.l1AfterMiss {SET : Type} [CacheSet SET] (m : Macros)
    (c : TWO_LEVEL_CACHE SET) (addr : Nat) (accessType : ACCESS_TYPE) : List SET :=
  if accessType = .ACCESS_TYPE_LOAD ∨ m.STORE_ALLOCATION = STORE_ALLOCATE then
    c._l1_sets.set (c.l1Split addr).2
      (CacheSet.Replace (CacheSet.Find (c.l1Set addr) (c.l1Split addr).1).2 (c.l1Split addr).1).2
  else
    c._l1_sets.set (c.l1Split addr).2 (CacheSet.Find (c.l1Set addr) (c.l1Split addr).1).2

/-- The value of `l2_evicted_tag` in an `Access(addr, ..)` that misses both levels: what
`Replace(l2Tag)` returns on the L2 set of `addr`, after the `Find` that missed. -/
def TWO_LEVEL_CACHE.l2Evicted {SET : Type} [CacheSet SET] (c : TWO_LEVEL_CACHE SET)
    (addr : Nat) : Nat :=
  (CacheSet.Replace (CacheSet.Find (c.l2Set addr) (c.l2Split addr).1).2 (c.l2Split addr).1).1

/-- The value of `reconstructed_l2_block_addr` in an `Access(addr, ..)` that misses both
levels. -/
def TWO_LEVEL_CACHE.evictedBlockAddr {SET : Type} [CacheSet SET] (c : TWO_LEVEL_CACHE SET)
    (addr : Nat) : Nat :=
  (((c.l2Evicted addr <<< (if c.L2NumSets > 0 then FloorLog2 c.L2NumSets else 0)) % 2 ^ 64
      ||| (c.l2Split addr).2) <<< c._l2_lineShift) % 2 ^ 64

/-- What `TWO_LEVEL_CACHE` relies on from a replacement policy `SET`, with `assoc` reading the
associativity of a set: `Find` answers whether the tag is held and keeps the tags held;
`Replace` on a set of positive associativity leaves the new tag in the set and adds no other
tag; `DeleteIfPresent` adds no tag; and none of them changes the associativity. -/
structure CacheSet.Lawful (SET : Type) [CacheSet SET] (assoc : SET → Nat) : Prop where
  init_assoc : ∀ a : Nat, assoc (CacheSet.SetAssociativity (CacheSet.init : SET) a) = a
  init_tags : ∀ a : Nat, CacheSet.Tags (CacheSet.SetAssociativity (CacheSet.init : SET) a) = []
  find_hit : ∀ (s : SET) (t : Nat), (CacheSet.Find s t).1 = true ↔ t ∈ CacheSet.Tags s
  find_tags : ∀ (s : SET) (t x : Nat),
    x ∈ CacheSet.Tags (CacheSet.Find s t).2 ↔ x ∈ CacheSet.Tags s
  find_assoc : ∀ (s : SET) (t : Nat), assoc (CacheSet.Find s t).2 = assoc s
  replace_mem : ∀ (s : SET) (t : Nat), 0 < assoc s → t ∈ CacheSet.Tags (CacheSet.Replace s t).2
  replace_tags : ∀ (s : SET) (t x : Nat),
    x ∈ CacheSet.Tags (CacheSet.Replace s t).2 → x = t ∨ x ∈ CacheSet.Tags s
  replace_assoc : ∀ (s : SET) (t : Nat), assoc (CacheSet.Replace s t).2 = assoc s
  delete_tags : ∀ (s : SET) (t x : Nat),
    x ∈ CacheSet.Tags (CacheSet.DeleteIfPresent s t) → x ∈ CacheSet.Tags s
  delete_assoc : ∀ (s : SET) (t : Nat), assoc (CacheSet.DeleteIfPresent s t) = assoc s

/-- Consistency of the set arrays of a `TWO_LEVEL_CACHE` with its configuration, as the
constructor builds them: 32-bit set-index masks, one set per set index at each level, and every
set with the associativity of its level. -/
structure TWO_LEVEL_CACHE.SetsWF {SET : Type} (assoc : SET → Nat) (c : TWO_LEVEL_CACHE SET) :
    Prop where
  l1_mask_lt : c._l1_setIndexMask < 2 ^ 32
  l2_mask_lt : c._l2_setIndexMask < 2 ^ 32
  l1_length : c._l1_sets.length = c.L1NumSets
  l2_length : c._l2_sets.length = c.L2NumSets
  l1_assoc : ∀ s ∈ c._l1_sets, assoc s = c._l1_associativity
  l2_assoc : ∀ s ∈ c._l2_sets, assoc s = c._l2_associativity

/-- A small cache for the examples: L1 of 4 bytes in 2-byte blocks, direct mapped (two sets);
L2 of 8 bytes in 4-byte blocks, 2-way (one set); latencies 1, 15 and 250. -/
def cacheSmall (SET : Type) [CacheSet SET] : TWO_LEVEL_CACHE SET :=
  { _l1_access := AccessStats.zero
    _l2_access := AccessStats.zero
    _latencies := { HIT_L1 := 1, HIT_L2 := 15, MISS_L2 := 250 }
    _l1_sets := List.replicate 2 (CacheSet.SetAssociativity CacheSet.init 1)
    _l2_sets := List.replicate 1 (CacheSet.SetAssociativity CacheSet.init 2)
    _l1_cacheSize := 4
    _l2_cacheSize := 8
    _l1_blockSize := 2
    _l2_blockSize := 4
    _l1_associativity := 1
    _l2_associativity := 2
    _l1_lineShift := 1
    _l2_lineShift := 2
    _l1_setIndexMask := 1
    _l2_setIndexMask := 0
    _l2_prefetch_lines := 0 }

end MemHier

namespace MemHier

/-! ## The inclusion loop of `Access`, call by call -/

/-- The `(set index, tag)` pairs for which the inclusion loop of `Access` calls
`DeleteIfPresent`, in the order of the calls: the loop of `inclusionLoop`, with the calls
recorded instead of made. -/
def TWO_LEVEL_CACHE.inclusionCalls {SET : Type} (c : TWO_LEVEL_CACHE SET)
    (reconstructed_l2_block_addr : Nat) : Nat → Nat → List (Nat × Nat)
  | 0, _ => []
  | fuel + 1, offset_in_l2_block =>
    if offset_in_l2_block < c._l2_blockSize then
      let l1_block_addr_to_check := (reconstructed_l2_block_addr + offset_in_l2_block) % 2 ^ 64
      let split := SplitAddress l1_block_addr_to_check c._l1_lineShift c._l1_setIndexMask
      let calls :=
        TWO_LEVEL_CACHE.inclusionCalls c reconstructed_l2_block_addr fuel
          ((offset_in_l2_block + c._l1_blockSize) % 2 ^ 32)
      if split.2 < c.L1NumSets then (split.2, split.1) :: calls else calls
    else []

/-- The call `_l1_sets[idx].DeleteIfPresent(tag)` on an L1 set array. -/
def deleteCall {SET : Type} [CacheSet SET] (l1_sets : List SET) (call : Nat × Nat) : List SET :=
  l1_sets.set call.1 (CacheSet.DeleteIfPresent (l1_sets.getD call.1 CacheSet.init) call.2)

/-- The `(set index, tag)` pair of the L1 block that holds the address `addr`. -/
def TWO_LEVEL_CACHE.l1BlockOf {SET : Type} (c : TWO_LEVEL_CACHE SET) (addr : Nat) : Nat × Nat :=
  ((c.l1Split addr).2, (c.l1Split addr).1)

/-- A cache with 2-byte L1 blocks and 8-byte L2 blocks: L1 of 8 bytes, direct mapped (four
sets); L2 of 16 bytes, 2-way (one set). -/
def cacheWide (SET : Type) [CacheSet SET] : TWO_LEVEL_CACHE SET :=
  { _l1_access := AccessStats.zero
    _l2_access := AccessStats.zero
    _latencies := { HIT_L1 := 1, HIT_L2 := 15, MISS_L2 := 250 }
    _l1_sets := List.replicate 4 (CacheSet.SetAssociativity CacheSet.init 1)
    _l2_sets := List.replicate 1 (CacheSet.SetAssociativity CacheSet.init 2)
    _l1_cacheSize := 8
    _l2_cacheSize := 16
    _l1_blockSize := 2
    _l2_blockSize := 8
    _l1_associativity := 1
    _l2_associativity := 2
    _l1_lineShift := 1
    _l2_lineShift := 3
    _l1_setIndexMask := 3
    _l2_setIndexMask := 0
    _l2_prefetch_lines := 0 }

end MemHier

namespace BranchPred

/-! ## Sequences of shifts -/

/-- The register after the outcomes `bits` have been shifted in, in order, by `shiftRight`. -/
def ShiftRegister.shifts (r : ShiftRegister) (bits : List Bool) : ShiftRegister :=
  bits.foldl ShiftRegister.shiftRight r

end BranchPred

namespace MemHier

/-! ## Laws of the replacement policies behind the set invariants -/

/-- What the set invariants of `TWO_LEVEL_CACHE` rely on from a replacement policy `SET`, next
to `CacheSet.Lawful`: `Find` keeps the tags distinct and their number; `Replace` of a tag the
set does not hold keeps the tags distinct, stays within the associativity, and a tag it returns
other than `INVALID_TAG` was held by the set; `DeleteIfPresent` keeps the tags distinct, adds
none and removes no tag other than its argument. -/
structure CacheSet.KeepsTags (SET : Type) [CacheSet SET] (assoc : SET → Nat) : Prop where
  find_nodup : ∀ (s : SET) (t : Nat),
    (CacheSet.Tags s).Nodup → (CacheSet.Tags (CacheSet.Find s t).2).Nodup
  find_length : ∀ (s : SET) (t : Nat),
    (CacheSet.Tags (CacheSet.Find s t).2).length = (CacheSet.Tags s).length
  replace_nodup : ∀ (s : SET) (t : Nat), t ∉ CacheSet.Tags s →
    (CacheSet.Tags s).Nodup → (CacheSet.Tags (CacheSet.Replace s t).2).Nodup
  replace_length : ∀ (s : SET) (t : Nat), (CacheSet.Tags s).length ≤ assoc s →
    (CacheSet.Tags (CacheSet.Replace s t).2).length ≤ assoc s
  replace_ret : ∀ (s : SET) (t : Nat), 0 < assoc s →
    (CacheSet.Replace s t).1 ≠ INVALID_TAG → (CacheSet.Replace s t).1 ∈ CacheSet.Tags s
  delete_nodup : ∀ (s : SET) (t : Nat),
    (CacheSet.Tags s).Nodup → (CacheSet.Tags (CacheSet.DeleteIfPresent s t)).Nodup
  delete_length : ∀ (s : SET) (t : Nat),
    (CacheSet.Tags (CacheSet.DeleteIfPresent s t)).length ≤ (CacheSet.Tags s).length
  delete_other : ∀ (s : SET) (t x : Nat), x ∈ CacheSet.Tags s → x ≠ t →
    x ∈ CacheSet.Tags (CacheSet.DeleteIfPresent s t)

/-- The geometry the constructor of `TWO_LEVEL_CACHE` asserts, on 32-bit sizes: a block size is
zero or the power of two of its line shift, the L1 block is not larger than the L2 block unless
the latter is zero, and a positive number of sets is a power of two. -/
structure TWO_LEVEL_CACHE.Geom {SET : Type} (c : TWO_LEVEL_CACHE SET) : Prop where
  l1_block : c._l1_blockSize = 0 ∨ (c._l1_lineShift ≤ 31 ∧ c._l1_blockSize = 2 ^ c._l1_lineShift)
  l2_block : c._l2_blockSize = 0 ∨ (c._l2_lineShift ≤ 31 ∧ c._l2_blockSize = 2 ^ c._l2_lineShift)
  block_le : c._l1_blockSize ≤ c._l2_blockSize ∨ c._l2_blockSize = 0
  l1_sets : 0 < c.L1NumSets → ∃ k, k ≤ 31 ∧ c._l1_setIndexMask = 2 ^ k - 1
  l2_sets : 0 < c.L2NumSets → ∃ k, k ≤ 31 ∧ c._l2_setIndexMask = 2 ^ k - 1

end MemHier

/-! # Theorems: `NbitPredictor` -/

namespace BranchPred

theorem pow_mod_two_pow_32 {n : Nat} (h : n ≤ 31) : (1 <<< n) % 2 ^ 32 = 2 ^ n := by
  rw [Nat.one_shiftLeft]
  exact Nat.mod_eq_of_lt (Nat.pow_lt_pow_right (by decide) (by omega))

theorem counter_max_eq {w : Nat} (h : w ≤ 31) :
    ((1 <<< w) % 2 ^ 32 + (2 ^ 32 - 1)) % 2 ^ 32 = 2 ^ w - 1 := by
  rw [pow_mod_two_pow_32 h]
  have h1 : 2 ^ w < 2 ^ 32 := Nat.pow_lt_pow_right (by decide) (by omega)
  have h2 : 0 < 2 ^ w := Nat.two_pow_pos _
  omega

/-- The constructor establishes `WF` for parameters below 32. -/
theorem NbitPredictor.new_WF {i w : Nat} (v : Int) (hi : i ≤ 31) (hw : w ≤ 31) :
    (NbitPredictor.new i w v).WF := by
  refine ⟨hi, hw, ?_, ?_, ?_, ?_⟩
  · exact pow_mod_two_pow_32 hi
  · simp [NbitPredictor.new]
  · exact counter_max_eq hw
  · intro h
    simp only [NbitPredictor.new] at h ⊢
    simp [h]

/-- An `update` keeps `WF`. -/
theorem NbitPredictor.update_WF {p : NbitPredictor} (h : p.WF) (pr a : Bool) (ip t : Nat) :
    (p.update pr a ip t).WF := by
  refine ⟨h.index_le, h.cntr_le, h.entries_eq, ?_, h.max_eq, h.type_eq⟩
  simp [NbitPredictor.update, h.length_eq]

theorem NbitPredictor.updates_WF {p : NbitPredictor} (h : p.WF) (calls : List UpdateCall) :
    (p.updates calls).WF := by
  induction calls generalizing p with
  | nil => exact h
  | cons c cs ih => exact ih (NbitPredictor.update_WF h _ _ _ _)

/-- The table index used by `predict` and `update` is `ip mod 2^index_bits`. -/
theorem NbitPredictor.index_eq {p : NbitPredictor} (h : p.WF) (ip : Nat) :
    (ip % p.table_entries) % 2 ^ 32 = ip % 2 ^ p.index_bits := by
  rw [h.entries_eq]
  apply Nat.mod_eq_of_lt
  have h1 : ip % 2 ^ p.index_bits < 2 ^ p.index_bits := Nat.mod_lt _ (Nat.two_pow_pos _)
  have h2 : 2 ^ p.index_bits < 2 ^ 32 := Nat.pow_lt_pow_right (by decide) (by have := h.index_le; omega)
  omega

theorem NbitPredictor.fsm_le {type : Int} {M s : Nat} (a : Bool) (hs : s ≤ M)
    (hM : type ≠ 1 → M = 3) : NbitPredictor.fsm type M a s ≤ M := by
  unfold NbitPredictor.fsm
  by_cases h1 : type = 1
  · simp only [h1, if_true]
    split_ifs <;> omega
  · have hM3 := hM h1
    subst hM3
    simp only [h1, if_false]
    split_ifs <;> omega

theorem NbitPredictor.getD_le_of_forall {l : List Nat} {M : Nat} (h : ∀ x ∈ l, x ≤ M) (i : Nat) :
    l.getD i 0 ≤ M := by
  by_cases hi : i < l.length
  · rw [List.getD_eq_getElem _ _ hi]
    exact h _ (List.getElem_mem _)
  · rw [List.getD_eq_default _ _ (by omega)]
    exact Nat.zero_le _

theorem NbitPredictor.update_Bounded {p : NbitPredictor} (h : p.Bounded) (pr a : Bool)
    (ip t : Nat) : (p.update pr a ip t).Bounded := by
  refine ⟨?_, h.2⟩
  intro x hx
  simp only [NbitPredictor.update] at hx ⊢
  rcases List.mem_or_eq_of_mem_set hx with hx | hx
  · exact h.1 x hx
  · rw [hx]
    exact NbitPredictor.fsm_le a (NbitPredictor.getD_le_of_forall h.1 _) h.2

theorem NbitPredictor.updates_Bounded {p : NbitPredictor} (h : p.Bounded)
    (calls : List UpdateCall) : (p.updates calls).Bounded := by
  induction calls generalizing p with
  | nil => exact h
  | cons c cs ih => exact ih (NbitPredictor.update_Bounded h _ _ _ _)

theorem NbitPredictor.updates_COUNTER_MAX (p : NbitPredictor) (calls : List UpdateCall) :
    (p.updates calls).COUNTER_MAX = p.COUNTER_MAX := by
  induction calls generalizing p with
  | nil => rfl
  | cons c cs ih => exact ih _

theorem NbitPredictor.new_Bounded (i : Nat) {w : Nat} (v : Int) (hw : w ≤ 31) :
    (NbitPredictor.new i w v).Bounded := by
  constructor
  · intro x hx
    simp only [NbitPredictor.new] at hx
    rw [List.eq_of_mem_replicate hx]
    exact Nat.zero_le _
  · intro ht
    by_cases h2 : w = 2
    · subst h2
      rfl
    · exact absurd (by simp [NbitPredictor.new, h2]) ht

/-- C7: for every index width `i`, counter width `w ≤ 31` (in particular `1 ≤ w ≤ 31`) and
requested variant `v`, after any sequence of `update` calls on the freshly constructed (all-zero) table every table entry is at most
`2^w - 1`. -/
theorem NbitPredictor.entries_le_counter_max (i w : Nat) (v : Int) (calls : List UpdateCall)
    (hw : w ≤ 31) :
    ∀ x ∈ ((NbitPredictor.new i w v).updates calls).TABLE, x ≤ 2 ^ w - 1 := by
  intro x hx
  have hb := NbitPredictor.updates_Bounded (NbitPredictor.new_Bounded i v hw) calls
  have hm : ((NbitPredictor.new i w v).updates calls).COUNTER_MAX = 2 ^ w - 1 := by
    rw [NbitPredictor.updates_COUNTER_MAX]
    exact counter_max_eq hw
  rw [← hm]
  exact hb.1 x hx

theorem NbitPredictor.entries_le_counter_max_witness :
    2 ≤ 31 ∧
      ∀ x ∈ ((NbitPredictor.new 1 2 5).updates
        [(false, true, 0, 0), (false, true, 0, 0), (true, true, 2, 0), (true, false, 1, 7)]).TABLE,
        x ≤ 2 ^ 2 - 1 :=
  ⟨by decide, NbitPredictor.entries_le_counter_max 1 2 5 _ (by decide)⟩

theorem NbitPredictor.updates_type (p : NbitPredictor) (calls : List UpdateCall) :
    (p.updates calls).type = p.type := by
  induction calls generalizing p with
  | nil => rfl
  | cons c cs ih => exact ih _

theorem NbitPredictor.updates_index_bits (p : NbitPredictor) (calls : List UpdateCall) :
    (p.updates calls).index_bits = p.index_bits := by
  induction calls generalizing p with
  | nil => rfl
  | cons c cs ih => exact ih _

theorem NbitPredictor.updates_cntr_bits (p : NbitPredictor) (calls : List UpdateCall) :
    (p.updates calls).cntr_bits = p.cntr_bits := by
  induction calls generalizing p with
  | nil => rfl
  | cons c cs ih => exact ih _

/-- The table after one `update`, entry by entry: the indexed entry takes the value the state
machine computes and every other entry, and the length, stay as they were. -/
theorem NbitPredictor.update_table {p : NbitPredictor} (h : p.WF) (pr a : Bool) (ip t : Nat) :
    (p.update pr a ip t).TABLE.getD (ip % 2 ^ p.index_bits) 0
        = NbitPredictor.fsm p.type p.COUNTER_MAX a (p.TABLE.getD (ip % 2 ^ p.index_bits) 0)
      ∧ (∀ j, j ≠ ip % 2 ^ p.index_bits →
          (p.update pr a ip t).TABLE.getD j 0 = p.TABLE.getD j 0)
      ∧ (p.update pr a ip t).TABLE.length = p.TABLE.length := by
  have hlt : ip % 2 ^ p.index_bits < p.TABLE.length := by
    rw [h.length_eq, h.entries_eq]
    exact Nat.mod_lt _ (Nat.two_pow_pos _)
  simp only [NbitPredictor.update, NbitPredictor.index_eq h]
  refine ⟨?_, ?_, ?_⟩
  · simp [List.getD_eq_getElem?_getD, List.getElem?_set, hlt]
  · intro j hj
    simp [List.getD_eq_getElem?_getD, List.getElem?_set, Ne.symm hj]
  · simp

theorem NbitPredictor.fsm_one (M : Nat) (a : Bool) (s : Nat) :
    NbitPredictor.fsm 1 M a s = specSaturating M a s := by
  simp [NbitPredictor.fsm, specSaturating]

/-- C8: for a predictor constructed with variant 1, or with any variant when the counter width is
not 2, and brought to any state by earlier updates, `update(pc, actual)` applies the plain
saturating counter (maximum `2^w - 1`) to the entry at `pc mod 2^i` and leaves every other entry
unchanged. -/
theorem NbitPredictor.update_variant_one (i w : Nat) (v : Int) (calls : List UpdateCall)
    (hi : i ≤ 31) (hw : w ≤ 31) (hv : v = 1 ∨ w ≠ 2) (pr a : Bool) (ip t : Nat) :
    (((NbitPredictor.new i w v).updates calls).update pr a ip t).TABLE.getD (ip % 2 ^ i) 0
        = specSaturating (2 ^ w - 1) a
            (((NbitPredictor.new i w v).updates calls).TABLE.getD (ip % 2 ^ i) 0)
      ∧ (∀ j, j ≠ ip % 2 ^ i →
          (((NbitPredictor.new i w v).updates calls).update pr a ip t).TABLE.getD j 0
            = ((NbitPredictor.new i w v).updates calls).TABLE.getD j 0)
      ∧ (((NbitPredictor.new i w v).updates calls).update pr a ip t).TABLE.length = 2 ^ i := by
  have hwf := NbitPredictor.updates_WF (NbitPredictor.new_WF v hi hw) calls
  have hib : ((NbitPredictor.new i w v).updates calls).index_bits = i :=
    NbitPredictor.updates_index_bits _ _
  have hty : ((NbitPredictor.new i w v).updates calls).type = 1 := by
    rw [NbitPredictor.updates_type]
    rcases hv with hv | hv
    · simp [NbitPredictor.new, hv]
    · simp [NbitPredictor.new, hv]
  have hcm : ((NbitPredictor.new i w v).updates calls).COUNTER_MAX = 2 ^ w - 1 := by
    rw [NbitPredictor.updates_COUNTER_MAX]
    exact counter_max_eq hw
  obtain ⟨h1, h2, h3⟩ := NbitPredictor.update_table hwf pr a ip t
  rw [hib] at h1 h2
  refine ⟨?_, h2, ?_⟩
  · rw [h1, hty, hcm, NbitPredictor.fsm_one]
  · rw [h3, hwf.length_eq, hwf.entries_eq, hib]

theorem NbitPredictor.update_variant_one_witness :
    (4 ≤ 31 ∧ 3 ≤ 31 ∧ ((5 : Int) = 1 ∨ 3 ≠ 2)) ∧
    ((((NbitPredictor.new 4 3 5).updates [(true, true, 18, 0)]).update false true 2 0).TABLE.getD
          (2 % 2 ^ 4) 0
        = specSaturating (2 ^ 3 - 1) true
            (((NbitPredictor.new 4 3 5).updates [(true, true, 18, 0)]).TABLE.getD (2 % 2 ^ 4) 0)
      ∧ (∀ j, j ≠ 2 % 2 ^ 4 →
          (((NbitPredictor.new 4 3 5).updates [(true, true, 18, 0)]).update false true 2
              0).TABLE.getD j 0
            = ((NbitPredictor.new 4 3 5).updates [(true, true, 18, 0)]).TABLE.getD j 0)
      ∧ (((NbitPredictor.new 4 3 5).updates [(true, true, 18, 0)]).update false true 2
              0).TABLE.length = 2 ^ 4) :=
  ⟨⟨by decide, by decide, Or.inr (by decide)⟩,
    NbitPredictor.update_variant_one 4 3 5 [(true, true, 18, 0)] (by decide) (by decide)
      (Or.inr (by decide)) false true 2 0⟩

theorem NbitPredictor.fsm_spec_table {v : Nat} (hv : v = 2 ∨ v = 3 ∨ v = 4 ∨ v = 5) (a : Bool)
    (s : Nat) : NbitPredictor.fsm (v : Int) 3 a s = specFsmTable v a s := by
  rcases hv with rfl | rfl | rfl | rfl <;> cases a <;>
    simp [NbitPredictor.fsm, specFsmTable]

theorem specFsmTable_eq_exceptions {v : Nat} (hv : v = 2 ∨ v = 3 ∨ v = 4 ∨ v = 5) (a : Bool)
    (s : Nat) : specFsmTable v a s = specFsmExceptions v a s := by
  rcases hv with rfl | rfl | rfl | rfl <;> cases a <;>
    simp only [specFsmTable, specFsmExceptions, specSaturating] <;> split_ifs <;> simp_all

/-- C9: for a two-bit predictor of variant `v ∈ {2,3,4,5}`, `update` maps the indexed counter `s`
to the value the specification's transition table gives for `(v, actual, s)`; that value is the
saturating counter of variant 1 except for the listed transitions (`v = 2, 4`: `2 → 0` on
not-taken; `v = 3, 4, 5`: `1 → 3` on taken; `v = 5`: `3 → 2` on taken).  Other entries are
unchanged. -/
theorem NbitPredictor.update_variants_two_to_five (p : NbitPredictor) (h : p.WF)
    (hw : p.cntr_bits = 2) (v : Nat) (hv : v = 2 ∨ v = 3 ∨ v = 4 ∨ v = 5)
    (ht : p.type = (v : Int)) (pr a : Bool) (ip t : Nat) :
    (p.update pr a ip t).TABLE.getD (ip % 2 ^ p.index_bits) 0
        = specFsmTable v a (p.TABLE.getD (ip % 2 ^ p.index_bits) 0)
      ∧ specFsmTable v a (p.TABLE.getD (ip % 2 ^ p.index_bits) 0)
        = specFsmExceptions v a (p.TABLE.getD (ip % 2 ^ p.index_bits) 0)
      ∧ (∀ j, j ≠ ip % 2 ^ p.index_bits →
          (p.update pr a ip t).TABLE.getD j 0 = p.TABLE.getD j 0) := by
  obtain ⟨h1, h2, _⟩ := NbitPredictor.update_table h pr a ip t
  have hcm : p.COUNTER_MAX = 3 := by rw [h.max_eq, hw]; rfl
  refine ⟨?_, specFsmTable_eq_exceptions hv a _, h2⟩
  rw [h1, ht, hcm, NbitPredictor.fsm_spec_table hv]

theorem NbitPredictor.update_variants_two_to_five_witness :
    (sctVariantTwoAtTwo.WF ∧ sctVariantTwoAtTwo.cntr_bits = 2 ∧
      ((2 : Nat) = 2 ∨ (2 : Nat) = 3 ∨ (2 : Nat) = 4 ∨ (2 : Nat) = 5) ∧
      sctVariantTwoAtTwo.type = ((2 : Nat) : Int)) ∧
    ((sctVariantTwoAtTwo.update true false 0 0).TABLE.getD (0 % 2 ^ sctVariantTwoAtTwo.index_bits) 0
        = specFsmTable 2 false
            (sctVariantTwoAtTwo.TABLE.getD (0 % 2 ^ sctVariantTwoAtTwo.index_bits) 0)
      ∧ specFsmTable 2 false
            (sctVariantTwoAtTwo.TABLE.getD (0 % 2 ^ sctVariantTwoAtTwo.index_bits) 0)
        = specFsmExceptions 2 false
            (sctVariantTwoAtTwo.TABLE.getD (0 % 2 ^ sctVariantTwoAtTwo.index_bits) 0)
      ∧ (∀ j, j ≠ 0 % 2 ^ sctVariantTwoAtTwo.index_bits →
          (sctVariantTwoAtTwo.update true false 0 0).TABLE.getD j 0
            = sctVariantTwoAtTwo.TABLE.getD j 0)) :=
  ⟨⟨NbitPredictor.updates_WF (NbitPredictor.new_WF 2 (by decide) (by decide)) _, rfl,
      Or.inl rfl, rfl⟩,
    NbitPredictor.update_variants_two_to_five sctVariantTwoAtTwo
      (NbitPredictor.updates_WF (NbitPredictor.new_WF 2 (by decide) (by decide)) _) rfl 2
      (Or.inl rfl) rfl true false 0 0⟩

/-- Scenario 2 of the specification evaluated on the code: counter 2, not-taken, variant 2. -/
theorem sctVariantTwoAtTwo_eval :
    sctVariantTwoAtTwo.TABLE = [2] ∧ (sctVariantTwoAtTwo.predict 0 0).1 = true ∧
      (sctVariantTwoAtTwo.update true false 0 0).TABLE = [0] := by
  decide

theorem shiftRight_ne_zero_iff (x k : Nat) : (x >>> k != 0) = decide (2 ^ k ≤ x) := by
  rw [Nat.shiftRight_eq_div_pow]
  have hp : 0 < 2 ^ k := Nat.two_pow_pos k
  by_cases h : 2 ^ k ≤ x
  · have : 0 < x / 2 ^ k := Nat.div_pos h hp
    simp [h]
    omega
  · have : x / 2 ^ k = 0 := Nat.div_eq_of_lt (by omega)
    simp [h, this]

theorem testBit_top {x w : Nat} (hw : 1 ≤ w) (hx : x ≤ 2 ^ w - 1) :
    x.testBit (w - 1) = decide (2 ^ (w - 1) ≤ x) := by
  obtain ⟨k, rfl⟩ : ∃ k, w = k + 1 := ⟨w - 1, by omega⟩
  simp only [Nat.add_sub_cancel]
  have hp : 0 < 2 ^ k := Nat.two_pow_pos k
  have hx2 : x < 2 ^ k * 2 := by rw [← Nat.pow_succ]; omega
  rw [Nat.testBit_to_div_mod]
  have hlt : x / 2 ^ k < 2 := Nat.div_lt_of_lt_mul hx2
  by_cases h : 2 ^ k ≤ x
  · have : 0 < x / 2 ^ k := Nat.div_pos h hp
    have h1 : x / 2 ^ k = 1 := by omega
    simp [h, h1]
  · have : x / 2 ^ k = 0 := Nat.div_eq_of_lt (by omega)
    simp [h, this]

/-- The value `predict` returns, for a counter width of at least one bit. -/
theorem NbitPredictor.predict_fst {p : NbitPredictor} (h : p.WF) (hw : 1 ≤ p.cntr_bits)
    (ip t : Nat) :
    (p.predict ip t).1
      = decide (2 ^ (p.cntr_bits - 1) ≤ p.TABLE.getD (ip % 2 ^ p.index_bits) 0) := by
  have hsh : (p.cntr_bits + (2 ^ 32 - 1)) % 2 ^ 32 = p.cntr_bits - 1 := by
    have := h.cntr_le
    omega
  simp only [NbitPredictor.predict, NbitPredictor.index_eq h, hsh]
  exact shiftRight_ne_zero_iff _ _

/-- C10: in a state whose entries respect the bound `2^w - 1` (with `1 ≤ w`), `predict(pc)`
returns true exactly when the entry at index `pc mod 2^i` is at least `2^(w-1)`, which is the
value of bit `w - 1` (the most significant bit) of that entry; the state returned by `predict` is
the state it was called on. -/
theorem NbitPredictor.predict_msb (p : NbitPredictor) (h : p.WF) (hw : 1 ≤ p.cntr_bits)
    (hb : ∀ x ∈ p.TABLE, x ≤ 2 ^ p.cntr_bits - 1) (ip t : Nat) :
    ((p.predict ip t).1 = true ↔ 2 ^ (p.cntr_bits - 1) ≤ p.TABLE.getD (ip % 2 ^ p.index_bits) 0)
      ∧ (p.predict ip t).1 = (p.TABLE.getD (ip % 2 ^ p.index_bits) 0).testBit (p.cntr_bits - 1)
      ∧ (p.predict ip t).2 = p := by
  have hv := NbitPredictor.predict_fst h hw ip t
  refine ⟨?_, ?_, rfl⟩
  · rw [hv]; simp
  · rw [hv, testBit_top hw (NbitPredictor.getD_le_of_forall hb _)]

theorem NbitPredictor.predict_msb_witness :
    (sctThreeBit.WF ∧ 1 ≤ sctThreeBit.cntr_bits ∧
      ∀ x ∈ sctThreeBit.TABLE, x ≤ 2 ^ sctThreeBit.cntr_bits - 1) ∧
    (((sctThreeBit.predict 6 0).1 = true ↔
        2 ^ (sctThreeBit.cntr_bits - 1) ≤ sctThreeBit.TABLE.getD (6 % 2 ^ sctThreeBit.index_bits) 0)
      ∧ (sctThreeBit.predict 6 0).1
        = (sctThreeBit.TABLE.getD (6 % 2 ^ sctThreeBit.index_bits) 0).testBit
            (sctThreeBit.cntr_bits - 1)
      ∧ (sctThreeBit.predict 6 0).2 = sctThreeBit) :=
  ⟨⟨NbitPredictor.updates_WF (NbitPredictor.new_WF 1 (by decide) (by decide)) _, by decide,
      by decide⟩,
    NbitPredictor.predict_msb sctThreeBit
      (NbitPredictor.updates_WF (NbitPredictor.new_WF 1 (by decide) (by decide)) _) (by decide)
      (by decide) 6 0⟩

/-- The example three-bit table and its predictions: entry 2 at index 1 predicts not-taken, entry
4 at index 2 predicts taken. -/
theorem sctThreeBit_eval :
    sctThreeBit.TABLE = [0, 2, 4, 0] ∧ (sctThreeBit.predict 5 0).1 = false ∧
      (sctThreeBit.predict 6 0).1 = true := by
  decide

end BranchPred

/-! # Theorems: `BTBPredictor` -/

namespace BranchPred

/-! ### Lists: first match, move to front -/

theorem find?_decomp {α : Type} {p : α → Bool} {s : List α} {e : α} (h : s.find? p = some e) :
    ∃ l1 l2, s = l1 ++ e :: l2 ∧ (∀ x ∈ l1, ¬ p x = true) ∧ p e = true ∧
      s.eraseP p = l1 ++ l2 := by
  obtain ⟨hpe, l1, l2, hs, hl1⟩ := List.find?_eq_some.mp h
  have hl1' : ∀ x ∈ l1, ¬ p x = true := fun x hx => by simpa using hl1 x hx
  refine ⟨l1, l2, hs, hl1', hpe, ?_⟩
  rw [hs, List.eraseP_append_right _ hl1', List.eraseP_cons_of_pos hpe]

theorem find?_of_decomp {α : Type} {p : α → Bool} {s l1 l2 : List α} {e : α}
    (hs : s = l1 ++ e :: l2) (hl1 : ∀ x ∈ l1, ¬ p x = true) (hpe : p e = true) :
    s.find? p = some e ∧ s.eraseP p = l1 ++ l2 := by
  constructor
  · rw [List.find?_eq_some]
    exact ⟨hpe, l1, l2, hs, fun x hx => by simpa using hl1 x hx⟩
  · rw [hs, List.eraseP_append_right _ hl1, List.eraseP_cons_of_pos hpe]

theorem getD_set_self {α : Type} (l : List α) (i : Nat) (x d : α) (h : i < l.length) :
    (l.set i x).getD i d = x := by
  simp [List.getD_eq_getElem?_getD, List.getElem?_set, h]

theorem getD_set_ne {α : Type} (l : List α) {i j : Nat} (x d : α) (h : j ≠ i) :
    (l.set i x).getD j d = l.getD j d := by
  simp [List.getD_eq_getElem?_getD, List.getElem?_set, Ne.symm h]

theorem mem_getD_of_mem {α : Type} {l : List (List α)} {s : List α} (h : s ∈ l) :
    ∃ j, j < l.length ∧ l.getD j [] = s := by
  obtain ⟨j, hj, rfl⟩ := List.getElem_of_mem h
  exact ⟨j, hj, by simp [List.getD_eq_getElem?_getD, hj]⟩

theorem getD_mem_or_nil {α : Type} (l : List (List α)) (j : Nat) :
    l.getD j [] ∈ l ∨ l.getD j [] = [] := by
  by_cases hj : j < l.length
  · left
    rw [List.getD_eq_getElem _ _ hj]
    exact List.getElem_mem _
  · right
    exact List.getD_eq_default _ _ (by omega)

/-! ### The two set transformers -/

theorem touchSet_of_not_mem {ip : Nat} {s : List BufferEntry} (h : ∀ x ∈ s, x.ip ≠ ip) :
    touchSet ip s = s := by
  have : s.find? (fun e => decide (e.ip = ip)) = none := by
    rw [List.find?_eq_none]
    intro x hx
    simpa using h x hx
  simp [touchSet, this]

theorem touchSet_of_decomp {ip : Nat} {s l1 l2 : List BufferEntry} {e : BufferEntry}
    (hs : s = l1 ++ e :: l2) (hl1 : ∀ x ∈ l1, x.ip ≠ ip) (he : e.ip = ip) :
    touchSet ip s = e :: (l1 ++ l2) := by
  obtain ⟨h1, h2⟩ := find?_of_decomp (p := fun e => decide (e.ip = ip)) hs
    (fun x hx => by simpa using hl1 x hx) (by simpa using he)
  simp [touchSet, h1, h2]

theorem updateSet_of_not_mem {assoc : Nat} {a : Bool} {ip t : Nat} {s : List BufferEntry}
    (h : ∀ x ∈ s, x.ip ≠ ip) :
    updateSet assoc a ip t s =
      if a then
        (if assoc ≤ s.length then { ip := ip, target := t } :: s.dropLast
         else { ip := ip, target := t } :: s)
      else s := by
  have : s.find? (fun e => decide (e.ip = ip)) = none := by
    rw [List.find?_eq_none]
    intro x hx
    simpa using h x hx
  simp [updateSet, this]

theorem updateSet_of_decomp {assoc : Nat} {a : Bool} {ip t : Nat} {s l1 l2 : List BufferEntry}
    {e : BufferEntry} (hs : s = l1 ++ e :: l2) (hl1 : ∀ x ∈ l1, x.ip ≠ ip) (he : e.ip = ip) :
    updateSet assoc a ip t s = if a then e :: (l1 ++ l2) else l1 ++ l2 := by
  obtain ⟨h1, h2⟩ := find?_of_decomp (p := fun e => decide (e.ip = ip)) hs
    (fun x hx => by simpa using hl1 x hx) (by simpa using he)
  simp [updateSet, h1, h2]

/-- Either no entry of `s` has the given `ip`, or `s` splits at its first entry for `ip`. -/
theorem split_first (ip : Nat) (s : List BufferEntry) :
    (∀ x ∈ s, x.ip ≠ ip) ∨
      ∃ l1 e l2, s = l1 ++ e :: l2 ∧ (∀ x ∈ l1, x.ip ≠ ip) ∧ e.ip = ip := by
  cases h : s.find? (fun e => decide (e.ip = ip)) with
  | none =>
    left
    rw [List.find?_eq_none] at h
    intro x hx
    simpa using h x hx
  | some e =>
    right
    obtain ⟨l1, l2, hs, hl1, hpe, _⟩ := find?_decomp h
    exact ⟨l1, e, l2, hs, fun x hx => by simpa using hl1 x hx, by simpa using hpe⟩

/-! ### One call, in terms of the set transformers -/

theorem set_getD_self {α : Type} (l : List α) (i : Nat) (d : α) : l.set i (l.getD i d) = l := by
  apply List.ext_getElem?
  intro j
  by_cases hj : i = j
  · subst hj
    by_cases hi : i < l.length
    · simp [List.getElem?_set, hi, List.getD_eq_getElem?_getD]
    · simp [List.getElem?_set, hi, List.getElem?_eq_none (Nat.le_of_not_lt hi)]
  · simp [List.getElem?_set, hj]

theorem BTBPredictor.set_index_eq {b : BTBPredictor} (hpos : 0 < b.num_sets)
    (hlt : b.num_sets < 2 ^ 32) (ip : Nat) : (ip % b.num_sets) % 2 ^ 32 = ip % b.num_sets := by
  have := Nat.mod_lt ip hpos
  omega

/-- The result of `predict`: it returns, the flag is true exactly when the first entry for `ip`
stores the observed target, and the only list that changes is the one of the set of `ip`. -/
theorem BTBPredictor.predict_spec (b : BTBPredictor) (hpos : 0 < b.num_sets)
    (hlt : b.num_sets < 2 ^ 32) (ip t : Nat) :
    ∃ r b', b.predict ip t = some (r, b') ∧
      b'.sets = b.sets.set (ip % b.num_sets) (touchSet ip (b.setOf ip)) ∧
      b'.num_sets = b.num_sets ∧ b'.table_assoc = b.table_assoc ∧
      b'.table_lines = b.table_lines ∧ b'.base = b.base ∧
      (r = true ↔ ∃ e, (b.setOf ip).find? (fun e => e.ip = ip) = some e ∧ e.target = t) := by
  have hne : b.num_sets ≠ 0 := by omega
  simp only [BTBPredictor.predict, hne, if_false, BTBPredictor.set_index_eq hpos hlt,
    BTBPredictor.setOf, touchSet]
  cases hf : (b.sets.getD (ip % b.num_sets) []).find? (fun e => decide (e.ip = ip)) with
  | none =>
    refine ⟨false, b, rfl, ?_, rfl, rfl, rfl, rfl, ?_⟩
    · exact (set_getD_self _ _ _).symm
    · simp
  | some e =>
    by_cases ht : e.target = t
    · simp only [ht, if_true]
      exact ⟨true, _, rfl, rfl, rfl, rfl, rfl, rfl, by simp [ht]⟩
    · simp only [ht, if_false]
      exact ⟨false, _, rfl, rfl, rfl, rfl, rfl, rfl, by simp [ht]⟩

/-- The result of `update` in a state whose sets respect the associativity bound: it returns,
and the only list that changes is the one of the set of `ip`. -/
theorem BTBPredictor.update_spec (b : BTBPredictor) (hpos : 0 < b.num_sets)
    (hlt : b.num_sets < 2 ^ 32) (hassoc : 1 ≤ b.table_assoc) (pr a : Bool) (ip t : Nat) :
    ∃ b', b.update pr a ip t = some b' ∧
      b'.sets = b.sets.set (ip % b.num_sets) (updateSet b.table_assoc a ip t (b.setOf ip)) ∧
      b'.num_sets = b.num_sets ∧ b'.table_assoc = b.table_assoc ∧
      b'.table_lines = b.table_lines ∧ b'.base = b.base.updateCounters pr a ∧
      b'.correct_target_predictions = b.correct_target_predictions := by
  have hne : b.num_sets ≠ 0 := by omega
  simp only [BTBPredictor.update, hne, if_false, BTBPredictor.set_index_eq hpos hlt,
    BTBPredictor.setOf, updateSet]
  cases hf : (b.sets.getD (ip % b.num_sets) []).find? (fun e => decide (e.ip = ip)) with
  | none =>
    cases a with
    | false =>
      refine ⟨_, rfl, ?_, rfl, rfl, rfl, rfl, rfl⟩
      simp only [Bool.false_eq_true, if_false]
      exact (set_getD_self _ _ _).symm
    | true =>
      simp only [if_true]
      by_cases hlen : (b.sets.getD (ip % b.num_sets) []).length ≥ b.table_assoc
      · have hnil : b.sets.getD (ip % b.num_sets) [] ≠ [] := by
          intro h
          rw [h] at hlen
          simp at hlen
          omega
        simp only [hlen, if_true, hnil, if_false]
        exact ⟨_, rfl, rfl, rfl, rfl, rfl, rfl, rfl⟩
      · simp only [hlen, if_false]
        exact ⟨_, rfl, rfl, rfl, rfl, rfl, rfl, rfl⟩
  | some e =>
    exact ⟨_, rfl, rfl, rfl, rfl, rfl, rfl, rfl⟩

/-! ### The class invariant -/

theorem touchSet_perm (ip : Nat) (s : List BufferEntry) : (touchSet ip s).Perm s := by
  rcases split_first ip s with h | ⟨l1, e, l2, hs, hl1, he⟩
  · rw [touchSet_of_not_mem h]
  · rw [touchSet_of_decomp hs hl1 he, hs]
    exact List.perm_middle.symm

theorem updateSet_length_le {assoc : Nat} (a : Bool) (ip t : Nat) {s : List BufferEntry}
    (hassoc : 1 ≤ assoc) (hs : s.length ≤ assoc) : (updateSet assoc a ip t s).length ≤ assoc := by
  rcases split_first ip s with h | ⟨l1, e, l2, hs', hl1, he⟩
  · rw [updateSet_of_not_mem h]
    split_ifs
    · simp only [List.length_cons, List.length_dropLast]
      omega
    · simp only [List.length_cons]
      omega
    · exact hs
  · rw [updateSet_of_decomp hs' hl1 he]
    subst hs'
    simp only [List.length_append, List.length_cons] at hs
    split_ifs
    · simp only [List.length_append, List.length_cons]
      omega
    · simp only [List.length_append]
      omega

theorem updateSet_mem {assoc : Nat} {a : Bool} {ip t : Nat} {s : List BufferEntry}
    {x : BufferEntry} (hx : x ∈ updateSet assoc a ip t s) :
    x ∈ s ∨ x = { ip := ip, target := t } := by
  rcases split_first ip s with h | ⟨l1, e, l2, hs', hl1, he⟩
  · rw [updateSet_of_not_mem h] at hx
    split_ifs at hx
    · rcases List.mem_cons.mp hx with hx | hx
      · exact Or.inr hx
      · exact Or.inl ((List.dropLast_sublist s).subset hx)
    · rcases List.mem_cons.mp hx with hx | hx
      · exact Or.inr hx
      · exact Or.inl hx
    · exact Or.inl hx
  · rw [updateSet_of_decomp hs' hl1 he] at hx
    subst hs'
    left
    split_ifs at hx
    · simp at hx ⊢
      tauto
    · simp at hx ⊢
      tauto

theorem updateSet_nodup {assoc : Nat} (a : Bool) (ip t : Nat) {s : List BufferEntry}
    (hs : (s.map (fun e => e.ip)).Nodup) :
    ((updateSet assoc a ip t s).map (fun e => e.ip)).Nodup := by
  rcases split_first ip s with h | ⟨l1, e, l2, hs', hl1, he⟩
  · rw [updateSet_of_not_mem h]
    have hdrop : (s.dropLast.map (fun e => e.ip)).Nodup :=
      hs.sublist ((List.dropLast_sublist s).map _)
    have hnot : ∀ l : List BufferEntry, l.Sublist s → ip ∉ l.map (fun e => e.ip) := by
      intro l hl hmem
      obtain ⟨x, hx, hxe⟩ := List.mem_map.mp hmem
      exact h x (hl.subset hx) hxe
    split_ifs
    · simp only [List.map_cons, List.nodup_cons]
      exact ⟨hnot _ (List.dropLast_sublist s), hdrop⟩
    · simp only [List.map_cons, List.nodup_cons]
      exact ⟨hnot _ (List.Sublist.refl s), hs⟩
    · exact hs
  · rw [updateSet_of_decomp hs' hl1 he]
    subst hs'
    have hperm : (e :: (l1 ++ l2)).Perm (l1 ++ e :: l2) := List.perm_middle.symm
    split_ifs
    · exact (hperm.map _).nodup_iff.mpr hs
    · exact ((hperm.map (fun e => e.ip)).nodup_iff.mpr hs).sublist
        ((List.sublist_cons_self e (l1 ++ l2)).map _)

/-- Replacing the list of the set of `ip` by a list that respects the bound, has distinct `ip`s
and only holds entries mapping to that set keeps the class invariant. -/
theorem BTBPredictor.Inv.set {b b' : BTBPredictor} (h : b.Inv) (ip : Nat)
    {s' : List BufferEntry} (hsets : b'.sets = b.sets.set (ip % b.num_sets) s')
    (hn : b'.num_sets = b.num_sets) (ha : b'.table_assoc = b.table_assoc)
    (hlen : s'.length ≤ b.table_assoc) (hnd : (s'.map (fun e => e.ip)).Nodup)
    (hhome : ∀ e ∈ s', e.ip % b.num_sets = ip % b.num_sets) : b'.Inv := by
  refine ⟨hn ▸ h.sets_pos, hn ▸ h.sets_lt, ha ▸ h.assoc_pos, ?_, ?_, ?_, ?_⟩
  · rw [hsets, hn, List.length_set, h.length_eq]
  · intro j e he
    rw [hsets, hn] at *
    by_cases hj : j = ip % b.num_sets
    · subst hj
      have hlt : ip % b.num_sets < b.sets.length := by
        rw [h.length_eq]; exact Nat.mod_lt _ h.sets_pos
      rw [getD_set_self _ _ _ _ hlt] at he
      exact hhome e he
    · rw [getD_set_ne _ _ _ hj] at he
      exact h.home j e he
  · intro s hs
    rw [hsets] at hs
    rw [ha]
    rcases List.mem_or_eq_of_mem_set hs with hs | hs
    · exact h.size_le s hs
    · exact hs ▸ hlen
  · intro s hs
    rw [hsets] at hs
    rcases List.mem_or_eq_of_mem_set hs with hs | hs
    · exact h.nodup s hs
    · exact hs ▸ hnd

theorem BTBPredictor.Inv.setOf_length {b : BTBPredictor} (h : b.Inv) (ip : Nat) :
    (b.setOf ip).length ≤ b.table_assoc := by
  rcases getD_mem_or_nil b.sets (ip % b.num_sets) with hm | hm
  · exact h.size_le _ hm
  · rw [BTBPredictor.setOf, hm]
    exact Nat.zero_le _

theorem BTBPredictor.Inv.setOf_nodup {b : BTBPredictor} (h : b.Inv) (ip : Nat) :
    ((b.setOf ip).map (fun e => e.ip)).Nodup := by
  rcases getD_mem_or_nil b.sets (ip % b.num_sets) with hm | hm
  · exact h.nodup _ hm
  · rw [BTBPredictor.setOf, hm]
    exact List.nodup_nil

theorem BTBPredictor.Inv.predict {b : BTBPredictor} (h : b.Inv) (ip t : Nat) :
    ∃ r b', b.predict ip t = some (r, b') ∧ b'.Inv ∧ b'.table_assoc = b.table_assoc ∧
      b'.num_sets = b.num_sets := by
  obtain ⟨r, b', hp, hsets, hn, ha, _, _, _⟩ := b.predict_spec h.sets_pos h.sets_lt ip t
  refine ⟨r, b', hp, h.set ip hsets hn ha ?_ ?_ ?_, ha, hn⟩
  · rw [(touchSet_perm ip _).length_eq]
    exact h.setOf_length ip
  · exact ((touchSet_perm ip _).map _).nodup_iff.mpr (h.setOf_nodup ip)
  · intro e he
    exact h.home _ e ((touchSet_perm ip _).subset he)

theorem BTBPredictor.Inv.update {b : BTBPredictor} (h : b.Inv) (pr a : Bool) (ip t : Nat) :
    ∃ b', b.update pr a ip t = some b' ∧ b'.Inv ∧ b'.table_assoc = b.table_assoc ∧
      b'.num_sets = b.num_sets := by
  obtain ⟨b', hp, hsets, hn, ha, _, _, _⟩ :=
    b.update_spec h.sets_pos h.sets_lt h.assoc_pos pr a ip t
  refine ⟨b', hp, h.set ip hsets hn ha ?_ ?_ ?_, ha, hn⟩
  · exact updateSet_length_le a ip t h.assoc_pos (h.setOf_length ip)
  · exact updateSet_nodup a ip t (h.setOf_nodup ip)
  · intro e he
    rcases updateSet_mem he with he | he
    · exact h.home _ e he
    · rw [he]

theorem BTBPredictor.Inv.call {b : BTBPredictor} (h : b.Inv) (c : BTBCall) :
    ∃ b', b.call c = some b' ∧ b'.Inv ∧ b'.table_assoc = b.table_assoc ∧
      b'.num_sets = b.num_sets := by
  cases c with
  | predict ip t =>
    obtain ⟨r, b', hp, hinv, ha, hn⟩ := h.predict ip t
    exact ⟨b', by simp [BTBPredictor.call, hp], hinv, ha, hn⟩
  | update pr a ip t => exact h.update pr a ip t

theorem BTBPredictor.Inv.run {b : BTBPredictor} (h : b.Inv) (calls : List BTBCall) :
    ∃ b', b.run calls = some b' ∧ b'.Inv ∧ b'.table_assoc = b.table_assoc ∧
      b'.num_sets = b.num_sets := by
  induction calls generalizing b with
  | nil => exact ⟨b, rfl, h, rfl, rfl⟩
  | cons c cs ih =>
    obtain ⟨b1, hc, hinv, ha, hn⟩ := h.call c
    obtain ⟨b2, hr, hinv2, ha2, hn2⟩ := ih hinv
    exact ⟨b2, by simp [BTBPredictor.run, hc, hr], hinv2, ha2.trans ha, hn2.trans hn⟩

/-- The constructor returns a BTB that satisfies the class invariant. -/
theorem BTBPredictor.new_Inv {lines assoc : Nat} (ha : 1 ≤ assoc) (hl : assoc ≤ lines)
    (h31 : lines < 2 ^ 31) :
    ∃ b0, BTBPredictor.new lines assoc = some b0 ∧ b0.Inv ∧ b0.table_assoc = assoc ∧
      b0.num_sets = lines / assoc ∧ b0.sets = List.replicate (lines / assoc) [] := by
  have hne : assoc ≠ 0 := by omega
  refine ⟨{ base := BranchPredictor.init, table_lines := lines, table_assoc := assoc,
            num_sets := lines / assoc, correct_target_predictions := 0,
            sets := List.replicate (lines / assoc) [] },
    by simp only [BTBPredictor.new, hne, if_false], ?_, rfl, rfl, rfl⟩
  have hpos : 0 < lines / assoc := Nat.div_pos hl (by omega)
  have hle : lines / assoc ≤ lines := Nat.div_le_self _ _
  refine ⟨hpos, ?_, ha, by simp, ?_, ?_, ?_⟩
  · show lines / assoc < 2 ^ 32
    omega
  · intro j e he
    rcases getD_mem_or_nil (List.replicate (lines / assoc) ([] : List BufferEntry)) j with hm | hm
    · rw [List.eq_of_mem_replicate hm] at he
      simp at he
    · rw [hm] at he
      simp at he
  · intro s hs
    rw [List.eq_of_mem_replicate hs]
    simp
  · intro s hs
    rw [List.eq_of_mem_replicate hs]
    simp

/-- C4: for a BTB built with `assoc ≥ 1` and `lines ≥ assoc`, every sequence of `predict` and
`update` calls from the freshly built (empty) BTB runs to a state in which every set holds at
most `assoc` entries and no two entries of a set have the same `pc`. -/
theorem BTBPredictor.sets_bounded_and_unique (lines assoc : Nat) (calls : List BTBCall)
    (ha : 1 ≤ assoc) (hl : assoc ≤ lines) (h31 : lines < 2 ^ 31) :
    ∃ b0 b, BTBPredictor.new lines assoc = some b0 ∧ b0.run calls = some b ∧
      ∀ s ∈ b.sets, s.length ≤ assoc ∧ (s.map (fun e => e.ip)).Nodup := by
  obtain ⟨b0, hnew, hinv0, ha0, _, _⟩ := BTBPredictor.new_Inv ha hl h31
  obtain ⟨b, hrun, hinv, hab, _⟩ := hinv0.run calls
  refine ⟨b0, b, hnew, hrun, fun s hs => ⟨?_, hinv.nodup s hs⟩⟩
  have := hinv.size_le s hs
  rw [hab, ha0] at this
  exact this

theorem BTBPredictor.sets_bounded_and_unique_witness :
    (1 ≤ 2 ∧ 2 ≤ 4 ∧ 4 < 2 ^ 31) ∧
    ∃ b0 b, BTBPredictor.new 4 2 = some b0 ∧
      b0.run [.update false true 10 161, .predict 10 161, .update true true 12 193,
        .update false true 14 225, .update true false 12 193] = some b ∧
      ∀ s ∈ b.sets, s.length ≤ 2 ∧ (s.map (fun e => e.ip)).Nodup :=
  ⟨by decide, BTBPredictor.sets_bounded_and_unique 4 2 _ (by decide) (by decide) (by decide)⟩

/-! ### Single calls on a state that satisfies the invariant -/

theorem BTBPredictor.Inv.index_lt {b : BTBPredictor} (h : b.Inv) (ip : Nat) :
    ip % b.num_sets < b.sets.length := by
  rw [h.length_eq]
  exact Nat.mod_lt _ h.sets_pos

/-- An `update` on a state satisfying the invariant: it returns a state satisfying the invariant
whose set of `ip` is `updateSet` of the old one; the other sets are the old ones. -/
theorem BTBPredictor.Inv.update_full {b : BTBPredictor} (h : b.Inv) (pr a : Bool) (ip t : Nat) :
    ∃ b', b.update pr a ip t = some b' ∧ b'.Inv ∧
      b'.setOf ip = updateSet b.table_assoc a ip t (b.setOf ip) ∧
      (∀ j, j ≠ ip % b.num_sets → b'.sets.getD j [] = b.sets.getD j []) ∧
      b'.sets.length = b.sets.length ∧ b'.num_sets = b.num_sets ∧
      b'.table_assoc = b.table_assoc := by
  obtain ⟨b', hp, hsets, hn, ha, _, _, _⟩ :=
    b.update_spec h.sets_pos h.sets_lt h.assoc_pos pr a ip t
  obtain ⟨b2, hp2, hinv, _, _⟩ := h.update pr a ip t
  have hb : b2 = b' := Option.some.inj (hp2.symm.trans hp)
  subst hb
  refine ⟨b2, hp, hinv, ?_, ?_, ?_, hn, ha⟩
  · rw [BTBPredictor.setOf, hsets, hn, getD_set_self _ _ _ _ (h.index_lt ip)]
  · intro j hj
    rw [hsets, getD_set_ne _ _ _ hj]
  · rw [hsets, List.length_set]

/-- A `predict` on a state satisfying the invariant, in the same terms. -/
theorem BTBPredictor.Inv.predict_full {b : BTBPredictor} (h : b.Inv) (ip t : Nat) :
    ∃ r b', b.predict ip t = some (r, b') ∧ b'.Inv ∧
      b'.setOf ip = touchSet ip (b.setOf ip) ∧
      (∀ j, j ≠ ip % b.num_sets → b'.sets.getD j [] = b.sets.getD j []) ∧
      b'.sets.length = b.sets.length ∧ b'.num_sets = b.num_sets ∧
      b'.table_assoc = b.table_assoc ∧
      (r = true ↔ ∃ e, (b.setOf ip).find? (fun e => e.ip = ip) = some e ∧ e.target = t) := by
  obtain ⟨r, b', hp, hsets, hn, ha, _, _, hr⟩ := b.predict_spec h.sets_pos h.sets_lt ip t
  obtain ⟨r2, b2, hp2, hinv, _, _⟩ := h.predict ip t
  have hb : (r2, b2) = (r, b') := Option.some.inj (hp2.symm.trans hp)
  obtain ⟨rfl, rfl⟩ := Prod.mk.inj hb
  refine ⟨r2, b2, hp, hinv, ?_, ?_, ?_, hn, ha, hr⟩
  · rw [BTBPredictor.setOf, hsets, hn, getD_set_self _ _ _ _ (h.index_lt ip)]
  · intro j hj
    rw [hsets, getD_set_ne _ _ _ hj]
  · rw [hsets, List.length_set]

/-- The two example states are reached from the freshly built BTB, hence satisfy the invariant. -/
theorem btbOneEntry_Inv : btbOneEntry.Inv := by
  obtain ⟨b0, hnew, hinv0, _, _, _⟩ :=
    @BTBPredictor.new_Inv 2 2 (by decide) (by decide) (by decide)
  obtain ⟨b, hrun, hinv, _, _⟩ := hinv0.run [.update false true 10 161]
  have h0 : b0 = btbEmpty := Option.some.inj (hnew.symm.trans (by decide))
  subst h0
  have hb : b = btbOneEntry := Option.some.inj (hrun.symm.trans (by decide))
  exact hb ▸ hinv

theorem btbFull_Inv : btbFull.Inv := by
  obtain ⟨b, hrun, hinv, _, _⟩ := btbOneEntry_Inv.run [.update false true 11 177]
  have hb : b = btbFull := Option.some.inj (hrun.symm.trans (by decide))
  exact hb ▸ hinv

/-- C2, as stated, fails: in the BTB holding the single entry `(0xA → 0xA1)`, the set of `0xA`
holds an entry for `0xA`, yet `predict(0xA, 0xB2)` returns false because the stored target
differs from the observed one. -/
theorem BTBPredictor.predict_true_iff_found_fails :
    ¬ (∀ (b : BTBPredictor) (ip t : Nat), b.Inv →
        ((b.predict ip t).map (fun r => r.1) = some true ↔ ∃ e ∈ b.setOf ip, e.ip = ip)) := by
  intro h
  have h1 := (h btbOneEntry 10 178 btbOneEntry_Inv).mpr
    ⟨{ ip := 10, target := 161 }, by decide, rfl⟩
  exact absurd h1 (by decide)

/-- C2, amended: `predict(pc, target)` returns, and it returns true if and only if the set
`pc mod numSets` holds an entry whose pc equals `pc` and whose stored target equals the observed
`target`; it returns false when no entry for `pc` is found or when the entry found stores another
target. -/
theorem BTBPredictor.predict_true_iff_target_match (b : BTBPredictor) (h : b.Inv) (ip t : Nat) :
    ∃ r b', b.predict ip t = some (r, b') ∧
      (r = true ↔ ∃ e ∈ b.setOf ip, e.ip = ip ∧ e.target = t) := by
  obtain ⟨r, b', hp, _, _, _, _, _, _, hr⟩ := h.predict_full ip t
  refine ⟨r, b', hp, hr.trans ⟨?_, ?_⟩⟩
  · rintro ⟨e, hf, ht⟩
    exact ⟨e, List.mem_of_find?_eq_some hf, by simpa using List.find?_some hf, ht⟩
  · rintro ⟨e, hmem, hip, ht⟩
    rcases split_first ip (b.setOf ip) with hno | ⟨l1, e', l2, hs, hl1, he'⟩
    · exact absurd hip (hno e hmem)
    · have hf := (find?_of_decomp (p := fun e => decide (e.ip = ip)) hs
        (fun x hx => by simpa using hl1 x hx) (by simpa using he')).1
      have hmem' : e' ∈ b.setOf ip := List.mem_of_find?_eq_some hf
      have hee : e' = e :=
        List.inj_on_of_nodup_map (h.setOf_nodup ip) hmem' hmem (he'.trans hip.symm)
      exact ⟨e', hf, hee ▸ ht⟩

theorem BTBPredictor.predict_true_iff_target_match_witness :
    btbOneEntry.Inv ∧
    ∃ r b', btbOneEntry.predict 10 161 = some (r, b') ∧
      (r = true ↔ ∃ e ∈ btbOneEntry.setOf 10, e.ip = 10 ∧ e.target = 161) :=
  ⟨btbOneEntry_Inv, BTBPredictor.predict_true_iff_target_match btbOneEntry btbOneEntry_Inv 10 161⟩

/-- C3: `update(predicted, actual, pc, target)` on a BTB state returns a state in which only the
set `pc mod numSets` may differ.  If that set holds an entry for `pc` (first at `e`, after `l1`):
on taken, `e` moves to the head as it is; on not-taken, `e` is removed.  If it holds none: on
taken, `(pc, target)` is put at the head, after dropping the tail entry when the set already holds
`assoc` entries; on not-taken, the set is unchanged. -/
theorem BTBPredictor.update_set_change (b : BTBPredictor) (h : b.Inv) (pr a : Bool)
    (ip t : Nat) :
    ∃ b', b.update pr a ip t = some b' ∧
      b'.sets.length = b.sets.length ∧ b'.num_sets = b.num_sets ∧
      (∀ j, j ≠ ip % b.num_sets → b'.sets.getD j [] = b.sets.getD j []) ∧
      (∀ l1 e l2, b.setOf ip = l1 ++ e :: l2 → (∀ x ∈ l1, x.ip ≠ ip) → e.ip = ip →
        b'.setOf ip = if a then e :: (l1 ++ l2) else l1 ++ l2) ∧
      ((∀ x ∈ b.setOf ip, x.ip ≠ ip) →
        b'.setOf ip =
          if a then
            { ip := ip, target := t } ::
              (if (b.setOf ip).length = b.table_assoc then (b.setOf ip).dropLast else b.setOf ip)
          else b.setOf ip) := by
  obtain ⟨b', hp, _, hset, hother, hlen, hn, _⟩ := h.update_full pr a ip t
  refine ⟨b', hp, hlen, hn, hother, ?_, ?_⟩
  · intro l1 e l2 hs hl1 he
    rw [hset, updateSet_of_decomp hs hl1 he]
  · intro hno
    rw [hset, updateSet_of_not_mem hno]
    have hle := h.setOf_length ip
    by_cases hfull : (b.setOf ip).length = b.table_assoc
    · simp [hfull]
    · have : ¬ b.table_assoc ≤ (b.setOf ip).length := by omega
      simp [hfull, this]

theorem BTBPredictor.update_set_change_witness :
    btbFull.Inv ∧
    ∃ b', btbFull.update false true 12 193 = some b' ∧
      b'.sets.length = btbFull.sets.length ∧ b'.num_sets = btbFull.num_sets ∧
      (∀ j, j ≠ 12 % btbFull.num_sets → b'.sets.getD j [] = btbFull.sets.getD j []) ∧
      (∀ l1 e l2, btbFull.setOf 12 = l1 ++ e :: l2 → (∀ x ∈ l1, x.ip ≠ 12) → e.ip = 12 →
        b'.setOf 12 = if true then e :: (l1 ++ l2) else l1 ++ l2) ∧
      ((∀ x ∈ btbFull.setOf 12, x.ip ≠ 12) →
        b'.setOf 12 =
          if true then
            { ip := 12, target := 193 } ::
              (if (btbFull.setOf 12).length = btbFull.table_assoc then (btbFull.setOf 12).dropLast
               else btbFull.setOf 12)
          else btbFull.setOf 12) :=
  ⟨btbFull_Inv, BTBPredictor.update_set_change btbFull btbFull_Inv false true 12 193⟩

/-- Scenario 4 of the specification evaluated on the code: the third taken branch evicts `0xA`,
the set reads `(0xC, 0xC1), (0xB, 0xB1)` from the head, and a lookup of `0xA` then misses. -/
theorem btbFull_eval :
    (btbFull.update false true 12 193).map (fun b => b.sets)
        = some [[{ ip := 12, target := 193 }, { ip := 11, target := 177 }]] ∧
      ((btbFull.update false true 12 193).bind (fun b => b.predict 10 161)).map (fun r => r.1)
        = some false := by
  decide

/-! ### Insert, remove, reinsert -/

theorem not_mem_of_nodup_middle {l1 l2 : List BufferEntry} {e : BufferEntry}
    (h : ((l1 ++ e :: l2).map (fun e => e.ip)).Nodup) : ∀ x ∈ l1 ++ l2, x.ip ≠ e.ip := by
  have hperm : (e :: (l1 ++ l2)).Perm (l1 ++ e :: l2) := List.perm_middle.symm
  have hnd := (hperm.map (fun e => e.ip)).nodup_iff.mpr h
  simp only [List.map_cons, List.nodup_cons] at hnd
  intro x hx hxe
  exact hnd.1 (List.mem_map.mpr ⟨x, hx, hxe⟩)

/-- A taken update leaves an entry for `ip` at the head of the list, followed by a sublist of the
old list without entry for `ip`; the head is `(ip, target)` when there was no entry for `ip`. -/
theorem updateSet_taken (assoc ip t : Nat) {s : List BufferEntry}
    (hs : (s.map (fun e => e.ip)).Nodup) :
    ∃ e r, updateSet assoc true ip t s = e :: r ∧ e.ip = ip ∧ r.Sublist s ∧
      (∀ x ∈ r, x.ip ≠ ip) ∧ ((∀ x ∈ s, x.ip ≠ ip) → e = { ip := ip, target := t }) := by
  rcases split_first ip s with h | ⟨l1, e, l2, hs', hl1, he⟩
  · rw [updateSet_of_not_mem h]
    by_cases hlen : assoc ≤ s.length
    · exact ⟨_, _, by simp [hlen], rfl, List.dropLast_sublist s,
        fun x hx => h x ((List.dropLast_sublist s).subset hx), fun _ => rfl⟩
    · exact ⟨_, _, by simp [hlen], rfl, List.Sublist.refl s, h, fun _ => rfl⟩
  · rw [updateSet_of_decomp hs' hl1 he]
    subst hs'
    refine ⟨e, l1 ++ l2, by simp, he, (List.sublist_cons_self e l2).append_left l1, ?_, ?_⟩
    · intro x hx
      exact he ▸ not_mem_of_nodup_middle hs x hx
    · intro hno
      exact absurd he (hno e (by simp))

theorem updateSet_not_taken (assoc ip t : Nat) (s : List BufferEntry) :
    (updateSet assoc false ip t s).Sublist s := by
  rcases split_first ip s with h | ⟨l1, e, l2, hs', hl1, he⟩
  · rw [updateSet_of_not_mem h]
    exact List.Sublist.refl s
  · rw [updateSet_of_decomp hs' hl1 he]
    subst hs'
    exact (List.sublist_cons_self e l2).append_left l1

/-- C6: on a BTB state, after `update(_, taken, pc, target)` an entry for `pc` is present in its
set; after a following `update(_, not-taken, pc, _)` no entry for `pc` is present in its set;
after a further `update(_, taken, pc, target')` the entry `(pc, target')` is at the head of its
set.  All three calls return. -/
theorem BTBPredictor.insert_remove_reinsert (b : BTBPredictor) (h : b.Inv)
    (pr1 pr2 pr3 : Bool) (ip t t2 t' : Nat) :
    ∃ b1 b2 b3,
      b.update pr1 true ip t = some b1 ∧ (∃ e ∈ b1.setOf ip, e.ip = ip) ∧
      b1.update pr2 false ip t2 = some b2 ∧ (∀ e ∈ b2.setOf ip, e.ip ≠ ip) ∧
      b2.update pr3 true ip t' = some b3 ∧
      (b3.setOf ip).head? = some { ip := ip, target := t' } := by
  obtain ⟨b1, hp1, hinv1, hset1, _, _, _, _⟩ := h.update_full pr1 true ip t
  obtain ⟨b2, hp2, hinv2, hset2, _, _, _, _⟩ := hinv1.update_full pr2 false ip t2
  obtain ⟨b3, hp3, hinv3, hset3, _, _, _, _⟩ := hinv2.update_full pr3 true ip t'
  obtain ⟨e, r, he1, heip, _, hr, _⟩ := updateSet_taken b.table_assoc ip t (h.setOf_nodup ip)
  have hs1 : b1.setOf ip = e :: r := hset1.trans he1
  have hs2 : b2.setOf ip = r := by
    have hdec : b1.setOf ip = [] ++ e :: r := by simpa using hs1
    rw [hset2, updateSet_of_decomp hdec (by simp) heip]
    simp
  have hno : ∀ x ∈ b2.setOf ip, x.ip ≠ ip := fun x hx => hr x (hs2 ▸ hx)
  obtain ⟨e3, r3, he3, _, _, _, hnew⟩ :=
    updateSet_taken b2.table_assoc ip t' (hinv2.setOf_nodup ip)
  refine ⟨b1, b2, b3, hp1, ⟨e, by simp [hs1], heip⟩, hp2, hno, hp3, ?_⟩
  rw [hset3, he3, hnew hno]
  rfl

theorem BTBPredictor.insert_remove_reinsert_witness :
    btbFull.Inv ∧
    ∃ b1 b2 b3,
      btbFull.update false true 12 193 = some b1 ∧ (∃ e ∈ b1.setOf 12, e.ip = 12) ∧
      b1.update true false 12 193 = some b2 ∧ (∀ e ∈ b2.setOf 12, e.ip ≠ 12) ∧
      b2.update false true 12 200 = some b3 ∧
      (b3.setOf 12).head? = some { ip := 12, target := 200 } :=
  ⟨btbFull_Inv,
    BTBPredictor.insert_remove_reinsert btbFull btbFull_Inv false true false 12 193 193 200⟩

/-! ### Recency order -/

theorem BTBPredictor.getD_eq_setOf {b b' : BTBPredictor} (hn : b'.num_sets = b.num_sets)
    (ip : Nat) : b'.sets.getD (ip % b.num_sets) [] = b'.setOf ip := by
  rw [BTBPredictor.setOf, hn]

/-- A step that touches `ip`: the set of `ip` becomes an entry for `ip` followed by a sublist of
the old set without entry for `ip`, the other sets stay, and the touch is stamped with the
clock.  The timed invariant is kept. -/
theorem BTBTimed.Inv.touch {t : BTBTimed} (h : t.Inv) {b' : BTBPredictor} (hinv : b'.Inv)
    (hn : b'.num_sets = t.btb.num_sets) (ip : Nat) {e : BufferEntry} {r : List BufferEntry}
    (hset : b'.setOf ip = e :: r) (he : e.ip = ip) (hr : r.Sublist (t.btb.setOf ip))
    (hrip : ∀ x ∈ r, x.ip ≠ ip)
    (hother : ∀ j, j ≠ ip % t.btb.num_sets → b'.sets.getD j [] = t.btb.sets.getD j []) :
    BTBTimed.Inv
      { btb := b', clock := t.clock + 1, lastTouch := Function.update t.lastTouch ip t.clock } := by
  have hcp := h.clock_pos
  have hold : ∀ j, j ≠ ip % t.btb.num_sets → ∀ x ∈ t.btb.sets.getD j [],
      Function.update t.lastTouch ip t.clock x.ip = t.lastTouch x.ip := by
    intro j hj x hx
    apply Function.update_noteq
    intro hxe
    exact hj ((h.btb.home j x hx).symm.trans (by rw [hxe]))
  have hrold : ∀ x ∈ r, Function.update t.lastTouch ip t.clock x.ip = t.lastTouch x.ip :=
    fun x hx => Function.update_noteq (hrip x hx) _ _
  have hnew : Function.update t.lastTouch ip t.clock e.ip = t.clock := by
    rw [he]; exact Function.update_same _ _ _
  have hrmem : ∀ x ∈ r, x ∈ t.btb.sets.getD (ip % t.btb.num_sets) [] :=
    fun x hx => hr.subset hx
  refine ⟨hinv, Nat.le_succ_of_le hcp, ?_, ?_⟩
  · intro j x hx
    show 1 ≤ Function.update t.lastTouch ip t.clock x.ip ∧
      Function.update t.lastTouch ip t.clock x.ip < t.clock + 1
    by_cases hj : j = ip % t.btb.num_sets
    · subst hj
      have hx' : x ∈ e :: r := by
        rw [← hset, ← BTBPredictor.getD_eq_setOf hn]; exact hx
      rcases List.mem_cons.mp hx' with hx' | hx'
      · rw [hx', hnew]; omega
      · rw [hrold x hx']
        have := h.stamp_lt _ x (hrmem x hx')
        omega
    · have hx' : x ∈ t.btb.sets.getD j [] := hother j hj ▸ hx
      rw [hold j hj x hx']
      have := h.stamp_lt j x hx'
      omega
  · intro j
    show List.Pairwise (fun e1 e2 => Function.update t.lastTouch ip t.clock e2.ip
      < Function.update t.lastTouch ip t.clock e1.ip) (b'.sets.getD j [])
    by_cases hj : j = ip % t.btb.num_sets
    · subst hj
      rw [BTBPredictor.getD_eq_setOf hn, hset, List.pairwise_cons]
      constructor
      · intro x hx
        rw [hnew, hrold x hx]
        exact (h.stamp_lt _ x (hrmem x hx)).2
      · refine List.Pairwise.imp_of_mem ?_ ((h.ordered (ip % t.btb.num_sets)).sublist hr)
        intro x y hx hy hxy
        rw [hrold x hx, hrold y hy]
        exact hxy
    · rw [hother j hj]
      refine List.Pairwise.imp_of_mem ?_ (h.ordered j)
      intro x y hx hy hxy
      rw [hold j hj x hx, hold j hj y hy]
      exact hxy

/-- A step that touches nothing: the set of `ip` becomes a sublist of itself, the other sets stay,
the stamps stay.  The timed invariant is kept. -/
theorem BTBTimed.Inv.no_touch {t : BTBTimed} (h : t.Inv) {b' : BTBPredictor} (hinv : b'.Inv)
    (hn : b'.num_sets = t.btb.num_sets) (ip : Nat)
    (hset : (b'.setOf ip).Sublist (t.btb.setOf ip))
    (hother : ∀ j, j ≠ ip % t.btb.num_sets → b'.sets.getD j [] = t.btb.sets.getD j []) :
    BTBTimed.Inv { btb := b', clock := t.clock + 1, lastTouch := t.lastTouch } := by
  have hsub : ∀ j, (b'.sets.getD j []).Sublist (t.btb.sets.getD j []) := by
    intro j
    by_cases hj : j = ip % t.btb.num_sets
    · subst hj
      rw [BTBPredictor.getD_eq_setOf hn]
      exact hset
    · rw [hother j hj]
  refine ⟨hinv, Nat.le_succ_of_le h.clock_pos, ?_, ?_⟩
  · intro j x hx
    have := h.stamp_lt j x ((hsub j).subset hx)
    exact ⟨this.1, Nat.lt_succ_of_lt this.2⟩
  · intro j
    exact (h.ordered j).sublist (hsub j)

theorem touchSet_sublist_of_not_mem {ip : Nat} {s : List BufferEntry}
    (h : ∀ x ∈ s, x.ip ≠ ip) : (touchSet ip s).Sublist s := by
  rw [touchSet_of_not_mem h]

theorem BTBTimed.Inv.timed_call {t : BTBTimed} (h : t.Inv) (c : BTBCall) :
    ∃ t', t.call c = some t' ∧ t'.Inv ∧ t.btb.call c = some t'.btb ∧
      t'.btb.table_assoc = t.btb.table_assoc := by
  cases c with
  | predict ip tg =>
    obtain ⟨r, b', hp, hinv, hset, hother, _, hn, ha, _⟩ := h.btb.predict_full ip tg
    have hcall : t.btb.call (.predict ip tg) = some b' := by simp [BTBPredictor.call, hp]
    rcases split_first ip (t.btb.setOf ip) with hno | ⟨l1, e, l2, hs, hl1, he⟩
    · have hfind : ((t.btb.sets.getD ((ip % t.btb.num_sets) % 2 ^ 32) []).find?
          (fun e => decide (e.ip = ip))) = none := by
        rw [BTBPredictor.set_index_eq h.btb.sets_pos h.btb.sets_lt, List.find?_eq_none]
        intro x hx
        simpa using hno x hx
      have hT : t.call (.predict ip tg)
          = some { btb := b', clock := t.clock + 1, lastTouch := t.lastTouch } := by
        simp only [BTBTimed.call, hcall, Option.map_some', BTBPredictor.touched, hfind]
        simp
      exact ⟨_, hT, h.no_touch hinv hn ip (hset ▸ touchSet_sublist_of_not_mem hno) hother,
        hcall, ha⟩
    · have hfind : ((t.btb.sets.getD ((ip % t.btb.num_sets) % 2 ^ 32) []).find?
          (fun e => decide (e.ip = ip))) = some e := by
        rw [BTBPredictor.set_index_eq h.btb.sets_pos h.btb.sets_lt]
        exact (find?_of_decomp (p := fun e => decide (e.ip = ip)) hs
          (fun x hx => by simpa using hl1 x hx) (by simpa using he)).1
      have hT : t.call (.predict ip tg)
          = some { btb := b', clock := t.clock + 1,
                   lastTouch := Function.update t.lastTouch ip t.clock } := by
        simp only [BTBTimed.call, hcall, Option.map_some', BTBPredictor.touched, hfind]
        simp
      have hnd := h.btb.setOf_nodup ip
      rw [hs] at hnd
      refine ⟨_, hT, ?_, hcall, ha⟩
      refine h.touch hinv hn ip (hset.trans (touchSet_of_decomp hs hl1 he)) he ?_ ?_ hother
      · rw [hs]
        exact (List.sublist_cons_self e l2).append_left l1
      · intro x hx
        exact he ▸ not_mem_of_nodup_middle hnd x hx
  | update pr a ip tg =>
    obtain ⟨b', hp, hinv, hset, hother, _, hn, ha⟩ := h.btb.update_full pr a ip tg
    have hcall : t.btb.call (.update pr a ip tg) = some b' := by simp [BTBPredictor.call, hp]
    cases a with
    | true =>
      obtain ⟨e, r, hu, he, hr, hrip, _⟩ :=
        updateSet_taken t.btb.table_assoc ip tg (h.btb.setOf_nodup ip)
      have hT : t.call (.update pr true ip tg)
          = some { btb := b', clock := t.clock + 1,
                   lastTouch := Function.update t.lastTouch ip t.clock } := by
        simp [BTBTimed.call, hcall, BTBPredictor.touched]
      exact ⟨_, hT, h.touch hinv hn ip (hset.trans hu) he hr hrip hother, hcall, ha⟩
    | false =>
      have hT : t.call (.update pr false ip tg)
          = some { btb := b', clock := t.clock + 1, lastTouch := t.lastTouch } := by
        simp [BTBTimed.call, hcall, BTBPredictor.touched]
      exact ⟨_, hT, h.no_touch hinv hn ip (hset ▸ updateSet_not_taken _ _ _ _) hother, hcall,
        ha⟩

theorem BTBTimed.Inv.timed_run {t : BTBTimed} (h : t.Inv) (calls : List BTBCall) :
    ∃ t', t.run calls = some t' ∧ t'.Inv ∧ t.btb.run calls = some t'.btb ∧
      t'.btb.table_assoc = t.btb.table_assoc := by
  induction calls generalizing t with
  | nil => exact ⟨t, rfl, h, rfl, rfl⟩
  | cons c cs ih =>
    obtain ⟨t1, hc, hinv, hb, ha⟩ := h.timed_call c
    obtain ⟨t2, hr, hinv2, hb2, ha2⟩ := ih hinv
    exact ⟨t2, by simp [BTBTimed.run, hc, hr], hinv2, by simp [BTBPredictor.run, hb, hb2],
      ha2.trans ha⟩

theorem BTBTimed.start_Inv {b : BTBPredictor} (h : b.Inv)
    (hempty : ∀ j, b.sets.getD j [] = []) : (BTBTimed.start b).Inv := by
  refine ⟨h, Nat.le_refl 1, ?_, ?_⟩
  · intro j e he
    rw [show (BTBTimed.start b).btb = b from rfl, hempty j] at he
    simp at he
  · intro j
    rw [show (BTBTimed.start b).btb = b from rfl, hempty j]
    exact List.Pairwise.nil

/-- C5: for a BTB built with `assoc ≥ 1` (and `lines ≥ assoc`), run from the empty state through
any sequence of `predict` / `update` calls while the number of the last call that touched each
`pc` is recorded (a touch being a `predict` that finds the entry, a taken `update` that finds it,
or an insertion): the recording run and the plain run reach the same BTB state; every set reads,
from the head, in strictly decreasing order of last touch; and a taken `update` for a `pc` absent
from a full set returns a state whose set is the new entry followed by the old entries except the
last one, in their old order, the dropped entry being the one with the oldest last touch. -/
theorem BTBPredictor.sets_ordered_by_recency (lines assoc : Nat) (calls : List BTBCall)
    (ha : 1 ≤ assoc) (hl : assoc ≤ lines) (h31 : lines < 2 ^ 31) :
    ∃ b0 t, BTBPredictor.new lines assoc = some b0 ∧
      (BTBTimed.start b0).run calls = some t ∧ b0.run calls = some t.btb ∧
      (∀ j, (t.btb.sets.getD j []).Pairwise
        (fun e1 e2 => t.lastTouch e2.ip < t.lastTouch e1.ip)) ∧
      (∀ (pr : Bool) (ip target : Nat), (∀ x ∈ t.btb.setOf ip, x.ip ≠ ip) →
        (t.btb.setOf ip).length = assoc →
        ∃ b' victim rest, t.btb.setOf ip = rest ++ [victim] ∧
          t.btb.update pr true ip target = some b' ∧
          b'.setOf ip = { ip := ip, target := target } :: rest ∧
          ∀ e ∈ rest, t.lastTouch victim.ip < t.lastTouch e.ip) := by
  obtain ⟨b0, hnew, hinv0, ha0, _, hsets0⟩ := BTBPredictor.new_Inv ha hl h31
  have hempty : ∀ j, b0.sets.getD j [] = [] := by
    intro j
    rcases getD_mem_or_nil b0.sets j with hm | hm
    · rw [hsets0] at hm ⊢
      exact List.eq_of_mem_replicate hm
    · exact hm
  obtain ⟨t, hrun, hinv, hb, hat⟩ := (BTBTimed.start_Inv hinv0 hempty).timed_run calls
  have hassoc : t.btb.table_assoc = assoc := hat.trans ha0
  refine ⟨b0, t, hnew, hrun, hb, hinv.ordered, ?_⟩
  intro pr ip target hno hfull
  obtain ⟨b', hp, _, hset, _, _, _, _⟩ := hinv.btb.update_full pr true ip target
  have hne : t.btb.setOf ip ≠ [] := by
    intro h
    rw [h] at hfull
    simp at hfull
    omega
  have hsplit := List.dropLast_append_getLast hne
  refine ⟨b', (t.btb.setOf ip).getLast hne, (t.btb.setOf ip).dropLast, hsplit.symm, hp, ?_, ?_⟩
  · rw [hset, updateSet_of_not_mem hno, hassoc, hfull]
    simp
  · have hord := hinv.ordered (ip % t.btb.num_sets)
    rw [show t.btb.sets.getD (ip % t.btb.num_sets) [] = t.btb.setOf ip from rfl, ← hsplit,
      List.pairwise_append] at hord
    intro e he
    exact hord.2.2 e he _ (by simp)

theorem BTBPredictor.sets_ordered_by_recency_witness :
    (1 ≤ 2 ∧ 2 ≤ 2 ∧ 2 < 2 ^ 31) ∧
    ∃ b0 t, BTBPredictor.new 2 2 = some b0 ∧
      (BTBTimed.start b0).run
        [.update false true 10 161, .update false true 11 177, .predict 10 162] = some t ∧
      b0.run [.update false true 10 161, .update false true 11 177, .predict 10 162]
        = some t.btb ∧
      (∀ j, (t.btb.sets.getD j []).Pairwise
        (fun e1 e2 => t.lastTouch e2.ip < t.lastTouch e1.ip)) ∧
      (∀ (pr : Bool) (ip target : Nat), (∀ x ∈ t.btb.setOf ip, x.ip ≠ ip) →
        (t.btb.setOf ip).length = 2 →
        ∃ b' victim rest, t.btb.setOf ip = rest ++ [victim] ∧
          t.btb.update pr true ip target = some b' ∧
          b'.setOf ip = { ip := ip, target := target } :: rest ∧
          ∀ e ∈ rest, t.lastTouch victim.ip < t.lastTouch e.ip) :=
  ⟨by decide, BTBPredictor.sets_ordered_by_recency 2 2 _ (by decide) (by decide) (by decide)⟩

/-- The recorded run on scenario 4 with a mismatching `predict(0xA)` in between: the lookup finds
`0xA`, returns false and moves it to the head, so the following taken miss evicts `0xB`. -/
theorem btbFull_touch_eval :
    (btbFull.predict 10 162).map (fun r => (r.1, r.2.sets))
        = some (false, [[{ ip := 10, target := 161 }, { ip := 11, target := 177 }]]) ∧
      (((BTBTimed.start btbEmpty).run
          [.update false true 10 161, .update false true 11 177, .predict 10 162]).map
        (fun t => (t.lastTouch 10, t.lastTouch 11, t.clock))) = some (3, 2, 4) ∧
      ((btbFull.run [.predict 10 162, .update false true 12 193]).map (fun b => b.sets))
        = some [[{ ip := 12, target := 193 }, { ip := 10, target := 161 }]] := by
  refine ⟨by decide, ?_, by decide⟩
  simp [BTBTimed.run, BTBTimed.call, BTBTimed.start, BTBPredictor.call, BTBPredictor.update,
    BTBPredictor.predict, BTBPredictor.touched, btbEmpty, BranchPredictor.updateCounters,
    Function.update]

end BranchPred

/-! # Theorems: `TWO_LEVEL_CACHE` -/

namespace MemHier

/-- C1, on the code: with L1 = 2 bytes / 1-byte blocks / direct mapped (two sets) and L2 = 2 bytes
/ 1-byte blocks / 2-way (one set), inclusion on and store-allocate, both for LRU and for LFU sets:
after loads of `2^64 - 1` and `0` inclusion holds; the load of `2` evicts the L2 tag `2^64 - 1`,
which equals `INVALID_TAG`, so the invalidation of L1 is skipped and L1 set 1 keeps the tag
`2^63 - 1` of a block that is no longer in L2. -/
theorem TWO_LEVEL_CACHE.inclusion_broken_on_invalid_tag_collision :
    ((TWO_LEVEL_CACHE.new LRU 2 1 1 2 1 2 0 1 15 250).map
        (fun c => (c.run Macros.default (collidingLoads.take 2)).view)
      = some ([[0], [2 ^ 63 - 1]], [[2 ^ 64 - 1, 0]], true)) ∧
    ((TWO_LEVEL_CACHE.new LRU 2 1 1 2 1 2 0 1 15 250).map
        (fun c => (c.run Macros.default collidingLoads).view)
      = some ([[1], [2 ^ 63 - 1]], [[0, 2]], false)) ∧
    ((TWO_LEVEL_CACHE.new LFU 2 1 1 2 1 2 0 1 15 250).map
        (fun c => (c.run Macros.default (collidingLoads.take 2)).view)
      = some ([[0], [2 ^ 63 - 1]], [[2 ^ 64 - 1, 0]], true)) ∧
    ((TWO_LEVEL_CACHE.new LFU 2 1 1 2 1 2 0 1 15 250).map
        (fun c => (c.run Macros.default collidingLoads).view)
      = some ([[1], [2 ^ 63 - 1]], [[2, 0]], false)) := by
  refine ⟨?_, ?_, ?_, ?_⟩ <;> decide

theorem FloorLog2_pos {n : Nat} (h : 2 ≤ n) : 1 ≤ FloorLog2 n := by
  obtain ⟨k, rfl⟩ : ∃ k, n = k + 1 := ⟨n - 1, by omega⟩
  simp only [FloorLog2, floorLog2Loop, h, if_true]
  omega

/-- The tag `SplitAddress` returns for a 64-bit address is below `2^63`, hence is not
`INVALID_TAG`, as soon as the level has blocks of at least two bytes or at least two sets: a real
tag can only equal the sentinel at a level with 1-byte blocks and a single set. -/
theorem SplitAddress_tag_ne_INVALID_TAG (addr lineShift setIndexMask : Nat) (ha : addr < 2 ^ 64)
    (h : 1 ≤ lineShift ∨
      (IsPowerOf2 ((setIndexMask + 1) % 2 ^ 32) = true ∧ 2 ≤ (setIndexMask + 1) % 2 ^ 32)) :
    (SplitAddress addr lineShift setIndexMask).1 < 2 ^ 63 ∧
      (SplitAddress addr lineShift setIndexMask).1 ≠ INVALID_TAG := by
  have key : (SplitAddress addr lineShift setIndexMask).1 < 2 ^ 63 := by
    have hdiv : ∀ k, 1 ≤ k → addr / 2 ^ k < 2 ^ 63 := by
      intro k hk
      apply Nat.div_lt_of_lt_mul
      calc addr < 2 ^ 64 := ha
        _ = 2 ^ 1 * 2 ^ 63 := by norm_num
        _ ≤ 2 ^ k * 2 ^ 63 :=
          Nat.mul_le_mul_right _ (Nat.pow_le_pow_right (by decide) hk)
    simp only [SplitAddress]
    split_ifs with hc
    · simp only [Nat.shiftRight_eq_div_pow, Nat.div_div_eq_div_mul, ← Nat.pow_add]
      rcases h with h | h
      · exact hdiv _ (by omega)
      · have := FloorLog2_pos h.2
        exact hdiv _ (by omega)
    · rcases h with h | h
      · simp only [Nat.shiftRight_eq_div_pow]
        exact hdiv _ h
      · have hpos : (setIndexMask + 1) % 2 ^ 32 > 0 := by
          have := h.2
          omega
        rw [h.1, decide_eq_true hpos] at hc
        exact absurd rfl hc
  refine ⟨key, ?_⟩
  have : INVALID_TAG = 2 ^ 64 - 1 := rfl
  omega

end MemHier

/-! # Theorems: history registers, two-level predictors, `Alpha21264` -/

namespace BranchPred

/-! ### `ShiftRegister` -/

theorem ShiftRegister.mask_eq {r : ShiftRegister} (h16 : r.size ≤ 16) :
    r.mask = 2 ^ r.size - 1 := by
  have hle : 2 ^ r.size ≤ 2 ^ 16 := Nat.pow_le_pow_right (by decide) h16
  have hpos : 0 < 2 ^ r.size := Nat.two_pow_pos _
  simp only [ShiftRegister.mask, Nat.one_shiftLeft]
  omega

/-- The value after `shiftRight` never exceeds the mask, whatever the length. -/
theorem ShiftRegister.shiftRight_data_le_mask (r : ShiftRegister) (b : Bool) :
    (r.shiftRight b).data ≤ r.mask := by
  simp only [ShiftRegister.shiftRight]
  exact Nat.le_trans (Nat.mod_le _ _) Nat.and_le_right

theorem ShiftRegister.mask_lt (r : ShiftRegister) : r.mask < 2 ^ r.size := by
  have hpos : 0 < 2 ^ r.size := Nat.two_pow_pos _
  simp only [ShiftRegister.mask, Nat.one_shiftLeft]
  have := Nat.mod_le (2 ^ r.size - 1) (2 ^ 16)
  omega

theorem ShiftRegister.shiftRight_data_eq {r : ShiftRegister} (b : Bool) (h16 : r.size ≤ 16) :
    (r.shiftRight b).data = specShiftIn r.size r.data b := by
  have hle : 2 ^ r.size ≤ 2 ^ 16 := Nat.pow_le_pow_right (by decide) h16
  simp only [ShiftRegister.shiftRight, ShiftRegister.mask_eq h16, specShiftIn,
    Nat.and_pow_two_sub_one_eq_mod]
  have hbit : (if b = true then 1 <<< (r.size - 1) else 0)
      = (if b = true then 1 else 0) <<< (r.size - 1) := by
    cases b <;> simp
  rw [hbit]
  apply Nat.mod_eq_of_lt
  exact Nat.lt_of_lt_of_le (Nat.mod_lt _ (Nat.two_pow_pos _)) hle

/-- C13: for a `ShiftRegister` of length `len` with `1 ≤ len ≤ 16` and a value `data < 2^len`,
`shiftRight(b)` sets `data` to `((data >> 1) | (b << (len-1))) mod 2^len`; the new value is below
`2^len`, its bit `len - 1` equals `b`, and the length is unchanged. -/
theorem ShiftRegister.shiftRight_spec (r : ShiftRegister) (b : Bool) (h1 : 1 ≤ r.size)
    (h16 : r.size ≤ 16) (hd : r.data < 2 ^ r.size) :
    (r.shiftRight b).data = specShiftIn r.size r.data b ∧
      (r.shiftRight b).data < 2 ^ r.size ∧
      (r.shiftRight b).data.testBit (r.size - 1) = b ∧
      (r.shiftRight b).size = r.size := by
  have heq := ShiftRegister.shiftRight_data_eq b h16
  refine ⟨heq, ?_, ?_, rfl⟩
  · rw [heq]
    exact Nat.mod_lt _ (Nat.two_pow_pos _)
  · rw [heq]
    have hlt : r.size - 1 < r.size := by omega
    have hhi : r.data.testBit (1 + (r.size - 1)) = false := by
      have : 1 + (r.size - 1) = r.size := by omega
      rw [this]
      exact Nat.testBit_lt_two_pow hd
    simp only [specShiftIn, Nat.testBit_mod_two_pow, hlt, decide_True, Bool.true_and,
      Nat.testBit_or, Nat.testBit_shiftRight, hhi, Bool.false_or]
    cases b
    · simp
    · simp [Nat.one_shiftLeft, Nat.testBit_two_pow_self]

theorem ShiftRegister.shiftRight_spec_witness :
    (1 ≤ (ShiftRegister.mk 5 4).size ∧ (ShiftRegister.mk 5 4).size ≤ 16 ∧
      (ShiftRegister.mk 5 4).data < 2 ^ (ShiftRegister.mk 5 4).size) ∧
    (((ShiftRegister.mk 5 4).shiftRight true).data
        = specShiftIn (ShiftRegister.mk 5 4).size (ShiftRegister.mk 5 4).data true ∧
      ((ShiftRegister.mk 5 4).shiftRight true).data < 2 ^ (ShiftRegister.mk 5 4).size ∧
      ((ShiftRegister.mk 5 4).shiftRight true).data.testBit ((ShiftRegister.mk 5 4).size - 1)
        = true ∧
      ((ShiftRegister.mk 5 4).shiftRight true).size = (ShiftRegister.mk 5 4).size) :=
  ⟨by decide, ShiftRegister.shiftRight_spec (ShiftRegister.mk 5 4) true (by decide) (by decide)
    (by decide)⟩

/-- A four-bit register holding `0101` becomes `1010` when a taken outcome is shifted in and
`0010` when a not-taken outcome is. -/
theorem shiftRegister_eval :
    ((ShiftRegister.mk 5 4).shiftRight true).data = 10 ∧
      ((ShiftRegister.mk 5 4).shiftRight false).data = 2 := by
  decide

/-! ### `NbitPredictor` under an all-taken stream -/

theorem NbitPredictor.update_WF_fields (p : NbitPredictor) (pr a : Bool) (ip t : Nat) :
    (p.update pr a ip t).type = p.type ∧ (p.update pr a ip t).COUNTER_MAX = p.COUNTER_MAX ∧
      (p.update pr a ip t).index_bits = p.index_bits ∧
      (p.update pr a ip t).cntr_bits = p.cntr_bits :=
  ⟨rfl, rfl, rfl, rfl⟩

/-- Along a stream of taken updates that all map to the index `idx`, the entry at `idx` is the
old entry with the taken transition of the state machine applied once per update. -/
theorem NbitPredictor.updates_all_taken {p : NbitPredictor} (h : p.WF) (idx : Nat)
    (calls : List UpdateCall)
    (hc : ∀ c ∈ calls, c.2.1 = true ∧ c.2.2.1 % 2 ^ p.index_bits = idx) :
    (p.updates calls).TABLE.getD idx 0
      = (NbitPredictor.fsm p.type p.COUNTER_MAX true)^[calls.length] (p.TABLE.getD idx 0) := by
  induction calls generalizing p with
  | nil => rfl
  | cons c cs ih =>
    obtain ⟨hct, hci⟩ := hc c (List.mem_cons_self _ _)
    have hstep := (NbitPredictor.update_table h c.1 c.2.1 c.2.2.1 c.2.2.2).1
    rw [hci, hct] at hstep
    have hwf' := NbitPredictor.update_WF h c.1 c.2.1 c.2.2.1 c.2.2.2
    have ih' := ih hwf' (fun c' hc' => hc c' (List.mem_cons_of_mem _ hc'))
    simp only [NbitPredictor.updates, List.foldl_cons, List.length_cons,
      Function.iterate_succ, Function.comp_apply] at ih' ⊢
    rw [ih', hct, hstep]
    rfl

/-- The taken transition of variants 1 to 4 moves a counter below the maximum up by at least
one and never above the maximum. -/
theorem NbitPredictor.fsm_taken_ge {type : Int} {M s : Nat}
    (ht : type = 1 ∨ type = 2 ∨ type = 3 ∨ type = 4) (hM : type ≠ 1 → M = 3) (hs : s ≤ M) :
    min (s + 1) M ≤ NbitPredictor.fsm type M true s ∧ NbitPredictor.fsm type M true s ≤ M := by
  rcases ht with rfl | rfl | rfl | rfl
  · simp only [NbitPredictor.fsm, if_true]
    split_ifs <;> omega
  all_goals
    have hM3 := hM (by decide)
    subst hM3
    simp only [NbitPredictor.fsm]
    norm_num
    split_ifs <;> omega

theorem NbitPredictor.fsm_taken_iterate {type : Int} {M : Nat}
    (ht : type = 1 ∨ type = 2 ∨ type = 3 ∨ type = 4) (hM : type ≠ 1 → M = 3) (n : Nat) :
    ∀ s, s ≤ M → min (s + n) M ≤ (NbitPredictor.fsm type M true)^[n] s ∧
      (NbitPredictor.fsm type M true)^[n] s ≤ M := by
  induction n with
  | zero =>
    intro s hs
    simp only [Function.iterate_zero, id_eq, Nat.add_zero]
    exact ⟨Nat.min_le_left _ _, hs⟩
  | succ n ih =>
    intro s hs
    obtain ⟨h1, h2⟩ := NbitPredictor.fsm_taken_ge ht hM hs
    obtain ⟨h3, h4⟩ := ih _ h2
    rw [Function.iterate_succ, Function.comp_apply]
    refine ⟨?_, h4⟩
    omega

/-- Under variant 5 with maximum 3, two taken transitions bring every counter into `{2, 3}`,
where each further taken transition swaps 2 and 3. -/
theorem NbitPredictor.fsm_five_iterate (n : Nat) :
    ∀ s, s ≤ 3 → 2 ≤ n → (NbitPredictor.fsm 5 3 true)^[n] s = 2 ∨
      (NbitPredictor.fsm 5 3 true)^[n] s = 3 := by
  have hstep : ∀ s, s = 2 ∨ s = 3 →
      NbitPredictor.fsm 5 3 true s = 2 ∨ NbitPredictor.fsm 5 3 true s = 3 := by
    rintro s (rfl | rfl) <;> decide
  have hclosed : ∀ m s, s = 2 ∨ s = 3 →
      (NbitPredictor.fsm 5 3 true)^[m] s = 2 ∨ (NbitPredictor.fsm 5 3 true)^[m] s = 3 := by
    intro m
    induction m with
    | zero => intro s hs; exact hs
    | succ m ih =>
      intro s hs
      rw [Function.iterate_succ, Function.comp_apply]
      exact ih _ (hstep s hs)
  intro s hs hn
  obtain ⟨m, rfl⟩ : ∃ m, n = m + 2 := ⟨n - 2, by omega⟩
  rw [Function.iterate_add, Function.comp_apply]
  apply hclosed
  have : s = 0 ∨ s = 1 ∨ s = 2 ∨ s = 3 := by omega
  rcases this with rfl | rfl | rfl | rfl <;> decide

theorem two_pow_pred_ge (w : Nat) (hw : 1 ≤ w) : 2 ^ (w - 1) ≤ 2 ^ w - 1 := by
  obtain ⟨k, rfl⟩ : ∃ k, w = k + 1 := ⟨w - 1, by omega⟩
  have hp : 0 < 2 ^ k := Nat.two_pow_pos k
  simp only [Nat.add_sub_cancel, Nat.pow_succ]
  omega

/-- C11, as stated, fails: the two-bit predictor of variant 5, started at 0 and given five taken
updates (at least `2^2`) at its single index, holds the counter 2, not `2^2 - 1 = 3`; after four
it holds 3, so the counter does not stay at 3. -/
theorem NbitPredictor.all_taken_saturates_fails :
    ¬ (∀ (i w : Nat) (v : Int) (n : Nat), 1 ≤ w → w ≤ 31 → 2 ^ w ≤ n →
        ((NbitPredictor.new i w v).updates (takenStream n)).TABLE.getD 0 0 = 2 ^ w - 1) := by
  intro h
  have h5 := h 0 2 5 5 (by decide) (by decide) (by decide)
  exact absurd h5 (by decide)

/-- C11, amended: for an `NbitPredictor` of counter width `1 ≤ w` whose variant in use is one of
1 to 5, any starting counters within bounds and any stream of at least `2^w` taken updates that
all map to one index: under variants 1 to 4 the counter at that index equals `2^w - 1` (so it
stays there on every further taken update); under variant 5 the counter is 2 or 3 and every
further taken update swaps 2 and 3; in all five cases `predict` at that index returns taken. -/
theorem NbitPredictor.all_taken_stream (p : NbitPredictor) (h : p.WF) (hw : 1 ≤ p.cntr_bits)
    (hb : ∀ x ∈ p.TABLE, x ≤ 2 ^ p.cntr_bits - 1)
    (ht : p.type = 1 ∨ p.type = 2 ∨ p.type = 3 ∨ p.type = 4 ∨ p.type = 5)
    (idx : Nat) (calls : List UpdateCall)
    (hc : ∀ c ∈ calls, c.2.1 = true ∧ c.2.2.1 % 2 ^ p.index_bits = idx)
    (hn : 2 ^ p.cntr_bits ≤ calls.length) :
    (p.type ≠ 5 → (p.updates calls).TABLE.getD idx 0 = 2 ^ p.cntr_bits - 1) ∧
      (p.type = 5 →
        ((p.updates calls).TABLE.getD idx 0 = 2 ∨ (p.updates calls).TABLE.getD idx 0 = 3) ∧
        ∀ (pr : Bool) (ip t : Nat), ip % 2 ^ p.index_bits = idx →
          ((p.updates calls).update pr true ip t).TABLE.getD idx 0
            = 5 - (p.updates calls).TABLE.getD idx 0) ∧
      (∀ ip t : Nat, ip % 2 ^ p.index_bits = idx → ((p.updates calls).predict ip t).1 = true) := by
  have hentry := NbitPredictor.updates_all_taken h idx calls hc
  have hs0 : p.TABLE.getD idx 0 ≤ p.COUNTER_MAX := by
    rw [h.max_eq]
    exact NbitPredictor.getD_le_of_forall hb idx
  have hM : p.type ≠ 1 → p.COUNTER_MAX = 3 := by
    intro hne
    have hw2 : p.cntr_bits = 2 := by
      by_contra hcon
      exact hne (h.type_eq hcon)
    rw [h.max_eq, hw2]
    rfl
  have hwfq := NbitPredictor.updates_WF h calls
  have hiq : (p.updates calls).index_bits = p.index_bits := NbitPredictor.updates_index_bits _ _
  have hcq : (p.updates calls).cntr_bits = p.cntr_bits := NbitPredictor.updates_cntr_bits _ _
  have htq : (p.updates calls).type = p.type := NbitPredictor.updates_type _ _
  have hmq : (p.updates calls).COUNTER_MAX = p.COUNTER_MAX :=
    NbitPredictor.updates_COUNTER_MAX _ _
  have hsat : p.type ≠ 5 → (p.updates calls).TABLE.getD idx 0 = 2 ^ p.cntr_bits - 1 := by
    intro h5
    have ht4 : p.type = 1 ∨ p.type = 2 ∨ p.type = 3 ∨ p.type = 4 := by
      rcases ht with h1 | h1 | h1 | h1 | h1
      · exact Or.inl h1
      · exact Or.inr (Or.inl h1)
      · exact Or.inr (Or.inr (Or.inl h1))
      · exact Or.inr (Or.inr (Or.inr h1))
      · exact absurd h1 h5
    obtain ⟨hlo, hhi⟩ := NbitPredictor.fsm_taken_iterate ht4 hM calls.length _ hs0
    rw [hentry, ← h.max_eq]
    have hmax := h.max_eq
    omega
  have hfive : p.type = 5 →
      (p.updates calls).TABLE.getD idx 0 = 2 ∨ (p.updates calls).TABLE.getD idx 0 = 3 := by
    intro h5
    have hM3 := hM (by rw [h5]; decide)
    have hw2 : p.cntr_bits = 2 := by
      by_contra hcon
      have := h.type_eq hcon
      rw [h5] at this
      exact absurd this (by decide)
    rw [hentry, h5, hM3]
    apply NbitPredictor.fsm_five_iterate
    · rw [← hM3]; exact hs0
    · rw [hw2] at hn
      have : (2 : Nat) ^ 2 = 4 := rfl
      omega
  refine ⟨hsat, ?_, ?_⟩
  · intro h5
    refine ⟨hfive h5, ?_⟩
    intro pr ip t hip
    have hstep := (NbitPredictor.update_table hwfq pr true ip t).1
    rw [hiq, hip, htq, hmq, h5, hM (by rw [h5]; decide)] at hstep
    rw [hstep]
    rcases hfive h5 with he | he <;> rw [he] <;> decide
  · intro ip t hip
    rw [NbitPredictor.predict_fst hwfq (hcq ▸ hw), hiq, hip, hcq]
    apply decide_eq_true
    by_cases h5 : p.type = 5
    · have hw2 : p.cntr_bits = 2 := by
        by_contra hcon
        have := h.type_eq hcon
        rw [h5] at this
        exact absurd this (by decide)
      rw [hw2]
      rcases hfive h5 with he | he <;> rw [he] <;> decide
    · rw [hsat h5]
      exact two_pow_pred_ge _ hw

theorem sctThreeBit_WF : sctThreeBit.WF :=
  NbitPredictor.updates_WF (NbitPredictor.new_WF 1 (by decide) (by decide)) _

theorem takenAtFive_spec :
    ∀ c ∈ takenAtFive, c.2.1 = true ∧ c.2.2.1 % 2 ^ sctThreeBit.index_bits = 1 := by
  intro c hc
  rw [List.eq_of_mem_replicate hc]
  decide

theorem NbitPredictor.all_taken_stream_witness :
    (sctThreeBit.WF ∧ 1 ≤ sctThreeBit.cntr_bits ∧
      (∀ x ∈ sctThreeBit.TABLE, x ≤ 2 ^ sctThreeBit.cntr_bits - 1) ∧
      (sctThreeBit.type = 1 ∨ sctThreeBit.type = 2 ∨ sctThreeBit.type = 3 ∨
        sctThreeBit.type = 4 ∨ sctThreeBit.type = 5) ∧
      (∀ c ∈ takenAtFive, c.2.1 = true ∧ c.2.2.1 % 2 ^ sctThreeBit.index_bits = 1) ∧
      2 ^ sctThreeBit.cntr_bits ≤ takenAtFive.length) ∧
    ((sctThreeBit.type ≠ 5 →
        (sctThreeBit.updates takenAtFive).TABLE.getD 1 0 = 2 ^ sctThreeBit.cntr_bits - 1) ∧
      (sctThreeBit.type = 5 →
        ((sctThreeBit.updates takenAtFive).TABLE.getD 1 0 = 2 ∨
          (sctThreeBit.updates takenAtFive).TABLE.getD 1 0 = 3) ∧
        ∀ (pr : Bool) (ip t : Nat), ip % 2 ^ sctThreeBit.index_bits = 1 →
          ((sctThreeBit.updates takenAtFive).update pr true ip t).TABLE.getD 1 0
            = 5 - (sctThreeBit.updates takenAtFive).TABLE.getD 1 0) ∧
      (∀ ip t : Nat, ip % 2 ^ sctThreeBit.index_bits = 1 →
        ((sctThreeBit.updates takenAtFive).predict ip t).1 = true)) :=
  ⟨⟨sctThreeBit_WF, by decide, by decide, Or.inl (by decide), takenAtFive_spec, by decide⟩,
    NbitPredictor.all_taken_stream sctThreeBit sctThreeBit_WF (by decide) (by decide)
      (Or.inl (by decide)) 1 takenAtFive takenAtFive_spec (by decide)⟩

/-- The all-taken stream evaluated on the code: variant 1 with three bits saturates at 7; variant
5 alternates between 3 and 2; the variant number 7 leaves the counter at 0. -/
theorem takenStream_eval :
    (sctThreeBit.updates takenAtFive).TABLE = [0, 7, 4, 0] ∧
      (sctVariantFive.updates (takenStream 4)).TABLE = [3] ∧
      (sctVariantFive.updates (takenStream 5)).TABLE = [2] ∧
      (sctVariantFive.updates (takenStream 6)).TABLE = [3] ∧
      (sctVariantSeven.updates (takenStream 4)).TABLE = [0] := by
  decide

/-! ### `NbitPredictor` built with an unknown variant number -/

/-- C12, as stated, fails: the two-bit predictor built with the variant number 7 leaves its
counter at 0 on a taken update, where variant 1 would move it to 1. -/
theorem NbitPredictor.unknown_variant_as_variant_one_fails :
    ¬ (∀ (i : Nat) (v : Int) (calls : List UpdateCall) (pr a : Bool) (ip t : Nat),
        ¬ (v = 1 ∨ v = 2 ∨ v = 3 ∨ v = 4 ∨ v = 5) →
        (((NbitPredictor.new i 2 v).updates calls).update pr a ip t).TABLE.getD (ip % 2 ^ i) 0
          = specSaturating 3 a (((NbitPredictor.new i 2 v).updates calls).TABLE.getD (ip % 2 ^ i) 0)) := by
  intro h
  have h7 := h 0 7 [] false true 0 0 (by decide)
  exact absurd h7 (by decide)

theorem NbitPredictor.fsm_unknown {type : Int}
    (ht : ¬ (type = 1 ∨ type = 2 ∨ type = 3 ∨ type = 4 ∨ type = 5)) (M : Nat) (a : Bool)
    (s : Nat) : NbitPredictor.fsm type M a s = s := by
  simp only [not_or] at ht
  obtain ⟨h1, h2, h3, h4, h5⟩ := ht
  simp only [NbitPredictor.fsm, h1, h2, h3, h4, h5, if_false]

/-- C12, amended: for an `NbitPredictor` with `w = 2` built with a variant number outside
`{1,2,3,4,5}`, in any state reached by earlier updates, `update(pc, actual)` leaves the table
unchanged (it only updates the accuracy counters); it does not apply variant 1. -/
theorem NbitPredictor.update_unknown_variant (i : Nat) (v : Int) (calls : List UpdateCall)
    (hv : ¬ (v = 1 ∨ v = 2 ∨ v = 3 ∨ v = 4 ∨ v = 5)) (pr a : Bool) (ip t : Nat) :
    (((NbitPredictor.new i 2 v).updates calls).update pr a ip t).TABLE
        = ((NbitPredictor.new i 2 v).updates calls).TABLE ∧
      (((NbitPredictor.new i 2 v).updates calls).update pr a ip t).base
        = ((NbitPredictor.new i 2 v).updates calls).base.updateCounters pr a := by
  have hty : ((NbitPredictor.new i 2 v).updates calls).type = v := by
    rw [NbitPredictor.updates_type]
    simp [NbitPredictor.new]
  refine ⟨?_, rfl⟩
  simp only [NbitPredictor.update, hty, NbitPredictor.fsm_unknown hv]
  exact set_getD_self _ _ _

theorem NbitPredictor.update_unknown_variant_witness :
    (¬ ((7 : Int) = 1 ∨ (7 : Int) = 2 ∨ (7 : Int) = 3 ∨ (7 : Int) = 4 ∨ (7 : Int) = 5)) ∧
    ((((NbitPredictor.new 0 2 7).updates (takenStream 2)).update false true 0 0).TABLE
        = ((NbitPredictor.new 0 2 7).updates (takenStream 2)).TABLE ∧
      (((NbitPredictor.new 0 2 7).updates (takenStream 2)).update false true 0 0).base
        = ((NbitPredictor.new 0 2 7).updates (takenStream 2)).base.updateCounters false true) :=
  ⟨by decide,
    NbitPredictor.update_unknown_variant 0 7 (takenStream 2) (by decide) false true 0 0⟩

/-! ### `GlobalHistoryPredictor` -/

theorem NbitPredictor.new_type_one (i w : Nat) : (NbitPredictor.new i w 1).type = 1 := by
  simp [NbitPredictor.new]

theorem GlobalHistoryPredictor.ghp_new_WF {h w : Nat} (hh : h ≤ 31) (hw1 : 1 ≤ w) (hw : w ≤ 30) :
    (GlobalHistoryPredictor.new h w).WF h w := by
  have hlen : (1 <<< w) % 2 ^ 32 = 2 ^ w := pow_mod_two_pow_32 (by omega)
  refine ⟨hh, hw1, hw, ?_, rfl, Nat.two_pow_pos w, ?_⟩
  · simp only [GlobalHistoryPredictor.new, List.length_replicate]
    exact hlen
  · intro q hq
    simp only [GlobalHistoryPredictor.new] at hq
    rw [List.eq_of_mem_replicate hq]
    exact ⟨NbitPredictor.new_WF 1 hh (by omega), rfl, rfl, NbitPredictor.new_type_one h w⟩

theorem ShiftRegister.shiftRight_data_lt {r : ShiftRegister} {w : Nat}
    (hs : r.size = w % 2 ^ 16) (b : Bool) : (r.shiftRight b).data < 2 ^ w := by
  have h1 := ShiftRegister.shiftRight_data_le_mask r b
  have h2 := ShiftRegister.mask_lt r
  have h3 : 2 ^ r.size ≤ 2 ^ w :=
    Nat.pow_le_pow_right (by decide) (hs ▸ Nat.mod_le w (2 ^ 16))
  omega

theorem GlobalHistoryPredictor.ghp_update_WF {g : GlobalHistoryPredictor} {h w : Nat}
    (hg : g.WF h w) (pr a : Bool) (ip t : Nat) : (g.update pr a ip t).WF h w := by
  refine ⟨hg.h_le, hg.w_pos, hg.w_le, ?_, hg.size_eq, ?_, ?_⟩
  · simp [GlobalHistoryPredictor.update, hg.length_eq]
  · exact ShiftRegister.shiftRight_data_lt hg.size_eq a
  · intro q hq
    simp only [GlobalHistoryPredictor.update] at hq
    rcases List.mem_or_eq_of_mem_set hq with hq | hq
    · exact hg.sub_wf q hq
    · have hsel : g.predictorAt g.bhr.getValue ∈ g.predictors := by
        have hlt : g.bhr.getValue < g.predictors.length := by
          rw [hg.length_eq]; exact hg.data_lt
        simp only [GlobalHistoryPredictor.predictorAt, List.getD_eq_getElem _ _ hlt]
        exact List.getElem_mem _
      obtain ⟨h1, h2, h3, h4⟩ := hg.sub_wf _ hsel
      rw [hq]
      exact ⟨NbitPredictor.update_WF h1 _ _ _ _, h2, h3, h4⟩

theorem GlobalHistoryPredictor.ghp_updates_WF {g : GlobalHistoryPredictor} {h w : Nat}
    (hg : g.WF h w) (calls : List UpdateCall) : (g.updates calls).WF h w := by
  induction calls generalizing g with
  | nil => exact hg
  | cons c cs ih => exact ih (GlobalHistoryPredictor.ghp_update_WF hg _ _ _ _)

/-- One `update` of a well-formed `GlobalHistoryPredictor`, sub-predictor by sub-predictor. -/
theorem GlobalHistoryPredictor.update_predictorAt {g : GlobalHistoryPredictor} {h w : Nat}
    (hg : g.WF h w) (pr a : Bool) (ip t : Nat) :
    (g.update pr a ip t).predictorAt g.bhr.getValue
        = (g.predictorAt g.bhr.getValue).update pr a ip t ∧
      (∀ j, j ≠ g.bhr.getValue → (g.update pr a ip t).predictorAt j = g.predictorAt j) := by
  have hlt : g.bhr.getValue < g.predictors.length := by
    rw [hg.length_eq]; exact hg.data_lt
  constructor
  · simp only [GlobalHistoryPredictor.update, GlobalHistoryPredictor.predictorAt]
    exact getD_set_self _ _ _ _ hlt
  · intro j hj
    simp only [GlobalHistoryPredictor.update, GlobalHistoryPredictor.predictorAt]
    exact getD_set_ne _ _ _ hj

/-- The facts of C14 on a well-formed state. -/
theorem GlobalHistoryPredictor.WF.selected {g : GlobalHistoryPredictor} {h w : Nat}
    (hg : g.WF h w) (pr a : Bool) (ip t : Nat) :
    g.predictors.length = 2 ^ w ∧ g.bhr.getValue < 2 ^ w ∧
      (g.predict ip t).1 = ((g.predictorAt g.bhr.getValue).predict ip t).1 ∧
      (g.predict ip t).2 = g ∧
      (g.update pr a ip t).predictorAt g.bhr.getValue
        = (g.predictorAt g.bhr.getValue).update pr a ip t ∧
      (∀ j, j ≠ g.bhr.getValue → (g.update pr a ip t).predictorAt j = g.predictorAt j) ∧
      (g.update pr a ip t).bhr = g.bhr.shiftRight a ∧
      (g.update pr a ip t).bhr.getValue < 2 ^ w := by
  obtain ⟨h1, h2⟩ := GlobalHistoryPredictor.update_predictorAt hg pr a ip t
  refine ⟨hg.length_eq, hg.data_lt, ?_, ?_, h1, h2, ?_,
    (GlobalHistoryPredictor.ghp_update_WF hg pr a ip t).data_lt⟩
  · simp only [GlobalHistoryPredictor.predict]
  · simp only [GlobalHistoryPredictor.predict]
  · simp only [GlobalHistoryPredictor.update]

/-- C14: for a `GlobalHistoryPredictor(h, w)` in any state reached from construction by updates:
the history value is a valid index (`< 2^w`, the number of SCTs), before and after an update;
`predict(pc)` returns the prediction at `pc` of the SCT selected by the history value and leaves
the state as it is; `update(pc, actual)` replaces that same SCT (selected by the history value
before the shift) by its update at `pc`, leaves every other SCT unchanged, and shifts `actual`
into the history register. -/
theorem GlobalHistoryPredictor.predict_update_selected (h w : Nat) (calls : List UpdateCall)
    (hh : h ≤ 31) (hw1 : 1 ≤ w) (hw : w ≤ 30) (pr a : Bool) (ip t : Nat) :
    ((GlobalHistoryPredictor.new h w).updates calls).predictors.length = 2 ^ w ∧
      ((GlobalHistoryPredictor.new h w).updates calls).bhr.getValue < 2 ^ w ∧
      (((GlobalHistoryPredictor.new h w).updates calls).predict ip t).1
        = ((((GlobalHistoryPredictor.new h w).updates calls).predictorAt
            ((GlobalHistoryPredictor.new h w).updates calls).bhr.getValue).predict ip t).1 ∧
      (((GlobalHistoryPredictor.new h w).updates calls).predict ip t).2
        = (GlobalHistoryPredictor.new h w).updates calls ∧
      (((GlobalHistoryPredictor.new h w).updates calls).update pr a ip t).predictorAt
          ((GlobalHistoryPredictor.new h w).updates calls).bhr.getValue
        = (((GlobalHistoryPredictor.new h w).updates calls).predictorAt
            ((GlobalHistoryPredictor.new h w).updates calls).bhr.getValue).update pr a ip t ∧
      (∀ j, j ≠ ((GlobalHistoryPredictor.new h w).updates calls).bhr.getValue →
        (((GlobalHistoryPredictor.new h w).updates calls).update pr a ip t).predictorAt j
          = ((GlobalHistoryPredictor.new h w).updates calls).predictorAt j) ∧
      (((GlobalHistoryPredictor.new h w).updates calls).update pr a ip t).bhr
        = ((GlobalHistoryPredictor.new h w).updates calls).bhr.shiftRight a ∧
      (((GlobalHistoryPredictor.new h w).updates calls).update pr a ip t).bhr.getValue
        < 2 ^ w := by
  exact (GlobalHistoryPredictor.ghp_updates_WF (GlobalHistoryPredictor.ghp_new_WF hh hw1 hw)
    calls).selected pr a ip t

theorem GlobalHistoryPredictor.predict_update_selected_witness :
    ((1 : Nat) ≤ 31 ∧ 1 ≤ 2 ∧ 2 ≤ 30) ∧
    (((GlobalHistoryPredictor.new 1 2).updates [(false, true, 1, 0)]).predictors.length = 2 ^ 2 ∧
      ((GlobalHistoryPredictor.new 1 2).updates [(false, true, 1, 0)]).bhr.getValue < 2 ^ 2 ∧
      (((GlobalHistoryPredictor.new 1 2).updates [(false, true, 1, 0)]).predict 3 0).1
        = ((((GlobalHistoryPredictor.new 1 2).updates [(false, true, 1, 0)]).predictorAt
            ((GlobalHistoryPredictor.new 1 2).updates [(false, true, 1, 0)]).bhr.getValue).predict
              3 0).1 ∧
      (((GlobalHistoryPredictor.new 1 2).updates [(false, true, 1, 0)]).predict 3 0).2
        = (GlobalHistoryPredictor.new 1 2).updates [(false, true, 1, 0)] ∧
      (((GlobalHistoryPredictor.new 1 2).updates [(false, true, 1, 0)]).update true false 3
            0).predictorAt
          ((GlobalHistoryPredictor.new 1 2).updates [(false, true, 1, 0)]).bhr.getValue
        = (((GlobalHistoryPredictor.new 1 2).updates [(false, true, 1, 0)]).predictorAt
            ((GlobalHistoryPredictor.new 1 2).updates [(false, true, 1, 0)]).bhr.getValue).update
              true false 3 0 ∧
      (∀ j, j ≠ ((GlobalHistoryPredictor.new 1 2).updates [(false, true, 1, 0)]).bhr.getValue →
        (((GlobalHistoryPredictor.new 1 2).updates [(false, true, 1, 0)]).update true false 3
            0).predictorAt j
          = ((GlobalHistoryPredictor.new 1 2).updates [(false, true, 1, 0)]).predictorAt j) ∧
      (((GlobalHistoryPredictor.new 1 2).updates [(false, true, 1, 0)]).update true false 3 0).bhr
        = ((GlobalHistoryPredictor.new 1 2).updates [(false, true, 1, 0)]).bhr.shiftRight false ∧
      (((GlobalHistoryPredictor.new 1 2).updates [(false, true, 1, 0)]).update true false 3
          0).bhr.getValue < 2 ^ 2) :=
  ⟨by decide,
    GlobalHistoryPredictor.predict_update_selected 1 2 [(false, true, 1, 0)] (by decide)
      (by decide) (by decide) true false 3 0⟩

/-- A `GlobalHistoryPredictor(1, 2)` evaluated on the code: the taken update at `pc = 1` trains
SCT 0 (history 0) at index 1 and moves the history to `10`; the next update trains SCT 2. -/
theorem globalHistory_eval :
    ((GlobalHistoryPredictor.new 1 2).updates [(false, true, 1, 0)]).predictors.map
        (fun q => q.TABLE) = [[0, 1], [0, 0], [0, 0], [0, 0]] ∧
      ((GlobalHistoryPredictor.new 1 2).updates [(false, true, 1, 0)]).bhr.getValue = 2 ∧
      ((GlobalHistoryPredictor.new 1 2).updates
          [(false, true, 1, 0), (false, true, 1, 0)]).predictors.map (fun q => q.TABLE)
        = [[0, 1], [0, 0], [0, 1], [0, 0]] ∧
      ((GlobalHistoryPredictor.new 1 2).updates
          [(false, true, 1, 0), (false, true, 1, 0)]).bhr.getValue = 3 := by
  decide

/-! ### `LocalHistoryPredictor` -/

theorem LocalHistoryPredictor.lhp_new_WF {b : Nat} (Z p phtW : Nat) (hb : b ≤ 30) :
    (LocalHistoryPredictor.new b Z p phtW).WF b Z p := by
  have hlen : (1 <<< b) % 2 ^ 32 = 2 ^ b := pow_mod_two_pow_32 (by omega)
  refine ⟨rfl, rfl, rfl, hb, ?_, ?_⟩
  · simp only [LocalHistoryPredictor.new, List.length_replicate]
    exact hlen
  · intro r hr
    simp only [LocalHistoryPredictor.new] at hr
    rw [List.eq_of_mem_replicate hr]
    exact ⟨rfl, Nat.two_pow_pos Z⟩

theorem LocalHistoryPredictor.bhtAt_mem {l : LocalHistoryPredictor} {i : Nat}
    (hi : i < l.bht.length) : l.bhtAt i ∈ l.bht := by
  simp only [LocalHistoryPredictor.bhtAt, List.getD_eq_getElem _ _ hi]
  exact List.getElem_mem _

theorem LocalHistoryPredictor.lhp_update_WF {l : LocalHistoryPredictor} {b Z p : Nat}
    (hl : l.WF b Z p) (pr a : Bool) (ip t : Nat) : (l.update pr a ip t).WF b Z p := by
  refine ⟨hl.b_eq, hl.Z_eq, hl.p_eq, hl.b_le, ?_, ?_⟩
  · simp [LocalHistoryPredictor.update, LocalHistoryPredictor.trainPht,
      LocalHistoryPredictor.shiftBht, hl.length_eq]
  · intro r hr
    simp only [LocalHistoryPredictor.update, LocalHistoryPredictor.trainPht,
      LocalHistoryPredictor.shiftBht] at hr
    by_cases hi : l.bht_index ip < l.bht.length
    · rcases List.mem_or_eq_of_mem_set hr with hr | hr
      · exact hl.reg r hr
      · have hold := hl.reg _ (LocalHistoryPredictor.bhtAt_mem hi)
        rw [hr]
        exact ⟨hold.1, ShiftRegister.shiftRight_data_lt hold.1 a⟩
    · rw [List.set_eq_of_length_le (Nat.le_of_not_lt hi)] at hr
      exact hl.reg r hr

theorem LocalHistoryPredictor.lhp_updates_WF {l : LocalHistoryPredictor} {b Z p : Nat}
    (hl : l.WF b Z p) (calls : List UpdateCall) : (l.updates calls).WF b Z p := by
  induction calls generalizing l with
  | nil => exact hl
  | cons c cs ih => exact ih (LocalHistoryPredictor.lhp_update_WF hl _ _ _ _)

/-- A 16-bit mask `(1 << k) - 1` with `k ≤ 16` selects the low `k` bits. -/
theorem and_mask16 (x : Nat) {k : Nat} (hk : k ≤ 16) :
    (x &&& ((1 <<< k) - 1) % 2 ^ 16) % 2 ^ 16 = x % 2 ^ k := by
  have hle : 2 ^ k ≤ 2 ^ 16 := Nat.pow_le_pow_right (by decide) hk
  have hpos : 0 < 2 ^ k := Nat.two_pow_pos k
  have hm : ((1 <<< k) - 1) % 2 ^ 16 = 2 ^ k - 1 := by
    rw [Nat.one_shiftLeft]
    omega
  rw [hm, Nat.and_pow_two_sub_one_eq_mod]
  apply Nat.mod_eq_of_lt
  exact Nat.lt_of_lt_of_le (Nat.mod_lt _ hpos) hle

/-- With at most 16 index bits, the BHT index is `pc mod 2^b`. -/
theorem LocalHistoryPredictor.bht_index_eq {l : LocalHistoryPredictor} {b Z p : Nat}
    (hl : l.WF b Z p) (hb : b ≤ 16) (ip : Nat) : l.bht_index ip = ip % 2 ^ b := by
  simp only [LocalHistoryPredictor.bht_index, LocalHistoryPredictor.bht_mask, hl.b_eq]
  exact and_mask16 ip hb

/-- With `b ≤ 16` and `Z ≤ p ≤ 16`, no 16-bit local of `predict` / `update` is truncated and the
index passed to the PHT is the `customIdx` of the specification. -/
theorem LocalHistoryPredictor.custom_ip_eq {l : LocalHistoryPredictor} {b Z p : Nat}
    (hl : l.WF b Z p) (hb : b ≤ 16) (hZ : Z ≤ p) (hp : p ≤ 16) (ip : Nat) :
    l.custom_ip ip = specCustomIdx Z p ip (l.bhtAt (ip % 2 ^ b)).getValue := by
  have hidx := LocalHistoryPredictor.bht_index_eq hl hb ip
  have hlt : ip % 2 ^ b < l.bht.length := by
    rw [hl.length_eq]; exact Nat.mod_lt _ (Nat.two_pow_pos b)
  have hval : (l.bhtAt (ip % 2 ^ b)).getValue < 2 ^ Z :=
    (hl.reg _ (LocalHistoryPredictor.bhtAt_mem hlt)).2
  have hpc : (ip &&& l.pc_mask) % 2 ^ 16 = ip % 2 ^ (p - Z) := by
    simp only [LocalHistoryPredictor.pc_mask, hl.p_eq, hl.Z_eq]
    exact and_mask16 ip (by omega)
  simp only [LocalHistoryPredictor.custom_ip, hidx, hpc, hl.Z_eq, specCustomIdx]
  apply Nat.mod_eq_of_lt
  have hp16 : 2 ^ p ≤ 2 ^ 16 := Nat.pow_le_pow_right (by decide) hp
  have hZp : 2 ^ Z ≤ 2 ^ p := Nat.pow_le_pow_right (by decide) hZ
  have hshift : (ip % 2 ^ (p - Z)) <<< Z < 2 ^ p := by
    rw [Nat.shiftLeft_eq]
    calc ip % 2 ^ (p - Z) * 2 ^ Z < 2 ^ (p - Z) * 2 ^ Z :=
          Nat.mul_lt_mul_of_pos_right (Nat.mod_lt _ (Nat.two_pow_pos _)) (Nat.two_pow_pos _)
      _ = 2 ^ p := by rw [← Nat.pow_add, Nat.sub_add_cancel hZ]
  exact Nat.lt_of_lt_of_le (Nat.or_lt_two_pow hshift (Nat.lt_of_lt_of_le hval hZp)) hp16

/-- C15, as stated, fails: in the freshly built `LocalHistoryPredictor(1, 1, 17, 2)` (so
`Z ≤ p`) and for `pc = 2^15`, the index passed to the PHT is 0, the 16-bit truncation of
`customIdx = 2^16`. -/
theorem LocalHistoryPredictor.custom_index_fails :
    ¬ (∀ (b Z p phtW pc : Nat), Z ≤ p →
        (LocalHistoryPredictor.new b Z p phtW).custom_ip pc
          = specCustomIdx Z p pc
              ((LocalHistoryPredictor.new b Z p phtW).bhtAt (pc % 2 ^ b)).getValue) := by
  intro h
  have h17 := h 1 1 17 2 (2 ^ 15) (by decide)
  exact absurd h17 (by decide)

/-- C15, amended: for a `LocalHistoryPredictor(b, Z, p, phtW)` with `b ≤ 16` and `Z ≤ p ≤ 16`, in
any state reached from construction by updates, and every `pc`: the index handed to the PHT by
`predict` and by `update` is `customIdx = ((pc mod 2^(p-Z)) << Z) | BHT[pc mod 2^b].value`, and
`predict(pc)` equals the PHT's prediction at `customIdx`. -/
theorem LocalHistoryPredictor.custom_index (b Z p phtW : Nat) (calls : List UpdateCall)
    (hb : b ≤ 16) (hZ : Z ≤ p) (hp : p ≤ 16) (pr a : Bool) (pc t : Nat) :
    ((LocalHistoryPredictor.new b Z p phtW).updates calls).custom_ip pc
        = specCustomIdx Z p pc
            (((LocalHistoryPredictor.new b Z p phtW).updates calls).bhtAt (pc % 2 ^ b)).getValue ∧
      (((LocalHistoryPredictor.new b Z p phtW).updates calls).predict pc t).1
        = (((LocalHistoryPredictor.new b Z p phtW).updates calls).pht.predict
            (specCustomIdx Z p pc
              (((LocalHistoryPredictor.new b Z p phtW).updates calls).bhtAt
                (pc % 2 ^ b)).getValue) t).1 ∧
      (((LocalHistoryPredictor.new b Z p phtW).updates calls).update pr a pc t).pht
        = ((LocalHistoryPredictor.new b Z p phtW).updates calls).pht.update pr a
            (specCustomIdx Z p pc
              (((LocalHistoryPredictor.new b Z p phtW).updates calls).bhtAt
                (pc % 2 ^ b)).getValue) t := by
  have hwf := LocalHistoryPredictor.lhp_updates_WF
    (LocalHistoryPredictor.lhp_new_WF Z p phtW (by omega : b ≤ 30)) calls
  have hc := LocalHistoryPredictor.custom_ip_eq hwf hb hZ hp pc
  refine ⟨hc, ?_, ?_⟩
  · simp only [LocalHistoryPredictor.predict, hc]
  · simp only [LocalHistoryPredictor.update, LocalHistoryPredictor.trainPht,
      LocalHistoryPredictor.shiftBht, hc]

theorem LocalHistoryPredictor.custom_index_witness :
    ((2 : Nat) ≤ 16 ∧ 3 ≤ 5 ∧ 5 ≤ 16) ∧
    (((LocalHistoryPredictor.new 2 3 5 2).updates [(false, true, 6, 0)]).custom_ip 6
        = specCustomIdx 3 5 6
            (((LocalHistoryPredictor.new 2 3 5 2).updates [(false, true, 6, 0)]).bhtAt
              (6 % 2 ^ 2)).getValue ∧
      (((LocalHistoryPredictor.new 2 3 5 2).updates [(false, true, 6, 0)]).predict 6 0).1
        = (((LocalHistoryPredictor.new 2 3 5 2).updates [(false, true, 6, 0)]).pht.predict
            (specCustomIdx 3 5 6
              (((LocalHistoryPredictor.new 2 3 5 2).updates [(false, true, 6, 0)]).bhtAt
                (6 % 2 ^ 2)).getValue) 0).1 ∧
      (((LocalHistoryPredictor.new 2 3 5 2).updates [(false, true, 6, 0)]).update true false 6
          0).pht
        = ((LocalHistoryPredictor.new 2 3 5 2).updates [(false, true, 6, 0)]).pht.update true
            false
            (specCustomIdx 3 5 6
              (((LocalHistoryPredictor.new 2 3 5 2).updates [(false, true, 6, 0)]).bhtAt
                (6 % 2 ^ 2)).getValue) 0) :=
  ⟨by decide,
    LocalHistoryPredictor.custom_index 2 3 5 2 [(false, true, 6, 0)] (by decide) (by decide)
      (by decide) true false 6 0⟩

/-- A `LocalHistoryPredictor(2, 3, 5, 2)` evaluated on the code: `pc = 6` uses `BHT[2]`; with
history `100` after one taken update its PHT index is `((6 mod 4) << 3) | 4 = 20`. -/
theorem localHistory_eval :
    ((LocalHistoryPredictor.new 2 3 5 2).custom_ip 6 = 16) ∧
      (((LocalHistoryPredictor.new 2 3 5 2).updates [(false, true, 6, 0)]).bht.map
        (fun r => r.data) = [0, 0, 4, 0]) ∧
      (((LocalHistoryPredictor.new 2 3 5 2).updates [(false, true, 6, 0)]).pht.TABLE.getD 16 0
        = 1) ∧
      (((LocalHistoryPredictor.new 2 3 5 2).updates [(false, true, 6, 0)]).custom_ip 6 = 20) := by
  decide

/-- One `update`, history register by history register, for any index widths. -/
theorem LocalHistoryPredictor.update_bhtAt (l : LocalHistoryPredictor) (pr a : Bool)
    (ip t : Nat) :
    (l.bht_index ip < l.bht.length →
        (l.update pr a ip t).bhtAt (l.bht_index ip) = (l.bhtAt (l.bht_index ip)).shiftRight a) ∧
      (∀ j, j ≠ l.bht_index ip → (l.update pr a ip t).bhtAt j = l.bhtAt j) := by
  constructor
  · intro hlt
    simp only [LocalHistoryPredictor.update, LocalHistoryPredictor.trainPht,
      LocalHistoryPredictor.shiftBht, LocalHistoryPredictor.bhtAt]
    exact getD_set_self _ _ _ _ hlt
  · intro j hj
    simp only [LocalHistoryPredictor.update, LocalHistoryPredictor.trainPht,
      LocalHistoryPredictor.shiftBht, LocalHistoryPredictor.bhtAt]
    exact getD_set_ne _ _ _ hj

theorem LocalHistoryPredictor.bhtAt_new {b : Nat} (Z p phtW : Nat) (hb : b ≤ 30) {j : Nat}
    (hj : j < 2 ^ b) : (LocalHistoryPredictor.new b Z p phtW).bhtAt j = ShiftRegister.new Z := by
  have hlen : (1 <<< b) % 2 ^ 32 = 2 ^ b := pow_mod_two_pow_32 (by omega)
  simp only [LocalHistoryPredictor.bhtAt, LocalHistoryPredictor.new, hlen,
    List.getD_eq_getElem?_getD, List.getElem?_replicate, hj, if_true, Option.getD_some]

/-- C16, as stated, fails: in the freshly built `LocalHistoryPredictor(17, 1, 1, 2)` the update
for `pc = 2^16` leaves `BHT[pc mod 2^17] = BHT[65536]` as it is (it shifts `BHT[0]`, because the
16-bit BHT index is `pc mod 2^16`). -/
theorem LocalHistoryPredictor.update_shifts_indexed_register_fails :
    ¬ (∀ (b Z p phtW : Nat) (pr a : Bool) (pc t : Nat), Z ≤ p →
        ((LocalHistoryPredictor.new b Z p phtW).update pr a pc t).bhtAt (pc % 2 ^ b)
          = ((LocalHistoryPredictor.new b Z p phtW).bhtAt (pc % 2 ^ b)).shiftRight a) := by
  intro h
  have h17 := h 17 1 1 2 false true (2 ^ 16) 0 (by decide)
  have hidx : (LocalHistoryPredictor.new 17 1 1 2).bht_index (2 ^ 16) = 0 := by decide
  have hne : 2 ^ 16 % 2 ^ 17 ≠ (LocalHistoryPredictor.new 17 1 1 2).bht_index (2 ^ 16) := by
    rw [hidx]
    decide
  rw [(LocalHistoryPredictor.update_bhtAt _ false true (2 ^ 16) 0).2 _ hne,
    LocalHistoryPredictor.bhtAt_new 1 1 2 (by decide) (by decide)] at h17
  exact absurd h17 (by decide)

/-- C16, amended: for a `LocalHistoryPredictor(b, Z, p, phtW)` with `b ≤ 16`, in any state
reached from construction by updates: `update(pc, actual)` trains the PHT with the index computed
from the history before the shift, the index `predict(pc)` reads on the same state; it shifts
`actual` into `BHT[pc mod 2^b]` and leaves every other BHT entry unchanged; and the resulting
state is the same when the PHT is trained before the BHT entry is shifted. -/
theorem LocalHistoryPredictor.update_effects (b Z p phtW : Nat) (calls : List UpdateCall)
    (hb : b ≤ 16) (pr a : Bool) (pc t : Nat) :
    (((LocalHistoryPredictor.new b Z p phtW).updates calls).update pr a pc t).pht
        = ((LocalHistoryPredictor.new b Z p phtW).updates calls).pht.update pr a
            (((LocalHistoryPredictor.new b Z p phtW).updates calls).custom_ip pc) t ∧
      (((LocalHistoryPredictor.new b Z p phtW).updates calls).predict pc t).1
        = (((LocalHistoryPredictor.new b Z p phtW).updates calls).pht.predict
            (((LocalHistoryPredictor.new b Z p phtW).updates calls).custom_ip pc) t).1 ∧
      (((LocalHistoryPredictor.new b Z p phtW).updates calls).update pr a pc t).bhtAt
          (pc % 2 ^ b)
        = (((LocalHistoryPredictor.new b Z p phtW).updates calls).bhtAt
            (pc % 2 ^ b)).shiftRight a ∧
      (∀ j, j ≠ pc % 2 ^ b →
        (((LocalHistoryPredictor.new b Z p phtW).updates calls).update pr a pc t).bhtAt j
          = ((LocalHistoryPredictor.new b Z p phtW).updates calls).bhtAt j) ∧
      ((LocalHistoryPredictor.new b Z p phtW).updates calls).update pr a pc t
        = { ((((LocalHistoryPredictor.new b Z p phtW).updates calls).trainPht pr a
                (((LocalHistoryPredictor.new b Z p phtW).updates calls).custom_ip pc) t).shiftBht
                (((LocalHistoryPredictor.new b Z p phtW).updates calls).bht_index pc) a) with
            base := ((LocalHistoryPredictor.new b Z p phtW).updates calls).base.updateCounters
              pr a } := by
  have hwf := LocalHistoryPredictor.lhp_updates_WF
    (LocalHistoryPredictor.lhp_new_WF Z p phtW (by omega : b ≤ 30)) calls
  have hidx := LocalHistoryPredictor.bht_index_eq hwf hb pc
  have hlt : ((LocalHistoryPredictor.new b Z p phtW).updates calls).bht_index pc
      < ((LocalHistoryPredictor.new b Z p phtW).updates calls).bht.length := by
    rw [hidx, hwf.length_eq]; exact Nat.mod_lt _ (Nat.two_pow_pos b)
  obtain ⟨h1, h2⟩ := LocalHistoryPredictor.update_bhtAt
    ((LocalHistoryPredictor.new b Z p phtW).updates calls) pr a pc t
  rw [hidx] at h1 h2
  refine ⟨?_, ?_, h1 (hidx ▸ hlt), h2, ?_⟩
  · simp only [LocalHistoryPredictor.update, LocalHistoryPredictor.trainPht,
      LocalHistoryPredictor.shiftBht]
  · simp only [LocalHistoryPredictor.predict]
  · simp only [LocalHistoryPredictor.update, LocalHistoryPredictor.trainPht,
      LocalHistoryPredictor.shiftBht, LocalHistoryPredictor.bhtAt]

theorem LocalHistoryPredictor.update_effects_witness :
    (2 : Nat) ≤ 16 ∧
    ((((LocalHistoryPredictor.new 2 3 5 2).updates [(false, true, 6, 0)]).update true false 6
          0).pht
        = ((LocalHistoryPredictor.new 2 3 5 2).updates [(false, true, 6, 0)]).pht.update true
            false (((LocalHistoryPredictor.new 2 3 5 2).updates [(false, true, 6, 0)]).custom_ip
              6) 0 ∧
      (((LocalHistoryPredictor.new 2 3 5 2).updates [(false, true, 6, 0)]).predict 6 0).1
        = (((LocalHistoryPredictor.new 2 3 5 2).updates [(false, true, 6, 0)]).pht.predict
            (((LocalHistoryPredictor.new 2 3 5 2).updates [(false, true, 6, 0)]).custom_ip 6)
            0).1 ∧
      (((LocalHistoryPredictor.new 2 3 5 2).updates [(false, true, 6, 0)]).update true false 6
          0).bhtAt (6 % 2 ^ 2)
        = (((LocalHistoryPredictor.new 2 3 5 2).updates [(false, true, 6, 0)]).bhtAt
            (6 % 2 ^ 2)).shiftRight false ∧
      (∀ j, j ≠ 6 % 2 ^ 2 →
        (((LocalHistoryPredictor.new 2 3 5 2).updates [(false, true, 6, 0)]).update true false 6
            0).bhtAt j
          = ((LocalHistoryPredictor.new 2 3 5 2).updates [(false, true, 6, 0)]).bhtAt j) ∧
      ((LocalHistoryPredictor.new 2 3 5 2).updates [(false, true, 6, 0)]).update true false 6 0
        = { ((((LocalHistoryPredictor.new 2 3 5 2).updates [(false, true, 6, 0)]).trainPht true
                false
                (((LocalHistoryPredictor.new 2 3 5 2).updates [(false, true, 6, 0)]).custom_ip 6)
                0).shiftBht
                (((LocalHistoryPredictor.new 2 3 5 2).updates [(false, true, 6, 0)]).bht_index 6)
                false) with
            base := ((LocalHistoryPredictor.new 2 3 5 2).updates
              [(false, true, 6, 0)]).base.updateCounters true false }) :=
  ⟨by decide,
    LocalHistoryPredictor.update_effects 2 3 5 2 [(false, true, 6, 0)] (by decide) true false 6
      0⟩

end BranchPred

namespace BranchPred

/-! ### `Alpha21264` -/

theorem Alpha21264.alpha_new_WF (p0 p1 : Bool) : (Alpha21264.new p0 p1).WF := by
  refine ⟨?_, ?_, ?_, ?_, ?_, ?_, ?_, ?_, ?_⟩
  · simp only [Alpha21264.new, ShiftRegister.new]
    decide
  · simp only [Alpha21264.new, ShiftRegister.new]
    decide
  · simp only [Alpha21264.new]
    exact NbitPredictor.new_WF 1 (by decide) (by decide)
  · simp only [Alpha21264.new, NbitPredictor.new]
  · simp only [Alpha21264.new, NbitPredictor.new]
  · simp only [Alpha21264.new]
    exact NbitPredictor.new_type_one 12 2
  · simp only [Alpha21264.new]
    exact LocalHistoryPredictor.lhp_new_WF 10 10 3 (by decide)
  · simp only [Alpha21264.new]
    exact ⟨NbitPredictor.new_WF 1 (by decide) (by decide), by simp only [LocalHistoryPredictor.new,
      NbitPredictor.new], by simp only [LocalHistoryPredictor.new, NbitPredictor.new],
      NbitPredictor.new_type_one 10 3⟩
  · simp only [Alpha21264.new]
    exact GlobalHistoryPredictor.ghp_new_WF (by decide) (by decide) (by decide)

/-- The state `predict` returns: the state it was called on with the two sub-predictions
stored. -/
theorem Alpha21264.predict_snd (a : Alpha21264) (ip t : Nat) :
    (a.predict ip t).2
      = { a with pred0 := (a.lhp.predict ip t).1,
                 pred1 := (a.ghp.predict a.global_history.getValue t).1 } := rfl

/-- The value `predict` returns. -/
theorem Alpha21264.alpha_predict_fst (a : Alpha21264) (ip t : Nat) :
    (a.predict ip t).1
      = (if (a.choice_predictor.predict a.global_history.getValue 0).1
         then (a.ghp.predict a.global_history.getValue t).1
         else (a.lhp.predict ip t).1) := by
  unfold Alpha21264.predict
  with_reducible rfl

/-- What `predict` does to the state: it stores the two sub-predictions and nothing else. -/
theorem Alpha21264.predict_state (a : Alpha21264) (ip t : Nat) :
    (a.predict ip t).2.choice_predictor = a.choice_predictor ∧
      (a.predict ip t).2.ghp = a.ghp ∧ (a.predict ip t).2.lhp = a.lhp ∧
      (a.predict ip t).2.global_history = a.global_history ∧
      (a.predict ip t).2.base = a.base ∧
      (a.predict ip t).2.pred0 = (a.lhp.predict ip t).1 ∧
      (a.predict ip t).2.pred1 = (a.ghp.predict a.global_history.getValue t).1 := by
  rw [Alpha21264.predict_snd]
  refine ⟨?_, ?_, ?_, ?_, ?_, ?_, ?_⟩ <;> with_reducible rfl

theorem Alpha21264.predict_WF {a : Alpha21264} (h : a.WF) (ip t : Nat) :
    (a.predict ip t).2.WF := by
  rw [Alpha21264.predict_snd]
  exact ⟨h.hist_size, h.hist_lt, h.choice_wf, h.choice_index, h.choice_cntr, h.choice_type,
    h.lhp_wf, h.lhp_pht, h.ghp_wf⟩

theorem LocalHistoryPredictor.update_PhtWF {l : LocalHistoryPredictor} {p w : Nat}
    (hl : l.PhtWF p w) (pr a : Bool) (ip t : Nat) : (l.update pr a ip t).PhtWF p w := by
  have hpht : (l.update pr a ip t).pht = l.pht.update pr a (l.custom_ip ip) t := by
    simp only [LocalHistoryPredictor.update, LocalHistoryPredictor.trainPht,
      LocalHistoryPredictor.shiftBht]
  refine ⟨?_, ?_, ?_, ?_⟩
  · rw [hpht]; exact NbitPredictor.update_WF hl.pht_wf _ _ _ _
  · rw [hpht]; exact hl.pht_index
  · rw [hpht]; exact hl.pht_cntr
  · rw [hpht]; exact hl.pht_type

/-- The choice predictor after `update`, as the two `if` statements leave it. -/
theorem Alpha21264.update_choice_eq (a : Alpha21264) (pr actual : Bool) (ip t : Nat) :
    (a.update pr actual ip t).choice_predictor
      = (if a.pred0 ≠ actual ∧ a.pred1 = actual then
          (if a.pred0 = actual ∧ a.pred1 ≠ actual then
            a.choice_predictor.update pr false ip t
           else a.choice_predictor).update pr true ip t
         else
          (if a.pred0 = actual ∧ a.pred1 ≠ actual then
            a.choice_predictor.update pr false ip t
           else a.choice_predictor)) := by
  simp only [Alpha21264.update]

/-- The choice predictor after `update`, in the three cases of the two `if` statements. -/
theorem Alpha21264.update_choice (a : Alpha21264) (pr actual : Bool) (ip t : Nat) :
    (a.pred0 = actual ∧ a.pred1 ≠ actual →
        (a.update pr actual ip t).choice_predictor = a.choice_predictor.update pr false ip t) ∧
      (a.pred0 ≠ actual ∧ a.pred1 = actual →
        (a.update pr actual ip t).choice_predictor = a.choice_predictor.update pr true ip t) ∧
      ((a.pred0 = actual ↔ a.pred1 = actual) →
        (a.update pr actual ip t).choice_predictor = a.choice_predictor) := by
  rw [Alpha21264.update_choice_eq]
  refine ⟨?_, ?_, ?_⟩
  · intro hc
    have hn : ¬ (a.pred0 ≠ actual ∧ a.pred1 = actual) := fun hd => hd.1 hc.1
    rw [if_neg hn, if_pos hc]
  · intro hc
    have hn : ¬ (a.pred0 = actual ∧ a.pred1 ≠ actual) := fun hd => hc.1 hd.1
    rw [if_pos hc, if_neg hn]
  · intro hiff
    have hn1 : ¬ (a.pred0 = actual ∧ a.pred1 ≠ actual) := fun hc => hc.2 (hiff.mp hc.1)
    have hn2 : ¬ (a.pred0 ≠ actual ∧ a.pred1 = actual) := fun hc => hc.1 (hiff.mpr hc.2)
    rw [if_neg hn2, if_neg hn1]

theorem Alpha21264.alpha_update_WF {a : Alpha21264} (h : a.WF) (pr actual : Bool) (ip t : Nat) :
    (a.update pr actual ip t).WF := by
  have hch : (a.update pr actual ip t).choice_predictor.WF ∧
      (a.update pr actual ip t).choice_predictor.index_bits = 12 ∧
      (a.update pr actual ip t).choice_predictor.cntr_bits = 2 ∧
      (a.update pr actual ip t).choice_predictor.type = 1 := by
    obtain ⟨c1, c2, c3⟩ := Alpha21264.update_choice a pr actual ip t
    by_cases h0 : a.pred0 = actual <;> by_cases h1 : a.pred1 = actual
    · rw [c3 ⟨fun _ => h1, fun _ => h0⟩]
      exact ⟨h.choice_wf, h.choice_index, h.choice_cntr, h.choice_type⟩
    · rw [c1 ⟨h0, h1⟩]
      exact ⟨NbitPredictor.update_WF h.choice_wf _ _ _ _, h.choice_index, h.choice_cntr,
        h.choice_type⟩
    · rw [c2 ⟨h0, h1⟩]
      exact ⟨NbitPredictor.update_WF h.choice_wf _ _ _ _, h.choice_index, h.choice_cntr,
        h.choice_type⟩
    · rw [c3 ⟨fun hc => absurd hc h0, fun hc => absurd hc h1⟩]
      exact ⟨h.choice_wf, h.choice_index, h.choice_cntr, h.choice_type⟩
  have hlhp : (a.update pr actual ip t).lhp = a.lhp.update pr actual ip t := by
    simp only [Alpha21264.update]
  have hghp : (a.update pr actual ip t).ghp
      = a.ghp.update (a.global_history.getValue != 0) actual ip t := by
    simp only [Alpha21264.update]
  have hhist : (a.update pr actual ip t).global_history = a.global_history.shiftRight actual := by
    simp only [Alpha21264.update]
  refine ⟨?_, ?_, hch.1, hch.2.1, hch.2.2.1, hch.2.2.2, ?_, ?_, ?_⟩
  · rw [hhist]; exact h.hist_size
  · rw [hhist]
    have hs : a.global_history.size = 12 % 2 ^ 16 := h.hist_size
    exact ShiftRegister.shiftRight_data_lt hs actual
  · rw [hlhp]; exact LocalHistoryPredictor.lhp_update_WF h.lhp_wf _ _ _ _
  · rw [hlhp]; exact LocalHistoryPredictor.update_PhtWF h.lhp_pht _ _ _ _
  · rw [hghp]; exact GlobalHistoryPredictor.ghp_update_WF h.ghp_wf _ _ _ _

theorem Alpha21264.event_eq (a : Alpha21264) (ip t : Nat) (taken : Bool) :
    a.event ip t taken = (a.predict ip t).2.update (a.predict ip t).1 taken ip t := by
  unfold Alpha21264.event
  with_reducible rfl

theorem Alpha21264.events_cons (a : Alpha21264) (e : Nat × Nat × Bool)
    (es : List (Nat × Nat × Bool)) :
    a.events (e :: es) = (a.event e.1 e.2.1 e.2.2).events es := by
  unfold Alpha21264.events
  rw [List.foldl_cons]

theorem Alpha21264.events_WF {a : Alpha21264} (h : a.WF) (evs : List (Nat × Nat × Bool)) :
    (a.events evs).WF := by
  induction evs generalizing a with
  | nil => exact h
  | cons e es ih =>
    rw [Alpha21264.events_cons]
    apply ih
    rw [Alpha21264.event_eq]
    exact Alpha21264.alpha_update_WF (Alpha21264.predict_WF h _ _) _ _ _ _

end BranchPred

namespace BranchPred

theorem alphaAfterFour_WF : alphaAfterFour.WF :=
  Alpha21264.events_WF (Alpha21264.alpha_new_WF false false) fourTakenBranches

/-- C17: in an `Alpha21264` state, with `h` the value of the 12-bit global history (`h < 2^12`):
`predict(pc)` returns `ghp.predict(h)` when the choice SCT predicts taken at index `h` (its counter
at `h` is at least 2) and `lhp.predict(pc)` otherwise; the choice SCT, both sub-predictors, the
global history and the accuracy counters are unchanged. -/
theorem Alpha21264.predict_chooses (a : Alpha21264) (h : a.WF) (pc t : Nat) :
    a.global_history.getValue < 2 ^ 12 ∧
      (a.predict pc t).1
        = (if (a.choice_predictor.predict a.global_history.getValue 0).1
           then (a.ghp.predict a.global_history.getValue t).1
           else (a.lhp.predict pc t).1) ∧
      ((a.choice_predictor.predict a.global_history.getValue 0).1 = true ↔
        2 ≤ a.choice_predictor.TABLE.getD a.global_history.getValue 0) ∧
      (a.predict pc t).2.choice_predictor = a.choice_predictor ∧
      (a.predict pc t).2.ghp = a.ghp ∧ (a.predict pc t).2.lhp = a.lhp ∧
      (a.predict pc t).2.global_history = a.global_history ∧
      (a.predict pc t).2.base = a.base := by
  obtain ⟨h1, h2, h3, h4, h5, _, _⟩ := Alpha21264.predict_state a pc t
  refine ⟨h.hist_lt, ?_, ?_, h1, h2, h3, h4, h5⟩
  · exact Alpha21264.alpha_predict_fst a pc t
  · have hw : 1 ≤ a.choice_predictor.cntr_bits := by rw [h.choice_cntr]; decide
    have hmod : a.global_history.getValue % 2 ^ 12 = a.global_history.getValue :=
      Nat.mod_eq_of_lt h.hist_lt
    rw [NbitPredictor.predict_fst h.choice_wf hw, h.choice_index, h.choice_cntr, hmod]
    simp

theorem Alpha21264.predict_chooses_witness :
    alphaAfterFour.WF ∧
    (alphaAfterFour.global_history.getValue < 2 ^ 12 ∧
      (alphaAfterFour.predict 4 0).1
        = (if (alphaAfterFour.choice_predictor.predict alphaAfterFour.global_history.getValue 0).1
           then (alphaAfterFour.ghp.predict alphaAfterFour.global_history.getValue 0).1
           else (alphaAfterFour.lhp.predict 4 0).1) ∧
      ((alphaAfterFour.choice_predictor.predict alphaAfterFour.global_history.getValue 0).1
          = true ↔
        2 ≤ alphaAfterFour.choice_predictor.TABLE.getD alphaAfterFour.global_history.getValue 0) ∧
      (alphaAfterFour.predict 4 0).2.choice_predictor = alphaAfterFour.choice_predictor ∧
      (alphaAfterFour.predict 4 0).2.ghp = alphaAfterFour.ghp ∧
      (alphaAfterFour.predict 4 0).2.lhp = alphaAfterFour.lhp ∧
      (alphaAfterFour.predict 4 0).2.global_history = alphaAfterFour.global_history ∧
      (alphaAfterFour.predict 4 0).2.base = alphaAfterFour.base) :=
  ⟨alphaAfterFour_WF, Alpha21264.predict_chooses alphaAfterFour alphaAfterFour_WF 4 0⟩

/-- C18: in an `Alpha21264` state, `update` trains the choice SCT exactly when one of the cached
`pred0`, `pred1` equals `actual` and the other does not.  When only `pred0` (local) matched, the
counter at `pc mod 2^12` takes a saturating decrement; when only `pred1` (global) matched, it takes
a saturating increment; in both cases every other counter is unchanged.  When both matched or both
missed, the choice SCT is unchanged. -/
theorem Alpha21264.update_trains_choice (a : Alpha21264) (h : a.WF) (pr actual : Bool)
    (pc t : Nat) :
    (a.pred0 = actual ∧ a.pred1 ≠ actual →
        (a.update pr actual pc t).choice_predictor.TABLE.getD (pc % 2 ^ 12) 0
            = specSaturating 3 false (a.choice_predictor.TABLE.getD (pc % 2 ^ 12) 0) ∧
          ∀ j, j ≠ pc % 2 ^ 12 →
            (a.update pr actual pc t).choice_predictor.TABLE.getD j 0
              = a.choice_predictor.TABLE.getD j 0) ∧
      (a.pred0 ≠ actual ∧ a.pred1 = actual →
        (a.update pr actual pc t).choice_predictor.TABLE.getD (pc % 2 ^ 12) 0
            = specSaturating 3 true (a.choice_predictor.TABLE.getD (pc % 2 ^ 12) 0) ∧
          ∀ j, j ≠ pc % 2 ^ 12 →
            (a.update pr actual pc t).choice_predictor.TABLE.getD j 0
              = a.choice_predictor.TABLE.getD j 0) ∧
      ((a.pred0 = actual ↔ a.pred1 = actual) →
        (a.update pr actual pc t).choice_predictor.TABLE = a.choice_predictor.TABLE) := by
  obtain ⟨c1, c2, c3⟩ := Alpha21264.update_choice a pr actual pc t
  have hcm : a.choice_predictor.COUNTER_MAX = 3 := by
    rw [h.choice_wf.max_eq, h.choice_cntr]; rfl
  have hcell : ∀ dir : Bool,
      (a.choice_predictor.update pr dir pc t).TABLE.getD (pc % 2 ^ 12) 0
          = specSaturating 3 dir (a.choice_predictor.TABLE.getD (pc % 2 ^ 12) 0) ∧
        ∀ j, j ≠ pc % 2 ^ 12 →
          (a.choice_predictor.update pr dir pc t).TABLE.getD j 0
            = a.choice_predictor.TABLE.getD j 0 := by
    intro dir
    obtain ⟨h1, h2, _⟩ := NbitPredictor.update_table h.choice_wf pr dir pc t
    rw [h.choice_index] at h1 h2
    refine ⟨?_, h2⟩
    rw [h1, h.choice_type, hcm, NbitPredictor.fsm_one]
  refine ⟨?_, ?_, ?_⟩
  · intro hc
    rw [c1 hc]
    exact hcell false
  · intro hc
    rw [c2 hc]
    exact hcell true
  · intro hc
    rw [c3 hc]

theorem Alpha21264.update_trains_choice_witness :
    alphaAfterFour.WF ∧
    ((alphaAfterFour.pred0 = true ∧ alphaAfterFour.pred1 ≠ true →
        (alphaAfterFour.update false true 4 0).choice_predictor.TABLE.getD (4 % 2 ^ 12) 0
            = specSaturating 3 false (alphaAfterFour.choice_predictor.TABLE.getD (4 % 2 ^ 12) 0) ∧
          ∀ j, j ≠ 4 % 2 ^ 12 →
            (alphaAfterFour.update false true 4 0).choice_predictor.TABLE.getD j 0
              = alphaAfterFour.choice_predictor.TABLE.getD j 0) ∧
      (alphaAfterFour.pred0 ≠ true ∧ alphaAfterFour.pred1 = true →
        (alphaAfterFour.update false true 4 0).choice_predictor.TABLE.getD (4 % 2 ^ 12) 0
            = specSaturating 3 true (alphaAfterFour.choice_predictor.TABLE.getD (4 % 2 ^ 12) 0) ∧
          ∀ j, j ≠ 4 % 2 ^ 12 →
            (alphaAfterFour.update false true 4 0).choice_predictor.TABLE.getD j 0
              = alphaAfterFour.choice_predictor.TABLE.getD j 0) ∧
      ((alphaAfterFour.pred0 = true ↔ alphaAfterFour.pred1 = true) →
        (alphaAfterFour.update false true 4 0).choice_predictor.TABLE
          = alphaAfterFour.choice_predictor.TABLE)) :=
  ⟨alphaAfterFour_WF,
    Alpha21264.update_trains_choice alphaAfterFour alphaAfterFour_WF false true 4 0⟩

/-- C19, on the code: after four taken branches at the addresses 0 to 3 the global history is
`h = 3840`.  For the not-taken branch at `pc = 4`, `predict` reads the choice counter at index
3840 and caches `pred0 = taken`, `pred1 = not-taken`, so only `pred1` matches and the choice is
trained; `update` increments the choice counter at index `4 = pc mod 2^12` and leaves the counter
at index `h = 3840` at 0. -/
theorem Alpha21264.choice_trained_at_pc_not_history :
    alphaAfterFour.global_history.getValue = 3840 ∧
      (alphaAfterFour.predict 4 0).2.pred0 = true ∧
      (alphaAfterFour.predict 4 0).2.pred1 = false ∧
      alphaAfterFour.choice_predictor.TABLE.getD 3840 0 = 0 ∧
      alphaAfterFour.choice_predictor.TABLE.getD 4 0 = 0 ∧
      (alphaAfterFour.event 4 0 false).choice_predictor.TABLE.getD 3840 0 = 0 ∧
      (alphaAfterFour.event 4 0 false).choice_predictor.TABLE.getD 4 0 = 1 := by
  set_option maxRecDepth 100000 in decide

/-- C20, on the code: in the freshly built `Alpha21264` the global history is `h = 0` and `ghp`
selects its SCT 0.  For the taken branch at `pc = 5`, `ghp.predict` reads the counter at index
`h = 0` of that SCT; `update` increments the counter at index `5 = pc mod 2^12` of that SCT and
leaves the counter at index `h = 0` at 0; the global history then becomes `2^11`. -/
theorem Alpha21264.ghp_trained_at_pc_not_history :
    (Alpha21264.new false false).global_history.getValue = 0 ∧
      (Alpha21264.new false false).ghp.bhr.getValue = 0 ∧
      (((Alpha21264.new false false).event 5 0 true).ghp.predictorAt 0).TABLE.getD 0 0 = 0 ∧
      (((Alpha21264.new false false).event 5 0 true).ghp.predictorAt 0).TABLE.getD 5 0 = 1 ∧
      ((Alpha21264.new false false).event 5 0 true).global_history.getValue = 2 ^ 11 := by
  set_option maxRecDepth 100000 in decide

end BranchPred

/-! # Theorems: `TournamentHybridPredictor` and the accuracy counters -/

namespace BranchPred

/-- One update of a well-formed two-bit table of variant 1 with `m` index bits: the counter at
`pc mod 2^m` takes the saturating step, every other counter keeps its value. -/
theorem NbitPredictor.update_two_bit_saturating {p : NbitPredictor} {m : Nat} (h : p.WF)
    (hm : p.index_bits = m) (hc : p.cntr_bits = 2) (ht : p.type = 1) (pr dir : Bool)
    (pc t : Nat) :
    (p.update pr dir pc t).TABLE.getD (pc % 2 ^ m) 0
        = specSaturating 3 dir (p.TABLE.getD (pc % 2 ^ m) 0) ∧
      ∀ j, j ≠ pc % 2 ^ m → (p.update pr dir pc t).TABLE.getD j 0 = p.TABLE.getD j 0 := by
  have hcm : p.COUNTER_MAX = 3 := by
    rw [h.max_eq, hc]; rfl
  obtain ⟨h1, h2, _⟩ := NbitPredictor.update_table h pr dir pc t
  rw [hm] at h1 h2
  refine ⟨?_, h2⟩
  rw [h1, ht, hcm, NbitPredictor.fsm_one]

theorem NbitPredictor.update_fields (p : NbitPredictor) (pr a : Bool) (ip t : Nat) :
    (p.update pr a ip t).index_bits = p.index_bits ∧
      (p.update pr a ip t).cntr_bits = p.cntr_bits ∧
      (p.update pr a ip t).type = p.type := by
  simp only [NbitPredictor.update, and_self]

/-- The meta table after `update`, as the two `if` statements leave it. -/
theorem TournamentHybridPredictor.update_eq {P0 P1 : Type} [Predictor P0] [Predictor P1]
    (t : TournamentHybridPredictor P0 P1) (pr actual : Bool) (ip tg : Nat) {q0 : P0} {q1 : P1}
    (u0 : Predictor.update t.pred0 pr actual ip tg = some q0)
    (u1 : Predictor.update t.pred1 pr actual ip tg = some q1) :
    t.update pr actual ip tg
      = some { t with
               meta :=
                 (if t.p0 ≠ actual ∧ t.p1 = actual then
                    (if t.p0 = actual ∧ t.p1 ≠ actual then t.meta.update pr false ip tg
                     else t.meta).update pr true ip tg
                  else
                    (if t.p0 = actual ∧ t.p1 ≠ actual then t.meta.update pr false ip tg
                     else t.meta))
               pred0 := q0
               pred1 := q1
               base := t.base.updateCounters pr actual } := by
  unfold TournamentHybridPredictor.update
  simp only [u0, u1]

theorem TournamentHybridPredictor.predict_eq {P0 P1 : Type} [Predictor P0] [Predictor P1]
    (t : TournamentHybridPredictor P0 P1) (ip tg : Nat) {r0 : Bool × P0} {r1 : Bool × P1}
    (h0 : Predictor.predict t.pred0 ip tg = some r0)
    (h1 : Predictor.predict t.pred1 ip tg = some r1) :
    t.predict ip tg
      = some (if (t.meta.predict ip tg).1 then r1.1 else r0.1,
          { t with pred0 := r0.2, p0 := r0.1, pred1 := r1.2, p1 := r1.1 }) := by
  unfold TournamentHybridPredictor.predict
  simp only [h0, h1]

/-- The meta table after `update`, in the three cases of the two `if` statements. -/
theorem TournamentHybridPredictor.meta_cases {P0 P1 : Type} (t : TournamentHybridPredictor P0 P1)
    (pr actual : Bool) (ip tg : Nat) :
    (t.p0 = actual ∧ t.p1 ≠ actual →
        (if t.p0 ≠ actual ∧ t.p1 = actual then
            (if t.p0 = actual ∧ t.p1 ≠ actual then t.meta.update pr false ip tg
             else t.meta).update pr true ip tg
          else
            (if t.p0 = actual ∧ t.p1 ≠ actual then t.meta.update pr false ip tg
             else t.meta)) = t.meta.update pr false ip tg) ∧
      (t.p0 ≠ actual ∧ t.p1 = actual →
        (if t.p0 ≠ actual ∧ t.p1 = actual then
            (if t.p0 = actual ∧ t.p1 ≠ actual then t.meta.update pr false ip tg
             else t.meta).update pr true ip tg
          else
            (if t.p0 = actual ∧ t.p1 ≠ actual then t.meta.update pr false ip tg
             else t.meta)) = t.meta.update pr true ip tg) ∧
      ((t.p0 = actual ↔ t.p1 = actual) →
        (if t.p0 ≠ actual ∧ t.p1 = actual then
            (if t.p0 = actual ∧ t.p1 ≠ actual then t.meta.update pr false ip tg
             else t.meta).update pr true ip tg
          else
            (if t.p0 = actual ∧ t.p1 ≠ actual then t.meta.update pr false ip tg
             else t.meta)) = t.meta) := by
  refine ⟨?_, ?_, ?_⟩
  · intro hc
    have hn : ¬ (t.p0 ≠ actual ∧ t.p1 = actual) := fun hd => hd.1 hc.1
    rw [if_neg hn, if_pos hc]
  · intro hc
    have hn : ¬ (t.p0 = actual ∧ t.p1 ≠ actual) := fun hd => hc.1 hd.1
    rw [if_pos hc, if_neg hn]
  · intro hiff
    have hn1 : ¬ (t.p0 = actual ∧ t.p1 ≠ actual) := fun hc => hc.2 (hiff.mp hc.1)
    have hn2 : ¬ (t.p0 ≠ actual ∧ t.p1 = actual) := fun hc => hc.1 (hiff.mpr hc.2)
    rw [if_neg hn2, if_neg hn1]

theorem TournamentHybridPredictor.tournament_new_WF {P0 P1 : Type} {m : Nat} (hm : m ≤ 31)
    (pred0 : P0) (pred1 : P1) (p0 p1 : Bool) :
    (TournamentHybridPredictor.new m pred0 pred1 p0 p1).WF m := by
  refine ⟨?_, ?_, ?_, ?_⟩
  · simp only [TournamentHybridPredictor.new]
    exact NbitPredictor.new_WF 1 hm (by decide)
  · simp only [TournamentHybridPredictor.new, NbitPredictor.new]
  · simp only [TournamentHybridPredictor.new, NbitPredictor.new]
  · simp only [TournamentHybridPredictor.new]
    exact NbitPredictor.new_type_one m 2

/-- C21: for a `TournamentHybridPredictor` state whose meta table is the `m × 2`-bit table of the
constructor, and sub-predictors whose `predict` and `update` have results at `(pc, target)`:
`predict(pc, target)` returns `p1` (the answer of `pred1`) when the meta SCT predicts taken at
`pc`, i.e. its counter at `pc mod 2^m` is at least 2, and `p0` otherwise, and it stores the two
answers and leaves the meta SCT alone; `update` gives the meta counter at `pc mod 2^m` a
saturating decrement when only `p0` equals `actual`, a saturating increment when only `p1` does,
touches no other meta counter, leaves the meta SCT unchanged when both or neither equal
`actual`, and in every case replaces both sub-predictors by their own update with
`(predicted, actual, pc, target)`. -/
theorem TournamentHybridPredictor.predict_update_meta {P0 P1 : Type} [Predictor P0]
    [Predictor P1] (t : TournamentHybridPredictor P0 P1) (m : Nat) (h : t.WF m)
    (pr actual : Bool) (pc tg : Nat) (r0 : Bool × P0) (r1 : Bool × P1) (q0 : P0) (q1 : P1)
    (h0 : Predictor.predict t.pred0 pc tg = some r0)
    (h1 : Predictor.predict t.pred1 pc tg = some r1)
    (u0 : Predictor.update t.pred0 pr actual pc tg = some q0)
    (u1 : Predictor.update t.pred1 pr actual pc tg = some q1) :
    (∃ t1, t.predict pc tg = some (if (t.meta.predict pc tg).1 then r1.1 else r0.1, t1) ∧
        t1.p0 = r0.1 ∧ t1.p1 = r1.1 ∧ t1.pred0 = r0.2 ∧ t1.pred1 = r1.2 ∧
        t1.meta = t.meta ∧ t1.base = t.base) ∧
      ((t.meta.predict pc tg).1 = true ↔ 2 ≤ t.meta.TABLE.getD (pc % 2 ^ m) 0) ∧
      (∃ t2, t.update pr actual pc tg = some t2 ∧ t2.pred0 = q0 ∧ t2.pred1 = q1 ∧
        (t.p0 = actual ∧ t.p1 ≠ actual →
          t2.meta.TABLE.getD (pc % 2 ^ m) 0
              = specSaturating 3 false (t.meta.TABLE.getD (pc % 2 ^ m) 0) ∧
            ∀ j, j ≠ pc % 2 ^ m → t2.meta.TABLE.getD j 0 = t.meta.TABLE.getD j 0) ∧
        (t.p0 ≠ actual ∧ t.p1 = actual →
          t2.meta.TABLE.getD (pc % 2 ^ m) 0
              = specSaturating 3 true (t.meta.TABLE.getD (pc % 2 ^ m) 0) ∧
            ∀ j, j ≠ pc % 2 ^ m → t2.meta.TABLE.getD j 0 = t.meta.TABLE.getD j 0) ∧
        ((t.p0 = actual ↔ t.p1 = actual) → t2.meta.TABLE = t.meta.TABLE)) := by
  obtain ⟨c1, c2, c3⟩ := TournamentHybridPredictor.meta_cases t pr actual pc tg
  refine ⟨⟨_, TournamentHybridPredictor.predict_eq t pc tg h0 h1, ?_⟩, ?_,
    ⟨_, TournamentHybridPredictor.update_eq t pr actual pc tg u0 u1, ?_⟩⟩
  · refine ⟨?_, ?_, ?_, ?_, ?_, ?_⟩ <;> with_reducible rfl
  · have hw : 1 ≤ t.meta.cntr_bits := by rw [h.meta_cntr]; decide
    rw [NbitPredictor.predict_fst h.meta_wf hw, h.meta_index, h.meta_cntr]
    simp
  · refine ⟨by with_reducible rfl, by with_reducible rfl, ?_, ?_, ?_⟩
    · intro hc
      simp only [c1 hc]
      exact NbitPredictor.update_two_bit_saturating h.meta_wf h.meta_index h.meta_cntr
        h.meta_type pr false pc tg
    · intro hc
      simp only [c2 hc]
      exact NbitPredictor.update_two_bit_saturating h.meta_wf h.meta_index h.meta_cntr
        h.meta_type pr true pc tg
    · intro hc
      simp only [c3 hc]

theorem tournamentSmall_WF : tournamentSmall.WF 1 :=
  TournamentHybridPredictor.tournament_new_WF (by decide) _ _ _ _

theorem TournamentHybridPredictor.predict_update_meta_witness :
    tournamentSmall.WF 1 ∧
      Predictor.predict tournamentSmall.pred0 3 0 = some (tournamentSmall.pred0.predict 3 0) ∧
      Predictor.predict tournamentSmall.pred1 3 0 = some (tournamentSmall.pred1.predict 3 0) ∧
      Predictor.update tournamentSmall.pred0 false true 3 0
        = some (tournamentSmall.pred0.update false true 3 0) ∧
      Predictor.update tournamentSmall.pred1 false true 3 0
        = some (tournamentSmall.pred1.update false true 3 0) ∧
      ((∃ t1, tournamentSmall.predict 3 0
            = some (if (tournamentSmall.meta.predict 3 0).1
                    then (tournamentSmall.pred1.predict 3 0).1
                    else (tournamentSmall.pred0.predict 3 0).1, t1) ∧
          t1.p0 = (tournamentSmall.pred0.predict 3 0).1 ∧
          t1.p1 = (tournamentSmall.pred1.predict 3 0).1 ∧
          t1.pred0 = (tournamentSmall.pred0.predict 3 0).2 ∧
          t1.pred1 = (tournamentSmall.pred1.predict 3 0).2 ∧
          t1.meta = tournamentSmall.meta ∧ t1.base = tournamentSmall.base) ∧
        ((tournamentSmall.meta.predict 3 0).1 = true ↔
          2 ≤ tournamentSmall.meta.TABLE.getD (3 % 2 ^ 1) 0) ∧
        (∃ t2, tournamentSmall.update false true 3 0 = some t2 ∧
          t2.pred0 = tournamentSmall.pred0.update false true 3 0 ∧
          t2.pred1 = tournamentSmall.pred1.update false true 3 0 ∧
          (tournamentSmall.p0 = true ∧ tournamentSmall.p1 ≠ true →
            t2.meta.TABLE.getD (3 % 2 ^ 1) 0
                = specSaturating 3 false (tournamentSmall.meta.TABLE.getD (3 % 2 ^ 1) 0) ∧
              ∀ j, j ≠ 3 % 2 ^ 1 →
                t2.meta.TABLE.getD j 0 = tournamentSmall.meta.TABLE.getD j 0) ∧
          (tournamentSmall.p0 ≠ true ∧ tournamentSmall.p1 = true →
            t2.meta.TABLE.getD (3 % 2 ^ 1) 0
                = specSaturating 3 true (tournamentSmall.meta.TABLE.getD (3 % 2 ^ 1) 0) ∧
              ∀ j, j ≠ 3 % 2 ^ 1 →
                t2.meta.TABLE.getD j 0 = tournamentSmall.meta.TABLE.getD j 0) ∧
          ((tournamentSmall.p0 = true ↔ tournamentSmall.p1 = true) →
            t2.meta.TABLE = tournamentSmall.meta.TABLE))) :=
  ⟨tournamentSmall_WF, rfl, rfl, rfl, rfl,
    TournamentHybridPredictor.predict_update_meta tournamentSmall 1 tournamentSmall_WF false true
      3 0 _ _ _ _ rfl rfl rfl rfl⟩

/-- On the small tournament: the first event (a taken branch at `pc = 3`) is answered
not-taken by the global-history predictor and taken by the always-taken predictor, so the meta
counter at `3 mod 2 = 1` goes from 0 to 1. -/
theorem tournamentSmall_eval :
    (tournamentSmall.predict 3 0).map (fun r => (r.1, r.2.p0, r.2.p1, r.2.meta.TABLE))
        = some (false, false, true, [0, 0]) ∧
      ((tournamentSmall.predict 3 0).bind (fun r => r.2.update r.1 true 3 0)).map
          (fun r => (r.meta.TABLE, r.base))
        = some ([0, 1], { correct_predictions := 0, incorrect_predictions := 1 }) := by
  decide

/-! ### Accuracy counters -/

/-- What `updateCounters` does below the wrap-around of the 64-bit counters. -/
theorem BranchPredictor.updateCounters_step (b : BranchPredictor) (pr a : Bool)
    (hc : b.correct_predictions < 2 ^ 64 - 1) (hi : b.incorrect_predictions < 2 ^ 64 - 1) :
    (pr = a →
        (b.updateCounters pr a).correct_predictions = b.correct_predictions + 1 ∧
          (b.updateCounters pr a).incorrect_predictions = b.incorrect_predictions) ∧
      (pr ≠ a →
        (b.updateCounters pr a).incorrect_predictions = b.incorrect_predictions + 1 ∧
          (b.updateCounters pr a).correct_predictions = b.correct_predictions) := by
  have h1 : (b.correct_predictions + 1) % 2 ^ 64 = b.correct_predictions + 1 :=
    Nat.mod_eq_of_lt (by omega)
  have h2 : (b.incorrect_predictions + 1) % 2 ^ 64 = b.incorrect_predictions + 1 :=
    Nat.mod_eq_of_lt (by omega)
  refine ⟨?_, ?_⟩
  · intro h
    simp only [BranchPredictor.updateCounters, h, if_true, h1, and_self]
  · intro h
    simp only [BranchPredictor.updateCounters, h, if_false, h2, and_self]

/-- The sum of the two counters after `updateCounters`, below the wrap-around. -/
theorem BranchPredictor.updateCounters_sum (b : BranchPredictor) (pr a : Bool)
    (h : b.correct_predictions + b.incorrect_predictions < 2 ^ 64 - 1) :
    (b.updateCounters pr a).correct_predictions + (b.updateCounters pr a).incorrect_predictions
      = b.correct_predictions + b.incorrect_predictions + 1 := by
  obtain ⟨h1, h2⟩ := BranchPredictor.updateCounters_step b pr a (by omega) (by omega)
  by_cases hp : pr = a
  · rw [(h1 hp).1, (h1 hp).2]; omega
  · rw [(h2 hp).1, (h2 hp).2]; omega

theorem AlwaysTakenPredictor.alwaysTaken_counts :
    Predictor.CountsUpdates AlwaysTakenPredictor (fun _ => True) :=
  ⟨fun _ _ _ _ => ⟨_, rfl, trivial, rfl⟩, fun _ _ _ _ _ _ => ⟨_, rfl, trivial, rfl⟩⟩

theorem BTFNTPredictor.btfnt_counts : Predictor.CountsUpdates BTFNTPredictor (fun _ => True) :=
  ⟨fun _ _ _ _ => ⟨_, rfl, trivial, rfl⟩, fun _ _ _ _ _ _ => ⟨_, rfl, trivial, rfl⟩⟩

theorem NbitPredictor.update_base (p : NbitPredictor) (pr a : Bool) (ip t : Nat) :
    (p.update pr a ip t).base = p.base.updateCounters pr a := by
  simp only [NbitPredictor.update]

theorem NbitPredictor.nbit_predict_snd (p : NbitPredictor) (ip t : Nat) : (p.predict ip t).2 = p := by
  unfold NbitPredictor.predict
  with_reducible rfl

theorem NbitPredictor.nbit_counts : Predictor.CountsUpdates NbitPredictor (fun _ => True) := by
  refine ⟨fun p ip t _ => ⟨_, rfl, trivial, ?_⟩, fun p pr a ip t _ => ⟨_, rfl, trivial, ?_⟩⟩
  · show (p.predict ip t).2.base = p.base
    rw [NbitPredictor.nbit_predict_snd]
  · exact NbitPredictor.update_base p pr a ip t

theorem GlobalHistoryPredictor.ghp_counts :
    Predictor.CountsUpdates GlobalHistoryPredictor (fun _ => True) := by
  refine ⟨fun p ip t _ => ⟨_, rfl, trivial, ?_⟩, fun p pr a ip t _ => ⟨_, rfl, trivial, ?_⟩⟩
  · show (p.predict ip t).2.base = p.base
    simp only [GlobalHistoryPredictor.predict]
  · show (p.update pr a ip t).base = p.base.updateCounters pr a
    simp only [GlobalHistoryPredictor.update]

theorem LocalHistoryPredictor.lhp_counts :
    Predictor.CountsUpdates LocalHistoryPredictor (fun _ => True) := by
  refine ⟨fun p ip t _ => ⟨_, rfl, trivial, ?_⟩, fun p pr a ip t _ => ⟨_, rfl, trivial, ?_⟩⟩
  · show (p.predict ip t).2.base = p.base
    simp only [LocalHistoryPredictor.predict]
  · show (p.update pr a ip t).base = p.base.updateCounters pr a
    simp only [LocalHistoryPredictor.update, LocalHistoryPredictor.trainPht,
      LocalHistoryPredictor.shiftBht]

theorem Alpha21264.alpha_counts : Predictor.CountsUpdates Alpha21264 (fun _ => True) := by
  refine ⟨fun p ip t _ => ⟨_, rfl, trivial, ?_⟩, fun p pr a ip t _ => ⟨_, rfl, trivial, ?_⟩⟩
  · exact (Alpha21264.predict_state p ip t).2.2.2.2.1
  · show (p.update pr a ip t).base = p.base.updateCounters pr a
    simp only [Alpha21264.update]

theorem BTBPredictor.btb_counts : Predictor.CountsUpdates BTBPredictor BTBPredictor.Inv := by
  refine ⟨?_, ?_⟩
  · intro p ip t h
    obtain ⟨r, b1, hp, _, _, _, _, hbase, _⟩ := p.predict_spec h.sets_pos h.sets_lt ip t
    obtain ⟨r2, b2, hp2, hinv, _, _⟩ := h.predict ip t
    have heq : (r, b1) = (r2, b2) := Option.some.inj (hp.symm.trans hp2)
    have hb : b1 = b2 := congrArg Prod.snd heq
    exact ⟨(r, b1), hp, hb ▸ hinv, hbase⟩
  · intro p pr a ip t h
    obtain ⟨b1, hp, _, _, _, _, hbase, _⟩ :=
      p.update_spec h.sets_pos h.sets_lt h.assoc_pos pr a ip t
    obtain ⟨b2, hp2, hinv, _, _⟩ := h.update pr a ip t
    have hb : b1 = b2 := Option.some.inj (hp.symm.trans hp2)
    exact ⟨b1, hp, hb ▸ hinv, hbase⟩

theorem TournamentHybridPredictor.tournament_counts {P0 P1 : Type} [Predictor P0] [Predictor P1]
    {ok0 : P0 → Prop} {ok1 : P1 → Prop} (h0 : Predictor.CountsUpdates P0 ok0)
    (h1 : Predictor.CountsUpdates P1 ok1) :
    Predictor.CountsUpdates (TournamentHybridPredictor P0 P1)
      (fun t => ok0 t.pred0 ∧ ok1 t.pred1) := by
  refine ⟨?_, ?_⟩
  · intro t ip tg hok
    obtain ⟨r0, e0, k0, _⟩ := h0.predict_counters t.pred0 ip tg hok.1
    obtain ⟨r1, e1, k1, _⟩ := h1.predict_counters t.pred1 ip tg hok.2
    exact ⟨_, TournamentHybridPredictor.predict_eq t ip tg e0 e1, ⟨k0, k1⟩, rfl⟩
  · intro t pr a ip tg hok
    obtain ⟨q0, e0, k0, _⟩ := h0.update_counters t.pred0 pr a ip tg hok.1
    obtain ⟨q1, e1, k1, _⟩ := h1.update_counters t.pred1 pr a ip tg hok.2
    exact ⟨_, TournamentHybridPredictor.update_eq t pr a ip tg e0 e1, ⟨k0, k1⟩, rfl⟩

/-- Under the counter discipline, a sequence of calls has a result, and the sum of the two
counters grows by the number of `update` calls in it (below the wrap-around). -/
theorem Predictor.run_counters {P : Type} [Predictor P] {ok : P → Prop}
    (h : Predictor.CountsUpdates P ok) (calls : List BTBCall) (p : P) (hp : ok p)
    (hlt : (Predictor.counters p).correct_predictions
        + (Predictor.counters p).incorrect_predictions + updateCalls calls < 2 ^ 64) :
    ∃ q, Predictor.run p calls = some q ∧ ok q ∧
      (Predictor.counters q).correct_predictions + (Predictor.counters q).incorrect_predictions
        = (Predictor.counters p).correct_predictions
          + (Predictor.counters p).incorrect_predictions + updateCalls calls := by
  induction calls generalizing p with
  | nil => exact ⟨p, rfl, hp, rfl⟩
  | cons c cs ih =>
    cases c with
    | predict ip t =>
      obtain ⟨r, e, k, hc⟩ := h.predict_counters p ip t hp
      have hlt2 : (Predictor.counters r.2).correct_predictions
          + (Predictor.counters r.2).incorrect_predictions + updateCalls cs < 2 ^ 64 := by
        rw [hc]; exact hlt
      obtain ⟨q, hr, hq, hs⟩ := ih r.2 k hlt2
      refine ⟨q, ?_, hq, ?_⟩
      · simp only [Predictor.run, Predictor.call, e, Option.map_some', Option.some_bind, hr]
      · rw [hs, hc]; rfl
    | update pr a ip t =>
      obtain ⟨q1, e, k, hc⟩ := h.update_counters p pr a ip t hp
      have hu : updateCalls (BTBCall.update pr a ip t :: cs) = updateCalls cs + 1 := rfl
      rw [hu] at hlt
      have hsum := BranchPredictor.updateCounters_sum (Predictor.counters p) pr a (by omega)
      rw [← hc] at hsum
      obtain ⟨q, hr, hq, hs⟩ := ih q1 k (by omega)
      refine ⟨q, ?_, hq, ?_⟩
      · simp only [Predictor.run, Predictor.call, e, Option.some_bind, hr]
      · rw [hs, hsum, hu]; omega

/-- C22: the accuracy counters of every predictor kind.  `updateCounters(predicted, actual)`
adds exactly 1 to `correct` when `predicted = actual` and exactly 1 to `incorrect` otherwise, and
leaves the other counter as it is (for counters below the 64-bit maximum).  For each of
`AlwaysTaken`, `BTFNT`, `Nbit` (any variant), `GlobalHistory`, `LocalHistory`, `Alpha21264`,
`TournamentHybrid` (over sub-predictors that keep the discipline) and `BTB` (in the states of the
class invariant), `update(predicted, actual, ..)` has a result whose counters are those of
`updateCounters(predicted, actual)`, and `predict` leaves the counters alone.  Every constructor
starts both counters at 0.  Hence, from a state with both counters at 0, after any sequence of
calls with `n < 2^64` updates in it, `correct + incorrect = n`. -/
theorem Predictor.accuracy_counters :
    (∀ (b : BranchPredictor) (pr a : Bool),
      b.correct_predictions < 2 ^ 64 - 1 → b.incorrect_predictions < 2 ^ 64 - 1 →
        (pr = a →
          (b.updateCounters pr a).correct_predictions = b.correct_predictions + 1 ∧
            (b.updateCounters pr a).incorrect_predictions = b.incorrect_predictions) ∧
        (pr ≠ a →
          (b.updateCounters pr a).incorrect_predictions = b.incorrect_predictions + 1 ∧
            (b.updateCounters pr a).correct_predictions = b.correct_predictions)) ∧
      Predictor.CountsUpdates AlwaysTakenPredictor (fun _ => True) ∧
      Predictor.CountsUpdates BTFNTPredictor (fun _ => True) ∧
      Predictor.CountsUpdates NbitPredictor (fun _ => True) ∧
      Predictor.CountsUpdates GlobalHistoryPredictor (fun _ => True) ∧
      Predictor.CountsUpdates LocalHistoryPredictor (fun _ => True) ∧
      Predictor.CountsUpdates Alpha21264 (fun _ => True) ∧
      (∀ (P0 P1 : Type) [Predictor P0] [Predictor P1] (ok0 : P0 → Prop) (ok1 : P1 → Prop),
        Predictor.CountsUpdates P0 ok0 → Predictor.CountsUpdates P1 ok1 →
          Predictor.CountsUpdates (TournamentHybridPredictor P0 P1)
            (fun t => ok0 t.pred0 ∧ ok1 t.pred1)) ∧
      Predictor.CountsUpdates BTBPredictor BTBPredictor.Inv ∧
      (AlwaysTakenPredictor.new.base = BranchPredictor.init ∧
        BTFNTPredictor.new.base = BranchPredictor.init ∧
        (∀ i w v, (NbitPredictor.new i w v).base = BranchPredictor.init) ∧
        (∀ h w, (GlobalHistoryPredictor.new h w).base = BranchPredictor.init) ∧
        (∀ b Z p w, (LocalHistoryPredictor.new b Z p w).base = BranchPredictor.init) ∧
        (∀ p0 p1, (Alpha21264.new p0 p1).base = BranchPredictor.init) ∧
        (∀ (P0 P1 : Type) (m : Nat) (pred0 : P0) (pred1 : P1) (p0 p1 : Bool),
          (TournamentHybridPredictor.new m pred0 pred1 p0 p1).base = BranchPredictor.init) ∧
        (∀ lines assoc b, BTBPredictor.new lines assoc = some b →
          b.base = BranchPredictor.init)) ∧
      (∀ (P : Type) [Predictor P] (ok : P → Prop), Predictor.CountsUpdates P ok →
        ∀ (p : P) (calls : List BTBCall), ok p →
          Predictor.counters p = BranchPredictor.init → updateCalls calls < 2 ^ 64 →
          ∃ q, Predictor.run p calls = some q ∧
            (Predictor.counters q).correct_predictions
              + (Predictor.counters q).incorrect_predictions = updateCalls calls) := by
  refine ⟨BranchPredictor.updateCounters_step, AlwaysTakenPredictor.alwaysTaken_counts,
    BTFNTPredictor.btfnt_counts, NbitPredictor.nbit_counts, GlobalHistoryPredictor.ghp_counts,
    LocalHistoryPredictor.lhp_counts, Alpha21264.alpha_counts, ?_, BTBPredictor.btb_counts, ?_, ?_⟩
  · intro P0 P1 _ _ ok0 ok1 h0 h1
    exact TournamentHybridPredictor.tournament_counts h0 h1
  · refine ⟨rfl, rfl, fun _ _ _ => rfl, fun _ _ => rfl, fun _ _ _ _ => rfl, fun _ _ => rfl,
      fun _ _ _ _ _ _ _ => rfl, ?_⟩
    intro lines assoc b hb
    unfold BTBPredictor.new at hb
    split at hb
    · exact absurd hb (by simp)
    · rw [← Option.some.inj hb]
  · intro P _ ok h p calls hp hinit hlt
    have h0 : (Predictor.counters p).correct_predictions
        + (Predictor.counters p).incorrect_predictions = 0 := by
      rw [hinit]; rfl
    obtain ⟨q, hr, _, hs⟩ := Predictor.run_counters h calls p hp (by omega)
    exact ⟨q, hr, by omega⟩

/-- On the small tournament: after a wrong and a right prediction the counters are 1 and 1. -/
theorem tournamentSmall_counters :
    (Predictor.run tournamentSmall
        [.predict 3 0, .update false true 3 0, .predict 3 0, .update true true 3 0]).map
        (fun t => t.base)
      = some { correct_predictions := 1, incorrect_predictions := 1 } := by
  decide

end BranchPred

/-! # Theorems: the replacement sets `LRU` and `LFU` -/

namespace MemHier

/-! ### `LRU` -/

theorem LRU.Find_fst (s : LRU) (tag : Nat) : (s.Find tag).1 = true ↔ tag ∈ s._tags := by
  unfold LRU.Find
  by_cases h : tag ∈ s._tags
  · simp only [h, if_true]
  · simp only [h, if_false, Bool.false_eq_true]

theorem LRU.Find_miss {s : LRU} {tag : Nat} (h : tag ∉ s._tags) : s.Find tag = (false, s) := by
  unfold LRU.Find
  simp only [h, if_false]

/-- A hit of `Find` on the first occurrence of the tag: the tag moves to the tail, the other
tags keep their order. -/
theorem LRU.Find_hit {s : LRU} {tag : Nat} {l1 l2 : List Nat} (h : s._tags = l1 ++ tag :: l2)
    (hn : tag ∉ l1) : s.Find tag = (true, { s with _tags := l1 ++ l2 ++ [tag] }) := by
  have hm : tag ∈ s._tags := by rw [h]; simp
  have he : s._tags.erase tag = l1 ++ l2 := by
    rw [h, List.erase_append_right _ hn, List.erase_cons_head]
  unfold LRU.Find
  simp only [hm, if_true, he]

theorem LRU.lru_Replace_full {s : LRU} (ha : 1 ≤ s._associativity)
    (hlen : s._associativity ≤ s._tags.length) (newTag : Nat) :
    ∃ head rest, s._tags = head :: rest ∧
      s.Replace newTag = (head, { s with _tags := rest ++ [newTag] }) := by
  cases hs : s._tags with
  | nil =>
    rw [hs] at hlen
    simp at hlen
    omega
  | cons head rest =>
    refine ⟨head, rest, rfl, ?_⟩
    have h1 : s._associativity > 0 := ha
    have h2 : (head :: rest).length ≥ s._associativity := hs ▸ hlen
    unfold LRU.Replace
    simp only [h1, if_true, hs, h2, List.headD_cons, List.tail_cons]

theorem LRU.lru_Replace_room {s : LRU} (ha : 1 ≤ s._associativity)
    (hlen : s._tags.length < s._associativity) (newTag : Nat) :
    s.Replace newTag = (INVALID_TAG, { s with _tags := s._tags ++ [newTag] }) := by
  have h1 : s._associativity > 0 := ha
  have h2 : ¬ s._tags.length ≥ s._associativity := by omega
  unfold LRU.Replace
  simp only [h1, if_true, h2, if_false]

theorem LRU.lru_Replace_zero {s : LRU} (ha : s._associativity = 0) (newTag : Nat) :
    s.Replace newTag = (newTag, s) := by
  unfold LRU.Replace
  simp only [ha, gt_iff_lt, Nat.lt_irrefl, if_false]

theorem LRU.call_associativity (s : LRU) (c : SetCall) :
    (s.call c)._associativity = s._associativity := by
  cases c with
  | Find tag =>
    simp only [LRU.call, LRU.Find]
    split <;> rfl
  | Replace tag =>
    simp only [LRU.call, LRU.Replace]
    split
    · split <;> rfl
    · rfl
  | DeleteIfPresent tag => rfl

/-! ### Recency order of the `LRU` set -/

/-- A step that appends a used tag to a part of the old sequence keeps the invariant. -/
theorem LRUTimed.Inv.use {t t1 : LRUTimed} (h : t.Inv) {L : List Nat} {tag : Nat}
    (hsub : L.Sublist t.set._tags) (hn : tag ∉ L) (hset : t1.set._tags = L ++ [tag])
    (hlen : L.length + 1 ≤ t1.set._associativity) (hclock : t1.clock = t.clock + 1)
    (hlast : t1.lastUse = Function.update t.lastUse tag t.clock) : t1.Inv := by
  have hold : ∀ x ∈ L, t1.lastUse x = t.lastUse x := by
    intro x hx
    rw [hlast, Function.update_noteq]
    intro hxt
    exact hn (hxt ▸ hx)
  have hnew : t1.lastUse tag = t.clock := by
    rw [hlast, Function.update_same]
  refine ⟨?_, ?_, ?_, ?_⟩
  · rw [hset]
    simpa using hlen
  · rw [hset]
    have hL : L.Nodup := h.nodup.sublist hsub
    exact List.Nodup.append hL (List.nodup_singleton tag) (by
      intro x hx hx2
      rw [List.mem_singleton] at hx2
      exact hn (hx2 ▸ hx))
  · intro x hx
    rw [hset, List.mem_append, List.mem_singleton] at hx
    rcases hx with hx | hx
    · rw [hold x hx, hclock]
      have := h.stamp_lt x (hsub.subset hx)
      omega
    · rw [hx, hnew, hclock]
      omega
  · rw [hset, List.pairwise_append]
    refine ⟨?_, List.pairwise_singleton _ _, ?_⟩
    · have hp := h.ordered.sublist hsub
      refine hp.imp_of_mem ?_
      intro x y hx hy hxy
      rw [hold x hx, hold y hy]
      exact hxy
    · intro x hx y hy
      rw [List.mem_singleton] at hy
      rw [hy, hnew, hold x hx]
      exact h.stamp_lt x (hsub.subset hx)

/-- A step that only drops tags and records no use keeps the invariant. -/
theorem LRUTimed.Inv.keep {t t1 : LRUTimed} (h : t.Inv)
    (hsub : t1.set._tags.Sublist t.set._tags)
    (hassoc : t1.set._associativity = t.set._associativity) (hclock : t1.clock = t.clock + 1)
    (hlast : t1.lastUse = t.lastUse) : t1.Inv := by
  refine ⟨?_, h.nodup.sublist hsub, ?_, ?_⟩
  · rw [hassoc]
    exact Nat.le_trans hsub.length_le h.size_le
  · intro x hx
    rw [hlast, hclock]
    have := h.stamp_lt x (hsub.subset hx)
    omega
  · rw [hlast]
    exact h.ordered.sublist hsub

/-- One call of the kind `Access` makes keeps the invariant of the timed set. -/
theorem LRUTimed.Inv.set_call {t : LRUTimed} (h : t.Inv) (c : SetCall)
    (hadm : ∀ tag, c = .Replace tag → tag ∉ t.set._tags) : (t.call c).Inv := by
  cases c with
  | Find tag =>
    by_cases hm : tag ∈ t.set._tags
    · refine h.use (List.erase_sublist tag t.set._tags)
        (fun hc => ((h.nodup.mem_erase_iff).mp hc).1 rfl) ?_ ?_ rfl ?_
      · simp only [LRUTimed.call, LRU.call, LRU.Find, hm, if_true]
      · simp only [LRUTimed.call, LRU.call, LRU.Find, hm, if_true]
        rw [List.length_erase_of_mem hm]
        have := h.size_le
        have := List.length_pos_of_mem hm
        omega
      · simp only [LRUTimed.call, LRU.used, hm, if_true]
    · refine h.keep ?_ ?_ rfl ?_
      · simp only [LRUTimed.call, LRU.call, LRU.Find_miss hm]
        exact List.Sublist.refl _
      · simp only [LRUTimed.call, LRU.call, LRU.Find_miss hm]
      · simp only [LRUTimed.call, LRU.used, hm, if_false]
  | Replace tag =>
    have hn : tag ∉ t.set._tags := hadm tag rfl
    by_cases ha : 1 ≤ t.set._associativity
    · have hused : (t.call (.Replace tag)).lastUse
          = Function.update t.lastUse tag t.clock := by
        have h1 : t.set._associativity > 0 := ha
        simp only [LRUTimed.call, LRU.used, h1, if_true]
      by_cases hfull : t.set._associativity ≤ t.set._tags.length
      · obtain ⟨head, rest, hs, hr⟩ := LRU.lru_Replace_full ha hfull tag
        have hsub : rest.Sublist t.set._tags := by
          rw [hs]
          exact List.sublist_cons_self head rest
        refine h.use hsub (fun hc => hn (hsub.subset hc)) ?_ ?_ rfl hused
        · simp only [LRUTimed.call, LRU.call, hr]
        · simp only [LRUTimed.call, LRU.call, hr]
          have := h.size_le
          rw [hs] at this
          simpa using this
      · have hr := LRU.lru_Replace_room ha (by omega) tag
        refine h.use (List.Sublist.refl _) hn ?_ ?_ rfl hused
        · simp only [LRUTimed.call, LRU.call, hr]
        · simp only [LRUTimed.call, LRU.call, hr]
          omega
    · have h0 : t.set._associativity = 0 := by omega
      have hr := LRU.lru_Replace_zero h0 tag
      refine h.keep ?_ ?_ rfl ?_
      · simp only [LRUTimed.call, LRU.call, hr]
        exact List.Sublist.refl _
      · simp only [LRUTimed.call, LRU.call, hr]
      · simp only [LRUTimed.call, LRU.used, h0, gt_iff_lt, Nat.lt_irrefl, if_false]
  | DeleteIfPresent tag =>
    exact h.keep (List.erase_sublist tag t.set._tags) rfl rfl rfl

/-- A sequence of calls of the kind `Access` makes keeps the invariant, and the timed run
follows the plain run. -/
theorem LRUTimed.Inv.set_run {t : LRUTimed} (h : t.Inv) (calls : List SetCall)
    (hadm : t.set.admits calls = true) :
    (t.run calls).Inv ∧ (t.run calls).set = t.set.run calls ∧
      (t.run calls).set._associativity = t.set._associativity := by
  induction calls generalizing t with
  | nil => exact ⟨h, rfl, rfl⟩
  | cons c cs ih =>
    have hstep : (t.call c).Inv ∧ (t.call c).set.admits cs = true := by
      cases c with
      | Find tag => exact ⟨h.set_call _ (fun _ hc => by cases hc), hadm⟩
      | DeleteIfPresent tag => exact ⟨h.set_call _ (fun _ hc => by cases hc), hadm⟩
      | Replace tag =>
        simp only [LRU.admits, Bool.and_eq_true, Bool.not_eq_true', decide_eq_false_iff_not]
          at hadm
        refine ⟨h.set_call _ ?_, hadm.2⟩
        intro tag2 hc
        cases hc
        exact hadm.1
    obtain ⟨i1, i2, i3⟩ := ih hstep.1 hstep.2
    refine ⟨i1, i2, ?_⟩
    rw [show (t.run (c :: cs)) = (t.call c).run cs from rfl, i3]
    exact LRU.call_associativity t.set c

theorem LRUTimed.lru_start_Inv (a : Nat) : (LRUTimed.start a).Inv :=
  ⟨Nat.zero_le _, List.nodup_nil, fun _ hx => absurd hx (List.not_mem_nil _),
    List.Pairwise.nil⟩

/-- C26: for an LRU set with associativity `a ≥ 1`.  `Find(tag)` returns true exactly when
`tag` is in the sequence; on a hit the (first) occurrence of `tag` moves to the tail and the
other tags keep their order; on a miss the set is unchanged.  `Replace(newTag)` on a set holding
`a` tags removes and returns the head, on a set holding fewer it returns `INVALID` and removes
nothing; in both cases `newTag` is appended at the tail.  Hence, in a set of associativity `a`
run from empty through any sequence of calls in which `Replace` is only called for a tag the set
does not hold (the calls `Access` makes), the tags read from the head in strictly increasing
order of their last use (the last call that found or inserted them), and the tag `Replace`
returns on a full set was used before every other tag of the set. -/
theorem LRU.find_replace_recency (s : LRU) (ha : 1 ≤ s._associativity) (tag newTag : Nat) :
    ((s.Find tag).1 = true ↔ tag ∈ s._tags) ∧
      (∀ l1 l2, s._tags = l1 ++ tag :: l2 → tag ∉ l1 →
        (s.Find tag).2 = { s with _tags := l1 ++ l2 ++ [tag] }) ∧
      (tag ∉ s._tags → (s.Find tag).2 = s) ∧
      (s._tags.length = s._associativity →
        ∃ head rest, s._tags = head :: rest ∧
          s.Replace newTag = (head, { s with _tags := rest ++ [newTag] })) ∧
      (s._tags.length < s._associativity →
        s.Replace newTag = (INVALID_TAG, { s with _tags := s._tags ++ [newTag] })) ∧
      (∀ (a : Nat) (calls : List SetCall), 1 ≤ a →
        (LRU.init.SetAssociativity a).admits calls = true →
        ((LRUTimed.start a).run calls).set = (LRU.init.SetAssociativity a).run calls ∧
          ((LRUTimed.start a).run calls).set._tags.Pairwise
            (fun x y => ((LRUTimed.start a).run calls).lastUse x
              < ((LRUTimed.start a).run calls).lastUse y) ∧
          (((LRUTimed.start a).run calls).set._tags.length = a →
            ∃ victim rest, ((LRUTimed.start a).run calls).set._tags = victim :: rest ∧
              (((LRUTimed.start a).run calls).set.Replace newTag).1 = victim ∧
              ∀ x ∈ rest, ((LRUTimed.start a).run calls).lastUse victim
                < ((LRUTimed.start a).run calls).lastUse x)) := by
  refine ⟨LRU.Find_fst s tag, ?_, ?_, ?_, ?_, ?_⟩
  · intro l1 l2 h hn
    rw [LRU.Find_hit h hn]
  · intro h
    rw [LRU.Find_miss h]
  · intro hlen
    exact LRU.lru_Replace_full ha (by omega) newTag
  · intro hlen
    exact LRU.lru_Replace_room ha hlen newTag
  · intro a calls ha1 hadm
    obtain ⟨hinv, hset, hassoc⟩ := (LRUTimed.lru_start_Inv a).set_run calls hadm
    refine ⟨hset, hinv.ordered, ?_⟩
    intro hlen
    have ha2 : ((LRUTimed.start a).run calls).set._associativity = a := hassoc
    obtain ⟨head, rest, hs, hr⟩ :=
      @LRU.lru_Replace_full ((LRUTimed.start a).run calls).set (by omega) (by omega) newTag
    refine ⟨head, rest, hs, by rw [hr], ?_⟩
    have hord := hinv.ordered
    rw [hs, List.pairwise_cons] at hord
    exact hord.1

theorem LRU.find_replace_recency_witness :
    1 ≤ lruFull._associativity ∧
      (((lruFull.Find 5).1 = true ↔ 5 ∈ lruFull._tags) ∧
        (∀ l1 l2, lruFull._tags = l1 ++ 5 :: l2 → 5 ∉ l1 →
          (lruFull.Find 5).2 = { lruFull with _tags := l1 ++ l2 ++ [5] }) ∧
        (5 ∉ lruFull._tags → (lruFull.Find 5).2 = lruFull) ∧
        (lruFull._tags.length = lruFull._associativity →
          ∃ head rest, lruFull._tags = head :: rest ∧
            lruFull.Replace 7 = (head, { lruFull with _tags := rest ++ [7] }))) :=
  ⟨by decide,
    (LRU.find_replace_recency lruFull (by decide) 5 7).1,
    (LRU.find_replace_recency lruFull (by decide) 5 7).2.1,
    (LRU.find_replace_recency lruFull (by decide) 5 7).2.2.1,
    (LRU.find_replace_recency lruFull (by decide) 5 7).2.2.2.1⟩

/-- On a two-way set: after inserting 5 and 9 and finding 5 again, the set reads `[9, 5]` and
the next `Replace` evicts 9. -/
theorem lruFull_eval :
    ((LRU.init.SetAssociativity 2).run [.Replace 5, .Replace 9])._tags = [5, 9] ∧
      (lruFull.Find 5).2._tags = [9, 5] ∧ (lruFull.Replace 7) = (5, { lruFull with _tags := [9, 7] }) ∧
      ((lruFull.Find 5).2.Replace 7).1 = 9 ∧
      (LRU.init.SetAssociativity 2).admits [.Replace 5, .Replace 9, .Find 5] = true := by
  decide

/-! ### `LFU` -/

/-- The victim search of `LFU::Replace`: either no line is below the running minimum, and the
loop returns what it was given; or it returns the first position of the lowest frequency, which
is below the running minimum. -/
theorem LFU.victimLoop_spec (d : LfuLine) (lines : List LfuLine) (pos m : Nat)
    (v : Option Nat) :
    (LFU.victimLoop lines pos m v = (m, v) ∧ ∀ x ∈ lines, m ≤ x.frequency) ∨
      (∃ i, i < lines.length ∧
        LFU.victimLoop lines pos m v = ((lines.getD i d).frequency, some (pos + i)) ∧
        (lines.getD i d).frequency < m ∧
        (∀ x ∈ lines, (lines.getD i d).frequency ≤ x.frequency) ∧
        ∀ j, j < i → (lines.getD i d).frequency < (lines.getD j d).frequency) := by
  induction lines generalizing pos m v with
  | nil => exact Or.inl ⟨rfl, fun _ hx => absurd hx (List.not_mem_nil _)⟩
  | cons x rest ih =>
    by_cases hx : x.frequency < m
    · have hstep : LFU.victimLoop (x :: rest) pos m v
          = LFU.victimLoop rest (pos + 1) x.frequency (some pos) := by
        simp only [LFU.victimLoop, hx, if_true]
      rw [hstep]
      rcases ih (pos + 1) x.frequency (some pos) with ⟨hr, hall⟩ | ⟨i, hi, hr, hlt, hall, hbefore⟩
      · refine Or.inr ⟨0, by simp, ?_, ?_, ?_, ?_⟩
        · rw [hr]; rfl
        · exact hx
        · intro y hy
          rcases List.mem_cons.mp hy with hy | hy
          · rw [hy]; exact Nat.le_refl _
          · exact hall y hy
        · intro j hj
          exact absurd hj (Nat.not_lt_zero j)
      · refine Or.inr ⟨i + 1, by simp; omega, ?_, ?_, ?_, ?_⟩
        · rw [hr, List.getD_cons_succ, Nat.add_assoc, Nat.add_comm 1 i]
        · rw [List.getD_cons_succ]; omega
        · intro y hy
          rw [List.getD_cons_succ]
          rcases List.mem_cons.mp hy with hy | hy
          · rw [hy]; omega
          · exact hall y hy
        · intro j hj
          rw [List.getD_cons_succ]
          cases j with
          | zero => rw [List.getD_cons_zero]; exact hlt
          | succ j => rw [List.getD_cons_succ]; exact hbefore j (by omega)
    · have hstep : LFU.victimLoop (x :: rest) pos m v = LFU.victimLoop rest (pos + 1) m v := by
        simp only [LFU.victimLoop, hx, if_false]
      rw [hstep]
      rcases ih (pos + 1) m v with ⟨hr, hall⟩ | ⟨i, hi, hr, hlt, hall, hbefore⟩
      · refine Or.inl ⟨hr, ?_⟩
        intro y hy
        rcases List.mem_cons.mp hy with hy | hy
        · rw [hy]; omega
        · exact hall y hy
      · refine Or.inr ⟨i + 1, by simp; omega, ?_, ?_, ?_, ?_⟩
        · rw [hr, List.getD_cons_succ, Nat.add_assoc, Nat.add_comm 1 i]
        · rw [List.getD_cons_succ]; exact hlt
        · intro y hy
          rw [List.getD_cons_succ]
          rcases List.mem_cons.mp hy with hy | hy
          · rw [hy]; omega
          · exact hall y hy
        · intro j hj
          rw [List.getD_cons_succ]
          cases j with
          | zero => rw [List.getD_cons_zero]; omega
          | succ j => rw [List.getD_cons_succ]; exact hbefore j (by omega)

theorem LFU.lfu_Replace_room {s : LFU} (ha : 1 ≤ s._associativity)
    (hlen : s._lines.length < s._associativity) (newTag : Nat) :
    s.Replace newTag
      = (INVALID_TAG, { s with _lines := s._lines ++ [{ tag := newTag, frequency := 1 }] }) := by
  have h0 : s._associativity ≠ 0 := by omega
  unfold LFU.Replace
  simp only [h0, if_false, hlen, if_true]

theorem LFU.lfu_Replace_zero {s : LFU} (ha : s._associativity = 0) (newTag : Nat) :
    s.Replace newTag = (newTag, s) := by
  unfold LFU.Replace
  simp only [ha, if_true]

/-- `Replace` on a full LFU set overwrites one slot in place and returns the tag it held; when
the frequencies are 32-bit values, the slot is the first one of the lowest frequency. -/
theorem LFU.lfu_Replace_full {s : LFU} (ha : 1 ≤ s._associativity)
    (hlen : s._associativity ≤ s._lines.length) (newTag : Nat) :
    ∃ v, v < s._lines.length ∧
      s.Replace newTag
        = ((s._lines.getD v { tag := INVALID_TAG, frequency := 0 }).tag,
            { s with _lines := s._lines.set v { tag := newTag, frequency := 1 } }) ∧
      ((∀ l ∈ s._lines, l.frequency < 2 ^ 32) →
        (∀ x ∈ s._lines,
          (s._lines.getD v { tag := INVALID_TAG, frequency := 0 }).frequency ≤ x.frequency) ∧
        ∀ j, j < v →
          (s._lines.getD v { tag := INVALID_TAG, frequency := 0 }).frequency
            < (s._lines.getD j { tag := INVALID_TAG, frequency := 0 }).frequency) := by
  have h0 : s._associativity ≠ 0 := by omega
  have h1 : ¬ s._lines.length < s._associativity := by omega
  rcases LFU.victimLoop_spec { tag := INVALID_TAG, frequency := 0 } s._lines 0 (2 ^ 32 - 1) none
    with ⟨hr, hall⟩ | ⟨i, hi, hr, _, hall, hbefore⟩
  · obtain ⟨first, rest, hs⟩ : ∃ first rest, s._lines = first :: rest := by
      cases hs : s._lines with
      | nil =>
        rw [hs] at hlen
        simp at hlen
        omega
      | cons first rest => exact ⟨first, rest, rfl⟩
    refine ⟨0, by rw [hs]; simp, ?_, ?_⟩
    · unfold LFU.Replace
      simp only [h0, if_false, h1, hr]
      simp only [hs, List.getD_cons_zero, List.set_cons_zero]
    · intro hfreq
      refine ⟨?_, fun j hj => absurd hj (Nat.not_lt_zero j)⟩
      intro x hx
      have hf := hfreq first (by rw [hs]; simp)
      have hx2 := hall x hx
      rw [hs, List.getD_cons_zero]
      omega
  · refine ⟨i, hi, ?_, fun _ => ⟨hall, hbefore⟩⟩
    unfold LFU.Replace
    simp only [h0, if_false, h1, hr, Nat.zero_add]

theorem LFU.findLoop_miss {tag : Nat} {lines : List LfuLine} (h : ∀ l ∈ lines, l.tag ≠ tag) :
    LFU.findLoop tag lines = (false, lines) := by
  induction lines with
  | nil => rfl
  | cons x rest ih =>
    have hx : x.tag ≠ tag := h x (by simp)
    have hr := ih (fun l hl => h l (List.mem_cons_of_mem _ hl))
    simp only [LFU.findLoop, hx, if_false, hr]

theorem LFU.findLoop_hit {tag : Nat} {l1 l2 : List LfuLine} {x : LfuLine} (hx : x.tag = tag)
    (h : ∀ l ∈ l1, l.tag ≠ tag) :
    LFU.findLoop tag (l1 ++ x :: l2)
      = (true, l1 ++ { x with frequency := (x.frequency + 1) % 2 ^ 32 } :: l2) := by
  induction l1 with
  | nil => simp only [List.nil_append, LFU.findLoop, hx, if_true]
  | cons y rest ih =>
    have hy : y.tag ≠ tag := h y (by simp)
    have hr := ih (fun l hl => h l (List.mem_cons_of_mem _ hl))
    have hc : ∀ L, LFU.findLoop tag (y :: L)
        = (if y.tag = tag then (true, { y with frequency := (y.frequency + 1) % 2 ^ 32 } :: L)
           else ((LFU.findLoop tag L).1, y :: (LFU.findLoop tag L).2)) := fun L => rfl
    rw [List.cons_append, hc, if_neg hy, hr, List.cons_append]

/-- C27: for an LFU set with associativity `a ≥ 1` whose frequencies are 32-bit values.
`Replace(newTag)` on a set holding fewer than `a` slots appends `(newTag, 1)` and returns
`INVALID`.  On a full set it picks a slot `v` of minimum frequency, the lowest-indexed one among
ties, returns that slot's tag and overwrites the slot in place with `(newTag, 1)`, every other
slot keeping its tag and frequency.  `Find` on a hit returns true and adds 1 to the frequency of
the (first) slot holding the tag, below the 32-bit maximum, and changes nothing else; on a miss
it returns false and changes nothing. -/
theorem LFU.replace_find_spec (s : LFU) (ha : 1 ≤ s._associativity)
    (hfreq : ∀ l ∈ s._lines, l.frequency < 2 ^ 32) (tag newTag : Nat) :
    (s._lines.length < s._associativity →
        s.Replace newTag
          = (INVALID_TAG,
              { s with _lines := s._lines ++ [{ tag := newTag, frequency := 1 }] })) ∧
      (s._lines.length = s._associativity →
        ∃ v, v < s._lines.length ∧
          (∀ x ∈ s._lines,
            (s._lines.getD v { tag := INVALID_TAG, frequency := 0 }).frequency ≤ x.frequency) ∧
          (∀ j, j < v →
            (s._lines.getD v { tag := INVALID_TAG, frequency := 0 }).frequency
              < (s._lines.getD j { tag := INVALID_TAG, frequency := 0 }).frequency) ∧
          s.Replace newTag
            = ((s._lines.getD v { tag := INVALID_TAG, frequency := 0 }).tag,
                { s with _lines := s._lines.set v { tag := newTag, frequency := 1 } }) ∧
          (s.Replace newTag).2._lines.getD v { tag := INVALID_TAG, frequency := 0 }
            = { tag := newTag, frequency := 1 } ∧
          ∀ j, j ≠ v →
            (s.Replace newTag).2._lines.getD j { tag := INVALID_TAG, frequency := 0 }
              = s._lines.getD j { tag := INVALID_TAG, frequency := 0 }) ∧
      (∀ l1 x l2, s._lines = l1 ++ x :: l2 → x.tag = tag → (∀ l ∈ l1, l.tag ≠ tag) →
        x.frequency + 1 < 2 ^ 32 →
        s.Find tag
          = (true, { s with _lines := l1 ++ { x with frequency := x.frequency + 1 } :: l2 })) ∧
      ((∀ l ∈ s._lines, l.tag ≠ tag) → s.Find tag = (false, s)) := by
  refine ⟨fun hlen => LFU.lfu_Replace_room ha hlen newTag, ?_, ?_, ?_⟩
  · intro hlen
    obtain ⟨v, hv, hr, hmin⟩ := LFU.lfu_Replace_full ha (by omega) newTag
    obtain ⟨hmin1, hmin2⟩ := hmin hfreq
    refine ⟨v, hv, hmin1, hmin2, hr, ?_, ?_⟩
    · rw [hr]
      exact BranchPred.getD_set_self _ _ _ _ hv
    · intro j hj
      rw [hr]
      exact BranchPred.getD_set_ne _ _ _ hj
  · intro l1 x l2 hs hx hl1 hlt
    unfold LFU.Find
    simp only [hs, LFU.findLoop_hit hx hl1, Nat.mod_eq_of_lt hlt]
  · intro h
    unfold LFU.Find
    simp only [LFU.findLoop_miss h]

theorem LFU.replace_find_spec_witness :
    (1 ≤ lfuFull._associativity ∧ ∀ l ∈ lfuFull._lines, l.frequency < 2 ^ 32) ∧
      (lfuFull._lines.length = lfuFull._associativity →
        ∃ v, v < lfuFull._lines.length ∧
          (∀ x ∈ lfuFull._lines,
            (lfuFull._lines.getD v { tag := INVALID_TAG, frequency := 0 }).frequency
              ≤ x.frequency) ∧
          (∀ j, j < v →
            (lfuFull._lines.getD v { tag := INVALID_TAG, frequency := 0 }).frequency
              < (lfuFull._lines.getD j { tag := INVALID_TAG, frequency := 0 }).frequency) ∧
          lfuFull.Replace 7
            = ((lfuFull._lines.getD v { tag := INVALID_TAG, frequency := 0 }).tag,
                { lfuFull with
                  _lines := lfuFull._lines.set v { tag := 7, frequency := 1 } }) ∧
          (lfuFull.Replace 7).2._lines.getD v { tag := INVALID_TAG, frequency := 0 }
            = { tag := 7, frequency := 1 } ∧
          ∀ j, j ≠ v →
            (lfuFull.Replace 7).2._lines.getD j { tag := INVALID_TAG, frequency := 0 }
              = lfuFull._lines.getD j { tag := INVALID_TAG, frequency := 0 }) :=
  ⟨⟨by decide, by decide⟩,
    (LFU.replace_find_spec lfuFull (by decide) (by decide) 6 7).2.1⟩

/-- On the full three-way set with frequencies 3, 2, 2: `Replace(7)` overwrites slot 1 (the
first of the two slots of frequency 2) and returns its tag 5; `Find(6)` raises the frequency of
slot 2 to 3. -/
theorem lfuFull_eval :
    lfuFull.Replace 7
        = (5, { lfuFull with
                _lines := [{ tag := 4, frequency := 3 }, { tag := 7, frequency := 1 },
                  { tag := 6, frequency := 2 }] }) ∧
      lfuFull.Find 6
        = (true, { lfuFull with
                   _lines := [{ tag := 4, frequency := 3 }, { tag := 5, frequency := 2 },
                     { tag := 6, frequency := 3 }] }) := by
  decide

/-! ### The value `Replace` returns -/

/-- A list splits at a valid position; `set` at that position replaces the middle element. -/
theorem exists_split_at {α : Type} (l : List α) (v : Nat) (d : α) (hv : v < l.length) :
    ∃ l1 l2, l = l1 ++ l.getD v d :: l2 ∧ ∀ y, l.set v y = l1 ++ y :: l2 := by
  induction l generalizing v with
  | nil => exact absurd hv (Nat.not_lt_zero v)
  | cons x rest ih =>
    cases v with
    | zero => exact ⟨[], rest, rfl, fun _ => rfl⟩
    | succ v =>
      obtain ⟨l1, l2, h1, h2⟩ := ih v (by simpa using hv)
      refine ⟨x :: l1, l2, ?_, ?_⟩
      · rw [List.getD_cons_succ, List.cons_append, ← h1]
      · intro y
        rw [List.set_cons_succ, h2 y, List.cons_append]

/-- C28, as stated, fails.  With associativity 0, `Replace(7)` on the empty LRU set and on the
empty LFU set returns 7, which is not `INVALID` although nothing was evicted, and which was not
in the set.  With associativity 1, `Replace(5)` on the LRU set `[5]` returns 5, which is still
in the set afterwards; `Replace(3)` on the LRU set holding the tag `2^64 - 1` returns `INVALID`
although that tag was evicted; and with associativity 2, `Replace(7)` on the LRU set `[5, 5]`
returns 5, which is still in the set afterwards. -/
theorem replace_return_as_stated_fails :
    ¬ specReplaceReturn (CacheSet.Tags ({ _tags := [], _associativity := 0 } : LRU))
        (CacheSet.Tags (CacheSet.Replace ({ _tags := [], _associativity := 0 } : LRU) 7).2)
        (CacheSet.Replace ({ _tags := [], _associativity := 0 } : LRU) 7).1 ∧
      ¬ specReplaceReturn (CacheSet.Tags ({ _lines := [], _associativity := 0 } : LFU))
        (CacheSet.Tags (CacheSet.Replace ({ _lines := [], _associativity := 0 } : LFU) 7).2)
        (CacheSet.Replace ({ _lines := [], _associativity := 0 } : LFU) 7).1 ∧
      ¬ specReplaceReturn (CacheSet.Tags ({ _tags := [5], _associativity := 1 } : LRU))
        (CacheSet.Tags (CacheSet.Replace ({ _tags := [5], _associativity := 1 } : LRU) 5).2)
        (CacheSet.Replace ({ _tags := [5], _associativity := 1 } : LRU) 5).1 ∧
      ¬ specReplaceReturn
        (CacheSet.Tags ({ _tags := [INVALID_TAG], _associativity := 1 } : LRU))
        (CacheSet.Tags
          (CacheSet.Replace ({ _tags := [INVALID_TAG], _associativity := 1 } : LRU) 3).2)
        (CacheSet.Replace ({ _tags := [INVALID_TAG], _associativity := 1 } : LRU) 3).1 ∧
      ¬ specReplaceReturn (CacheSet.Tags ({ _tags := [5, 5], _associativity := 2 } : LRU))
        (CacheSet.Tags (CacheSet.Replace ({ _tags := [5, 5], _associativity := 2 } : LRU) 7).2)
        (CacheSet.Replace ({ _tags := [5, 5], _associativity := 2 } : LRU) 7).1 := by
  decide

theorem LRU.lru_Replace_return {s : LRU} {tag : Nat} (ha : 1 ≤ s._associativity)
    (hnd : s._tags.Nodup) (hinv : INVALID_TAG ∉ s._tags) (hnew : tag ∉ s._tags) :
    specReplaceReturn s._tags (s.Replace tag).2._tags (s.Replace tag).1 := by
  by_cases hfull : s._associativity ≤ s._tags.length
  · obtain ⟨head, rest, hs, hr⟩ := LRU.lru_Replace_full ha hfull tag
    rw [hr]
    have hhead : head ∈ s._tags := by rw [hs]; simp
    have hne : head ≠ INVALID_TAG := fun hc => hinv (hc ▸ hhead)
    have hnot : head ∉ rest ++ [tag] := by
      rw [hs] at hnd hnew
      intro hc
      rcases List.mem_append.mp hc with hc | hc
      · exact (List.nodup_cons.mp hnd).1 hc
      · rw [List.mem_singleton] at hc
        exact hnew (by rw [hc]; simp)
    refine ⟨⟨fun hc => absurd hc hne, fun hc => absurd (hc head hhead) hnot⟩,
      fun _ => ⟨hhead, hnot⟩⟩
  · rw [LRU.lru_Replace_room ha (by omega) tag]
    exact ⟨⟨fun _ t ht => List.mem_append_left _ ht, fun _ => rfl⟩, fun hc => absurd rfl hc⟩

theorem LFU.lfu_Replace_return {s : LFU} {tag : Nat} (ha : 1 ≤ s._associativity)
    (hnd : (s._lines.map (fun l => l.tag)).Nodup)
    (hinv : INVALID_TAG ∉ s._lines.map (fun l => l.tag))
    (hnew : tag ∉ s._lines.map (fun l => l.tag)) :
    specReplaceReturn (s._lines.map (fun l => l.tag))
      ((s.Replace tag).2._lines.map (fun l => l.tag)) (s.Replace tag).1 := by
  by_cases hfull : s._associativity ≤ s._lines.length
  · obtain ⟨v, hv, hr, _⟩ := LFU.lfu_Replace_full ha hfull tag
    obtain ⟨l1, l2, h1, h2⟩ :=
      exists_split_at s._lines v { tag := INVALID_TAG, frequency := 0 } hv
    rw [hr]
    generalize s._lines.getD v { tag := INVALID_TAG, frequency := 0 } = x at h1 ⊢
    simp only [h2]
    rw [h1] at hnd hinv hnew ⊢
    simp only [List.map_append, List.map_cons] at hnd hinv hnew ⊢
    have hx : x.tag ∈ l1.map (fun l => l.tag) ++ x.tag :: l2.map (fun l => l.tag) := by simp
    have hne : x.tag ≠ INVALID_TAG := fun hc => hinv (hc ▸ hx)
    have hnot : x.tag ∉ l1.map (fun l => l.tag) ++ tag :: l2.map (fun l => l.tag) := by
      have hd := List.nodup_append.mp hnd
      intro hc
      rcases List.mem_append.mp hc with hc | hc
      · exact hd.2.2 hc (by simp)
      · rcases List.mem_cons.mp hc with hc | hc
        · exact hnew (by rw [← hc]; exact hx)
        · exact (List.nodup_cons.mp hd.2.1).1 hc
    refine ⟨⟨fun hc => absurd hc hne, fun hc => absurd (hc x.tag hx) hnot⟩,
      fun _ => ⟨hx, hnot⟩⟩
  · rw [LFU.lfu_Replace_room ha (by omega) tag]
    simp only [List.map_append]
    exact ⟨⟨fun _ t ht => List.mem_append_left _ ht, fun _ => rfl⟩, fun hc => absurd rfl hc⟩

/-- C28, amended: for both replacement policies, every associativity `a ≥ 1`, every set state
that holds no tag twice and no tag equal to `INVALID`, and every tag not already in the set (the
sets and calls of `Access`): `Replace(tag)` returns `INVALID` exactly when no tag was evicted by
the call, and a value other than `INVALID` is a tag that was in the set before the call and is
no longer in it.  With associativity 0, `Replace(tag)` returns `tag` itself and leaves the set
as it is. -/
theorem replace_return_spec (tag : Nat) :
    (∀ s : LRU, 1 ≤ s._associativity → (CacheSet.Tags s).Nodup →
        INVALID_TAG ∉ CacheSet.Tags s → tag ∉ CacheSet.Tags s →
        specReplaceReturn (CacheSet.Tags s) (CacheSet.Tags (CacheSet.Replace s tag).2)
          (CacheSet.Replace s tag).1) ∧
      (∀ s : LFU, 1 ≤ s._associativity → (CacheSet.Tags s).Nodup →
        INVALID_TAG ∉ CacheSet.Tags s → tag ∉ CacheSet.Tags s →
        specReplaceReturn (CacheSet.Tags s) (CacheSet.Tags (CacheSet.Replace s tag).2)
          (CacheSet.Replace s tag).1) ∧
      (∀ s : LRU, s._associativity = 0 → CacheSet.Replace s tag = (tag, s)) ∧
      (∀ s : LFU, s._associativity = 0 → CacheSet.Replace s tag = (tag, s)) :=
  ⟨fun _ ha hnd hinv hnew => LRU.lru_Replace_return ha hnd hinv hnew,
    fun _ ha hnd hinv hnew => LFU.lfu_Replace_return ha hnd hinv hnew,
    fun _ ha => LRU.lru_Replace_zero ha tag, fun _ ha => LFU.lfu_Replace_zero ha tag⟩

/-- On the two full sets: `Replace(7)` returns the evicted tag 5, which was in the set and is no
longer in it. -/
theorem replace_return_eval :
    specReplaceReturn (CacheSet.Tags lruFull) (CacheSet.Tags (CacheSet.Replace lruFull 7).2)
        (CacheSet.Replace lruFull 7).1 ∧
      specReplaceReturn (CacheSet.Tags lfuFull) (CacheSet.Tags (CacheSet.Replace lfuFull 7).2)
        (CacheSet.Replace lfuFull 7).1 ∧
      (CacheSet.Replace lruFull 7).1 = 5 ∧ (CacheSet.Replace lfuFull 7).1 = 5 := by
  decide

end MemHier

/-! # Theorems: `TWO_LEVEL_CACHE::Access` -/

namespace MemHier

/-- The loop of `Access` reads the configuration of the cache only. -/
theorem TWO_LEVEL_CACHE.inclusionLoop_congr {SET : Type} [CacheSet SET]
    {c c1 : TWO_LEVEL_CACHE SET} (h1 : c1._l2_blockSize = c._l2_blockSize)
    (h2 : c1._l1_blockSize = c._l1_blockSize) (h3 : c1._l1_lineShift = c._l1_lineShift)
    (h4 : c1._l1_setIndexMask = c._l1_setIndexMask)
    (h5 : c1._l1_associativity = c._l1_associativity) (recon fuel off : Nat)
    (sets : List SET) :
    c1.inclusionLoop recon fuel off sets = c.inclusionLoop recon fuel off sets := by
  induction fuel generalizing off sets with
  | zero => rfl
  | succ n ih =>
    simp only [TWO_LEVEL_CACHE.inclusionLoop, TWO_LEVEL_CACHE.L1NumSets, h1, h2, h3, h4, h5, ih]

/-- `Access` on an L1 hit. -/
theorem TWO_LEVEL_CACHE.Access_l1_hit {SET : Type} [CacheSet SET] (m : Macros)
    (c : TWO_LEVEL_CACHE SET) (addr : Nat) (ty : ACCESS_TYPE) (hit : c.l1Hit addr = true) :
    c.Access m addr ty
      = (c._latencies.HIT_L1,
          { c with
            _l1_sets :=
              c._l1_sets.set (c.l1Split addr).2
                (CacheSet.Find (c.l1Set addr) (c.l1Split addr).1).2
            _l1_access := c._l1_access.incr ty true }) := by
  have hen : c.l1Enabled = true := by
    cases hb : c.l1Enabled with
    | true => rfl
    | false =>
      unfold TWO_LEVEL_CACHE.l1Hit at hit
      simp only [hb, Bool.false_eq_true, if_false] at hit
  have hf : (CacheSet.Find (c.l1Set addr) (c.l1Split addr).1).1 = true := by
    unfold TWO_LEVEL_CACHE.l1Hit at hit
    simpa only [hen, if_true] using hit
  unfold TWO_LEVEL_CACHE.l1Enabled at hen
  unfold TWO_LEVEL_CACHE.l1Set TWO_LEVEL_CACHE.l1Split at hf ⊢
  unfold TWO_LEVEL_CACHE.Access
  simp only [hen, if_true, hf]

theorem TWO_LEVEL_CACHE.l1Enabled_of_hit {SET : Type} [CacheSet SET]
    {c : TWO_LEVEL_CACHE SET} {addr : Nat} (hit : c.l1Hit addr = true) :
    c.l1Enabled = true := by
  cases hb : c.l1Enabled with
  | true => rfl
  | false =>
    unfold TWO_LEVEL_CACHE.l1Hit at hit
    simp only [hb, Bool.false_eq_true, if_false] at hit

/-- The L2 set array after an `Access` that misses L1, with L2 enabled: `Find` has run on the
L2 set of `addr`, and `Replace(l2Tag)` after it when `Find` missed. -/
theorem TWO_LEVEL_CACHE.Access_l2_sets {SET : Type} [CacheSet SET] (m : Macros)
    (c : TWO_LEVEL_CACHE SET) (addr : Nat) (ty : ACCESS_TYPE) (hmiss : c.l1Hit addr = false)
    (hen2 : c.l2Enabled = true) (hi2 : (c.l2Split addr).2 < c._l2_sets.length) :
    (c.Access m addr ty).2._l2_sets
      = (if c.l2Hit addr then
          c._l2_sets.set (c.l2Split addr).2 (CacheSet.Find (c.l2Set addr) (c.l2Split addr).1).2
         else
          c._l2_sets.set (c.l2Split addr).2
            (CacheSet.Replace (CacheSet.Find (c.l2Set addr) (c.l2Split addr).1).2
              (c.l2Split addr).1).2) := by
  have hh : c.l2Hit addr = (CacheSet.Find (c.l2Set addr) (c.l2Split addr).1).1 := by
    unfold TWO_LEVEL_CACHE.l2Hit
    simp only [hen2, if_true]
  rw [hh]
  unfold TWO_LEVEL_CACHE.l1Hit at hmiss
  unfold TWO_LEVEL_CACHE.l2Enabled at hen2
  unfold TWO_LEVEL_CACHE.l2Split at hi2
  unfold TWO_LEVEL_CACHE.l2Set TWO_LEVEL_CACHE.l2Split
  unfold TWO_LEVEL_CACHE.l1Set TWO_LEVEL_CACHE.l1Split at hmiss
  unfold TWO_LEVEL_CACHE.l1Enabled at hmiss
  unfold TWO_LEVEL_CACHE.Access
  by_cases hE : (decide (c._l1_associativity > 0) && !c._l1_sets.isEmpty
      && decide (c.L1NumSets > 0)) = true
  · simp only [hE, if_true] at hmiss
    simp only [hE, hmiss, hen2, if_true, Bool.false_eq_true, if_false]
    split_ifs <;>
      simp only [BranchPred.getD_set_self _ _ _ _ hi2, List.set_set]
  · simp only [hE, hen2, if_true, Bool.false_eq_true, if_false]
    split_ifs <;>
      simp only [BranchPred.getD_set_self _ _ _ _ hi2, List.set_set]

/-- The L1 set array after an `Access` that misses an enabled L1: the array of `l1AfterMiss`,
run through the inclusion loop when L2 is enabled and misses too, the cache is inclusive, the
tag `Replace` returned on L2 is not `INVALID` and `L1BlockSize() > 0`. -/
theorem TWO_LEVEL_CACHE.Access_l1_sets {SET : Type} [CacheSet SET] (m : Macros)
    (c : TWO_LEVEL_CACHE SET) (addr : Nat) (ty : ACCESS_TYPE) (hen1 : c.l1Enabled = true)
    (hmiss : c.l1Hit addr = false) (hi1 : (c.l1Split addr).2 < c._l1_sets.length)
    (hi2 : (c.l2Split addr).2 < c._l2_sets.length) :
    (c.Access m addr ty).2._l1_sets
      = (if c.l2Enabled = true ∧ c.l2Hit addr = false ∧ m.L2_INCLUSIVE = 1 ∧
            c.l2Evicted addr ≠ INVALID_TAG ∧ c._l1_blockSize > 0 then
          c.inclusionLoop (c.evictedBlockAddr addr) c._l2_blockSize 0 (c.l1AfterMiss m addr ty)
         else c.l1AfterMiss m addr ty) := by
  unfold TWO_LEVEL_CACHE.l1Hit at hmiss
  simp only [hen1, if_true] at hmiss
  unfold TWO_LEVEL_CACHE.l1Enabled at hen1
  unfold TWO_LEVEL_CACHE.evictedBlockAddr TWO_LEVEL_CACHE.l2Evicted TWO_LEVEL_CACHE.l1AfterMiss
    TWO_LEVEL_CACHE.l2Hit TWO_LEVEL_CACHE.l2Enabled TWO_LEVEL_CACHE.l2Set
  unfold TWO_LEVEL_CACHE.l1Set at hmiss ⊢
  unfold TWO_LEVEL_CACHE.l2Split at hi2 ⊢
  unfold TWO_LEVEL_CACHE.l1Split at hi1 hmiss ⊢
  unfold TWO_LEVEL_CACHE.Access
  by_cases hal : ty = ACCESS_TYPE.ACCESS_TYPE_LOAD ∨ m.STORE_ALLOCATION = STORE_ALLOCATE
  · simp only [hen1, hmiss, hal, if_true, Bool.false_eq_true, if_false, true_and, and_true]
    simp only [BranchPred.getD_set_self _ _ _ _ hi1, BranchPred.getD_set_self _ _ _ _ hi2,
      List.set_set]
    split_ifs <;>
      first | rfl | (exfalso; simp_all; done) |
        (apply TWO_LEVEL_CACHE.inclusionLoop_congr <;> rfl)
  · simp only [hen1, hmiss, hal, if_true, Bool.false_eq_true, if_false, true_and, and_true,
      and_false]
    simp only [BranchPred.getD_set_self _ _ _ _ hi1, BranchPred.getD_set_self _ _ _ _ hi2,
      List.set_set]
    split_ifs <;>
      first | rfl | (exfalso; simp_all; done) |
        (apply TWO_LEVEL_CACHE.inclusionLoop_congr <;> rfl)

/-- The cycle count `Access` returns. -/
theorem TWO_LEVEL_CACHE.Access_cycles {SET : Type} [CacheSet SET] (m : Macros)
    (c : TWO_LEVEL_CACHE SET) (addr : Nat) (ty : ACCESS_TYPE) :
    (c.Access m addr ty).1
      = (if c.l1Hit addr then c._latencies.HIT_L1
         else if c.l2Enabled ∧ c.l2Hit addr then
           (c._latencies.HIT_L1 + c._latencies.HIT_L2) % 2 ^ 32
         else
           ((c._latencies.HIT_L1 + c._latencies.HIT_L2) % 2 ^ 32 + c._latencies.MISS_L2)
             % 2 ^ 32) := by
  unfold TWO_LEVEL_CACHE.Access TWO_LEVEL_CACHE.l1Hit TWO_LEVEL_CACHE.l2Hit
    TWO_LEVEL_CACHE.l1Set TWO_LEVEL_CACHE.l2Set TWO_LEVEL_CACHE.l1Split TWO_LEVEL_CACHE.l2Split
    TWO_LEVEL_CACHE.l1Enabled TWO_LEVEL_CACHE.l2Enabled
  simp only []
  split_ifs <;> first | rfl | simp_all

/-- The L1 hit/miss counters after `Access`: with L1 enabled, the counter of the access type
and of the outcome of the L1 lookup has been incremented. -/
theorem TWO_LEVEL_CACHE.Access_l1_access {SET : Type} [CacheSet SET] (m : Macros)
    (c : TWO_LEVEL_CACHE SET) (addr : Nat) (ty : ACCESS_TYPE) :
    (c.Access m addr ty).2._l1_access
      = (if c.l1Enabled then c._l1_access.incr ty (c.l1Hit addr) else c._l1_access) := by
  unfold TWO_LEVEL_CACHE.Access TWO_LEVEL_CACHE.l1Hit TWO_LEVEL_CACHE.l1Set
    TWO_LEVEL_CACHE.l1Split TWO_LEVEL_CACHE.l1Enabled
  simp only []
  split_ifs <;> rfl

/-- The L2 hit/miss counters after `Access`: on an L1 miss with L2 enabled, the counter of the
access type and of the outcome of the L2 lookup has been incremented. -/
theorem TWO_LEVEL_CACHE.Access_l2_access {SET : Type} [CacheSet SET] (m : Macros)
    (c : TWO_LEVEL_CACHE SET) (addr : Nat) (ty : ACCESS_TYPE) :
    (c.Access m addr ty).2._l2_access
      = (if c.l1Hit addr = false ∧ c.l2Enabled = true then
          c._l2_access.incr ty (c.l2Hit addr)
         else c._l2_access) := by
  unfold TWO_LEVEL_CACHE.Access TWO_LEVEL_CACHE.l1Hit TWO_LEVEL_CACHE.l2Hit
    TWO_LEVEL_CACHE.l1Set TWO_LEVEL_CACHE.l2Set TWO_LEVEL_CACHE.l1Split TWO_LEVEL_CACHE.l2Split
    TWO_LEVEL_CACHE.l1Enabled TWO_LEVEL_CACHE.l2Enabled
  simp only []
  split_ifs <;> first | rfl | simp_all

/-- `Access` changes nothing of the configuration. -/
theorem TWO_LEVEL_CACHE.Access_config {SET : Type} [CacheSet SET] (m : Macros)
    (c : TWO_LEVEL_CACHE SET) (addr : Nat) (ty : ACCESS_TYPE) :
    (c.Access m addr ty).2._latencies = c._latencies ∧
      (c.Access m addr ty).2._l1_associativity = c._l1_associativity ∧
      (c.Access m addr ty).2._l2_associativity = c._l2_associativity ∧
      (c.Access m addr ty).2._l1_setIndexMask = c._l1_setIndexMask ∧
      (c.Access m addr ty).2._l2_setIndexMask = c._l2_setIndexMask ∧
      (c.Access m addr ty).2._l1_lineShift = c._l1_lineShift ∧
      (c.Access m addr ty).2._l2_lineShift = c._l2_lineShift ∧
      (c.Access m addr ty).2._l1_blockSize = c._l1_blockSize ∧
      (c.Access m addr ty).2._l2_blockSize = c._l2_blockSize := by
  unfold TWO_LEVEL_CACHE.Access
  simp only []
  split_ifs <;> exact ⟨rfl, rfl, rfl, rfl, rfl, rfl, rfl, rfl, rfl⟩

/-! ### The replacement policies keep the laws `TWO_LEVEL_CACHE` relies on -/

theorem LRU.lru_lawful : CacheSet.Lawful LRU (fun s => s._associativity) := by
  refine ⟨fun _ => rfl, fun _ => rfl, LRU.Find_fst, ?_, ?_, ?_, ?_, ?_, ?_, fun _ _ => rfl⟩
  · intro s t x
    show x ∈ (s.Find t).2._tags ↔ x ∈ s._tags
    by_cases ht : t ∈ s._tags
    · simp only [LRU.Find, ht, if_true, List.mem_append, List.mem_singleton]
      by_cases hx : x = t
      · rw [hx]
        exact ⟨fun _ => ht, fun _ => Or.inr rfl⟩
      · rw [List.mem_erase_of_ne hx]
        exact ⟨fun h => h.resolve_right hx, Or.inl⟩
    · rw [LRU.Find_miss ht]
  · intro s t
    show (s.Find t).2._associativity = s._associativity
    exact LRU.call_associativity s (.Find t)
  · intro s t ha
    show t ∈ (s.Replace t).2._tags
    by_cases hfull : s._associativity ≤ s._tags.length
    · obtain ⟨head, rest, _, hr⟩ := LRU.lru_Replace_full ha hfull t
      rw [hr]
      simp
    · rw [LRU.lru_Replace_room ha (by omega) t]
      simp
  · intro s t x hx
    change x ∈ (s.Replace t).2._tags at hx
    show x = t ∨ x ∈ s._tags
    by_cases ha : 1 ≤ s._associativity
    · by_cases hfull : s._associativity ≤ s._tags.length
      · obtain ⟨head, rest, hs, hr⟩ := LRU.lru_Replace_full ha hfull t
        rw [hr] at hx
        rw [hs]
        simp only [List.mem_append, List.mem_singleton] at hx
        rcases hx with hx | hx
        · exact Or.inr (List.mem_cons_of_mem _ hx)
        · exact Or.inl hx
      · rw [LRU.lru_Replace_room ha (by omega) t] at hx
        simp only [List.mem_append, List.mem_singleton] at hx
        exact hx.symm
    · rw [LRU.lru_Replace_zero (by omega) t] at hx
      exact Or.inr hx
  · intro s t
    show (s.Replace t).2._associativity = s._associativity
    exact LRU.call_associativity s (.Replace t)
  · intro s t x hx
    exact List.mem_of_mem_erase hx

theorem LFU.findLoop_tags (tag : Nat) (lines : List LfuLine) :
    (LFU.findLoop tag lines).2.map (fun l => l.tag) = lines.map (fun l => l.tag) := by
  induction lines with
  | nil => rfl
  | cons x rest ih =>
    by_cases hx : x.tag = tag
    · simp only [LFU.findLoop, hx, if_true, List.map_cons]
    · simp only [LFU.findLoop, hx, if_false, List.map_cons, ih]

theorem LFU.findLoop_fst (tag : Nat) (lines : List LfuLine) :
    (LFU.findLoop tag lines).1 = true ↔ tag ∈ lines.map (fun l => l.tag) := by
  induction lines with
  | nil => simp [LFU.findLoop]
  | cons x rest ih =>
    by_cases hx : x.tag = tag
    · simp [LFU.findLoop, hx]
    · have hx2 : ¬ tag = x.tag := fun h => hx h.symm
      simp only [LFU.findLoop, hx, if_false, ih, List.map_cons, List.mem_cons, hx2, false_or]

theorem LFU.lfu_lawful : CacheSet.Lawful LFU (fun s => s._associativity) := by
  refine ⟨fun _ => rfl, fun _ => rfl, ?_, ?_, fun _ _ => rfl, ?_, ?_, ?_, ?_, fun _ _ => rfl⟩
  · intro s t
    exact LFU.findLoop_fst t s._lines
  · intro s t x
    show x ∈ (LFU.findLoop t s._lines).2.map (fun l => l.tag) ↔ x ∈ s._lines.map (fun l => l.tag)
    rw [LFU.findLoop_tags]
  · intro s t ha
    show t ∈ (s.Replace t).2._lines.map (fun l => l.tag)
    by_cases hfull : s._associativity ≤ s._lines.length
    · obtain ⟨v, hv, hr, _⟩ := LFU.lfu_Replace_full ha hfull t
      obtain ⟨l1, l2, _, h2⟩ :=
        exists_split_at s._lines v { tag := INVALID_TAG, frequency := 0 } hv
      rw [hr]
      simp only [h2, List.map_append, List.map_cons, List.mem_append, List.mem_cons, true_or,
        or_true]
    · rw [LFU.lfu_Replace_room ha (by omega) t]
      simp
  · intro s t x hx
    change x ∈ (s.Replace t).2._lines.map (fun l => l.tag) at hx
    show x = t ∨ x ∈ s._lines.map (fun l => l.tag)
    by_cases ha : 1 ≤ s._associativity
    · by_cases hfull : s._associativity ≤ s._lines.length
      · obtain ⟨v, hv, hr, _⟩ := LFU.lfu_Replace_full ha hfull t
        obtain ⟨l1, l2, h1, h2⟩ :=
          exists_split_at s._lines v { tag := INVALID_TAG, frequency := 0 } hv
        rw [hr] at hx
        simp only [h2, List.map_append, List.map_cons, List.mem_append, List.mem_cons] at hx
        rw [h1]
        simp only [List.map_append, List.map_cons, List.mem_append, List.mem_cons]
        rcases hx with hx | hx | hx
        · exact Or.inr (Or.inl hx)
        · exact Or.inl hx
        · exact Or.inr (Or.inr (Or.inr hx))
      · rw [LFU.lfu_Replace_room ha (by omega) t] at hx
        simp only [List.map_append, List.map_cons, List.map_nil, List.mem_append,
          List.mem_singleton] at hx
        exact hx.symm
    · rw [LFU.lfu_Replace_zero (by omega) t] at hx
      exact Or.inr hx
  · intro s t
    show (s.Replace t).2._associativity = s._associativity
    by_cases ha : 1 ≤ s._associativity
    · by_cases hfull : s._associativity ≤ s._lines.length
      · obtain ⟨v, _, hr, _⟩ := LFU.lfu_Replace_full ha hfull t
        rw [hr]
      · rw [LFU.lfu_Replace_room ha (by omega) t]
    · rw [LFU.lfu_Replace_zero (by omega) t]
  · intro s t x hx
    exact (List.eraseP_sublist _).map _ |>.subset hx

/-! ### Set indices and the counters -/

theorem AccessStats.get_incr (a : AccessStats) (ty : ACCESS_TYPE) (hit : Bool) (t : ACCESS_TYPE)
    (h : Bool) :
    (a.incr ty hit).get t h
      = (if t = ty ∧ h = hit then (a.get t h + 1) % 2 ^ 64 else a.get t h) := by
  cases ty <;> cases hit <;> cases t <;> cases h <;> simp [AccessStats.get, AccessStats.incr]

theorem SplitAddress_index_le (addr lineShift setIndexMask : Nat) :
    (SplitAddress addr lineShift setIndexMask).2 ≤ setIndexMask := by
  unfold SplitAddress
  simp only []
  split_ifs
  · exact Nat.and_le_right
  · exact Nat.zero_le _

theorem TWO_LEVEL_CACHE.l1Enabled_iff {SET : Type} (c : TWO_LEVEL_CACHE SET) :
    c.l1Enabled = true ↔ 0 < c._l1_associativity ∧ c._l1_sets ≠ [] ∧ 0 < c.L1NumSets := by
  unfold TWO_LEVEL_CACHE.l1Enabled
  simp [and_assoc, List.isEmpty_iff]

theorem TWO_LEVEL_CACHE.l2Enabled_iff {SET : Type} (c : TWO_LEVEL_CACHE SET) :
    c.l2Enabled = true ↔ 0 < c._l2_associativity ∧ c._l2_sets ≠ [] ∧ 0 < c.L2NumSets := by
  unfold TWO_LEVEL_CACHE.l2Enabled
  simp [and_assoc, List.isEmpty_iff]

/-- With L1 enabled, the set index of every address is a position of the L1 set array. -/
theorem TWO_LEVEL_CACHE.SetsWF.l1_index_lt {SET : Type} {assoc : SET → Nat}
    {c : TWO_LEVEL_CACHE SET} (hw : c.SetsWF assoc) (hen : c.l1Enabled = true) (addr : Nat) :
    (c.l1Split addr).2 < c._l1_sets.length := by
  obtain ⟨ha, _, hn⟩ := (c.l1Enabled_iff).mp hen
  have hle := SplitAddress_index_le addr c._l1_lineShift c._l1_setIndexMask
  have hm := hw.l1_mask_lt
  rw [hw.l1_length]
  unfold TWO_LEVEL_CACHE.L1NumSets at hn ⊢
  have ha2 : c._l1_associativity > 0 := ha
  simp only [ha2, if_true] at hn ⊢
  unfold TWO_LEVEL_CACHE.l1Split
  omega

/-- With L2 enabled, the set index of every address is a position of the L2 set array. -/
theorem TWO_LEVEL_CACHE.SetsWF.l2_index_lt {SET : Type} {assoc : SET → Nat}
    {c : TWO_LEVEL_CACHE SET} (hw : c.SetsWF assoc) (hen : c.l2Enabled = true) (addr : Nat) :
    (c.l2Split addr).2 < c._l2_sets.length := by
  obtain ⟨ha, _, hn⟩ := (c.l2Enabled_iff).mp hen
  have hle := SplitAddress_index_le addr c._l2_lineShift c._l2_setIndexMask
  have hm := hw.l2_mask_lt
  rw [hw.l2_length]
  unfold TWO_LEVEL_CACHE.L2NumSets at hn ⊢
  have ha2 : c._l2_associativity > 0 := ha
  simp only [ha2, if_true] at hn ⊢
  unfold TWO_LEVEL_CACHE.l2Split
  omega

theorem getD_mem_of_lt {α : Type} (l : List α) (i : Nat) (d : α) (h : i < l.length) :
    l.getD i d ∈ l := by
  rw [List.getD_eq_getElem _ _ h]
  exact List.getElem_mem h

/-- The inclusion loop only removes tags from the L1 sets. -/
theorem TWO_LEVEL_CACHE.inclusionLoop_tags {SET : Type} [CacheSet SET] {assoc : SET → Nat}
    (hl : CacheSet.Lawful SET assoc) (c : TWO_LEVEL_CACHE SET) (recon fuel off : Nat)
    (sets : List SET) (j x : Nat)
    (hx : x ∈ CacheSet.Tags ((c.inclusionLoop recon fuel off sets).getD j CacheSet.init)) :
    x ∈ CacheSet.Tags (sets.getD j CacheSet.init) := by
  induction fuel generalizing off sets with
  | zero => exact hx
  | succ n ih =>
    unfold TWO_LEVEL_CACHE.inclusionLoop at hx
    simp only [] at hx
    split_ifs at hx with h1 h2
    · have h3 := ih _ _ hx
      by_cases hj : j = (SplitAddress ((recon + off) % 2 ^ 64) c._l1_lineShift
          c._l1_setIndexMask).2
      · by_cases hlen : j < sets.length
        · rw [hj, BranchPred.getD_set_self _ _ _ _ (hj ▸ hlen)] at h3
          rw [hj]
          exact hl.delete_tags _ _ _ h3
        · rw [List.set_eq_of_length_le (by omega)] at h3
          exact h3
      · rw [BranchPred.getD_set_ne _ _ _ hj] at h3
        exact h3
    · exact ih _ _ hx
    · exact hx

/-- C23: for an `Access(addr, type)` on a cache with both levels enabled, whose three latencies
add up below `2^32` and whose counters are below the 64-bit maximum: the cycle count returned is
`latencyL1Hit` when L1 hits, `latencyL1Hit + latencyL2Hit` when L1 misses and L2 hits, and
`latencyL1Hit + latencyL2Hit + latencyMiss` when both miss; of the four L1 counters exactly the
one of the access type and of the L1 outcome grows, by 1; and of the four L2 counters the one of
the access type and of the L2 outcome grows by 1 when L1 missed, and none changes when L1
hit. -/
theorem TWO_LEVEL_CACHE.access_cycles_and_counters {SET : Type} [CacheSet SET] (m : Macros)
    (c : TWO_LEVEL_CACHE SET) (addr : Nat) (ty : ACCESS_TYPE) (h1 : c.l1Enabled = true)
    (h2 : c.l2Enabled = true)
    (hlat : c._latencies.HIT_L1 + c._latencies.HIT_L2 + c._latencies.MISS_L2 < 2 ^ 32)
    (hc1 : ∀ t h, c._l1_access.get t h < 2 ^ 64 - 1)
    (hc2 : ∀ t h, c._l2_access.get t h < 2 ^ 64 - 1) :
    (c.Access m addr ty).1
        = (if c.l1Hit addr then c._latencies.HIT_L1
           else if c.l2Hit addr then c._latencies.HIT_L1 + c._latencies.HIT_L2
           else c._latencies.HIT_L1 + c._latencies.HIT_L2 + c._latencies.MISS_L2) ∧
      (∀ t h, (c.Access m addr ty).2._l1_access.get t h
        = c._l1_access.get t h + (if t = ty ∧ h = c.l1Hit addr then 1 else 0)) ∧
      (∀ t h, (c.Access m addr ty).2._l2_access.get t h
        = c._l2_access.get t h
          + (if c.l1Hit addr = false ∧ t = ty ∧ h = c.l2Hit addr then 1 else 0)) := by
  refine ⟨?_, ?_, ?_⟩
  · rw [TWO_LEVEL_CACHE.Access_cycles]
    have e1 : (c._latencies.HIT_L1 + c._latencies.HIT_L2) % 2 ^ 32
        = c._latencies.HIT_L1 + c._latencies.HIT_L2 := Nat.mod_eq_of_lt (by omega)
    have e2 : (c._latencies.HIT_L1 + c._latencies.HIT_L2 + c._latencies.MISS_L2) % 2 ^ 32
        = c._latencies.HIT_L1 + c._latencies.HIT_L2 + c._latencies.MISS_L2 :=
      Nat.mod_eq_of_lt hlat
    simp only [h2, true_and, e1, e2]
  · intro t h
    rw [TWO_LEVEL_CACHE.Access_l1_access]
    simp only [h1, if_true, AccessStats.get_incr]
    have := hc1 t h
    split_ifs
    · exact Nat.mod_eq_of_lt (by omega)
    · rfl
  · intro t h
    rw [TWO_LEVEL_CACHE.Access_l2_access]
    simp only [h2, and_true]
    have := hc2 t h
    by_cases hm : c.l1Hit addr = false
    · simp only [hm, if_true, true_and, AccessStats.get_incr]
      split_ifs
      · exact Nat.mod_eq_of_lt (by omega)
      · rfl
    · have hm2 : c.l1Hit addr = true := by simpa using hm
      simp only [hm2, Bool.true_eq_false, false_and, if_false, Nat.add_zero]

theorem TWO_LEVEL_CACHE.access_cycles_and_counters_witness :
    ((cacheSmall LRU).l1Enabled = true ∧ (cacheSmall LRU).l2Enabled = true ∧
        (cacheSmall LRU)._latencies.HIT_L1 + (cacheSmall LRU)._latencies.HIT_L2
          + (cacheSmall LRU)._latencies.MISS_L2 < 2 ^ 32) ∧
      ((cacheSmall LRU).Access Macros.default 6 .ACCESS_TYPE_LOAD).1
        = (if (cacheSmall LRU).l1Hit 6 then (cacheSmall LRU)._latencies.HIT_L1
           else if (cacheSmall LRU).l2Hit 6 then
             (cacheSmall LRU)._latencies.HIT_L1 + (cacheSmall LRU)._latencies.HIT_L2
           else (cacheSmall LRU)._latencies.HIT_L1 + (cacheSmall LRU)._latencies.HIT_L2
             + (cacheSmall LRU)._latencies.MISS_L2) :=
  ⟨by decide,
    (TWO_LEVEL_CACHE.access_cycles_and_counters Macros.default (cacheSmall LRU) 6
      .ACCESS_TYPE_LOAD (by decide) (by decide) (by decide)
      (fun t h => by cases t <;> cases h <;> decide)
      (fun t h => by cases t <;> cases h <;> decide)).1⟩

/-- On the small cache: the first load of address 6 misses both levels and costs
`1 + 15 + 250` cycles; a second access to the same block hits L1 and costs 1 cycle; the counters
read one L1 load miss, one L2 load miss and one L1 store hit. -/
theorem cacheSmall_eval :
    TWO_LEVEL_CACHE.new LRU 4 2 1 8 4 2 0 1 15 250 = some (cacheSmall LRU) ∧
      ((cacheSmall LRU).Access Macros.default 6 .ACCESS_TYPE_LOAD).1 = 266 ∧
      (((cacheSmall LRU).Access Macros.default 6 .ACCESS_TYPE_LOAD).2.Access Macros.default 7
          .ACCESS_TYPE_STORE).1 = 1 ∧
      (((cacheSmall LRU).Access Macros.default 6 .ACCESS_TYPE_LOAD).2.Access Macros.default 7
          .ACCESS_TYPE_STORE).2._l1_access
        = { load := { miss := 1, hit := 0 }, store := { miss := 0, hit := 1 } } ∧
      (((cacheSmall LRU).Access Macros.default 6 .ACCESS_TYPE_LOAD).2.Access Macros.default 7
          .ACCESS_TYPE_STORE).2._l2_access
        = { load := { miss := 1, hit := 0 }, store := { miss := 0, hit := 0 } } := by
  decide

theorem cacheSmall_SetsWF : (cacheSmall LRU).SetsWF (fun s => s._associativity) :=
  ⟨by decide, by decide, by decide, by decide, by decide, by decide⟩

/-- The two halves of an `Access(addr, type)` that misses L1, on a cache with both levels enabled
whose set arrays are those of its configuration.  If `type` is LOAD or store-allocate is on, the
L1 half leaves `addr`'s tag in its L1 set (of the array `l1AfterMiss`); otherwise the tag is not
in that set, neither after the L1 half nor when `Access` returns.  What follows the L1 half only
removes tags from L1 sets.  In every case `addr`'s tag is in its L2 set when `Access` returns. -/
theorem TWO_LEVEL_CACHE.Access_miss_halves {SET : Type} [CacheSet SET] (assoc : SET → Nat)
    (hl : CacheSet.Lawful SET assoc) (m : Macros) (c : TWO_LEVEL_CACHE SET)
    (hw : c.SetsWF assoc) (h1 : c.l1Enabled = true) (h2 : c.l2Enabled = true) (addr : Nat)
    (ty : ACCESS_TYPE) (hmiss : c.l1Hit addr = false) :
    ((ty = .ACCESS_TYPE_LOAD ∨ m.STORE_ALLOCATION = STORE_ALLOCATE) →
        (c.l1Split addr).1
          ∈ CacheSet.Tags ((c.l1AfterMiss m addr ty).getD (c.l1Split addr).2 CacheSet.init)) ∧
      (¬ (ty = .ACCESS_TYPE_LOAD ∨ m.STORE_ALLOCATION = STORE_ALLOCATE) →
        (c.l1Split addr).1
            ∉ CacheSet.Tags ((c.l1AfterMiss m addr ty).getD (c.l1Split addr).2 CacheSet.init) ∧
          (c.l1Split addr).1
            ∉ CacheSet.Tags
                ((c.Access m addr ty).2._l1_sets.getD (c.l1Split addr).2 CacheSet.init)) ∧
      (∀ j x, x ∈ CacheSet.Tags ((c.Access m addr ty).2._l1_sets.getD j CacheSet.init) →
        x ∈ CacheSet.Tags ((c.l1AfterMiss m addr ty).getD j CacheSet.init)) ∧
      (c.l2Split addr).1
        ∈ CacheSet.Tags ((c.Access m addr ty).2._l2_sets.getD (c.l2Split addr).2 CacheSet.init) := by
  have hi1 := hw.l1_index_lt h1 addr
  have hi2 := hw.l2_index_lt h2 addr
  have hfind : (CacheSet.Find (c.l1Set addr) (c.l1Split addr).1).1 = false := by
    unfold TWO_LEVEL_CACHE.l1Hit at hmiss
    simpa only [h1, if_true] using hmiss
  have hnot : (c.l1Split addr).1 ∉ CacheSet.Tags (c.l1Set addr) := by
    intro hc
    rw [(hl.find_hit _ _).mpr hc] at hfind
    exact absurd hfind (by decide)
  have hsub : ∀ j x, x ∈ CacheSet.Tags ((c.Access m addr ty).2._l1_sets.getD j CacheSet.init) →
      x ∈ CacheSet.Tags ((c.l1AfterMiss m addr ty).getD j CacheSet.init) := by
    intro j x hx
    rw [TWO_LEVEL_CACHE.Access_l1_sets m c addr ty h1 hmiss hi1 hi2] at hx
    split_ifs at hx
    · exact TWO_LEVEL_CACHE.inclusionLoop_tags hl c _ _ _ _ j x hx
    · exact hx
  have hno : ¬ (ty = .ACCESS_TYPE_LOAD ∨ m.STORE_ALLOCATION = STORE_ALLOCATE) →
      (c.l1Split addr).1
        ∉ CacheSet.Tags ((c.l1AfterMiss m addr ty).getD (c.l1Split addr).2 CacheSet.init) := by
    intro hal hc
    unfold TWO_LEVEL_CACHE.l1AfterMiss at hc
    rw [if_neg hal, BranchPred.getD_set_self _ _ _ _ hi1] at hc
    exact hnot ((hl.find_tags _ _ _).mp hc)
  refine ⟨?_, fun hal => ⟨hno hal, fun hc => hno hal (hsub _ _ hc)⟩, hsub, ?_⟩
  · intro hal
    unfold TWO_LEVEL_CACHE.l1AfterMiss
    rw [if_pos hal, BranchPred.getD_set_self _ _ _ _ hi1]
    apply hl.replace_mem
    rw [hl.find_assoc]
    have hs : assoc (c.l1Set addr) = c._l1_associativity :=
      hw.l1_assoc _ (getD_mem_of_lt _ _ _ hi1)
    rw [hs]
    exact ((c.l1Enabled_iff).mp h1).1
  · rw [TWO_LEVEL_CACHE.Access_l2_sets m c addr ty hmiss h2 hi2]
    by_cases hh : c.l2Hit addr = true
    · rw [if_pos hh, BranchPred.getD_set_self _ _ _ _ hi2]
      have hf : (CacheSet.Find (c.l2Set addr) (c.l2Split addr).1).1 = true := by
        unfold TWO_LEVEL_CACHE.l2Hit at hh
        simpa only [h2, if_true] using hh
      exact (hl.find_tags _ _ _).mpr ((hl.find_hit _ _).mp hf)
    · rw [if_neg hh, BranchPred.getD_set_self _ _ _ _ hi2]
      apply hl.replace_mem
      rw [hl.find_assoc]
      have hs : assoc (c.l2Set addr) = c._l2_associativity :=
        hw.l2_assoc _ (getD_mem_of_lt _ _ _ hi2)
      rw [hs]
      exact ((c.l2Enabled_iff).mp h2).1

/-- On the small cache: a store to address 6 that misses L1 leaves L1 empty under
store-no-allocate and puts tag 1 into L1 set 1 under store-allocate; in both cases L2 holds the
block. -/
theorem cacheSmall_store_eval :
    ((cacheSmall LRU).Access { L2_INCLUSIVE := 1, STORE_ALLOCATION := 1 } 6
        .ACCESS_TYPE_STORE).2.view = ([[], []], [[1]], true) ∧
      ((cacheSmall LRU).Access Macros.default 6 .ACCESS_TYPE_STORE).2.view
        = ([[], [1]], [[1]], true) ∧
      ((cacheSmall LFU).Access Macros.default 6 .ACCESS_TYPE_STORE).2.view
        = ([[], [1]], [[1]], true) := by
  decide

/-! ### A disabled level -/

theorem TWO_LEVEL_CACHE.l1Hit_of_disabled {SET : Type} [CacheSet SET]
    {c : TWO_LEVEL_CACHE SET} (h : c._l1_associativity = 0) (addr : Nat) :
    c.l1Enabled = false ∧ c.l1Hit addr = false := by
  have he : c.l1Enabled = false := by
    unfold TWO_LEVEL_CACHE.l1Enabled
    simp [h]
  refine ⟨he, ?_⟩
  unfold TWO_LEVEL_CACHE.l1Hit
  simp only [he, Bool.false_eq_true, if_false]

theorem TWO_LEVEL_CACHE.l2Hit_of_disabled {SET : Type} [CacheSet SET]
    {c : TWO_LEVEL_CACHE SET} (h : c._l2_associativity = 0) (addr : Nat) :
    c.l2Enabled = false ∧ c.l2Hit addr = false := by
  have he : c.l2Enabled = false := by
    unfold TWO_LEVEL_CACHE.l2Enabled
    simp [h]
  refine ⟨he, ?_⟩
  unfold TWO_LEVEL_CACHE.l2Hit
  simp only [he, Bool.false_eq_true, if_false]

theorem TWO_LEVEL_CACHE.run_cons {SET : Type} [CacheSet SET] (m : Macros)
    (c : TWO_LEVEL_CACHE SET) (a : AccessCall) (calls : List AccessCall) :
    c.run m (a :: calls) = ((c.Access m a.1 a.2).2).run m calls := rfl

/-- A run of `Access` calls changes nothing of the configuration. -/
theorem TWO_LEVEL_CACHE.run_config {SET : Type} [CacheSet SET] (m : Macros)
    (c : TWO_LEVEL_CACHE SET) (calls : List AccessCall) :
    (c.run m calls)._latencies = c._latencies ∧
      (c.run m calls)._l1_associativity = c._l1_associativity ∧
      (c.run m calls)._l2_associativity = c._l2_associativity := by
  induction calls generalizing c with
  | nil => exact ⟨rfl, rfl, rfl⟩
  | cons a calls ih =>
    rw [TWO_LEVEL_CACHE.run_cons]
    obtain ⟨i1, i2, i3⟩ := ih (c.Access m a.1 a.2).2
    obtain ⟨k1, k2, k3, _⟩ := TWO_LEVEL_CACHE.Access_config m c a.1 a.2
    exact ⟨i1.trans k1, i2.trans k2, i3.trans k3⟩

theorem TWO_LEVEL_CACHE.run_l1_access_disabled {SET : Type} [CacheSet SET] (m : Macros)
    (c : TWO_LEVEL_CACHE SET) (calls : List AccessCall) (h : c._l1_associativity = 0) :
    (c.run m calls)._l1_access = c._l1_access := by
  induction calls generalizing c with
  | nil => rfl
  | cons a calls ih =>
    rw [TWO_LEVEL_CACHE.run_cons, ih _ ((TWO_LEVEL_CACHE.Access_config m c a.1 a.2).2.1.trans h),
      TWO_LEVEL_CACHE.Access_l1_access, (TWO_LEVEL_CACHE.l1Hit_of_disabled h a.1).1]
    rfl

theorem TWO_LEVEL_CACHE.run_l2_access_disabled {SET : Type} [CacheSet SET] (m : Macros)
    (c : TWO_LEVEL_CACHE SET) (calls : List AccessCall) (h : c._l2_associativity = 0) :
    (c.run m calls)._l2_access = c._l2_access := by
  induction calls generalizing c with
  | nil => rfl
  | cons a calls ih =>
    rw [TWO_LEVEL_CACHE.run_cons,
      ih _ ((TWO_LEVEL_CACHE.Access_config m c a.1 a.2).2.2.1.trans h),
      TWO_LEVEL_CACHE.Access_l2_access, (TWO_LEVEL_CACHE.l2Hit_of_disabled h a.1).1]
    simp only [Bool.false_eq_true, and_false, if_false]

/-- C25: for a cache whose L1 (respectively L2) associativity is 0 and every sequence of
`Access` calls: in the state reached, the lookup of that level reports no hit for any address,
and the four hit and miss counters of that level are what they were at the start; and with L2
disabled, an access that misses L1 returns `latencyL1Hit + latencyL2Hit + latencyMiss` (for
latencies that add up below `2^32`). -/
theorem TWO_LEVEL_CACHE.disabled_level {SET : Type} [CacheSet SET] (m : Macros)
    (c : TWO_LEVEL_CACHE SET) (calls : List AccessCall) (addr : Nat) (ty : ACCESS_TYPE) :
    (c._l1_associativity = 0 →
        (c.run m calls).l1Hit addr = false ∧ (c.run m calls)._l1_access = c._l1_access ∧
          ((c.run m calls).Access m addr ty).2._l1_access = c._l1_access) ∧
      (c._l2_associativity = 0 →
        (c.run m calls).l2Hit addr = false ∧ (c.run m calls)._l2_access = c._l2_access ∧
          ((c.run m calls).Access m addr ty).2._l2_access = c._l2_access ∧
          ((c.run m calls).l1Hit addr = false →
            c._latencies.HIT_L1 + c._latencies.HIT_L2 + c._latencies.MISS_L2 < 2 ^ 32 →
            ((c.run m calls).Access m addr ty).1
              = c._latencies.HIT_L1 + c._latencies.HIT_L2 + c._latencies.MISS_L2)) := by
  obtain ⟨hlat, ha1, ha2⟩ := TWO_LEVEL_CACHE.run_config m c calls
  refine ⟨?_, ?_⟩
  · intro h
    have h0 : (c.run m calls)._l1_associativity = 0 := ha1.trans h
    refine ⟨(TWO_LEVEL_CACHE.l1Hit_of_disabled h0 addr).2,
      TWO_LEVEL_CACHE.run_l1_access_disabled m c calls h, ?_⟩
    have := TWO_LEVEL_CACHE.run_l1_access_disabled m c (calls ++ [(addr, ty)]) h
    rw [← this]
    simp only [TWO_LEVEL_CACHE.run, List.foldl_append, List.foldl_cons, List.foldl_nil]
  · intro h
    have h0 : (c.run m calls)._l2_associativity = 0 := ha2.trans h
    refine ⟨(TWO_LEVEL_CACHE.l2Hit_of_disabled h0 addr).2,
      TWO_LEVEL_CACHE.run_l2_access_disabled m c calls h, ?_, ?_⟩
    · have := TWO_LEVEL_CACHE.run_l2_access_disabled m c (calls ++ [(addr, ty)]) h
      rw [← this]
      simp only [TWO_LEVEL_CACHE.run, List.foldl_append, List.foldl_cons, List.foldl_nil]
    · intro hmiss hsum
      rw [TWO_LEVEL_CACHE.Access_cycles, hmiss, (TWO_LEVEL_CACHE.l2Hit_of_disabled h0 addr).1,
        hlat]
      simp only [Bool.false_eq_true, if_false, false_and]
      have e1 : (c._latencies.HIT_L1 + c._latencies.HIT_L2) % 2 ^ 32
          = c._latencies.HIT_L1 + c._latencies.HIT_L2 := Nat.mod_eq_of_lt (by omega)
      rw [e1, Nat.mod_eq_of_lt hsum]

/-- On a cache built with L2 associativity 0 (L1 as in the small cache): two loads of address 6
cost `1 + 15 + 250` cycles and then 1 cycle, and the L2 counters stay at zero. -/
theorem cacheNoL2_eval :
    (TWO_LEVEL_CACHE.new LRU 4 2 1 8 4 0 0 1 15 250).map
        (fun c => ((c.Access Macros.default 6 .ACCESS_TYPE_LOAD).1,
          ((c.Access Macros.default 6 .ACCESS_TYPE_LOAD).2.Access Macros.default 6
            .ACCESS_TYPE_LOAD).1,
          ((c.Access Macros.default 6 .ACCESS_TYPE_LOAD).2.Access Macros.default 6
            .ACCESS_TYPE_LOAD).2._l2_access))
      = some (266, 1, AccessStats.zero) := by
  decide

end MemHier

/-! # Theorems: `SplitAddress` and the inclusion loop -/

namespace MemHier

theorem floorLog2Loop_two_pow (k fuel : Nat) (h : k ≤ fuel) : floorLog2Loop fuel (2 ^ k) = k := by
  induction k generalizing fuel with
  | zero =>
    cases fuel with
    | zero => rfl
    | succ f => simp [floorLog2Loop]
  | succ k ih =>
    cases fuel with
    | zero => exact absurd h (by omega)
    | succ f =>
      have h2 : 2 ≤ 2 ^ (k + 1) := by
        have := Nat.one_le_two_pow (n := k)
        rw [Nat.pow_succ]
        omega
      have hd : 2 ^ (k + 1) / 2 = 2 ^ k := by
        rw [Nat.pow_succ, Nat.mul_div_cancel _ (by decide : 0 < 2)]
      simp only [floorLog2Loop, h2, if_true, hd, ih f (by omega)]

theorem FloorLog2_two_pow (k : Nat) : FloorLog2 (2 ^ k) = k :=
  floorLog2Loop_two_pow k (2 ^ k) (Nat.le_of_lt (Nat.lt_two_pow k))

theorem IsPowerOf2_two_pow (k : Nat) : IsPowerOf2 (2 ^ k) = true := by
  unfold IsPowerOf2
  rw [FloorLog2_two_pow]
  exact beq_self_eq_true _

/-- `SplitAddress` at a level with `2^k` sets (`k ≤ 31`). -/
theorem SplitAddress_two_pow (addr b k : Nat) (hk : k ≤ 31) :
    SplitAddress addr b (2 ^ k - 1) = (addr / 2 ^ b / 2 ^ k, addr / 2 ^ b % 2 ^ k) := by
  have hpos : 0 < 2 ^ k := Nat.two_pow_pos k
  have hlt : 2 ^ k < 2 ^ 32 := Nat.pow_lt_pow_right (by decide) (by omega)
  have hn : (2 ^ k - 1 + 1) % 2 ^ 32 = 2 ^ k := by
    rw [Nat.sub_add_cancel hpos, Nat.mod_eq_of_lt hlt]
  unfold SplitAddress
  simp only [hn, IsPowerOf2_two_pow, FloorLog2_two_pow, gt_iff_lt, hpos, decide_True,
    Bool.and_self, if_true, Nat.shiftRight_eq_div_pow, Nat.and_pow_two_sub_one_eq_mod]

/-- Two addresses get the same pair from `SplitAddress` exactly when they have the same block
number. -/
theorem SplitAddress_eq_iff (a1 a2 b k : Nat) (hk : k ≤ 31) :
    SplitAddress a1 b (2 ^ k - 1) = SplitAddress a2 b (2 ^ k - 1) ↔ a1 / 2 ^ b = a2 / 2 ^ b := by
  rw [SplitAddress_two_pow a1 b k hk, SplitAddress_two_pow a2 b k hk]
  constructor
  · intro h
    have h1 : a1 / 2 ^ b / 2 ^ k = a2 / 2 ^ b / 2 ^ k := congrArg Prod.fst h
    have h2 : a1 / 2 ^ b % 2 ^ k = a2 / 2 ^ b % 2 ^ k := congrArg Prod.snd h
    rw [← Nat.div_add_mod (a1 / 2 ^ b) (2 ^ k), ← Nat.div_add_mod (a2 / 2 ^ b) (2 ^ k), h1, h2]
  · intro h
    rw [h]

theorem mul_two_pow_mod (x b : Nat) (h : x * 2 ^ b < 2 ^ 64) : (x * 2 ^ b) % 2 ^ 64 = x * 2 ^ b :=
  Nat.mod_eq_of_lt h

/-- C29: for a cache level with block size `2^b` and `2^k` sets (`k ≤ 31`, the set count being
a `UINT32`), that is with `blockShift = FloorLog2(2^b) = b` and set mask `2^k - 1`, and every
64-bit address `addr`: `SplitAddress` yields `idx = (addr >> b) & (2^k - 1)` and
`tag = (addr >> b) >> k`, with `idx < 2^k`; the reconstruction `((tag << k) | idx) << b`, in
64-bit arithmetic, equals `addr` with its low `b` bits cleared; and two addresses get the same
`(tag, idx)` exactly when they lie in the same block (have the same block number
`addr / 2^b`). -/
theorem SplitAddress_spec (addr b k : Nat) (ha : addr < 2 ^ 64) (hk : k ≤ 31) :
    FloorLog2 (2 ^ b) = b ∧ FloorLog2 (2 ^ k) = k ∧
      SplitAddress addr (FloorLog2 (2 ^ b)) (2 ^ k - 1)
        = ((addr >>> b) >>> k, (addr >>> b) &&& (2 ^ k - 1)) ∧
      (SplitAddress addr (FloorLog2 (2 ^ b)) (2 ^ k - 1)).2 < 2 ^ k ∧
      ((((SplitAddress addr (FloorLog2 (2 ^ b)) (2 ^ k - 1)).1 <<< FloorLog2 (2 ^ k)) % 2 ^ 64
            ||| (SplitAddress addr (FloorLog2 (2 ^ b)) (2 ^ k - 1)).2)
          <<< FloorLog2 (2 ^ b)) % 2 ^ 64
        = addr - addr % 2 ^ b ∧
      (∀ addr2,
        SplitAddress addr (FloorLog2 (2 ^ b)) (2 ^ k - 1)
            = SplitAddress addr2 (FloorLog2 (2 ^ b)) (2 ^ k - 1) ↔
          addr / 2 ^ b = addr2 / 2 ^ b) := by
  have hpos : 0 < 2 ^ k := Nat.two_pow_pos k
  have hposb : 0 < 2 ^ b := Nat.two_pow_pos b
  rw [FloorLog2_two_pow b, FloorLog2_two_pow k, SplitAddress_two_pow addr b k hk]
  refine ⟨rfl, rfl, ?_, Nat.mod_lt _ hpos, ?_, fun addr2 => ?_⟩
  · simp only [Nat.shiftRight_eq_div_pow, Nat.and_pow_two_sub_one_eq_mod]
  · have hq : addr / 2 ^ b * 2 ^ b ≤ addr := Nat.div_mul_le_self addr (2 ^ b)
    have hq2 : addr / 2 ^ b ≤ addr := Nat.div_le_self addr (2 ^ b)
    have ht : addr / 2 ^ b / 2 ^ k * 2 ^ k ≤ addr / 2 ^ b := Nat.div_mul_le_self _ _
    have hor : addr / 2 ^ b / 2 ^ k * 2 ^ k ||| addr / 2 ^ b % 2 ^ k = addr / 2 ^ b := by
      rw [Nat.mul_comm, ← Nat.mul_add_lt_is_or (Nat.mod_lt _ hpos), Nat.div_add_mod]
    have e1 : addr / 2 ^ b / 2 ^ k * 2 ^ k % 2 ^ 64 = addr / 2 ^ b / 2 ^ k * 2 ^ k :=
      Nat.mod_eq_of_lt (by omega)
    have e2 : addr / 2 ^ b * 2 ^ b % 2 ^ 64 = addr / 2 ^ b * 2 ^ b :=
      Nat.mod_eq_of_lt (by omega)
    simp only [Nat.shiftLeft_eq]
    rw [e1, hor, e2]
    have := Nat.div_add_mod addr (2 ^ b)
    rw [Nat.mul_comm] at this
    omega
  · rw [← SplitAddress_two_pow addr b k hk]
    exact SplitAddress_eq_iff addr addr2 b k hk

theorem SplitAddress_spec_witness :
    ((22 : Nat) < 2 ^ 64 ∧ (2 : Nat) ≤ 31) ∧
      SplitAddress 22 (FloorLog2 (2 ^ 1)) (2 ^ 2 - 1) = ((22 >>> 1) >>> 2, (22 >>> 1) &&& (2 ^ 2 - 1)) ∧
      (SplitAddress 22 (FloorLog2 (2 ^ 1)) (2 ^ 2 - 1)).2 < 2 ^ 2 ∧
      ((((SplitAddress 22 (FloorLog2 (2 ^ 1)) (2 ^ 2 - 1)).1 <<< FloorLog2 (2 ^ 2)) % 2 ^ 64
            ||| (SplitAddress 22 (FloorLog2 (2 ^ 1)) (2 ^ 2 - 1)).2)
          <<< FloorLog2 (2 ^ 1)) % 2 ^ 64
        = 22 - 22 % 2 ^ 1 :=
  ⟨by decide, (SplitAddress_spec 22 1 2 (by decide) (by decide)).2.2.1,
    (SplitAddress_spec 22 1 2 (by decide) (by decide)).2.2.2.1,
    (SplitAddress_spec 22 1 2 (by decide) (by decide)).2.2.2.2.1⟩

/-- With 2-byte blocks and four sets, address 22 has block number 11: index 3, tag 2; 23 lies
in the same block and 24 does not. -/
theorem SplitAddress_eval :
    SplitAddress 22 (FloorLog2 (2 ^ 1)) (2 ^ 2 - 1) = (2, 3) ∧
      SplitAddress 23 (FloorLog2 (2 ^ 1)) (2 ^ 2 - 1) = (2, 3) ∧
      SplitAddress 24 (FloorLog2 (2 ^ 1)) (2 ^ 2 - 1) = (3, 0) := by
  decide

/-! ### The inclusion loop -/

/-- The inclusion loop makes the calls that `inclusionCalls` records, in their order. -/
theorem TWO_LEVEL_CACHE.inclusionLoop_eq_foldl {SET : Type} [CacheSet SET]
    (c : TWO_LEVEL_CACHE SET) (recon fuel off : Nat) (sets : List SET) :
    c.inclusionLoop recon fuel off sets
      = (c.inclusionCalls recon fuel off).foldl deleteCall sets := by
  induction fuel generalizing off sets with
  | zero => rfl
  | succ n ih =>
    unfold TWO_LEVEL_CACHE.inclusionLoop TWO_LEVEL_CACHE.inclusionCalls
    simp only []
    split_ifs
    · rw [ih, List.foldl_cons]
      rfl
    · rw [ih]
    · rfl

theorem two_pow_sub_mul {b1 b2 : Nat} (hle : b1 ≤ b2) : 2 ^ (b2 - b1) * 2 ^ b1 = 2 ^ b2 := by
  rw [← Nat.pow_add, Nat.sub_add_cancel hle]

/-- An aligned 64-bit block base leaves room for its block below `2^64`. -/
theorem aligned_add_le {recon b2 : Nat} (h64 : b2 ≤ 64) (hr : recon % 2 ^ b2 = 0)
    (hlt : recon < 2 ^ 64) : recon + 2 ^ b2 ≤ 2 ^ 64 := by
  have hsplit : 2 ^ b2 * 2 ^ (64 - b2) = 2 ^ 64 := by
    rw [← Nat.pow_add, Nat.add_sub_cancel' h64]
  have hq : 2 ^ b2 * (recon / 2 ^ b2) = recon := by
    have := Nat.div_add_mod recon (2 ^ b2)
    omega
  have hdiv : recon / 2 ^ b2 < 2 ^ (64 - b2) :=
    Nat.div_lt_of_lt_mul (by rw [hsplit]; exact hlt)
  have hmul : 2 ^ b2 * (recon / 2 ^ b2 + 1) ≤ 2 ^ b2 * 2 ^ (64 - b2) :=
    Nat.mul_le_mul_left _ hdiv
  rw [Nat.mul_add, Nat.mul_one, hq, hsplit] at hmul
  exact hmul

/-- Under a power-of-two geometry, the calls of the inclusion loop from offset `i * 2^b1` on
are those for the L1 blocks number `i, i + 1, ..` of the L2 block. -/
theorem TWO_LEVEL_CACHE.inclusionCalls_from {SET : Type} (c : TWO_LEVEL_CACHE SET)
    {b1 b2 k1 recon : Nat} (hb1 : c._l1_blockSize = 2 ^ b1) (hb2 : c._l2_blockSize = 2 ^ b2)
    (hle : b1 ≤ b2) (h31 : b2 ≤ 31) (hs : c._l1_lineShift = b1) (ha : 0 < c._l1_associativity)
    (hmask : c._l1_setIndexMask = 2 ^ k1 - 1) (hk : k1 ≤ 31) (hr : recon % 2 ^ b2 = 0)
    (hlt : recon < 2 ^ 64) (n fuel i : Nat) (hin : i + n = 2 ^ (b2 - b1)) (hf : n ≤ fuel) :
    c.inclusionCalls recon fuel (i * 2 ^ b1)
      = (List.range' i n).map (fun j => c.l1BlockOf (recon + j * 2 ^ b1)) := by
  have hN := two_pow_sub_mul hle
  have hroom := aligned_add_le (by omega : b2 ≤ 64) hr hlt
  have hb2lt : 2 ^ b2 < 2 ^ 32 := Nat.pow_lt_pow_right (by decide) (by omega)
  have hsets : c.L1NumSets = 2 ^ k1 := by
    have hpos : 0 < 2 ^ k1 := Nat.two_pow_pos k1
    have hlt2 : 2 ^ k1 < 2 ^ 32 := Nat.pow_lt_pow_right (by decide) (by omega)
    have ha2 : c._l1_associativity > 0 := ha
    unfold TWO_LEVEL_CACHE.L1NumSets
    rw [if_pos ha2, hmask, Nat.sub_add_cancel hpos, Nat.mod_eq_of_lt hlt2]
  induction n generalizing fuel i with
  | zero =>
    have hi : i * 2 ^ b1 = 2 ^ b2 := by
      rw [← hN]
      congr 1
    cases fuel with
    | zero => rfl
    | succ f =>
      unfold TWO_LEVEL_CACHE.inclusionCalls
      rw [hi, hb2, if_neg (Nat.lt_irrefl _)]
      rfl
  | succ n ih =>
    cases fuel with
    | zero => exact absurd hf (by omega)
    | succ f =>
      have hmul : (i + 1) * 2 ^ b1 ≤ 2 ^ b2 := by
        rw [← hN]
        exact Nat.mul_le_mul_right _ (by omega)
      have hoff : i * 2 ^ b1 < 2 ^ b2 := by
        have := Nat.two_pow_pos b1
        rw [Nat.add_mul, Nat.one_mul] at hmul
        omega
      have hnext : (i * 2 ^ b1 + 2 ^ b1) % 2 ^ 32 = (i + 1) * 2 ^ b1 := by
        rw [Nat.add_mul, Nat.one_mul] at hmul ⊢
        exact Nat.mod_eq_of_lt (by omega)
      have haddr : (recon + i * 2 ^ b1) % 2 ^ 64 = recon + i * 2 ^ b1 :=
        Nat.mod_eq_of_lt (by omega)
      have hidx : (SplitAddress (recon + i * 2 ^ b1) b1 (2 ^ k1 - 1)).2 < 2 ^ k1 := by
        rw [SplitAddress_two_pow _ _ _ hk]
        exact Nat.mod_lt _ (Nat.two_pow_pos k1)
      unfold TWO_LEVEL_CACHE.inclusionCalls
      simp only [hb2, hoff, if_true, hb1, hnext, haddr, hs, hmask, hsets, hidx]
      rw [ih f (i + 1) (by omega) (by omega), List.range'_succ, List.map_cons]
      simp only [TWO_LEVEL_CACHE.l1BlockOf, TWO_LEVEL_CACHE.l1Split, hs, hmask]

/-- The L1 block of an address inside the L2 block at `recon`, when the base of the L2 block
is a multiple of the L1 block size `P`. -/
theorem block_number_add (R P j : Nat) (hP : 0 < P) : (R * P + j * P) / P = R + j := by
  rw [← Nat.add_mul, Nat.mul_div_cancel _ hP]

/-- The address `reconstructed_l2_block_addr` that `Access` builds is a 64-bit multiple of the
L2 block size. -/
theorem TWO_LEVEL_CACHE.evictedBlockAddr_aligned {SET : Type} [CacheSet SET]
    (c : TWO_LEVEL_CACHE SET) (addr : Nat) {b2 : Nat} (h64 : b2 ≤ 64)
    (hs : c._l2_lineShift = b2) :
    c.evictedBlockAddr addr % 2 ^ b2 = 0 ∧ c.evictedBlockAddr addr < 2 ^ 64 := by
  unfold TWO_LEVEL_CACHE.evictedBlockAddr
  rw [hs]
  refine ⟨?_, Nat.mod_lt _ (Nat.two_pow_pos 64)⟩
  have hdvd : 2 ^ b2 ∣ 2 ^ 64 := Nat.pow_dvd_pow 2 h64
  rw [Nat.shiftLeft_eq, Nat.mod_mod_of_dvd _ hdvd]
  exact Nat.mul_mod_left _ _

/-- Under a power-of-two geometry, the L1 block of an address is among the candidates of the
inclusion loop exactly when the address lies inside the L2 block at `recon`. -/
theorem TWO_LEVEL_CACHE.mem_inclusionCalls_iff {SET : Type} (c : TWO_LEVEL_CACHE SET)
    {b1 b2 k1 recon : Nat} (hb1 : c._l1_blockSize = 2 ^ b1) (hb2 : c._l2_blockSize = 2 ^ b2)
    (hle : b1 ≤ b2) (h31 : b2 ≤ 31) (hs : c._l1_lineShift = b1) (ha : 0 < c._l1_associativity)
    (hmask : c._l1_setIndexMask = 2 ^ k1 - 1) (hk : k1 ≤ 31) (hr : recon % 2 ^ b2 = 0)
    (hlt : recon < 2 ^ 64) (a : Nat) :
    c.l1BlockOf a ∈ c.inclusionCalls recon c._l2_blockSize 0 ↔
      recon ≤ a ∧ a < recon + c._l2_blockSize := by
  have hP : 0 < 2 ^ b1 := Nat.two_pow_pos b1
  have hN := two_pow_sub_mul hle
  have hdiv : c._l2_blockSize / c._l1_blockSize = 2 ^ (b2 - b1) := by
    rw [hb1, hb2, Nat.pow_div hle (by decide)]
  have hfuel : 2 ^ (b2 - b1) ≤ c._l2_blockSize := by
    rw [hb2]
    exact Nat.pow_le_pow_right (by decide) (by omega)
  have hcalls : c.inclusionCalls recon c._l2_blockSize 0
      = (List.range (2 ^ (b2 - b1))).map (fun j => c.l1BlockOf (recon + j * 2 ^ b1)) := by
    have h0 := c.inclusionCalls_from hb1 hb2 hle h31 hs ha hmask hk hr hlt (2 ^ (b2 - b1))
      c._l2_blockSize 0 (by omega) hfuel
    rw [Nat.zero_mul] at h0
    rw [h0, List.range_eq_range']
  have hRP : recon / 2 ^ b1 * 2 ^ b1 = recon := by
    have hd : 2 ^ b1 ∣ recon :=
      Nat.dvd_trans (Nat.pow_dvd_pow 2 hle) (Nat.dvd_of_mod_eq_zero hr)
    exact Nat.div_mul_cancel hd
  have hblock : ∀ j, (recon + j * 2 ^ b1) / 2 ^ b1 = recon / 2 ^ b1 + j := by
    intro j
    have := block_number_add (recon / 2 ^ b1) (2 ^ b1) j hP
    rw [hRP] at this
    exact this
  have hsame : ∀ x y, c.l1BlockOf x = c.l1BlockOf y ↔ x / 2 ^ b1 = y / 2 ^ b1 := by
    intro x y
    unfold TWO_LEVEL_CACHE.l1BlockOf TWO_LEVEL_CACHE.l1Split
    rw [hs, hmask, ← SplitAddress_eq_iff x y b1 k1 hk]
    constructor
    · intro h
      exact Prod.ext (congrArg Prod.snd h) (congrArg Prod.fst h)
    · intro h
      rw [h]
  rw [hcalls, List.mem_map, hb2]
  constructor
  · rintro ⟨j, hj, hjeq⟩
    rw [List.mem_range] at hj
    have hq := (hsame _ _).mp hjeq
    rw [hblock j] at hq
    have h1 : a / 2 ^ b1 * 2 ^ b1 ≤ a := Nat.div_mul_le_self a (2 ^ b1)
    have h2 : a < 2 ^ b1 * (a / 2 ^ b1 + 1) := Nat.lt_mul_div_succ a hP
    rw [← hq] at h1 h2
    have h3 : (recon / 2 ^ b1 + j) * 2 ^ b1 = recon + j * 2 ^ b1 := by
      rw [Nat.add_mul, hRP]
    have h4 : 2 ^ b1 * (recon / 2 ^ b1 + j + 1) = recon + (j + 1) * 2 ^ b1 := by
      rw [Nat.mul_comm, Nat.add_assoc, Nat.add_mul, hRP]
    have h5 : (j + 1) * 2 ^ b1 ≤ 2 ^ (b2 - b1) * 2 ^ b1 :=
      Nat.mul_le_mul_right _ (by omega)
    rw [h3] at h1
    rw [h4] at h2
    rw [hN] at h5
    omega
  · rintro ⟨hlo, hhi⟩
    have h1 : recon / 2 ^ b1 ≤ a / 2 ^ b1 := Nat.div_le_div_right hlo
    have h2 : a / 2 ^ b1 < recon / 2 ^ b1 + 2 ^ (b2 - b1) := by
      apply Nat.div_lt_of_lt_mul
      rw [Nat.mul_add, Nat.mul_comm, hRP, Nat.mul_comm, hN]
      exact hhi
    refine ⟨a / 2 ^ b1 - recon / 2 ^ b1, List.mem_range.mpr (by omega), ?_⟩
    apply (hsame _ _).mpr
    rw [hblock]
    omega

/-- On the cache with 2-byte L1 blocks and 8-byte L2 blocks: the eviction of the L2 block at
address 16 makes four calls, for the L1 blocks of the addresses 16, 18, 20 and 22 (tag 2 in the
sets 0 to 3); the load of address 32 after loads of 0, 8, 18 and 22 evicts the L2 block at 8. -/
theorem cacheWide_eval :
    TWO_LEVEL_CACHE.new LRU 8 2 1 16 8 2 0 1 15 250 = some (cacheWide LRU) ∧
      (cacheWide LRU).inclusionCalls 16 8 0 = [(0, 2), (1, 2), (2, 2), (3, 2)] ∧
      ((cacheWide LRU).run Macros.default
          [(0, .ACCESS_TYPE_LOAD), (8, .ACCESS_TYPE_LOAD), (18, .ACCESS_TYPE_LOAD),
            (22, .ACCESS_TYPE_LOAD)]).view = ([[1], [2], [], [2]], [[1, 2]], true) ∧
      ((cacheWide LRU).run Macros.default
          [(0, .ACCESS_TYPE_LOAD), (8, .ACCESS_TYPE_LOAD), (18, .ACCESS_TYPE_LOAD),
            (22, .ACCESS_TYPE_LOAD)]).evictedBlockAddr 32 = 8 := by
  decide

end MemHier

/-! # Theorems: sequences of shifts -/

namespace BranchPred

theorem ShiftRegister.shifts_append (r : ShiftRegister) (bs : List Bool) (b : Bool) :
    r.shifts (bs ++ [b]) = (r.shifts bs).shiftRight b := by
  simp only [ShiftRegister.shifts, List.foldl_append, List.foldl_cons, List.foldl_nil]

theorem ShiftRegister.shifts_size (r : ShiftRegister) (bs : List Bool) :
    (r.shifts bs).size = r.size := by
  induction bs using List.reverseRecOn with
  | nil => rfl
  | append_singleton bs b ih =>
    rw [ShiftRegister.shifts_append]
    exact ih

theorem ShiftRegister.shifts_data_lt {r : ShiftRegister} (h16 : r.size ≤ 16)
    (hd : r.data < 2 ^ r.size) (bs : List Bool) : (r.shifts bs).data < 2 ^ r.size := by
  induction bs using List.reverseRecOn with
  | nil => exact hd
  | append_singleton bs b ih =>
    have hs := ShiftRegister.shifts_size r bs
    rw [ShiftRegister.shifts_append, ShiftRegister.shiftRight_data_eq b (by rw [hs]; exact h16),
      hs]
    exact Nat.mod_lt _ (Nat.two_pow_pos _)

/-- The top bit after a shift is the bit shifted in. -/
theorem ShiftRegister.shiftRight_testBit_top {r : ShiftRegister} (b : Bool) (h1 : 1 ≤ r.size)
    (h16 : r.size ≤ 16) (hd : r.data < 2 ^ r.size) :
    (r.shiftRight b).data.testBit (r.size - 1) = b := by
  rw [ShiftRegister.shiftRight_data_eq b h16]
  have hlt : r.size - 1 < r.size := by omega
  have hhi : r.data.testBit (1 + (r.size - 1)) = false := by
    have : 1 + (r.size - 1) = r.size := by omega
    rw [this]
    exact Nat.testBit_lt_two_pow hd
  simp only [specShiftIn, Nat.testBit_mod_two_pow, hlt, decide_True, Bool.true_and,
    Nat.testBit_or, Nat.testBit_shiftRight, hhi, Bool.false_or]
  cases b
  · simp
  · simp [Nat.one_shiftLeft, Nat.testBit_two_pow_self]

/-- Below the top, every bit after a shift is the bit that was one position higher. -/
theorem ShiftRegister.shiftRight_testBit_lower {r : ShiftRegister} (b : Bool)
    (h16 : r.size ≤ 16) {j : Nat} (hj : j + 1 < r.size) :
    (r.shiftRight b).data.testBit j = r.data.testBit (j + 1) := by
  rw [ShiftRegister.shiftRight_data_eq b h16]
  have hlt : j < r.size := by omega
  have hsh : ((if b = true then 1 else 0) <<< (r.size - 1)).testBit j = false := by
    rw [Nat.testBit_shiftLeft]
    have : ¬ j ≥ r.size - 1 := by omega
    simp [this]
  simp only [specShiftIn, Nat.testBit_mod_two_pow, hlt, decide_True, Bool.true_and,
    Nat.testBit_or, Nat.testBit_shiftRight, hsh, Bool.or_false, Nat.add_comm 1 j]

/-- After any sequence of shifts, the bit `len - 1 - k` is the `k`-th most recent outcome, for
every `k` below the length and below the number of shifts. -/
theorem ShiftRegister.shifts_testBit {r : ShiftRegister} (h1 : 1 ≤ r.size) (h16 : r.size ≤ 16)
    (hd : r.data < 2 ^ r.size) (bs : List Bool) (k : Nat) (hk : k < r.size)
    (hkn : k < bs.length) :
    (r.shifts bs).data.testBit (r.size - 1 - k) = bs.reverse.getD k false := by
  induction bs using List.reverseRecOn generalizing k with
  | nil => exact absurd hkn (Nat.not_lt_zero k)
  | append_singleton bs b ih =>
    have hs := ShiftRegister.shifts_size r bs
    have hlt := ShiftRegister.shifts_data_lt h16 hd bs
    rw [ShiftRegister.shifts_append, List.reverse_append, List.reverse_singleton,
      List.singleton_append]
    cases k with
    | zero =>
      rw [List.getD_cons_zero, Nat.sub_zero, ← hs]
      exact ShiftRegister.shiftRight_testBit_top b (by rw [hs]; exact h1) (by rw [hs]; exact h16)
        (by rw [hs]; exact hlt)
    | succ k =>
      rw [List.getD_cons_succ]
      have hlen : k < bs.length := by
        rw [List.length_append, List.length_singleton] at hkn
        omega
      rw [ShiftRegister.shiftRight_testBit_lower b (by rw [hs]; exact h16)
        (by rw [hs]; omega)]
      have hidx : r.size - 1 - (k + 1) + 1 = r.size - 1 - k := by omega
      rw [hidx]
      exact ih k (by omega) hlen

theorem eq_of_testBit_below {x y n : Nat} (hx : x < 2 ^ n) (hy : y < 2 ^ n)
    (h : ∀ j, j < n → x.testBit j = y.testBit j) : x = y := by
  apply Nat.eq_of_testBit_eq
  intro j
  by_cases hj : j < n
  · exact h j hj
  · have hle : 2 ^ n ≤ 2 ^ j := Nat.pow_le_pow_right (by decide) (by omega)
    rw [Nat.testBit_lt_two_pow (Nat.lt_of_lt_of_le hx hle),
      Nat.testBit_lt_two_pow (Nat.lt_of_lt_of_le hy hle)]

theorem getD_take_of_lt {α : Type} (l : List α) (n k : Nat) (d : α) (h : k < n) :
    (l.take n).getD k d = l.getD k d := by
  simp only [List.getD_eq_getElem?_getD, List.getElem?_take, h, if_true]

/-- C31: for a `ShiftRegister` of length `len` with `1 ≤ len ≤ 16`, any starting value (a value
of the register, below `2^len`) and any sequence of `n ≥ len` `shiftRight` calls: for each
`k < len`, bit `len - 1 - k` of the value equals the `k`-th most recent outcome shifted in; the
value is below `2^len`; and a second register of the same length, with any starting value and
any sequence of at least `len` outcomes that has the same last `len` outcomes, ends with the
same value. -/
theorem ShiftRegister.shifts_recent (r : ShiftRegister) (bits : List Bool) (h1 : 1 ≤ r.size)
    (h16 : r.size ≤ 16) (hd : r.data < 2 ^ r.size) (hn : r.size ≤ bits.length) :
    (∀ k, k < r.size →
        (r.shifts bits).data.testBit (r.size - 1 - k) = bits.reverse.getD k false) ∧
      (r.shifts bits).data < 2 ^ r.size ∧
      (∀ (r2 : ShiftRegister) (bits2 : List Bool), r2.size = r.size →
        r2.data < 2 ^ r.size → r.size ≤ bits2.length →
        bits2.reverse.take r.size = bits.reverse.take r.size →
        (r2.shifts bits2).data = (r.shifts bits).data) := by
  refine ⟨fun k hk => ShiftRegister.shifts_testBit h1 h16 hd bits k hk (by omega),
    ShiftRegister.shifts_data_lt h16 hd bits, ?_⟩
  intro r2 bits2 hs2 hd2 hn2 hlast
  have hlt2 : (r2.shifts bits2).data < 2 ^ r.size := by
    have := @ShiftRegister.shifts_data_lt r2 (by rw [hs2]; exact h16) (by rw [hs2]; exact hd2)
      bits2
    rw [hs2] at this
    exact this
  apply eq_of_testBit_below hlt2 (ShiftRegister.shifts_data_lt h16 hd bits)
  intro j hj
  have hjk : j = r.size - 1 - (r.size - 1 - j) := by omega
  have hk : r.size - 1 - j < r.size := by omega
  have e1 := ShiftRegister.shifts_testBit h1 h16 hd bits (r.size - 1 - j) hk (by omega)
  have e2 := @ShiftRegister.shifts_testBit r2 (by rw [hs2]; exact h1) (by rw [hs2]; exact h16)
    (by rw [hs2]; exact hd2) bits2 (r.size - 1 - j) (by rw [hs2]; exact hk) (by omega)
  rw [hs2] at e2
  rw [← hjk] at e1 e2
  rw [e1, e2, ← getD_take_of_lt bits2.reverse r.size _ false hk,
    ← getD_take_of_lt bits.reverse r.size _ false hk, hlast]

theorem ShiftRegister.shifts_recent_witness :
    (1 ≤ (ShiftRegister.mk 5 4).size ∧ (ShiftRegister.mk 5 4).size ≤ 16 ∧
        (ShiftRegister.mk 5 4).data < 2 ^ (ShiftRegister.mk 5 4).size ∧
        (ShiftRegister.mk 5 4).size ≤ [true, false, false, true, true].length) ∧
      ((∀ k, k < (ShiftRegister.mk 5 4).size →
          ((ShiftRegister.mk 5 4).shifts [true, false, false, true, true]).data.testBit
              ((ShiftRegister.mk 5 4).size - 1 - k)
            = [true, false, false, true, true].reverse.getD k false) ∧
        ((ShiftRegister.mk 5 4).shifts [true, false, false, true, true]).data
          < 2 ^ (ShiftRegister.mk 5 4).size) :=
  ⟨by decide,
    (ShiftRegister.shifts_recent (ShiftRegister.mk 5 4) [true, false, false, true, true]
      (by decide) (by decide) (by decide) (by decide)).1,
    (ShiftRegister.shifts_recent (ShiftRegister.mk 5 4) [true, false, false, true, true]
      (by decide) (by decide) (by decide) (by decide)).2.1⟩

/-- On a register of length 4: after the outcomes T, N, N, T, T from the value 5 the value is
`1100` in binary, as it is after N, N, T, T from the value 0. -/
theorem shiftRegister_shifts_eval :
    ((ShiftRegister.mk 5 4).shifts [true, false, false, true, true]).data = 12 ∧
      ((ShiftRegister.new 4).shifts [false, false, true, true]).data = 12 := by
  decide

end BranchPred

/-! # Theorems: runs of `Access` -/

namespace MemHier

theorem TWO_LEVEL_CACHE.inclusionLoop_length {SET : Type} [CacheSet SET]
    (c : TWO_LEVEL_CACHE SET) (recon fuel off : Nat) (sets : List SET) :
    (c.inclusionLoop recon fuel off sets).length = sets.length := by
  induction fuel generalizing off sets with
  | zero => rfl
  | succ n ih =>
    unfold TWO_LEVEL_CACHE.inclusionLoop
    simp only []
    split_ifs
    · rw [ih, List.length_set]
    · rw [ih]
    · rfl

/-- `Access` keeps the number of sets of both levels. -/
theorem TWO_LEVEL_CACHE.Access_sets_length {SET : Type} [CacheSet SET] (m : Macros)
    (c : TWO_LEVEL_CACHE SET) (addr : Nat) (ty : ACCESS_TYPE) :
    (c.Access m addr ty).2._l1_sets.length = c._l1_sets.length ∧
      (c.Access m addr ty).2._l2_sets.length = c._l2_sets.length := by
  unfold TWO_LEVEL_CACHE.Access
  simp only []
  split_ifs <;>
    simp only [List.length_set, TWO_LEVEL_CACHE.inclusionLoop_length, and_self]

theorem TWO_LEVEL_CACHE.enabled_congr {SET : Type} {c c1 : TWO_LEVEL_CACHE SET}
    (hl1 : c1._l1_sets.length = c._l1_sets.length)
    (hl2 : c1._l2_sets.length = c._l2_sets.length)
    (ha1 : c1._l1_associativity = c._l1_associativity)
    (ha2 : c1._l2_associativity = c._l2_associativity)
    (hm1 : c1._l1_setIndexMask = c._l1_setIndexMask)
    (hm2 : c1._l2_setIndexMask = c._l2_setIndexMask) :
    c1.l1Enabled = c.l1Enabled ∧ c1.l2Enabled = c.l2Enabled := by
  have e1 : c1._l1_sets.isEmpty = c._l1_sets.isEmpty :=
    Bool.eq_iff_iff.mpr
      (by rw [List.isEmpty_iff_length_eq_zero, List.isEmpty_iff_length_eq_zero, hl1])
  have e2 : c1._l2_sets.isEmpty = c._l2_sets.isEmpty :=
    Bool.eq_iff_iff.mpr
      (by rw [List.isEmpty_iff_length_eq_zero, List.isEmpty_iff_length_eq_zero, hl2])
  unfold TWO_LEVEL_CACHE.l1Enabled TWO_LEVEL_CACHE.l2Enabled TWO_LEVEL_CACHE.L1NumSets
    TWO_LEVEL_CACHE.L2NumSets
  rw [e1, e2, ha1, ha2, hm1, hm2]
  exact ⟨rfl, rfl⟩

/-- `Access` leaves both levels enabled or disabled as they were. -/
theorem TWO_LEVEL_CACHE.Access_enabled {SET : Type} [CacheSet SET] (m : Macros)
    (c : TWO_LEVEL_CACHE SET) (addr : Nat) (ty : ACCESS_TYPE) :
    (c.Access m addr ty).2.l1Enabled = c.l1Enabled ∧
      (c.Access m addr ty).2.l2Enabled = c.l2Enabled := by
  obtain ⟨hl1, hl2⟩ := TWO_LEVEL_CACHE.Access_sets_length m c addr ty
  obtain ⟨_, ha1, ha2, hm1, hm2, _⟩ := TWO_LEVEL_CACHE.Access_config m c addr ty
  exact TWO_LEVEL_CACHE.enabled_congr hl1 hl2 ha1 ha2 hm1 hm2

/-! ### The balance of the hit and miss counters -/

/-- One `Access` on a cache with both levels enabled keeps the balance of the counters: per
access type, the L2 lookups are the L1 misses, and the L1 lookups are the calls counted by
`N`. -/
theorem TWO_LEVEL_CACHE.Access_balance {SET : Type} [CacheSet SET] (m : Macros)
    (c : TWO_LEVEL_CACHE SET) (addr : Nat) (t0 : ACCESS_TYPE) (h1 : c.l1Enabled = true)
    (h2 : c.l2Enabled = true) (N : ACCESS_TYPE → Nat) (hN : N t0 < 2 ^ 64 - 1)
    (hinv : ∀ ty, c._l2_access.get ty true + c._l2_access.get ty false
        = c._l1_access.get ty false ∧
      c._l1_access.get ty true + c._l1_access.get ty false = N ty) (ty : ACCESS_TYPE) :
    (c.Access m addr t0).2._l2_access.get ty true + (c.Access m addr t0).2._l2_access.get ty false
        = (c.Access m addr t0).2._l1_access.get ty false ∧
      (c.Access m addr t0).2._l1_access.get ty true
          + (c.Access m addr t0).2._l1_access.get ty false
        = N ty + (if ty = t0 then 1 else 0) := by
  obtain ⟨i2, i1⟩ := hinv ty
  rw [TWO_LEVEL_CACHE.Access_l1_access, TWO_LEVEL_CACHE.Access_l2_access]
  by_cases hty : ty = t0
  · subst hty
    cases hh1 : c.l1Hit addr <;> cases hh2 : c.l2Hit addr <;>
      simp only [h1, h2, if_true, and_true, AccessStats.get_incr, true_and, and_self,
        Bool.true_eq_false, Bool.false_eq_true, if_false, and_false, false_and] <;>
      omega
  · cases hh1 : c.l1Hit addr <;>
      simp only [h1, h2, if_true, and_true, AccessStats.get_incr, hty, false_and, if_false,
        Nat.add_zero, Bool.true_eq_false, and_self] <;>
      exact ⟨i2, i1⟩

theorem countP_cons_type (a : AccessCall) (calls : List AccessCall) (ty : ACCESS_TYPE) :
    (a :: calls).countP (fun x => decide (x.2 = ty))
      = calls.countP (fun x => decide (x.2 = ty)) + (if ty = a.2 then 1 else 0) := by
  rw [List.countP_cons]
  by_cases h : a.2 = ty
  · simp [h]
  · have h2 : ¬ ty = a.2 := fun hc => h hc.symm
    simp [h, h2]

/-- A run of `Access` calls on a cache with both levels enabled keeps the balance of the
counters. -/
theorem TWO_LEVEL_CACHE.run_balance {SET : Type} [CacheSet SET] (m : Macros)
    (calls : List AccessCall) (c : TWO_LEVEL_CACHE SET) (h1 : c.l1Enabled = true)
    (h2 : c.l2Enabled = true) (N : ACCESS_TYPE → Nat)
    (hN : ∀ ty, N ty + calls.countP (fun x => decide (x.2 = ty)) < 2 ^ 64)
    (hinv : ∀ ty, c._l2_access.get ty true + c._l2_access.get ty false
        = c._l1_access.get ty false ∧
      c._l1_access.get ty true + c._l1_access.get ty false = N ty) (ty : ACCESS_TYPE) :
    (c.run m calls)._l2_access.get ty true + (c.run m calls)._l2_access.get ty false
        = (c.run m calls)._l1_access.get ty false ∧
      (c.run m calls)._l1_access.get ty true + (c.run m calls)._l1_access.get ty false
        = N ty + calls.countP (fun x => decide (x.2 = ty)) := by
  induction calls generalizing c N with
  | nil => exact hinv ty
  | cons a calls ih =>
    obtain ⟨e1, e2⟩ := TWO_LEVEL_CACHE.Access_enabled m c a.1 a.2
    have hNa : N a.2 < 2 ^ 64 - 1 := by
      have := hN a.2
      rw [countP_cons_type, if_pos rfl] at this
      omega
    have hstep := TWO_LEVEL_CACHE.Access_balance m c a.1 a.2 h1 h2 N hNa hinv
    have hN2 : ∀ ty, (N ty + (if ty = a.2 then 1 else 0))
        + calls.countP (fun x => decide (x.2 = ty)) < 2 ^ 64 := by
      intro ty
      have := hN ty
      rw [countP_cons_type] at this
      omega
    have := ih (c.Access m a.1 a.2).2 (e1.trans h1) (e2.trans h2)
      (fun ty => N ty + (if ty = a.2 then 1 else 0)) hN2 hstep
    beta_reduce at this
    rw [TWO_LEVEL_CACHE.run_cons, countP_cons_type]
    refine ⟨this.1, ?_⟩
    rw [this.2]
    omega

/-- C33: for a `TWO_LEVEL_CACHE` with both levels enabled and all counters at zero, and every
sequence of fewer than `2^64` `Access` calls: for each access type, the L2 hits plus the L2
misses of that type equal the L1 misses of that type, and the L1 hits plus the L1 misses of that
type equal the number of `Access` calls of that type. -/
theorem TWO_LEVEL_CACHE.counters_balance {SET : Type} [CacheSet SET] (m : Macros)
    (c : TWO_LEVEL_CACHE SET) (calls : List AccessCall) (ty : ACCESS_TYPE)
    (h1 : c.l1Enabled = true) (h2 : c.l2Enabled = true) (hz1 : c._l1_access = AccessStats.zero)
    (hz2 : c._l2_access = AccessStats.zero) (hlen : calls.length < 2 ^ 64) :
    (c.run m calls)._l2_access.get ty true + (c.run m calls)._l2_access.get ty false
        = (c.run m calls)._l1_access.get ty false ∧
      (c.run m calls)._l1_access.get ty true + (c.run m calls)._l1_access.get ty false
        = calls.countP (fun x => decide (x.2 = ty)) := by
  have hz : ∀ t h, AccessStats.zero.get t h = 0 := by
    intro t h
    cases t <;> cases h <;> rfl
  have := TWO_LEVEL_CACHE.run_balance m calls c h1 h2 (fun _ => 0)
    (fun t => by
      have := List.countP_le_length (fun x : AccessCall => decide (x.2 = t)) (l := calls)
      beta_reduce
      omega)
    (fun t => by rw [hz1, hz2]; simp only [hz, and_self]) ty
  rw [Nat.zero_add] at this
  exact this

theorem TWO_LEVEL_CACHE.counters_balance_witness :
    ((cacheSmall LRU).l1Enabled = true ∧ (cacheSmall LRU).l2Enabled = true ∧
        (cacheSmall LRU)._l1_access = AccessStats.zero ∧
        (cacheSmall LRU)._l2_access = AccessStats.zero ∧
        ([(6, .ACCESS_TYPE_LOAD), (7, .ACCESS_TYPE_STORE), (0, .ACCESS_TYPE_LOAD)] :
          List AccessCall).length < 2 ^ 64) ∧
      (((cacheSmall LRU).run Macros.default
            [(6, .ACCESS_TYPE_LOAD), (7, .ACCESS_TYPE_STORE), (0, .ACCESS_TYPE_LOAD)]
          )._l2_access.get .ACCESS_TYPE_LOAD true
          + ((cacheSmall LRU).run Macros.default
            [(6, .ACCESS_TYPE_LOAD), (7, .ACCESS_TYPE_STORE), (0, .ACCESS_TYPE_LOAD)]
          )._l2_access.get .ACCESS_TYPE_LOAD false
        = ((cacheSmall LRU).run Macros.default
            [(6, .ACCESS_TYPE_LOAD), (7, .ACCESS_TYPE_STORE), (0, .ACCESS_TYPE_LOAD)]
          )._l1_access.get .ACCESS_TYPE_LOAD false ∧
        ((cacheSmall LRU).run Macros.default
            [(6, .ACCESS_TYPE_LOAD), (7, .ACCESS_TYPE_STORE), (0, .ACCESS_TYPE_LOAD)]
          )._l1_access.get .ACCESS_TYPE_LOAD true
          + ((cacheSmall LRU).run Macros.default
            [(6, .ACCESS_TYPE_LOAD), (7, .ACCESS_TYPE_STORE), (0, .ACCESS_TYPE_LOAD)]
          )._l1_access.get .ACCESS_TYPE_LOAD false
        = ([(6, .ACCESS_TYPE_LOAD), (7, .ACCESS_TYPE_STORE), (0, .ACCESS_TYPE_LOAD)] :
            List AccessCall).countP (fun x => decide (x.2 = .ACCESS_TYPE_LOAD))) :=
  ⟨by decide,
    TWO_LEVEL_CACHE.counters_balance Macros.default (cacheSmall LRU)
      [(6, .ACCESS_TYPE_LOAD), (7, .ACCESS_TYPE_STORE), (0, .ACCESS_TYPE_LOAD)]
      .ACCESS_TYPE_LOAD (by decide) (by decide) rfl rfl (by decide)⟩

/-- On the small cache: after a load of 6, a store to 7 and a load of 0, the counters read two
L1 load misses, one L1 store hit, and two L2 load misses. -/
theorem cacheSmall_counters_eval :
    ((cacheSmall LRU).run Macros.default
        [(6, .ACCESS_TYPE_LOAD), (7, .ACCESS_TYPE_STORE), (0, .ACCESS_TYPE_LOAD)])._l1_access
        = { load := { miss := 2, hit := 0 }, store := { miss := 0, hit := 1 } } ∧
      ((cacheSmall LRU).run Macros.default
        [(6, .ACCESS_TYPE_LOAD), (7, .ACCESS_TYPE_STORE), (0, .ACCESS_TYPE_LOAD)])._l2_access
        = { load := { miss := 2, hit := 0 }, store := { miss := 0, hit := 0 } } := by
  decide

end MemHier

namespace MemHier

/-! # Theorems: the set invariants of `TWO_LEVEL_CACHE` -/

theorem LRU.lru_keepsTags : CacheSet.KeepsTags LRU (fun s => s._associativity) where
  find_nodup := by
    intro s t hnd
    show (LRU.Find s t).2._tags.Nodup
    unfold LRU.Find
    split_ifs with h
    · show (s._tags.erase t ++ [t]).Nodup
      rw [List.nodup_append]
      refine ⟨hnd.erase t, List.nodup_singleton t, ?_⟩
      intro x hx hxt
      rw [List.mem_singleton] at hxt
      subst hxt
      exact ((hnd.mem_erase_iff).mp hx).1 rfl
    · exact hnd
  find_length := by
    intro s t
    show (LRU.Find s t).2._tags.length = s._tags.length
    unfold LRU.Find
    split_ifs with h
    · show (s._tags.erase t ++ [t]).length = s._tags.length
      have hpos : 0 < s._tags.length := List.length_pos_of_mem h
      rw [List.length_append, List.length_erase_of_mem h, List.length_singleton]
      omega
    · rfl
  replace_nodup := by
    intro s t ht hnd
    show (LRU.Replace s t).2._tags.Nodup
    unfold LRU.Replace
    split_ifs with h1 h2
    · show (s._tags.tail ++ [t]).Nodup
      rw [List.nodup_append]
      refine ⟨hnd.sublist (List.tail_sublist _), List.nodup_singleton t, ?_⟩
      intro x hx hxt
      rw [List.mem_singleton] at hxt
      subst hxt
      exact ht (List.mem_of_mem_tail hx)
    · show (s._tags ++ [t]).Nodup
      rw [List.nodup_append]
      refine ⟨hnd, List.nodup_singleton t, ?_⟩
      intro x hx hxt
      rw [List.mem_singleton] at hxt
      subst hxt
      exact ht hx
    · exact hnd
  replace_length := by
    intro s t hlen
    show (LRU.Replace s t).2._tags.length ≤ s._associativity
    have hlen2 : s._tags.length ≤ s._associativity := hlen
    unfold LRU.Replace
    split_ifs with h1 h2
    · show (s._tags.tail ++ [t]).length ≤ s._associativity
      rw [List.length_append, List.length_tail, List.length_singleton]
      omega
    · show (s._tags ++ [t]).length ≤ s._associativity
      rw [List.length_append, List.length_singleton]
      omega
    · exact hlen2
  replace_ret := by
    intro s t ha hret
    have ha2 : 0 < s._associativity := ha
    have hret2 : (LRU.Replace s t).1 ≠ INVALID_TAG := hret
    show (LRU.Replace s t).1 ∈ s._tags
    rcases Nat.lt_or_ge s._tags.length s._associativity with hroom | hfull
    · rw [LRU.lru_Replace_room ha2 hroom] at hret2
      exact absurd rfl hret2
    · obtain ⟨head, rest, hs, hrep⟩ := LRU.lru_Replace_full ha2 hfull t
      rw [hrep, hs]
      exact List.mem_cons_self _ _
  delete_nodup := by
    intro s t hnd
    exact List.Nodup.erase t hnd
  delete_length := by
    intro s t
    exact (List.erase_sublist t s._tags).length_le
  delete_other := by
    intro s t x hx hne
    exact (List.mem_erase_of_ne hne).mpr hx

theorem LFU.lfu_keepsTags : CacheSet.KeepsTags LFU (fun s => s._associativity) where
  find_nodup := by
    intro s t hnd
    show ((LFU.findLoop t s._lines).2.map (fun l => l.tag)).Nodup
    rw [LFU.findLoop_tags]
    exact hnd
  find_length := by
    intro s t
    show ((LFU.findLoop t s._lines).2.map (fun l => l.tag)).length
      = (s._lines.map (fun l => l.tag)).length
    rw [LFU.findLoop_tags]
  replace_nodup := by
    intro s t ht hnd
    have ht2 : t ∉ s._lines.map (fun l => l.tag) := ht
    have hnd2 : (s._lines.map (fun l => l.tag)).Nodup := hnd
    show ((LFU.Replace s t).2._lines.map (fun l => l.tag)).Nodup
    rcases Nat.eq_zero_or_pos s._associativity with h0 | hpos
    · rw [LFU.lfu_Replace_zero h0]
      exact hnd2
    · rcases Nat.lt_or_ge s._lines.length s._associativity with hroom | hfull
      · rw [LFU.lfu_Replace_room hpos hroom]
        show ((s._lines ++ [({ tag := t, frequency := 1 } : LfuLine)]).map (fun l => l.tag)).Nodup
        rw [List.map_append, List.nodup_append]
        refine ⟨hnd2, List.nodup_singleton _, ?_⟩
        intro x hx hxt
        simp only [List.map_cons, List.map_nil, List.mem_singleton] at hxt
        subst hxt
        exact ht2 hx
      · obtain ⟨v, hv, hrep, _⟩ := LFU.lfu_Replace_full hpos hfull t
        rw [hrep]
        show ((s._lines.set v ({ tag := t, frequency := 1 } : LfuLine)).map (fun l => l.tag)).Nodup
        obtain ⟨l1, l2, hsplit, hset⟩ :=
          exists_split_at s._lines v { tag := INVALID_TAG, frequency := 0 } hv
        rw [hset]
        rw [hsplit] at hnd2 ht2
        simp only [List.map_append, List.map_cons, List.nodup_append, List.nodup_cons,
          List.mem_append, List.mem_cons, not_or, List.Disjoint] at hnd2 ht2 ⊢
        refine ⟨hnd2.1, ⟨ht2.2.2, hnd2.2.1.2⟩, ?_⟩
        intro a ha hor
        rcases hor with h | h
        · subst h
          exact ht2.1 ha
        · exact hnd2.2.2 ha (Or.inr h)
  replace_length := by
    intro s t hlen
    have hlen1 : (s._lines.map (fun l => l.tag)).length ≤ s._associativity := hlen
    have hlen2 : s._lines.length ≤ s._associativity := by
      rw [List.length_map] at hlen1
      exact hlen1
    show ((LFU.Replace s t).2._lines.map (fun l => l.tag)).length ≤ s._associativity
    rw [List.length_map]
    rcases Nat.eq_zero_or_pos s._associativity with h0 | hpos
    · rw [LFU.lfu_Replace_zero h0]
      exact hlen2
    · rcases Nat.lt_or_ge s._lines.length s._associativity with hroom | hfull
      · rw [LFU.lfu_Replace_room hpos hroom]
        show (s._lines ++ [({ tag := t, frequency := 1 } : LfuLine)]).length ≤ s._associativity
        rw [List.length_append, List.length_singleton]
        omega
      · obtain ⟨v, hv, hrep, _⟩ := LFU.lfu_Replace_full hpos hfull t
        rw [hrep]
        show (s._lines.set v ({ tag := t, frequency := 1 } : LfuLine)).length ≤ s._associativity
        rw [List.length_set]
        exact hlen2
  replace_ret := by
    intro s t ha hret
    have hpos : 0 < s._associativity := ha
    have hret2 : (LFU.Replace s t).1 ≠ INVALID_TAG := hret
    show (LFU.Replace s t).1 ∈ s._lines.map (fun l => l.tag)
    rcases Nat.lt_or_ge s._lines.length s._associativity with hroom | hfull
    · rw [LFU.lfu_Replace_room hpos hroom] at hret2
      exact absurd rfl hret2
    · obtain ⟨v, hv, hrep, _⟩ := LFU.lfu_Replace_full hpos hfull t
      rw [hrep]
      exact List.mem_map_of_mem _ (getD_mem_of_lt _ _ _ hv)
  delete_nodup := by
    intro s t hnd
    have hnd2 : (s._lines.map (fun l => l.tag)).Nodup := hnd
    show ((s._lines.eraseP (fun l => l.tag = t)).map (fun l => l.tag)).Nodup
    exact hnd2.sublist ((List.eraseP_sublist _).map _)
  delete_length := by
    intro s t
    show ((s._lines.eraseP (fun l => l.tag = t)).map (fun l => l.tag)).length
      ≤ (s._lines.map (fun l => l.tag)).length
    exact ((List.eraseP_sublist _).map _).length_le
  delete_other := by
    intro s t x hx hne
    have hx2 : x ∈ s._lines.map (fun l => l.tag) := hx
    show x ∈ (s._lines.eraseP (fun l => l.tag = t)).map (fun l => l.tag)
    rw [List.mem_map] at hx2 ⊢
    obtain ⟨l, hl, hlt⟩ := hx2
    refine ⟨l, ?_, hlt⟩
    apply (List.mem_eraseP_of_neg ?_).mpr hl
    simp only [decide_eq_true_eq]
    rw [hlt]
    exact hne

end MemHier

namespace MemHier

/-! ## Properties of all sets of a level, kept by `Access` -/

theorem forall_mem_set {α : Type} (P : α → Prop) (l : List α) (i : Nat) (d v : α)
    (hv : i < l.length → P (l.getD i d) → P v) (h : ∀ s ∈ l, P s) :
    ∀ s ∈ l.set i v, P s := by
  intro s hs
  by_cases hi : i < l.length
  · rcases List.mem_or_eq_of_mem_set hs with hm | he
    · exact h s hm
    · rw [he]
      exact hv hi (h _ (getD_mem_of_lt l i d hi))
  · rw [List.set_eq_of_length_le (by omega)] at hs
    exact h s hs

theorem deleteCall_forall {SET : Type} [CacheSet SET] (P : SET → Prop)
    (hdel : ∀ (s : SET) (t : Nat), P s → P (CacheSet.DeleteIfPresent s t))
    (calls : List (Nat × Nat)) (sets : List SET) (h : ∀ s ∈ sets, P s) :
    ∀ s ∈ calls.foldl deleteCall sets, P s := by
  induction calls generalizing sets with
  | nil => exact h
  | cons call rest ih =>
    rw [List.foldl_cons]
    apply ih
    unfold deleteCall
    exact forall_mem_set P sets call.1 CacheSet.init _ (fun _ hp => hdel _ _ hp) h

theorem TWO_LEVEL_CACHE.inclusionLoop_forall {SET : Type} [CacheSet SET]
    (c : TWO_LEVEL_CACHE SET) (P : SET → Prop)
    (hdel : ∀ (s : SET) (t : Nat), P s → P (CacheSet.DeleteIfPresent s t))
    (recon fuel off : Nat) (sets : List SET) (h : ∀ s ∈ sets, P s) :
    ∀ s ∈ c.inclusionLoop recon fuel off sets, P s := by
  rw [c.inclusionLoop_eq_foldl]
  exact deleteCall_forall P hdel _ sets h

theorem TWO_LEVEL_CACHE.l1Hit_eq_find {SET : Type} [CacheSet SET] {c : TWO_LEVEL_CACHE SET}
    (h1 : c.l1Enabled = true) (addr : Nat) :
    c.l1Hit addr = (CacheSet.Find (c.l1Set addr) (c.l1Split addr).1).1 := by
  unfold TWO_LEVEL_CACHE.l1Hit
  simp only [h1, if_true]

theorem TWO_LEVEL_CACHE.l2Hit_eq_find {SET : Type} [CacheSet SET] {c : TWO_LEVEL_CACHE SET}
    (h2 : c.l2Enabled = true) (addr : Nat) :
    c.l2Hit addr = (CacheSet.Find (c.l2Set addr) (c.l2Split addr).1).1 := by
  unfold TWO_LEVEL_CACHE.l2Hit
  simp only [h2, if_true]

/-- A property of every L1 set that `Find`, `Replace` after a missing `Find`, and
`DeleteIfPresent` keep is kept by `Access`. -/
theorem TWO_LEVEL_CACHE.Access_l1_forall {SET : Type} [CacheSet SET] {assoc : SET → Nat}
    (m : Macros) {c : TWO_LEVEL_CACHE SET} (hw : c.SetsWF assoc) (h1 : c.l1Enabled = true)
    (h2 : c.l2Enabled = true) (addr : Nat) (ty : ACCESS_TYPE) (P : SET → Prop)
    (hfind : ∀ s : SET, P s → P (CacheSet.Find s (c.l1Split addr).1).2)
    (hrep : ∀ s : SET, P s → (CacheSet.Find s (c.l1Split addr).1).1 = false →
      P (CacheSet.Replace (CacheSet.Find s (c.l1Split addr).1).2 (c.l1Split addr).1).2)
    (hdel : ∀ (s : SET) (t : Nat), P s → P (CacheSet.DeleteIfPresent s t))
    (h : ∀ s ∈ c._l1_sets, P s) : ∀ s ∈ (c.Access m addr ty).2._l1_sets, P s := by
  have hi1 := hw.l1_index_lt h1 addr
  have hi2 := hw.l2_index_lt h2 addr
  cases hh : c.l1Hit addr with
  | true =>
    rw [c.Access_l1_hit m addr ty hh]
    exact forall_mem_set P c._l1_sets _ CacheSet.init _ (fun _ hp => hfind _ hp) h
  | false =>
    have hmiss : (CacheSet.Find (c.l1Set addr) (c.l1Split addr).1).1 = false := by
      rw [← TWO_LEVEL_CACHE.l1Hit_eq_find h1]
      exact hh
    have hafter : ∀ s ∈ c.l1AfterMiss m addr ty, P s := by
      unfold TWO_LEVEL_CACHE.l1AfterMiss
      split_ifs
      · exact forall_mem_set P c._l1_sets _ CacheSet.init _ (fun _ hp => hrep _ hp hmiss) h
      · exact forall_mem_set P c._l1_sets _ CacheSet.init _ (fun _ hp => hfind _ hp) h
    rw [c.Access_l1_sets m addr ty h1 hh hi1 hi2]
    split_ifs
    · exact c.inclusionLoop_forall P hdel _ _ _ _ hafter
    · exact hafter

/-- A property of every L2 set that `Find` and `Replace` after a missing `Find` keep is kept by
`Access`. -/
theorem TWO_LEVEL_CACHE.Access_l2_forall {SET : Type} [CacheSet SET] {assoc : SET → Nat}
    (m : Macros) {c : TWO_LEVEL_CACHE SET} (hw : c.SetsWF assoc) (h2 : c.l2Enabled = true)
    (addr : Nat) (ty : ACCESS_TYPE) (P : SET → Prop)
    (hfind : ∀ s : SET, P s → P (CacheSet.Find s (c.l2Split addr).1).2)
    (hrep : ∀ s : SET, P s → (CacheSet.Find s (c.l2Split addr).1).1 = false →
      P (CacheSet.Replace (CacheSet.Find s (c.l2Split addr).1).2 (c.l2Split addr).1).2)
    (h : ∀ s ∈ c._l2_sets, P s) : ∀ s ∈ (c.Access m addr ty).2._l2_sets, P s := by
  have hi2 := hw.l2_index_lt h2 addr
  cases hh : c.l1Hit addr with
  | true =>
    rw [c.Access_l1_hit m addr ty hh]
    exact h
  | false =>
    rw [c.Access_l2_sets m addr ty hh h2 hi2]
    cases hh2 : c.l2Hit addr with
    | true =>
      simp only [if_true]
      exact forall_mem_set P c._l2_sets _ CacheSet.init _ (fun _ hp => hfind _ hp) h
    | false =>
      have hmiss : (CacheSet.Find (c.l2Set addr) (c.l2Split addr).1).1 = false := by
        rw [← TWO_LEVEL_CACHE.l2Hit_eq_find h2]
        exact hh2
      simp only [Bool.false_eq_true, if_false]
      exact forall_mem_set P c._l2_sets _ CacheSet.init _ (fun _ hp => hrep _ hp hmiss) h

theorem TWO_LEVEL_CACHE.Access_numSets {SET : Type} [CacheSet SET] (m : Macros)
    (c : TWO_LEVEL_CACHE SET) (addr : Nat) (ty : ACCESS_TYPE) :
    (c.Access m addr ty).2.L1NumSets = c.L1NumSets ∧
      (c.Access m addr ty).2.L2NumSets = c.L2NumSets := by
  obtain ⟨_, ha1, ha2, hm1, hm2, _⟩ := c.Access_config m addr ty
  unfold TWO_LEVEL_CACHE.L1NumSets TWO_LEVEL_CACHE.L2NumSets
  rw [ha1, ha2, hm1, hm2]
  exact ⟨rfl, rfl⟩

theorem TWO_LEVEL_CACHE.Access_split {SET : Type} [CacheSet SET] (m : Macros)
    (c : TWO_LEVEL_CACHE SET) (addr : Nat) (ty : ACCESS_TYPE) (a : Nat) :
    (c.Access m addr ty).2.l1Split a = c.l1Split a ∧
      (c.Access m addr ty).2.l2Split a = c.l2Split a := by
  obtain ⟨_, _, _, hm1, hm2, hs1, hs2, _⟩ := c.Access_config m addr ty
  unfold TWO_LEVEL_CACHE.l1Split TWO_LEVEL_CACHE.l2Split
  rw [hm1, hm2, hs1, hs2]
  exact ⟨rfl, rfl⟩

/-- The consistency of the set arrays with the configuration is kept by `Access`. -/
theorem TWO_LEVEL_CACHE.SetsWF.setsWF_access {SET : Type} [CacheSet SET] {assoc : SET → Nat}
    (hl : CacheSet.Lawful SET assoc) (m : Macros) {c : TWO_LEVEL_CACHE SET}
    (hw : c.SetsWF assoc) (h1 : c.l1Enabled = true) (h2 : c.l2Enabled = true) (addr : Nat)
    (ty : ACCESS_TYPE) : (c.Access m addr ty).2.SetsWF assoc := by
  obtain ⟨_, ha1, ha2, hm1, hm2, _⟩ := c.Access_config m addr ty
  obtain ⟨hn1, hn2⟩ := c.Access_numSets m addr ty
  obtain ⟨hlen1, hlen2⟩ := c.Access_sets_length m addr ty
  refine ⟨?_, ?_, ?_, ?_, ?_, ?_⟩
  · rw [hm1]
    exact hw.l1_mask_lt
  · rw [hm2]
    exact hw.l2_mask_lt
  · rw [hlen1, hn1]
    exact hw.l1_length
  · rw [hlen2, hn2]
    exact hw.l2_length
  · rw [ha1]
    exact TWO_LEVEL_CACHE.Access_l1_forall m hw h1 h2 addr ty
      (fun s => assoc s = c._l1_associativity)
      (fun s hp => (hl.find_assoc s _).trans hp)
      (fun s hp _ => ((hl.replace_assoc _ _).trans (hl.find_assoc s _)).trans hp)
      (fun s t hp => (hl.delete_assoc s t).trans hp) hw.l1_assoc
  · rw [ha2]
    exact TWO_LEVEL_CACHE.Access_l2_forall m hw h2 addr ty
      (fun s => assoc s = c._l2_associativity)
      (fun s hp => (hl.find_assoc s _).trans hp)
      (fun s hp _ => ((hl.replace_assoc _ _).trans (hl.find_assoc s _)).trans hp)
      hw.l2_assoc

/-- The geometry of the constructor is kept by `Access`. -/
theorem TWO_LEVEL_CACHE.Geom.geom_access {SET : Type} [CacheSet SET] (m : Macros)
    {c : TWO_LEVEL_CACHE SET} (hg : c.Geom) (addr : Nat) (ty : ACCESS_TYPE) :
    (c.Access m addr ty).2.Geom := by
  obtain ⟨_, _, _, hm1, hm2, hs1, hs2, hb1, hb2⟩ := c.Access_config m addr ty
  obtain ⟨hn1, hn2⟩ := c.Access_numSets m addr ty
  refine ⟨?_, ?_, ?_, ?_, ?_⟩
  · rw [hb1, hs1]
    exact hg.l1_block
  · rw [hb2, hs2]
    exact hg.l2_block
  · rw [hb1, hb2]
    exact hg.block_le
  · rw [hn1, hm1]
    exact hg.l1_sets
  · rw [hn2, hm2]
    exact hg.l2_sets

/-- Distinct tags within the associativity: kept by `Find`. -/
theorem CacheSet.KeepsTags.find_ok {SET : Type} [CacheSet SET] {assoc : SET → Nat}
    (hl : CacheSet.Lawful SET assoc) (hk : CacheSet.KeepsTags SET assoc) (s : SET) (t : Nat)
    (h : (CacheSet.Tags s).Nodup ∧ (CacheSet.Tags s).length ≤ assoc s) :
    (CacheSet.Tags (CacheSet.Find s t).2).Nodup ∧
      (CacheSet.Tags (CacheSet.Find s t).2).length ≤ assoc (CacheSet.Find s t).2 := by
  refine ⟨hk.find_nodup s t h.1, ?_⟩
  rw [hk.find_length, hl.find_assoc]
  exact h.2

/-- Distinct tags within the associativity: kept by `Replace` after a `Find` that missed. -/
theorem CacheSet.KeepsTags.replace_ok {SET : Type} [CacheSet SET] {assoc : SET → Nat}
    (hl : CacheSet.Lawful SET assoc) (hk : CacheSet.KeepsTags SET assoc) (s : SET) (t : Nat)
    (h : (CacheSet.Tags s).Nodup ∧ (CacheSet.Tags s).length ≤ assoc s)
    (hmiss : (CacheSet.Find s t).1 = false) :
    (CacheSet.Tags (CacheSet.Replace (CacheSet.Find s t).2 t).2).Nodup ∧
      (CacheSet.Tags (CacheSet.Replace (CacheSet.Find s t).2 t).2).length
        ≤ assoc (CacheSet.Replace (CacheSet.Find s t).2 t).2 := by
  have hf := hk.find_ok hl s t h
  have hnot : t ∉ CacheSet.Tags (CacheSet.Find s t).2 := by
    intro hin
    have := (hl.find_hit s t).mpr ((hl.find_tags s t t).mp hin)
    rw [hmiss] at this
    exact Bool.false_ne_true this
  refine ⟨hk.replace_nodup _ t hnot hf.1, ?_⟩
  rw [hl.replace_assoc]
  exact hk.replace_length _ t hf.2

/-- Distinct tags within the associativity: kept by `DeleteIfPresent`. -/
theorem CacheSet.KeepsTags.delete_ok {SET : Type} [CacheSet SET] {assoc : SET → Nat}
    (hl : CacheSet.Lawful SET assoc) (hk : CacheSet.KeepsTags SET assoc) (s : SET) (t : Nat)
    (h : (CacheSet.Tags s).Nodup ∧ (CacheSet.Tags s).length ≤ assoc s) :
    (CacheSet.Tags (CacheSet.DeleteIfPresent s t)).Nodup ∧
      (CacheSet.Tags (CacheSet.DeleteIfPresent s t)).length
        ≤ assoc (CacheSet.DeleteIfPresent s t) := by
  refine ⟨hk.delete_nodup s t h.1, ?_⟩
  rw [hl.delete_assoc]
  exact Nat.le_trans (hk.delete_length s t) h.2

/-- Induction along a run of `Access` calls. -/
theorem TWO_LEVEL_CACHE.run_induction {SET : Type} [CacheSet SET] (m : Macros)
    (Inv : TWO_LEVEL_CACHE SET → Prop) (calls : List AccessCall)
    (hstep : ∀ (c : TWO_LEVEL_CACHE SET) (a : AccessCall), a ∈ calls → Inv c →
      Inv (c.Access m a.1 a.2).2)
    (c : TWO_LEVEL_CACHE SET) (h : Inv c) : Inv (c.run m calls) := by
  induction calls generalizing c with
  | nil => exact h
  | cons a rest ih =>
    rw [TWO_LEVEL_CACHE.run_cons]
    exact ih (fun c2 b hb hc2 => hstep c2 b (List.mem_cons_of_mem _ hb) hc2) _
      (hstep c a (List.mem_cons_self _ _) h)

end MemHier

namespace MemHier

/-! ## The state the constructor builds -/

theorem setIndexMaskOf_bound {cacheSize blockSize associativity mask : Nat}
    (h : setIndexMaskOf cacheSize blockSize associativity = some mask)
    (hcs : cacheSize < 2 ^ 32) : mask + 1 < 2 ^ 32 := by
  unfold setIndexMaskOf at h
  split_ifs at h with hc hz
  · have hm := Option.some.inj h
    have hx : 0 < (associativity * blockSize) % 2 ^ 32 := Nat.pos_of_ne_zero hz
    have h1 : 0 < cacheSize / ((associativity * blockSize) % 2 ^ 32) :=
      Nat.div_pos hc.2.2 hx
    have h2 : cacheSize / ((associativity * blockSize) % 2 ^ 32) ≤ cacheSize :=
      Nat.div_le_self _ _
    omega
  · have hm := Option.some.inj h
    omega

theorem IsPowerOf2_eq {n : Nat} (h : IsPowerOf2 n = true) : n = 2 ^ FloorLog2 n := by
  unfold IsPowerOf2 at h
  exact eq_of_beq h

theorem two_pow_lt_32 {k : Nat} (h : 2 ^ k < 2 ^ 32) : k ≤ 31 := by
  have := (Nat.pow_lt_pow_iff_right (by decide : 1 < 2)).mp h
  omega

/-- What a successful constructor call returns, and the assertions it passed. -/
theorem TWO_LEVEL_CACHE.new_some {SET : Type} [CacheSet SET]
    {cs1 bs1 a1 cs2 bs2 a2 pf lat1 lat2 lat3 : Nat} {c0 : TWO_LEVEL_CACHE SET}
    (h : TWO_LEVEL_CACHE.new SET cs1 bs1 a1 cs2 bs2 a2 pf lat1 lat2 lat3 = some c0) :
    ∃ mask1 mask2, setIndexMaskOf cs1 bs1 a1 = some mask1 ∧
      setIndexMaskOf cs2 bs2 a2 = some mask2 ∧
      ((bs1 = 0 ∨ IsPowerOf2 bs1 = true) ∧ (bs2 = 0 ∨ IsPowerOf2 bs2 = true) ∧
        ((if a1 > 0 then (mask1 + 1) % 2 ^ 32 else 0) > 0 →
          IsPowerOf2 (if a1 > 0 then (mask1 + 1) % 2 ^ 32 else 0) = true) ∧
        ((if a2 > 0 then (mask2 + 1) % 2 ^ 32 else 0) > 0 →
          IsPowerOf2 (if a2 > 0 then (mask2 + 1) % 2 ^ 32 else 0) = true) ∧
        (cs1 ≤ cs2 ∨ cs2 = 0) ∧ (bs1 ≤ bs2 ∨ bs2 = 0)) ∧
      c0 =
        { _l1_access := AccessStats.zero
          _l2_access := AccessStats.zero
          _latencies := { HIT_L1 := lat1, HIT_L2 := lat2, MISS_L2 := lat3 }
          _l1_sets :=
            List.replicate (if a1 > 0 then (mask1 + 1) % 2 ^ 32 else 0)
              (CacheSet.SetAssociativity (CacheSet.init : SET) a1)
          _l2_sets :=
            List.replicate (if a2 > 0 then (mask2 + 1) % 2 ^ 32 else 0)
              (CacheSet.SetAssociativity (CacheSet.init : SET) a2)
          _l1_cacheSize := cs1
          _l2_cacheSize := cs2
          _l1_blockSize := bs1
          _l2_blockSize := bs2
          _l1_associativity := a1
          _l2_associativity := a2
          _l1_lineShift := if bs1 > 0 then FloorLog2 bs1 else 0
          _l2_lineShift := if bs2 > 0 then FloorLog2 bs2 else 0
          _l1_setIndexMask := mask1
          _l2_setIndexMask := mask2
          _l2_prefetch_lines := pf } := by
  cases h1 : setIndexMaskOf cs1 bs1 a1 with
  | none => simp [TWO_LEVEL_CACHE.new, h1] at h
  | some mask1 =>
    cases h2 : setIndexMaskOf cs2 bs2 a2 with
    | none => simp [TWO_LEVEL_CACHE.new, h1, h2] at h
    | some mask2 =>
      simp only [TWO_LEVEL_CACHE.new, h1, h2] at h
      by_cases hc : (bs1 = 0 ∨ IsPowerOf2 bs1 = true) ∧ (bs2 = 0 ∨ IsPowerOf2 bs2 = true) ∧
          ((if a1 > 0 then (mask1 + 1) % 2 ^ 32 else 0) > 0 →
            IsPowerOf2 (if a1 > 0 then (mask1 + 1) % 2 ^ 32 else 0) = true) ∧
          ((if a2 > 0 then (mask2 + 1) % 2 ^ 32 else 0) > 0 →
            IsPowerOf2 (if a2 > 0 then (mask2 + 1) % 2 ^ 32 else 0) = true) ∧
          (cs1 ≤ cs2 ∨ cs2 = 0) ∧ (bs1 ≤ bs2 ∨ bs2 = 0)
      · rw [if_pos hc] at h
        exact ⟨mask1, mask2, rfl, rfl, hc, (Option.some.inj h).symm⟩
      · rw [if_neg hc] at h
        cases h

theorem TWO_LEVEL_CACHE.new_SetsWF {SET : Type} [CacheSet SET] {assoc : SET → Nat}
    (hl : CacheSet.Lawful SET assoc) {cs1 bs1 a1 cs2 bs2 a2 pf lat1 lat2 lat3 : Nat}
    {c0 : TWO_LEVEL_CACHE SET}
    (h : TWO_LEVEL_CACHE.new SET cs1 bs1 a1 cs2 bs2 a2 pf lat1 lat2 lat3 = some c0)
    (hcs1 : cs1 < 2 ^ 32) (hcs2 : cs2 < 2 ^ 32) : c0.SetsWF assoc := by
  obtain ⟨mask1, mask2, hm1, hm2, _, hc0⟩ := TWO_LEVEL_CACHE.new_some h
  have hb1 := setIndexMaskOf_bound hm1 hcs1
  have hb2 := setIndexMaskOf_bound hm2 hcs2
  subst hc0
  refine ⟨?_, ?_, ?_, ?_, ?_, ?_⟩
  · show mask1 < 2 ^ 32
    omega
  · show mask2 < 2 ^ 32
    omega
  · exact List.length_replicate _ _
  · exact List.length_replicate _ _
  · intro s hs
    rw [List.eq_of_mem_replicate hs]
    exact hl.init_assoc a1
  · intro s hs
    rw [List.eq_of_mem_replicate hs]
    exact hl.init_assoc a2

theorem TWO_LEVEL_CACHE.new_tags {SET : Type} [CacheSet SET] {assoc : SET → Nat}
    (hl : CacheSet.Lawful SET assoc) {cs1 bs1 a1 cs2 bs2 a2 pf lat1 lat2 lat3 : Nat}
    {c0 : TWO_LEVEL_CACHE SET}
    (h : TWO_LEVEL_CACHE.new SET cs1 bs1 a1 cs2 bs2 a2 pf lat1 lat2 lat3 = some c0) :
    (∀ s ∈ c0._l1_sets, CacheSet.Tags s = []) ∧ (∀ s ∈ c0._l2_sets, CacheSet.Tags s = []) := by
  obtain ⟨mask1, mask2, _, _, _, hc0⟩ := TWO_LEVEL_CACHE.new_some h
  subst hc0
  constructor
  · intro s hs
    rw [List.eq_of_mem_replicate hs]
    exact hl.init_tags a1
  · intro s hs
    rw [List.eq_of_mem_replicate hs]
    exact hl.init_tags a2

theorem TWO_LEVEL_CACHE.new_fields {SET : Type} [CacheSet SET]
    {cs1 bs1 a1 cs2 bs2 a2 pf lat1 lat2 lat3 : Nat} {c0 : TWO_LEVEL_CACHE SET}
    (h : TWO_LEVEL_CACHE.new SET cs1 bs1 a1 cs2 bs2 a2 pf lat1 lat2 lat3 = some c0) :
    c0._l1_associativity = a1 ∧ c0._l2_associativity = a2 ∧ c0._latencies.HIT_L1 = lat1 := by
  obtain ⟨mask1, mask2, _, _, _, hc0⟩ := TWO_LEVEL_CACHE.new_some h
  subst hc0
  exact ⟨rfl, rfl, rfl⟩

theorem TWO_LEVEL_CACHE.new_enabled {SET : Type} [CacheSet SET]
    {cs1 bs1 a1 cs2 bs2 a2 pf lat1 lat2 lat3 : Nat} {c0 : TWO_LEVEL_CACHE SET}
    (h : TWO_LEVEL_CACHE.new SET cs1 bs1 a1 cs2 bs2 a2 pf lat1 lat2 lat3 = some c0)
    (hcs1 : cs1 < 2 ^ 32) (hcs2 : cs2 < 2 ^ 32) (ha1 : 1 ≤ a1) (ha2 : 1 ≤ a2) :
    c0.l1Enabled = true ∧ c0.l2Enabled = true := by
  obtain ⟨mask1, mask2, hm1, hm2, _, hc0⟩ := TWO_LEVEL_CACHE.new_some h
  have hb1 := setIndexMaskOf_bound hm1 hcs1
  have hb2 := setIndexMaskOf_bound hm2 hcs2
  have hp1 : 0 < a1 := ha1
  have hp2 : 0 < a2 := ha2
  have e1 : (mask1 + 1) % 2 ^ 32 = mask1 + 1 := Nat.mod_eq_of_lt hb1
  have e2 : (mask2 + 1) % 2 ^ 32 = mask2 + 1 := Nat.mod_eq_of_lt hb2
  subst hc0
  rw [TWO_LEVEL_CACHE.l1Enabled_iff, TWO_LEVEL_CACHE.l2Enabled_iff]
  unfold TWO_LEVEL_CACHE.L1NumSets TWO_LEVEL_CACHE.L2NumSets
  simp only [gt_iff_lt, hp1, hp2, if_true, e1, e2, List.replicate_succ, ne_eq,
    Nat.succ_pos, not_false_eq_true, and_self, reduceCtorEq]

theorem TWO_LEVEL_CACHE.new_Geom {SET : Type} [CacheSet SET]
    {cs1 bs1 a1 cs2 bs2 a2 pf lat1 lat2 lat3 : Nat} {c0 : TWO_LEVEL_CACHE SET}
    (h : TWO_LEVEL_CACHE.new SET cs1 bs1 a1 cs2 bs2 a2 pf lat1 lat2 lat3 = some c0)
    (hcs1 : cs1 < 2 ^ 32) (hcs2 : cs2 < 2 ^ 32) (hbs1 : bs1 < 2 ^ 32) (hbs2 : bs2 < 2 ^ 32) :
    c0.Geom := by
  obtain ⟨mask1, mask2, hm1, hm2, ⟨hp1, hp2, hn1, hn2, _, hble⟩, hc0⟩ :=
    TWO_LEVEL_CACHE.new_some h
  have hb1 := setIndexMaskOf_bound hm1 hcs1
  have hb2 := setIndexMaskOf_bound hm2 hcs2
  have e1 : (mask1 + 1) % 2 ^ 32 = mask1 + 1 := Nat.mod_eq_of_lt hb1
  have e2 : (mask2 + 1) % 2 ^ 32 = mask2 + 1 := Nat.mod_eq_of_lt hb2
  have hblock : ∀ bs : Nat, bs < 2 ^ 32 → (bs = 0 ∨ IsPowerOf2 bs = true) →
      bs = 0 ∨ ((if bs > 0 then FloorLog2 bs else 0) ≤ 31 ∧
        bs = 2 ^ (if bs > 0 then FloorLog2 bs else 0)) := by
    intro bs hlt hp
    rcases hp with h0 | hp
    · exact Or.inl h0
    · right
      have he := IsPowerOf2_eq hp
      have hpos : bs > 0 := by
        rw [he]
        exact Nat.two_pow_pos _
      simp only [hpos, if_true]
      refine ⟨two_pow_lt_32 ?_, he⟩
      rw [← he]
      exact hlt
  have hsets : ∀ (a mask : Nat), mask + 1 < 2 ^ 32 →
      ((if a > 0 then (mask + 1) % 2 ^ 32 else 0) > 0 →
        IsPowerOf2 (if a > 0 then (mask + 1) % 2 ^ 32 else 0) = true) →
      0 < (if a > 0 then (mask + 1) % 2 ^ 32 else 0) → ∃ k, k ≤ 31 ∧ mask = 2 ^ k - 1 := by
    intro a mask hb hn hpos
    have he := IsPowerOf2_eq (hn hpos)
    by_cases ha : a > 0
    · simp only [ha, if_true, Nat.mod_eq_of_lt hb] at he
      refine ⟨FloorLog2 (mask + 1), two_pow_lt_32 ?_, ?_⟩
      · rw [← he]
        exact hb
      · omega
    · simp only [ha, if_false] at hpos
      omega
  subst hc0
  exact ⟨hblock bs1 hbs1 hp1, hblock bs2 hbs2 hp2, hble, hsets a1 mask1 hb1 hn1,
    hsets a2 mask2 hb2 hn2⟩

end MemHier

namespace MemHier

/-! ## Distinct tags within the associativity, along a run -/

/-- One `Access` keeps both levels enabled, the set arrays consistent, and in every set
distinct tags within the associativity. -/
theorem TWO_LEVEL_CACHE.Access_tags_ok {SET : Type} [CacheSet SET] {assoc : SET → Nat}
    (hl : CacheSet.Lawful SET assoc) (hk : CacheSet.KeepsTags SET assoc) (m : Macros)
    (c : TWO_LEVEL_CACHE SET) (addr : Nat) (ty : ACCESS_TYPE)
    (h : c.SetsWF assoc ∧ c.l1Enabled = true ∧ c.l2Enabled = true ∧
      (∀ s ∈ c._l1_sets, (CacheSet.Tags s).Nodup ∧ (CacheSet.Tags s).length ≤ assoc s) ∧
      (∀ s ∈ c._l2_sets, (CacheSet.Tags s).Nodup ∧ (CacheSet.Tags s).length ≤ assoc s)) :
    (c.Access m addr ty).2.SetsWF assoc ∧ (c.Access m addr ty).2.l1Enabled = true ∧
      (c.Access m addr ty).2.l2Enabled = true ∧
      (∀ s ∈ (c.Access m addr ty).2._l1_sets,
        (CacheSet.Tags s).Nodup ∧ (CacheSet.Tags s).length ≤ assoc s) ∧
      (∀ s ∈ (c.Access m addr ty).2._l2_sets,
        (CacheSet.Tags s).Nodup ∧ (CacheSet.Tags s).length ≤ assoc s) := by
  obtain ⟨hw, h1, h2, hs1, hs2⟩ := h
  obtain ⟨he1, he2⟩ := c.Access_enabled m addr ty
  refine ⟨hw.setsWF_access hl m h1 h2 addr ty, he1.trans h1, he2.trans h2, ?_, ?_⟩
  · exact TWO_LEVEL_CACHE.Access_l1_forall m hw h1 h2 addr ty
      (fun s => (CacheSet.Tags s).Nodup ∧ (CacheSet.Tags s).length ≤ assoc s)
      (fun s hp => hk.find_ok hl s _ hp) (fun s hp hmiss => hk.replace_ok hl s _ hp hmiss)
      (fun s t hp => hk.delete_ok hl s t hp) hs1
  · exact TWO_LEVEL_CACHE.Access_l2_forall m hw h2 addr ty
      (fun s => (CacheSet.Tags s).Nodup ∧ (CacheSet.Tags s).length ≤ assoc s)
      (fun s hp => hk.find_ok hl s _ hp) (fun s hp hmiss => hk.replace_ok hl s _ hp hmiss)
      hs2

/-- From the state the constructor builds, with both associativities at least 1, every run of
`Access` calls leaves distinct tags within the level's associativity in every set. -/
theorem TWO_LEVEL_CACHE.run_tags_ok {SET : Type} [CacheSet SET] {assoc : SET → Nat}
    (hl : CacheSet.Lawful SET assoc) (hk : CacheSet.KeepsTags SET assoc) (m : Macros)
    {cs1 bs1 a1 cs2 bs2 a2 pf lat1 lat2 lat3 : Nat} {c0 : TWO_LEVEL_CACHE SET}
    (h : TWO_LEVEL_CACHE.new SET cs1 bs1 a1 cs2 bs2 a2 pf lat1 lat2 lat3 = some c0)
    (hcs1 : cs1 < 2 ^ 32) (hcs2 : cs2 < 2 ^ 32) (ha1 : 1 ≤ a1) (ha2 : 1 ≤ a2)
    (calls : List AccessCall) :
    (∀ s ∈ c0._l1_sets, CacheSet.Tags s = []) ∧ (∀ s ∈ c0._l2_sets, CacheSet.Tags s = []) ∧
      (∀ s ∈ (c0.run m calls)._l1_sets,
        (CacheSet.Tags s).Nodup ∧ (CacheSet.Tags s).length ≤ a1) ∧
      (∀ s ∈ (c0.run m calls)._l2_sets,
        (CacheSet.Tags s).Nodup ∧ (CacheSet.Tags s).length ≤ a2) := by
  obtain ⟨ht1, ht2⟩ := TWO_LEVEL_CACHE.new_tags hl h
  obtain ⟨he1, he2⟩ := TWO_LEVEL_CACHE.new_enabled h hcs1 hcs2 ha1 ha2
  obtain ⟨hf1, hf2, _⟩ := TWO_LEVEL_CACHE.new_fields h
  have hw := TWO_LEVEL_CACHE.new_SetsWF hl h hcs1 hcs2
  have hrun := TWO_LEVEL_CACHE.run_induction m
    (fun c => c.SetsWF assoc ∧ c.l1Enabled = true ∧ c.l2Enabled = true ∧
      (∀ s ∈ c._l1_sets, (CacheSet.Tags s).Nodup ∧ (CacheSet.Tags s).length ≤ assoc s) ∧
      (∀ s ∈ c._l2_sets, (CacheSet.Tags s).Nodup ∧ (CacheSet.Tags s).length ≤ assoc s))
    calls (fun c a _ hc => TWO_LEVEL_CACHE.Access_tags_ok hl hk m c a.1 a.2 hc) c0
    ⟨hw, he1, he2,
      fun s hs => by
        rw [ht1 s hs]
        exact ⟨List.nodup_nil, Nat.zero_le _⟩,
      fun s hs => by
        rw [ht2 s hs]
        exact ⟨List.nodup_nil, Nat.zero_le _⟩⟩
  obtain ⟨hwr, _, _, hr1, hr2⟩ := hrun
  obtain ⟨_, hc1, hc2⟩ := c0.run_config m calls
  refine ⟨ht1, ht2, ?_, ?_⟩
  · intro s hs
    have := hr1 s hs
    rw [hwr.l1_assoc s hs, hc1, hf1] at this
    exact this
  · intro s hs
    have := hr2 s hs
    rw [hwr.l2_assoc s hs, hc2, hf2] at this
    exact this

/-- C32: for a `TWO_LEVEL_CACHE` over `LRU` or over `LFU` sets that the constructor builds from
32-bit cache sizes with both associativities at least 1, all sets start without tags, and after
every sequence of `Access` calls no L1 or L2 set holds a tag twice, and no set holds more tags
than the associativity of its level. -/
theorem TWO_LEVEL_CACHE.sets_distinct_within_associativity (m : Macros)
    (cs1 bs1 a1 cs2 bs2 a2 pf lat1 lat2 lat3 : Nat) (calls : List AccessCall)
    (hcs1 : cs1 < 2 ^ 32) (hcs2 : cs2 < 2 ^ 32) (ha1 : 1 ≤ a1) (ha2 : 1 ≤ a2) :
    (∀ c0 : TWO_LEVEL_CACHE LRU,
        TWO_LEVEL_CACHE.new LRU cs1 bs1 a1 cs2 bs2 a2 pf lat1 lat2 lat3 = some c0 →
        (∀ s ∈ c0._l1_sets, s._tags = []) ∧ (∀ s ∈ c0._l2_sets, s._tags = []) ∧
          (∀ s ∈ (c0.run m calls)._l1_sets, s._tags.Nodup ∧ s._tags.length ≤ a1) ∧
          (∀ s ∈ (c0.run m calls)._l2_sets, s._tags.Nodup ∧ s._tags.length ≤ a2)) ∧
      (∀ c0 : TWO_LEVEL_CACHE LFU,
        TWO_LEVEL_CACHE.new LFU cs1 bs1 a1 cs2 bs2 a2 pf lat1 lat2 lat3 = some c0 →
        (∀ s ∈ c0._l1_sets, s._lines = []) ∧ (∀ s ∈ c0._l2_sets, s._lines = []) ∧
          (∀ s ∈ (c0.run m calls)._l1_sets,
            (s._lines.map (fun l => l.tag)).Nodup ∧ s._lines.length ≤ a1) ∧
          (∀ s ∈ (c0.run m calls)._l2_sets,
            (s._lines.map (fun l => l.tag)).Nodup ∧ s._lines.length ≤ a2)) := by
  constructor
  · intro c0 h
    exact TWO_LEVEL_CACHE.run_tags_ok LRU.lru_lawful LRU.lru_keepsTags m h hcs1 hcs2 ha1 ha2
      calls
  · intro c0 h
    obtain ⟨h1, h2, h3, h4⟩ :=
      TWO_LEVEL_CACHE.run_tags_ok LFU.lfu_lawful LFU.lfu_keepsTags m h hcs1 hcs2 ha1 ha2 calls
    refine ⟨fun s hs => List.map_eq_nil_iff.mp (h1 s hs),
      fun s hs => List.map_eq_nil_iff.mp (h2 s hs), ?_, ?_⟩
    · intro s hs
      have := h3 s hs
      exact ⟨this.1, (List.length_map _ _).symm.trans_le this.2⟩
    · intro s hs
      have := h4 s hs
      exact ⟨this.1, (List.length_map _ _).symm.trans_le this.2⟩

theorem TWO_LEVEL_CACHE.sets_distinct_within_associativity_witness :
    ((4 : Nat) < 2 ^ 32 ∧ (8 : Nat) < 2 ^ 32 ∧ 1 ≤ 1 ∧ 1 ≤ 2) ∧
      (∀ s ∈ ((cacheSmall LRU).run Macros.default
          [(6, .ACCESS_TYPE_LOAD), (0, .ACCESS_TYPE_STORE), (12, .ACCESS_TYPE_LOAD)])._l1_sets,
        s._tags.Nodup ∧ s._tags.length ≤ 1) ∧
      (∀ s ∈ ((cacheSmall LRU).run Macros.default
          [(6, .ACCESS_TYPE_LOAD), (0, .ACCESS_TYPE_STORE), (12, .ACCESS_TYPE_LOAD)])._l2_sets,
        s._tags.Nodup ∧ s._tags.length ≤ 2) :=
  ⟨⟨by decide, by decide, by decide, by decide⟩,
    ((TWO_LEVEL_CACHE.sets_distinct_within_associativity Macros.default 4 2 1 8 4 2 0 1 15 250
      [(6, .ACCESS_TYPE_LOAD), (0, .ACCESS_TYPE_STORE), (12, .ACCESS_TYPE_LOAD)]
      (by decide) (by decide) (by decide) (by decide)).1 (cacheSmall LRU) cacheSmall_eval.1).2.2⟩

theorem cacheSmall_tags_eval :
    ((cacheSmall LRU).run Macros.default
        [(6, .ACCESS_TYPE_LOAD), (0, .ACCESS_TYPE_STORE), (12, .ACCESS_TYPE_LOAD)]).view
        = ([[3], []], [[0, 3]], true) ∧
      ((cacheSmall LFU).run Macros.default
        [(6, .ACCESS_TYPE_LOAD), (0, .ACCESS_TYPE_STORE), (12, .ACCESS_TYPE_LOAD)]).view
        = ([[3], []], [[3, 0]], true) := by
  decide

end MemHier

namespace MemHier

/-! ## A block just loaded survives the inclusion loop -/

theorem tag_lt_of_addr_lt (a b k : Nat) (ha : a < 2 ^ 64) (hbk : b + k ≤ 64) :
    a / 2 ^ b / 2 ^ k < 2 ^ (64 - b - k) := by
  apply Nat.div_lt_of_lt_mul
  apply Nat.div_lt_of_lt_mul
  rw [← Nat.pow_add, ← Nat.pow_add]
  have : b + (k + (64 - b - k)) = 64 := by omega
  rw [this]
  exact ha

theorem rebuilt_block_addr (e i b k : Nat) (he : e < 2 ^ (64 - b - k)) (hi : i < 2 ^ k)
    (hbk : b + k ≤ 64) :
    (((e <<< k) % 2 ^ 64 ||| i) <<< b) % 2 ^ 64 = (e * 2 ^ k + i) * 2 ^ b := by
  have h1 : e + 1 ≤ 2 ^ (64 - b - k) := he
  have h2 : (e + 1) * 2 ^ k ≤ 2 ^ (64 - b - k) * 2 ^ k := Nat.mul_le_mul_right _ h1
  have h3 : 2 ^ (64 - b - k) * 2 ^ k = 2 ^ (64 - b) := by
    rw [← Nat.pow_add]
    congr 1
    omega
  have h4 : e * 2 ^ k + i < 2 ^ (64 - b) := by
    rw [h3, Nat.add_mul, Nat.one_mul] at h2
    omega
  have h5 : 2 ^ (64 - b) * 2 ^ b = 2 ^ 64 := by
    rw [← Nat.pow_add]
    congr 1
    omega
  have h6 : (e * 2 ^ k + i) * 2 ^ b < 2 ^ 64 := by
    rw [← h5]
    exact Nat.mul_lt_mul_of_pos_right h4 (Nat.two_pow_pos b)
  have h7 : 2 ^ (64 - b) ≤ 2 ^ 64 := Nat.pow_le_pow_right (by decide) (by omega)
  have h8 : e * 2 ^ k < 2 ^ 64 := by omega
  have h9 : e * 2 ^ k ||| i = e * 2 ^ k + i := by
    rw [Nat.mul_comm e (2 ^ k)]
    exact (Nat.mul_add_lt_is_or hi e).symm
  simp only [Nat.shiftLeft_eq]
  rw [Nat.mod_eq_of_lt h8, h9, Nat.mod_eq_of_lt h6]

theorem tag_of_in_block (e i b k addr : Nat) (hi : i < 2 ^ k)
    (hlo : (e * 2 ^ k + i) * 2 ^ b ≤ addr) (hhi : addr < (e * 2 ^ k + i) * 2 ^ b + 2 ^ b) :
    addr / 2 ^ b / 2 ^ k = e := by
  have hb : 0 < 2 ^ b := Nat.two_pow_pos b
  have hk : 0 < 2 ^ k := Nat.two_pow_pos k
  have h1 : addr / 2 ^ b = e * 2 ^ k + i := by
    apply Nat.div_eq_of_lt_le
    · exact hlo
    · rw [Nat.succ_mul]
      exact hhi
  rw [h1]
  apply Nat.div_eq_of_lt_le
  · omega
  · rw [Nat.succ_mul]
    omega

/-- A tag held by an L1 set stays in it through `DeleteIfPresent` calls for other blocks. -/
theorem deleteCall_keeps {SET : Type} [CacheSet SET] {assoc : SET → Nat}
    (hk : CacheSet.KeepsTags SET assoc) (calls : List (Nat × Nat)) (sets : List SET)
    (j x : Nat) (hn : (j, x) ∉ calls)
    (hx : x ∈ CacheSet.Tags (sets.getD j CacheSet.init)) :
    x ∈ CacheSet.Tags ((calls.foldl deleteCall sets).getD j CacheSet.init) := by
  induction calls generalizing sets with
  | nil => exact hx
  | cons call rest ih =>
    rw [List.foldl_cons]
    apply ih _ (fun h => hn (List.mem_cons_of_mem _ h))
    unfold deleteCall
    by_cases hj : call.1 = j
    · have hne : x ≠ call.2 := by
        intro he
        apply hn
        rw [← hj, he]
        exact List.mem_cons_self _ _
      by_cases hlen : j < sets.length
      · rw [hj, BranchPred.getD_set_self _ _ _ _ hlen]
        exact hk.delete_other _ _ _ hx hne
      · rw [List.set_eq_of_length_le (by omega)]
        exact hx
    · rw [BranchPred.getD_set_ne _ _ _ (fun h => hj h.symm)]
      exact hx

theorem TWO_LEVEL_CACHE.inclusionCalls_zero {SET : Type} (c : TWO_LEVEL_CACHE SET)
    (recon off : Nat) : c.inclusionCalls recon 0 off = [] := rfl

/-- The L1 block of an address that misses L2 is not among the blocks the inclusion loop of
that access invalidates: the L2 tag the loop works from was held by the L2 set, the tag of the
address was not. -/
theorem TWO_LEVEL_CACHE.loaded_block_not_invalidated {SET : Type} [CacheSet SET]
    {assoc : SET → Nat} (hl : CacheSet.Lawful SET assoc) (hk : CacheSet.KeepsTags SET assoc)
    {c : TWO_LEVEL_CACHE SET} (hw : c.SetsWF assoc) (hg : c.Geom) (h1 : c.l1Enabled = true)
    (h2 : c.l2Enabled = true)
    (hsrc : ∀ s ∈ c._l2_sets, ∀ x ∈ CacheSet.Tags s, ∃ a, a < 2 ^ 64 ∧ x = (c.l2Split a).1)
    (addr : Nat) (hmiss2 : c.l2Hit addr = false) (hev : c.l2Evicted addr ≠ INVALID_TAG)
    (hbs : c._l1_blockSize > 0) :
    c.l1BlockOf addr ∉ c.inclusionCalls (c.evictedBlockAddr addr) c._l2_blockSize 0 := by
  rcases hg.l2_block with h0 | ⟨hb2le, hb2⟩
  · rw [h0, TWO_LEVEL_CACHE.inclusionCalls_zero]
    exact List.not_mem_nil _
  · rcases hg.l1_block with h10 | ⟨hb1le, hb1⟩
    · omega
    · have hle : c._l1_lineShift ≤ c._l2_lineShift := by
        rcases hg.block_le with h | h
        · rw [hb1, hb2] at h
          exact (Nat.pow_le_pow_iff_right (by decide)).mp h
        · rw [hb2] at h
          have := Nat.two_pow_pos c._l2_lineShift
          omega
      obtain ⟨ha1, _, hn1⟩ := (c.l1Enabled_iff).mp h1
      obtain ⟨ha2, _, hn2⟩ := (c.l2Enabled_iff).mp h2
      obtain ⟨k1, hk1, hm1⟩ := hg.l1_sets hn1
      obtain ⟨k2, hk2, hm2⟩ := hg.l2_sets hn2
      obtain ⟨hr, hlt⟩ := c.evictedBlockAddr_aligned addr (by omega : c._l2_lineShift ≤ 64) rfl
      intro hmem
      rw [c.mem_inclusionCalls_iff hb1 hb2 hle hb2le rfl ha1 hm1 hk1 hr hlt addr] at hmem
      have hpk : 0 < 2 ^ k2 := Nat.two_pow_pos k2
      have hpk32 : 2 ^ k2 < 2 ^ 32 := Nat.pow_lt_pow_right (by decide) (by omega)
      have hN : c.L2NumSets = 2 ^ k2 := by
        unfold TWO_LEVEL_CACHE.L2NumSets
        rw [if_pos ha2, hm2, Nat.sub_add_cancel hpk, Nat.mod_eq_of_lt hpk32]
      have hsplit : ∀ a, c.l2Split a
          = (a / 2 ^ c._l2_lineShift / 2 ^ k2, a / 2 ^ c._l2_lineShift % 2 ^ k2) := by
        intro a
        unfold TWO_LEVEL_CACHE.l2Split
        rw [hm2]
        exact SplitAddress_two_pow a _ k2 hk2
      have hi2 := hw.l2_index_lt h2 addr
      have hset_mem : c.l2Set addr ∈ c._l2_sets := getD_mem_of_lt _ _ _ hi2
      have hpos : 0 < assoc (CacheSet.Find (c.l2Set addr) (c.l2Split addr).1).2 := by
        rw [hl.find_assoc, hw.l2_assoc _ hset_mem]
        exact ha2
      have he_mem : c.l2Evicted addr ∈ CacheSet.Tags (c.l2Set addr) :=
        (hl.find_tags _ _ _).mp (hk.replace_ret _ _ hpos hev)
      obtain ⟨a, ha, hea⟩ := hsrc _ hset_mem _ he_mem
      rw [hsplit] at hea
      have hea2 : c.l2Evicted addr = a / 2 ^ c._l2_lineShift / 2 ^ k2 := hea
      have hi : addr / 2 ^ c._l2_lineShift % 2 ^ k2 < 2 ^ k2 := Nat.mod_lt _ hpk
      have hrecon : c.evictedBlockAddr addr
          = (a / 2 ^ c._l2_lineShift / 2 ^ k2 * 2 ^ k2 + addr / 2 ^ c._l2_lineShift % 2 ^ k2)
              * 2 ^ c._l2_lineShift := by
        unfold TWO_LEVEL_CACHE.evictedBlockAddr
        rw [hea2, hN, hsplit addr, if_pos hpk, FloorLog2_two_pow]
        exact rebuilt_block_addr _ _ _ k2 (tag_lt_of_addr_lt a _ k2 ha (by omega)) hi
          (by omega)
      rw [hrecon, hb2] at hmem
      have htag := tag_of_in_block _ _ _ k2 addr hi hmem.1 hmem.2
      have hhit : c.l2Hit addr = true := by
        rw [TWO_LEVEL_CACHE.l2Hit_eq_find h2]
        apply (hl.find_hit _ _).mpr
        have ht : (c.l2Split addr).1 = c.l2Evicted addr := by
          rw [hsplit addr, hea2]
          exact htag
        rw [ht]
        exact he_mem
      rw [hmiss2] at hhit
      exact Bool.false_ne_true hhit

/-- After an `Access(addr, type)` that is a load, or a store under store-allocate, the L1 set
of `addr` holds the L1 tag of `addr`. -/
theorem TWO_LEVEL_CACHE.Access_alloc_installs {SET : Type} [CacheSet SET] {assoc : SET → Nat}
    (hl : CacheSet.Lawful SET assoc) (hk : CacheSet.KeepsTags SET assoc) (m : Macros)
    {c : TWO_LEVEL_CACHE SET} (hw : c.SetsWF assoc) (hg : c.Geom) (h1 : c.l1Enabled = true)
    (h2 : c.l2Enabled = true)
    (hsrc : ∀ s ∈ c._l2_sets, ∀ x ∈ CacheSet.Tags s, ∃ a, a < 2 ^ 64 ∧ x = (c.l2Split a).1)
    (addr : Nat) (ty : ACCESS_TYPE)
    (hal : ty = .ACCESS_TYPE_LOAD ∨ m.STORE_ALLOCATION = STORE_ALLOCATE) :
    (c.l1Split addr).1
      ∈ CacheSet.Tags
          ((c.Access m addr ty).2._l1_sets.getD (c.l1Split addr).2
            CacheSet.init) := by
  have hi1 := hw.l1_index_lt h1 addr
  have hi2 := hw.l2_index_lt h2 addr
  have hset_mem : c.l1Set addr ∈ c._l1_sets := getD_mem_of_lt _ _ _ hi1
  obtain ⟨ha1, _, _⟩ := (c.l1Enabled_iff).mp h1
  cases hh : c.l1Hit addr with
  | true =>
    rw [c.Access_l1_hit m addr ty hh]
    show (c.l1Split addr).1 ∈ CacheSet.Tags ((c._l1_sets.set (c.l1Split addr).2
      (CacheSet.Find (c.l1Set addr) (c.l1Split addr).1).2).getD (c.l1Split addr).2
        CacheSet.init)
    rw [BranchPred.getD_set_self _ _ _ _ hi1]
    apply (hl.find_tags _ _ _).mpr
    apply (hl.find_hit _ _).mp
    rw [← TWO_LEVEL_CACHE.l1Hit_eq_find h1]
    exact hh
  | false =>
    have hafter : (c.l1Split addr).1
        ∈ CacheSet.Tags ((c.l1AfterMiss m addr ty).getD (c.l1Split addr).2
            CacheSet.init) := by
      unfold TWO_LEVEL_CACHE.l1AfterMiss
      rw [if_pos hal, BranchPred.getD_set_self _ _ _ _ hi1]
      apply hl.replace_mem
      rw [hl.find_assoc, hw.l1_assoc _ hset_mem]
      exact ha1
    rw [c.Access_l1_sets m addr ty h1 hh hi1 hi2]
    split_ifs with hcond
    · rw [c.inclusionLoop_eq_foldl]
      exact deleteCall_keeps hk _ _ _ _
        (c.loaded_block_not_invalidated hl hk hw hg h1 h2 hsrc addr hcond.2.1 hcond.2.2.2.1
          hcond.2.2.2.2) hafter
    · exact hafter

/-- Every tag in L2 is the L2 tag of a 64-bit address: kept by `Access` to a 64-bit address. -/
theorem TWO_LEVEL_CACHE.Access_l2_source {SET : Type} [CacheSet SET] {assoc : SET → Nat}
    (hl : CacheSet.Lawful SET assoc) (m : Macros) {c : TWO_LEVEL_CACHE SET}
    (hw : c.SetsWF assoc) (h2 : c.l2Enabled = true) (addr : Nat) (ty : ACCESS_TYPE)
    (haddr : addr < 2 ^ 64)
    (hsrc : ∀ s ∈ c._l2_sets, ∀ x ∈ CacheSet.Tags s, ∃ a, a < 2 ^ 64 ∧ x = (c.l2Split a).1) :
    ∀ s ∈ (c.Access m addr ty).2._l2_sets, ∀ x ∈ CacheSet.Tags s,
      ∃ a, a < 2 ^ 64 ∧ x = ((c.Access m addr ty).2.l2Split a).1 := by
  have hkeep := TWO_LEVEL_CACHE.Access_l2_forall m hw h2 addr ty
    (fun s => ∀ x ∈ CacheSet.Tags s, ∃ a, a < 2 ^ 64 ∧ x = (c.l2Split a).1)
    (fun s hp x hx => hp x ((hl.find_tags s _ x).mp hx))
    (fun s hp _ x hx => by
      rcases hl.replace_tags _ _ x hx with he | hin
      · exact ⟨addr, haddr, he⟩
      · exact hp x ((hl.find_tags s _ x).mp hin))
    hsrc
  intro s hs x hx
  obtain ⟨a, ha, hxa⟩ := hkeep s hs x hx
  exact ⟨a, ha, by rw [(c.Access_split m addr ty a).2]; exact hxa⟩

theorem TWO_LEVEL_CACHE.l1Split_same_block {SET : Type} (c : TWO_LEVEL_CACHE SET)
    (addr addr2 : Nat) (h : addr2 / 2 ^ c._l1_lineShift = addr / 2 ^ c._l1_lineShift) :
    c.l1Split addr2 = c.l1Split addr := by
  unfold TWO_LEVEL_CACHE.l1Split SplitAddress
  simp only [Nat.shiftRight_eq_div_pow, h]

/-- After `Access(addr, LOAD)`, an `Access` to an address of the same L1 block hits L1 and
costs the L1 hit latency. -/
theorem TWO_LEVEL_CACHE.Access_load_then_hit {SET : Type} [CacheSet SET] {assoc : SET → Nat}
    (hl : CacheSet.Lawful SET assoc) (hk : CacheSet.KeepsTags SET assoc) (m : Macros)
    {c : TWO_LEVEL_CACHE SET} (hw : c.SetsWF assoc) (hg : c.Geom) (h1 : c.l1Enabled = true)
    (h2 : c.l2Enabled = true)
    (hsrc : ∀ s ∈ c._l2_sets, ∀ x ∈ CacheSet.Tags s, ∃ a, a < 2 ^ 64 ∧ x = (c.l2Split a).1)
    (addr addr2 : Nat) (ty : ACCESS_TYPE)
    (hblock : addr2 / 2 ^ c._l1_lineShift = addr / 2 ^ c._l1_lineShift) :
    (c.Access m addr .ACCESS_TYPE_LOAD).2.l1Hit addr2 = true ∧
      ((c.Access m addr .ACCESS_TYPE_LOAD).2.Access m addr2 ty).1 = c._latencies.HIT_L1 := by
  have hin := TWO_LEVEL_CACHE.Access_alloc_installs hl hk m hw hg h1 h2 hsrc addr
    .ACCESS_TYPE_LOAD (Or.inl rfl)
  have he1 := (c.Access_enabled m addr .ACCESS_TYPE_LOAD).1.trans h1
  have hs : (c.Access m addr .ACCESS_TYPE_LOAD).2.l1Split addr2 = c.l1Split addr :=
    ((c.Access_split m addr .ACCESS_TYPE_LOAD addr2).1).trans
      (c.l1Split_same_block addr addr2 hblock)
  have hhit : (c.Access m addr .ACCESS_TYPE_LOAD).2.l1Hit addr2 = true := by
    rw [TWO_LEVEL_CACHE.l1Hit_eq_find he1]
    apply (hl.find_hit _ _).mpr
    unfold TWO_LEVEL_CACHE.l1Set
    rw [hs]
    exact hin
  refine ⟨hhit, ?_⟩
  rw [TWO_LEVEL_CACHE.Access_l1_hit m _ addr2 ty hhit]
  exact (c.Access_config m addr .ACCESS_TYPE_LOAD).1 ▸ rfl

end MemHier

namespace MemHier

/-! ## Re-access of a block just loaded, in every reachable state -/

/-- What holds in every state reached from the state a constructor call on 32-bit sizes builds
with both levels enabled, by a run of `Access` calls to 64-bit addresses: the set arrays match
the configuration, both levels are enabled, the geometry is that of the constructor, every tag
in L2 is the L2 tag of a 64-bit address, and the configuration read by `Access` is unchanged. -/
theorem TWO_LEVEL_CACHE.run_reachable {SET : Type} [CacheSet SET] {assoc : SET → Nat}
    (hl : CacheSet.Lawful SET assoc) (m : Macros)
    {cs1 bs1 a1 cs2 bs2 a2 pf lat1 lat2 lat3 : Nat} {c0 : TWO_LEVEL_CACHE SET}
    (h : TWO_LEVEL_CACHE.new SET cs1 bs1 a1 cs2 bs2 a2 pf lat1 lat2 lat3 = some c0)
    (hcs1 : cs1 < 2 ^ 32) (hbs1 : bs1 < 2 ^ 32) (hcs2 : cs2 < 2 ^ 32) (hbs2 : bs2 < 2 ^ 32)
    (he1 : c0.l1Enabled = true) (he2 : c0.l2Enabled = true) (calls : List AccessCall)
    (hcalls : ∀ a ∈ calls, a.1 < 2 ^ 64) :
    (c0.run m calls).SetsWF assoc ∧ (c0.run m calls).l1Enabled = true ∧
      (c0.run m calls).l2Enabled = true ∧ (c0.run m calls).Geom ∧
      (∀ s ∈ (c0.run m calls)._l2_sets, ∀ x ∈ CacheSet.Tags s,
        ∃ a, a < 2 ^ 64 ∧ x = ((c0.run m calls).l2Split a).1) ∧
      (c0.run m calls)._l1_lineShift = c0._l1_lineShift ∧
      (c0.run m calls)._l1_setIndexMask = c0._l1_setIndexMask ∧
      (c0.run m calls)._latencies = c0._latencies := by
  obtain ⟨ht1, ht2⟩ := TWO_LEVEL_CACHE.new_tags hl h
  have hw := TWO_LEVEL_CACHE.new_SetsWF hl h hcs1 hcs2
  have hg := TWO_LEVEL_CACHE.new_Geom h hcs1 hcs2 hbs1 hbs2
  exact TWO_LEVEL_CACHE.run_induction m
    (fun c => c.SetsWF assoc ∧ c.l1Enabled = true ∧ c.l2Enabled = true ∧ c.Geom ∧
      (∀ s ∈ c._l2_sets, ∀ x ∈ CacheSet.Tags s, ∃ a, a < 2 ^ 64 ∧ x = (c.l2Split a).1) ∧
      c._l1_lineShift = c0._l1_lineShift ∧ c._l1_setIndexMask = c0._l1_setIndexMask ∧
      c._latencies = c0._latencies)
    calls
    (fun c a ha hc => by
      obtain ⟨hcw, hc1, hc2, hcg, hcs, hsh, hmk, hlt⟩ := hc
      obtain ⟨hlat2, _, _, hm1, _, hs1, _⟩ := c.Access_config m a.1 a.2
      obtain ⟨hen1, hen2⟩ := c.Access_enabled m a.1 a.2
      exact ⟨hcw.setsWF_access hl m hc1 hc2 a.1 a.2, hen1.trans hc1, hen2.trans hc2,
        hcg.geom_access m a.1 a.2,
        TWO_LEVEL_CACHE.Access_l2_source hl m hcw hc2 a.1 a.2 (hcalls a ha) hcs,
        hs1.trans hsh, hm1.trans hmk, hlat2.trans hlt⟩)
    c0
    ⟨hw, he1, he2, hg,
      fun s hs x hx => by
        rw [ht2 s hs] at hx
        exact absurd hx (List.not_mem_nil x),
      rfl, rfl, rfl⟩

/-- From the state a constructor call on 32-bit sizes builds with both levels enabled, after
any run of `Access` calls to 64-bit addresses: `Access(addr, LOAD)` leaves the L1 tag of `addr`
in its L1 set, and an `Access` that follows to an address of the same L1 block hits L1 and
costs the L1 hit latency. -/
theorem TWO_LEVEL_CACHE.run_load_then_hit {SET : Type} [CacheSet SET] {assoc : SET → Nat}
    (hl : CacheSet.Lawful SET assoc) (hk : CacheSet.KeepsTags SET assoc) (m : Macros)
    {cs1 bs1 a1 cs2 bs2 a2 pf lat1 lat2 lat3 : Nat} {c0 : TWO_LEVEL_CACHE SET}
    (h : TWO_LEVEL_CACHE.new SET cs1 bs1 a1 cs2 bs2 a2 pf lat1 lat2 lat3 = some c0)
    (hcs1 : cs1 < 2 ^ 32) (hbs1 : bs1 < 2 ^ 32) (hcs2 : cs2 < 2 ^ 32) (hbs2 : bs2 < 2 ^ 32)
    (he1 : c0.l1Enabled = true) (he2 : c0.l2Enabled = true) (calls : List AccessCall)
    (hcalls : ∀ a ∈ calls, a.1 < 2 ^ 64) (addr addr2 : Nat) (ty : ACCESS_TYPE) :
    (bs1 = 0 ∨ bs1 = 2 ^ c0._l1_lineShift) ∧
      (addr2 / 2 ^ c0._l1_lineShift = addr / 2 ^ c0._l1_lineShift →
        (c0.l1Split addr).1
            ∈ CacheSet.Tags
                (((c0.run m calls).Access m addr .ACCESS_TYPE_LOAD).2._l1_sets.getD
                  (c0.l1Split addr).2 CacheSet.init) ∧
          ((c0.run m calls).Access m addr .ACCESS_TYPE_LOAD).2.l1Hit addr2 = true ∧
          (((c0.run m calls).Access m addr .ACCESS_TYPE_LOAD).2.Access m addr2 ty).1 = lat1) := by
  have hg := TWO_LEVEL_CACHE.new_Geom h hcs1 hcs2 hbs1 hbs2
  obtain ⟨_, _, hlat⟩ := TWO_LEVEL_CACHE.new_fields h
  have hbs : c0._l1_blockSize = bs1 := by
    obtain ⟨mask1, mask2, _, _, _, hc0⟩ := TWO_LEVEL_CACHE.new_some h
    subst hc0
    rfl
  have hrun := TWO_LEVEL_CACHE.run_reachable hl m h hcs1 hbs1 hcs2 hbs2 he1 he2 calls hcalls
  obtain ⟨hrw, hr1, hr2, hrg, hrs, hsh, hmk, hlt⟩ := hrun
  constructor
  · rcases hg.l1_block with h0 | ⟨_, hp⟩
    · exact Or.inl (hbs ▸ h0)
    · exact Or.inr (hbs ▸ hp)
  · intro hblock
    have hsplit : (c0.run m calls).l1Split addr = c0.l1Split addr := by
      unfold TWO_LEVEL_CACHE.l1Split
      rw [hsh, hmk]
    have hin := TWO_LEVEL_CACHE.Access_alloc_installs hl hk m hrw hrg hr1 hr2 hrs addr
      .ACCESS_TYPE_LOAD (Or.inl rfl)
    rw [hsplit] at hin
    have hhit := TWO_LEVEL_CACHE.Access_load_then_hit hl hk m hrw hrg hr1 hr2 hrs addr addr2
      ty (by rw [hsh]; exact hblock)
    refine ⟨hin, hhit.1, ?_⟩
    rw [hhit.2, hlt, hlat]

/-- C34: for a `TWO_LEVEL_CACHE` over `LRU` or over `LFU` sets that the constructor builds from
32-bit sizes with both levels enabled, whatever the macros (inclusive or not), in the state
after any sequence of `Access` calls to 64-bit addresses: after `Access(addr, LOAD)` the L1 set
of `addr` holds the L1 tag of `addr` (the inclusion loop of that access has not removed it),
and an `Access` that follows to any address of the same L1 block, load or store, hits L1 and
returns the L1 hit latency. -/
theorem TWO_LEVEL_CACHE.load_then_same_block_hits (m : Macros)
    (cs1 bs1 a1 cs2 bs2 a2 pf lat1 lat2 lat3 : Nat) (calls : List AccessCall)
    (addr addr2 : Nat) (ty : ACCESS_TYPE) (hcs1 : cs1 < 2 ^ 32) (hbs1 : bs1 < 2 ^ 32)
    (hcs2 : cs2 < 2 ^ 32) (hbs2 : bs2 < 2 ^ 32) (hcalls : ∀ a ∈ calls, a.1 < 2 ^ 64) :
    (∀ c0 : TWO_LEVEL_CACHE LRU,
        TWO_LEVEL_CACHE.new LRU cs1 bs1 a1 cs2 bs2 a2 pf lat1 lat2 lat3 = some c0 →
        c0.l1Enabled = true → c0.l2Enabled = true →
        (bs1 = 0 ∨ bs1 = 2 ^ c0._l1_lineShift) ∧
          (addr2 / 2 ^ c0._l1_lineShift = addr / 2 ^ c0._l1_lineShift →
            (c0.l1Split addr).1
                ∈ (((c0.run m calls).Access m addr .ACCESS_TYPE_LOAD).2._l1_sets.getD
                    (c0.l1Split addr).2 CacheSet.init)._tags ∧
              ((c0.run m calls).Access m addr .ACCESS_TYPE_LOAD).2.l1Hit addr2 = true ∧
              (((c0.run m calls).Access m addr .ACCESS_TYPE_LOAD).2.Access m addr2 ty).1
                = lat1)) ∧
      (∀ c0 : TWO_LEVEL_CACHE LFU,
        TWO_LEVEL_CACHE.new LFU cs1 bs1 a1 cs2 bs2 a2 pf lat1 lat2 lat3 = some c0 →
        c0.l1Enabled = true → c0.l2Enabled = true →
        (bs1 = 0 ∨ bs1 = 2 ^ c0._l1_lineShift) ∧
          (addr2 / 2 ^ c0._l1_lineShift = addr / 2 ^ c0._l1_lineShift →
            (c0.l1Split addr).1
                ∈ (((c0.run m calls).Access m addr .ACCESS_TYPE_LOAD).2._l1_sets.getD
                    (c0.l1Split addr).2 CacheSet.init)._lines.map (fun l => l.tag) ∧
              ((c0.run m calls).Access m addr .ACCESS_TYPE_LOAD).2.l1Hit addr2 = true ∧
              (((c0.run m calls).Access m addr .ACCESS_TYPE_LOAD).2.Access m addr2 ty).1
                = lat1)) := by
  constructor
  · intro c0 h he1 he2
    exact TWO_LEVEL_CACHE.run_load_then_hit LRU.lru_lawful LRU.lru_keepsTags m h hcs1 hbs1
      hcs2 hbs2 he1 he2 calls hcalls addr addr2 ty
  · intro c0 h he1 he2
    exact TWO_LEVEL_CACHE.run_load_then_hit LFU.lfu_lawful LFU.lfu_keepsTags m h hcs1 hbs1
      hcs2 hbs2 he1 he2 calls hcalls addr addr2 ty

theorem TWO_LEVEL_CACHE.load_then_same_block_hits_witness :
    ((8 : Nat) < 2 ^ 32 ∧ (2 : Nat) < 2 ^ 32 ∧ (16 : Nat) < 2 ^ 32 ∧ (8 : Nat) < 2 ^ 32 ∧
        ∀ a ∈ ([(0, .ACCESS_TYPE_LOAD), (8, .ACCESS_TYPE_LOAD), (18, .ACCESS_TYPE_LOAD),
          (22, .ACCESS_TYPE_LOAD)] : List AccessCall), a.1 < 2 ^ 64) ∧
      ((((cacheWide LRU).run Macros.default
            [(0, .ACCESS_TYPE_LOAD), (8, .ACCESS_TYPE_LOAD), (18, .ACCESS_TYPE_LOAD),
              (22, .ACCESS_TYPE_LOAD)]).Access Macros.default 32 .ACCESS_TYPE_LOAD).2.l1Hit 33
          = true ∧
        ((((cacheWide LRU).run Macros.default
            [(0, .ACCESS_TYPE_LOAD), (8, .ACCESS_TYPE_LOAD), (18, .ACCESS_TYPE_LOAD),
              (22, .ACCESS_TYPE_LOAD)]).Access Macros.default 32 .ACCESS_TYPE_LOAD).2.Access
            Macros.default 33 .ACCESS_TYPE_STORE).1 = 1) :=
  ⟨⟨by decide, by decide, by decide, by decide, by decide⟩,
    (((TWO_LEVEL_CACHE.load_then_same_block_hits Macros.default 8 2 1 16 8 2 0 1 15 250
      [(0, .ACCESS_TYPE_LOAD), (8, .ACCESS_TYPE_LOAD), (18, .ACCESS_TYPE_LOAD),
        (22, .ACCESS_TYPE_LOAD)] 32 33 .ACCESS_TYPE_STORE
      (by decide) (by decide) (by decide) (by decide) (by decide)).1 (cacheWide LRU)
        cacheWide_eval.1 (by decide) (by decide)).2 (by decide)).2⟩

theorem cacheWide_reload_eval :
    ((cacheWide LRU).run Macros.default
        [(0, .ACCESS_TYPE_LOAD), (8, .ACCESS_TYPE_LOAD), (18, .ACCESS_TYPE_LOAD),
          (22, .ACCESS_TYPE_LOAD), (32, .ACCESS_TYPE_LOAD)]).view
        = ([[4], [2], [], [2]], [[2, 4]], true) ∧
      ((cacheWide LFU).run Macros.default
        [(0, .ACCESS_TYPE_LOAD), (8, .ACCESS_TYPE_LOAD), (18, .ACCESS_TYPE_LOAD),
          (22, .ACCESS_TYPE_LOAD), (32, .ACCESS_TYPE_LOAD)]).view
        = ([[4], [2], [], [2]], [[2, 4]], true) := by
  decide

end MemHier

namespace MemHier

/-! ## Allocation on an L1 miss, in every reachable state -/

/-- An `Access(addr, type)` that misses L1, in a state with both levels enabled, the geometry
of the constructor, and L2 tags of 64-bit addresses: the tag of `addr` was not in its L1 set;
it is in that set of the state `Access` returns exactly when `type` is LOAD or store-allocate
is on; otherwise no L1 set of the returned state holds a tag it did not hold; and the L2 set of
`addr` in the returned state holds the L2 tag of `addr`. -/
theorem TWO_LEVEL_CACHE.Access_miss_allocation {SET : Type} [CacheSet SET] {assoc : SET → Nat}
    (hl : CacheSet.Lawful SET assoc) (hk : CacheSet.KeepsTags SET assoc) (m : Macros)
    {c : TWO_LEVEL_CACHE SET} (hw : c.SetsWF assoc) (hg : c.Geom) (h1 : c.l1Enabled = true)
    (h2 : c.l2Enabled = true)
    (hsrc : ∀ s ∈ c._l2_sets, ∀ x ∈ CacheSet.Tags s, ∃ a, a < 2 ^ 64 ∧ x = (c.l2Split a).1)
    (addr : Nat) (ty : ACCESS_TYPE) (hmiss : c.l1Hit addr = false) :
    (c.l1Split addr).1 ∉ CacheSet.Tags (c._l1_sets.getD (c.l1Split addr).2 CacheSet.init) ∧
      ((c.l1Split addr).1
          ∈ CacheSet.Tags
              ((c.Access m addr ty).2._l1_sets.getD (c.l1Split addr).2 CacheSet.init) ↔
        (ty = .ACCESS_TYPE_LOAD ∨ m.STORE_ALLOCATION = STORE_ALLOCATE)) ∧
      (¬ (ty = .ACCESS_TYPE_LOAD ∨ m.STORE_ALLOCATION = STORE_ALLOCATE) →
        ∀ j x, x ∈ CacheSet.Tags ((c.Access m addr ty).2._l1_sets.getD j CacheSet.init) →
          x ∈ CacheSet.Tags (c._l1_sets.getD j CacheSet.init)) ∧
      (c.l2Split addr).1
        ∈ CacheSet.Tags
            ((c.Access m addr ty).2._l2_sets.getD (c.l2Split addr).2 CacheSet.init) := by
  obtain ⟨_, hno, hsub, hl2⟩ := TWO_LEVEL_CACHE.Access_miss_halves assoc hl m c hw h1 h2 addr
    ty hmiss
  have hi1 := hw.l1_index_lt h1 addr
  have hnot : (c.l1Split addr).1 ∉ CacheSet.Tags (c.l1Set addr) := by
    intro hc
    have hf := (hl.find_hit _ _).mpr hc
    rw [← TWO_LEVEL_CACHE.l1Hit_eq_find h1, hmiss] at hf
    exact Bool.false_ne_true hf
  refine ⟨hnot, ⟨?_, ?_⟩, ?_, hl2⟩
  · intro hin
    by_contra hal
    exact (hno hal).2 hin
  · intro hal
    exact TWO_LEVEL_CACHE.Access_alloc_installs hl hk m hw hg h1 h2 hsrc addr ty hal
  · intro hal j x hx
    have hx2 := hsub j x hx
    unfold TWO_LEVEL_CACHE.l1AfterMiss at hx2
    rw [if_neg hal] at hx2
    by_cases hj : j = (c.l1Split addr).2
    · rw [hj, BranchPred.getD_set_self _ _ _ _ hi1] at hx2
      rw [hj]
      exact (hl.find_tags _ _ _).mp hx2
    · rw [BranchPred.getD_set_ne _ _ _ hj] at hx2
      exact hx2

/-- The statement of `Access_miss_allocation` in every state reached from the constructor. -/
theorem TWO_LEVEL_CACHE.run_miss_allocation {SET : Type} [CacheSet SET] {assoc : SET → Nat}
    (hl : CacheSet.Lawful SET assoc) (hk : CacheSet.KeepsTags SET assoc) (m : Macros)
    {cs1 bs1 a1 cs2 bs2 a2 pf lat1 lat2 lat3 : Nat} {c0 : TWO_LEVEL_CACHE SET}
    (h : TWO_LEVEL_CACHE.new SET cs1 bs1 a1 cs2 bs2 a2 pf lat1 lat2 lat3 = some c0)
    (hcs1 : cs1 < 2 ^ 32) (hbs1 : bs1 < 2 ^ 32) (hcs2 : cs2 < 2 ^ 32) (hbs2 : bs2 < 2 ^ 32)
    (he1 : c0.l1Enabled = true) (he2 : c0.l2Enabled = true) (calls : List AccessCall)
    (hcalls : ∀ a ∈ calls, a.1 < 2 ^ 64) (addr : Nat) (ty : ACCESS_TYPE)
    (hmiss : (c0.run m calls).l1Hit addr = false) :
    ((c0.run m calls).l1Split addr).1
        ∉ CacheSet.Tags
            ((c0.run m calls)._l1_sets.getD ((c0.run m calls).l1Split addr).2 CacheSet.init) ∧
      (((c0.run m calls).l1Split addr).1
          ∈ CacheSet.Tags
              (((c0.run m calls).Access m addr ty).2._l1_sets.getD
                ((c0.run m calls).l1Split addr).2 CacheSet.init) ↔
        (ty = .ACCESS_TYPE_LOAD ∨ m.STORE_ALLOCATION = STORE_ALLOCATE)) ∧
      (¬ (ty = .ACCESS_TYPE_LOAD ∨ m.STORE_ALLOCATION = STORE_ALLOCATE) →
        ∀ j x,
          x ∈ CacheSet.Tags (((c0.run m calls).Access m addr ty).2._l1_sets.getD j CacheSet.init) →
          x ∈ CacheSet.Tags ((c0.run m calls)._l1_sets.getD j CacheSet.init)) ∧
      ((c0.run m calls).l2Split addr).1
        ∈ CacheSet.Tags
            (((c0.run m calls).Access m addr ty).2._l2_sets.getD
              ((c0.run m calls).l2Split addr).2 CacheSet.init) := by
  obtain ⟨hrw, hr1, hr2, hrg, hrs, _⟩ :=
    TWO_LEVEL_CACHE.run_reachable hl m h hcs1 hbs1 hcs2 hbs2 he1 he2 calls hcalls
  exact TWO_LEVEL_CACHE.Access_miss_allocation hl hk m hrw hrg hr1 hr2 hrs addr ty hmiss

/-- C24: for a `TWO_LEVEL_CACHE` over `LRU` or over `LFU` sets that the constructor builds from
32-bit sizes with both levels enabled, in the state after any sequence of `Access` calls to
64-bit addresses, for an `Access(addr, type)` that misses L1.  The tag of `addr` was not in its
L1 set, and it is in that set of the state `Access` returns if and only if `type` is LOAD or
store-allocate is on.  Under store-no-allocate a store inserts nothing into L1: every tag an L1
set of the returned state holds was held by that set before.  In every case the L2 set of
`addr` in the returned state holds the L2 tag of `addr`. -/
theorem TWO_LEVEL_CACHE.allocation_on_l1_miss (m : Macros)
    (cs1 bs1 a1 cs2 bs2 a2 pf lat1 lat2 lat3 : Nat) (calls : List AccessCall) (addr : Nat)
    (ty : ACCESS_TYPE) (hcs1 : cs1 < 2 ^ 32) (hbs1 : bs1 < 2 ^ 32) (hcs2 : cs2 < 2 ^ 32)
    (hbs2 : bs2 < 2 ^ 32) (hcalls : ∀ a ∈ calls, a.1 < 2 ^ 64) :
    (∀ c0 : TWO_LEVEL_CACHE LRU,
        TWO_LEVEL_CACHE.new LRU cs1 bs1 a1 cs2 bs2 a2 pf lat1 lat2 lat3 = some c0 →
        c0.l1Enabled = true → c0.l2Enabled = true → (c0.run m calls).l1Hit addr = false →
        ((c0.run m calls).l1Split addr).1
            ∉ ((c0.run m calls)._l1_sets.getD ((c0.run m calls).l1Split addr).2
                CacheSet.init)._tags ∧
          (((c0.run m calls).l1Split addr).1
              ∈ (((c0.run m calls).Access m addr ty).2._l1_sets.getD
                  ((c0.run m calls).l1Split addr).2 CacheSet.init)._tags ↔
            (ty = .ACCESS_TYPE_LOAD ∨ m.STORE_ALLOCATION = STORE_ALLOCATE)) ∧
          (¬ (ty = .ACCESS_TYPE_LOAD ∨ m.STORE_ALLOCATION = STORE_ALLOCATE) →
            ∀ j x,
              x ∈ (((c0.run m calls).Access m addr ty).2._l1_sets.getD j CacheSet.init)._tags →
              x ∈ ((c0.run m calls)._l1_sets.getD j CacheSet.init)._tags) ∧
          ((c0.run m calls).l2Split addr).1
            ∈ (((c0.run m calls).Access m addr ty).2._l2_sets.getD
                ((c0.run m calls).l2Split addr).2 CacheSet.init)._tags) ∧
      (∀ c0 : TWO_LEVEL_CACHE LFU,
        TWO_LEVEL_CACHE.new LFU cs1 bs1 a1 cs2 bs2 a2 pf lat1 lat2 lat3 = some c0 →
        c0.l1Enabled = true → c0.l2Enabled = true → (c0.run m calls).l1Hit addr = false →
        ((c0.run m calls).l1Split addr).1
            ∉ ((c0.run m calls)._l1_sets.getD ((c0.run m calls).l1Split addr).2
                CacheSet.init)._lines.map (fun l => l.tag) ∧
          (((c0.run m calls).l1Split addr).1
              ∈ (((c0.run m calls).Access m addr ty).2._l1_sets.getD
                  ((c0.run m calls).l1Split addr).2 CacheSet.init)._lines.map (fun l => l.tag) ↔
            (ty = .ACCESS_TYPE_LOAD ∨ m.STORE_ALLOCATION = STORE_ALLOCATE)) ∧
          (¬ (ty = .ACCESS_TYPE_LOAD ∨ m.STORE_ALLOCATION = STORE_ALLOCATE) →
            ∀ j x,
              x ∈ (((c0.run m calls).Access m addr ty).2._l1_sets.getD j
                  CacheSet.init)._lines.map (fun l => l.tag) →
              x ∈ ((c0.run m calls)._l1_sets.getD j CacheSet.init)._lines.map
                  (fun l => l.tag)) ∧
          ((c0.run m calls).l2Split addr).1
            ∈ (((c0.run m calls).Access m addr ty).2._l2_sets.getD
                ((c0.run m calls).l2Split addr).2 CacheSet.init)._lines.map
                (fun l => l.tag)) := by
  constructor
  · intro c0 h he1 he2 hmiss
    exact TWO_LEVEL_CACHE.run_miss_allocation LRU.lru_lawful LRU.lru_keepsTags m h hcs1 hbs1
      hcs2 hbs2 he1 he2 calls hcalls addr ty hmiss
  · intro c0 h he1 he2 hmiss
    exact TWO_LEVEL_CACHE.run_miss_allocation LFU.lfu_lawful LFU.lfu_keepsTags m h hcs1 hbs1
      hcs2 hbs2 he1 he2 calls hcalls addr ty hmiss

theorem TWO_LEVEL_CACHE.allocation_on_l1_miss_witness :
    ((8 : Nat) < 2 ^ 32 ∧ (2 : Nat) < 2 ^ 32 ∧ (16 : Nat) < 2 ^ 32 ∧ (8 : Nat) < 2 ^ 32 ∧
        ∀ a ∈ ([(0, .ACCESS_TYPE_LOAD), (8, .ACCESS_TYPE_LOAD), (18, .ACCESS_TYPE_LOAD),
          (22, .ACCESS_TYPE_LOAD)] : List AccessCall), a.1 < 2 ^ 64) ∧
      ((cacheWide LRU).run Macros.default
          [(0, .ACCESS_TYPE_LOAD), (8, .ACCESS_TYPE_LOAD), (18, .ACCESS_TYPE_LOAD),
            (22, .ACCESS_TYPE_LOAD)]).l1Hit 32 = false ∧
      (((cacheWide LRU).run Macros.default
          [(0, .ACCESS_TYPE_LOAD), (8, .ACCESS_TYPE_LOAD), (18, .ACCESS_TYPE_LOAD),
            (22, .ACCESS_TYPE_LOAD)]).l1Split 32).1
        ∈ ((((cacheWide LRU).run Macros.default
          [(0, .ACCESS_TYPE_LOAD), (8, .ACCESS_TYPE_LOAD), (18, .ACCESS_TYPE_LOAD),
            (22, .ACCESS_TYPE_LOAD)]).Access Macros.default 32 .ACCESS_TYPE_STORE).2._l1_sets.getD
            (((cacheWide LRU).run Macros.default
          [(0, .ACCESS_TYPE_LOAD), (8, .ACCESS_TYPE_LOAD), (18, .ACCESS_TYPE_LOAD),
            (22, .ACCESS_TYPE_LOAD)]).l1Split 32).2 CacheSet.init)._tags ∧
      (((cacheWide LRU).run Macros.default
          [(0, .ACCESS_TYPE_LOAD), (8, .ACCESS_TYPE_LOAD), (18, .ACCESS_TYPE_LOAD),
            (22, .ACCESS_TYPE_LOAD)]).l2Split 32).1
        ∈ ((((cacheWide LRU).run Macros.default
          [(0, .ACCESS_TYPE_LOAD), (8, .ACCESS_TYPE_LOAD), (18, .ACCESS_TYPE_LOAD),
            (22, .ACCESS_TYPE_LOAD)]).Access Macros.default 32 .ACCESS_TYPE_STORE).2._l2_sets.getD
            (((cacheWide LRU).run Macros.default
          [(0, .ACCESS_TYPE_LOAD), (8, .ACCESS_TYPE_LOAD), (18, .ACCESS_TYPE_LOAD),
            (22, .ACCESS_TYPE_LOAD)]).l2Split 32).2 CacheSet.init)._tags :=
  ⟨⟨by decide, by decide, by decide, by decide, by decide⟩, by decide,
    (((TWO_LEVEL_CACHE.allocation_on_l1_miss Macros.default 8 2 1 16 8 2 0 1 15 250
      [(0, .ACCESS_TYPE_LOAD), (8, .ACCESS_TYPE_LOAD), (18, .ACCESS_TYPE_LOAD),
        (22, .ACCESS_TYPE_LOAD)] 32 .ACCESS_TYPE_STORE
      (by decide) (by decide) (by decide) (by decide) (by decide)).1 (cacheWide LRU)
        cacheWide_eval.1 (by decide) (by decide) (by decide)).2.1).mpr (Or.inr rfl),
    ((TWO_LEVEL_CACHE.allocation_on_l1_miss Macros.default 8 2 1 16 8 2 0 1 15 250
      [(0, .ACCESS_TYPE_LOAD), (8, .ACCESS_TYPE_LOAD), (18, .ACCESS_TYPE_LOAD),
        (22, .ACCESS_TYPE_LOAD)] 32 .ACCESS_TYPE_STORE
      (by decide) (by decide) (by decide) (by decide) (by decide)).1 (cacheWide LRU)
        cacheWide_eval.1 (by decide) (by decide) (by decide)).2.2.2⟩

/-- On the wide cache after four loads, a store to address 32 misses both levels and evicts the
L2 block at 8: under store-allocate L1 set 0 ends with the tag 4 of address 32, under
store-no-allocate it ends empty; in both cases L2 holds tag 4. -/
theorem cacheWide_store_eval :
    (((cacheWide LRU).run Macros.default
        [(0, .ACCESS_TYPE_LOAD), (8, .ACCESS_TYPE_LOAD), (18, .ACCESS_TYPE_LOAD),
          (22, .ACCESS_TYPE_LOAD)]).Access Macros.default 32 .ACCESS_TYPE_STORE).2.view
        = ([[4], [2], [], [2]], [[2, 4]], true) ∧
      (((cacheWide LRU).run { L2_INCLUSIVE := 1, STORE_ALLOCATION := 1 }
        [(0, .ACCESS_TYPE_LOAD), (8, .ACCESS_TYPE_LOAD), (18, .ACCESS_TYPE_LOAD),
          (22, .ACCESS_TYPE_LOAD)]).Access { L2_INCLUSIVE := 1, STORE_ALLOCATION := 1 } 32
          .ACCESS_TYPE_STORE).2.view
        = ([[], [2], [], [2]], [[2, 4]], true) ∧
      (((cacheWide LFU).run Macros.default
        [(0, .ACCESS_TYPE_LOAD), (8, .ACCESS_TYPE_LOAD), (18, .ACCESS_TYPE_LOAD),
          (22, .ACCESS_TYPE_LOAD)]).Access Macros.default 32 .ACCESS_TYPE_STORE).2.view
        = ([[4], [2], [], [2]], [[2, 4]], true) := by
  decide

end MemHier
